import Mathlib

/-!
# gondola `encoding/binary`: the decoder

A shallow embedding of `encoding/binary/decoder.go`. The definitions come first, those of the
template functions of `template/funcs.go` after those of the decoder; the theorems follow.

* Go's `reflect.Type` is a node of a type graph: a type identity (`TypeId`) whose description
  (`rtype`) is looked up in a table, so that types which mention themselves can be written down.
* A `reflect.Value` that the decoder mutates in place is a `Value` tree that the embedded
  functions take and give back.
* A `typeDecoder` is the Go closure `func(dec *decoder, v reflect.Value) error`; here it is a
  Lean function from the decoder state and the destination to an `Outcome`: the state and the
  destination after the call together with the returned `error`, or a reflect panic.
* The compiler (`makeDecoder`, `newDecoder`, `sliceDecoder`, `structDecoder`) passes the
  process-wide cache explicitly and runs on fuel, a bound on the depth of nested `makeDecoder`
  calls: the Go functions are mutually recursive over the type graph and need not return.
* `readAtLeast`, `dataSize` and the type `coder` belong to other files of the package:
  `readAtLeast` and `coder` are modelled from the spec, `dataSize` is a parameter.
-/

namespace binary

/-! ## Bytes, byte order, errors -/

/-- One byte of the stream. -/
abbrev Byte := Fin 256

/-- The byte order of a `coder`: `binary.BigEndian` or `binary.LittleEndian`. -/
inductive ByteOrder where
  | BigEndian
  | LittleEndian
deriving DecidableEq, Repr

/-- The unsigned integer whose big-endian representation is `b`. -/
def beUint (b : List Byte) : Nat :=
  b.foldl (fun acc x => acc * 256 + x.val) 0

/-- The unsigned integer whose little-endian representation is `b`. -/
def leUint (b : List Byte) : Nat :=
  b.foldr (fun x acc => x.val + 256 * acc) 0

/-- The unsigned integer held by the bytes `b` in the given order. -/
def ByteOrder.Uint (order : ByteOrder) (b : List Byte) : Nat :=
  match order with
  | .BigEndian => beUint b
  | .LittleEndian => leUint b

/-- Go `order.Uint16(b)`: reads `b[0..2)`. -/
def ByteOrder.Uint16 (order : ByteOrder) (b : List Byte) : Nat := order.Uint (b.take 2)

/-- Go `order.Uint32(b)`: reads `b[0..4)`. -/
def ByteOrder.Uint32 (order : ByteOrder) (b : List Byte) : Nat := order.Uint (b.take 4)

/-- Go `order.Uint64(b)`: reads `b[0..8)`. -/
def ByteOrder.Uint64 (order : ByteOrder) (b : List Byte) : Nat := order.Uint (b.take 8)

/-- A type identity, the key of the decoder cache (`reflect.Type`). -/
abbrev TypeId := Nat

/-- Go `error` values that the decoder and its compiler return. -/
inductive Error where
  /-- `io.EOF`, what `io.CopyN` returns on a stream that ends early. -/
  | EOF
  /-- The short-read error of `readAtLeast`. -/
  | shortRead
  /-- `fmt.Errorf("can't encode type %v", typ)`. -/
  | cantEncode (typ : TypeId)
  /-- An error from `dataSize`. -/
  | dataSize (typ : TypeId)
deriving DecidableEq, Repr

/-! ## Types (`reflect.Type`) -/

/-- Go `reflect.Kind`. -/
inductive Kind where
  | Invalid | Bool | Int | Int8 | Int16 | Int32 | Int64
  | Uint | Uint8 | Uint16 | Uint32 | Uint64 | Uintptr
  | Float32 | Float64 | Complex64 | Complex128
  | Array | Chan | Func | Interface | Map | Ptr | Slice | String | Struct | UnsafePointer
deriving DecidableEq, Repr

/-- Go `reflect.StructField`, without `Index`: field number `ii` of a struct has `Index = [ii]`. -/
structure StructField where
  Name : String
  PkgPath : String
  Typ : TypeId
deriving DecidableEq, Repr

/-- What reflect tells about one type: `Kind()`, `Elem()`, `Len()` and the fields. -/
structure rtype where
  kind : Kind
  elem : TypeId := 0
  len : Nat := 0
  fields : List StructField := []
deriving DecidableEq, Repr

/-- What the compiler consults outside `decoder.go`: the type table of reflect and the
package function `dataSize`, whose source is in another file and is taken as given. -/
structure Env where
  types : TypeId → rtype
  dataSize : TypeId → Except Error Nat

/-! ## Values (`reflect.Value`) -/

/-- A Go floating-point number, kept as the bit pattern it was built from:
`math.Float32frombits(u)` converted to `float64`, or `math.Float64frombits(u)`. -/
inductive GoFloat where
  | Float32frombits (u : Nat)
  | Float64frombits (u : Nat)
deriving DecidableEq, Repr

/-- A destination value. The numeric leaves carry their kind; `float32 x` is the `float32`
that `SetFloat` stores for the `float64` argument `x`, and likewise for the complex kinds.
`other` is a value of any kind that has no decoder. A struct holds all its fields, in
declaration order, blank and unexported ones included. -/
inductive Value where
  | int8 (x : Int) | int16 (x : Int) | int32 (x : Int) | int64 (x : Int)
  | uint8 (x : Nat) | uint16 (x : Nat) | uint32 (x : Nat) | uint64 (x : Nat)
  | float32 (x : GoFloat) | float64 (x : GoFloat)
  | complex64 (re im : GoFloat) | complex128 (re im : GoFloat)
  | seq (elems : List Value)
  | struct (fields : List Value)
  | other
deriving Repr

/-- Conversion of an integer to a signed integer of `w` bits (two's complement wrap-around). -/
def wrapInt (w : Nat) (x : Int) : Int :=
  let r := x % (2 ^ w : Int)
  if r < (2 ^ (w - 1) : Int) then r else r - (2 ^ w : Int)

/-- Go `int64(x)` for an unsigned machine integer `x`. -/
def toInt64 (x : Nat) : Int := wrapInt 64 (x : Int)

/-- Go `uint64(x)` for an unsigned machine integer `x`. -/
def toUint64 (x : Nat) : Nat := x % 2 ^ 64

/-- Go `v.SetInt(x)`: stores `x` converted to the kind of `v`; panics (`none`) on any other
kind. -/
def Value.SetInt : Value → Int → Option Value
  | .int8 _, x => some (.int8 (wrapInt 8 x))
  | .int16 _, x => some (.int16 (wrapInt 16 x))
  | .int32 _, x => some (.int32 (wrapInt 32 x))
  | .int64 _, x => some (.int64 (wrapInt 64 x))
  | _, _ => none

/-- Go `v.SetUint(x)`: stores `x` converted to the kind of `v`; panics (`none`) on any other
kind. -/
def Value.SetUint : Value → Nat → Option Value
  | .uint8 _, x => some (.uint8 (x % 2 ^ 8))
  | .uint16 _, x => some (.uint16 (x % 2 ^ 16))
  | .uint32 _, x => some (.uint32 (x % 2 ^ 32))
  | .uint64 _, x => some (.uint64 (x % 2 ^ 64))
  | _, _ => none

/-- Go `v.SetFloat(x)`: stores `float32(x)` or `x`; panics (`none`) on any other kind. -/
def Value.SetFloat : Value → GoFloat → Option Value
  | .float32 _, x => some (.float32 x)
  | .float64 _, x => some (.float64 x)
  | _, _ => none

/-- Go `v.SetComplex(complex(re, im))`; panics (`none`) on any other kind. -/
def Value.SetComplex : Value → GoFloat → GoFloat → Option Value
  | .complex64 _ _, re, im => some (.complex64 re im)
  | .complex128 _ _, re, im => some (.complex128 re im)
  | _, _, _ => none

/-- Go `v.FieldByIndex(index)`: follows the field numbers of `index`; panics (`none`) when a
value on the way is not a struct or has no such field. -/
def Value.FieldByIndex : Value → List Nat → Option Value
  | v, [] => some v
  | .struct fields, i :: index =>
    match fields[i]? with
    | some f => f.FieldByIndex index
    | none => none
  | _, _ :: _ => none

/-- The destination after the field that `v.FieldByIndex(index)` addresses was overwritten
with `f`. -/
def Value.setFieldByIndex : Value → List Nat → Value → Value
  | _, [], f => f
  | .struct fields, i :: index, f =>
    match fields[i]? with
    | some g => .struct (fields.set i (g.setFieldByIndex index f))
    | none => .struct fields
  | v, _ :: _, _ => v

/-! ## The decoder state -/

/-- Modelled from the spec: the embedded type `coder`, declared in another file of the
package: the byte-order policy and a scratch buffer sized to the largest primitive
(`buf [8]byte`). -/
structure coder where
  order : ByteOrder
  buf : List Byte
deriving DecidableEq, Repr

/-- Go `type decoder struct { coder; reader io.Reader }`. The reader is the rest of a finite
byte stream. -/
structure decoder extends coder where
  reader : List Byte
deriving DecidableEq, Repr

/-- Modelled from the spec: `readAtLeast(r, buf, min)`, whose source is in another file of the
package. It reads exactly `min` bytes from the stream into `buf` and fails with a short-read
error if fewer bytes are available; on failure the bytes that were available are taken to have
been consumed. The result is the stream left, the buffer and the error. -/
def readAtLeast (r : List Byte) (buf : List Byte) (min : Nat) :
    List Byte × List Byte × Option Error :=
  if min ≤ r.length then (r.drop min, r.take min ++ buf.drop min, none)
  else ([], r ++ buf.drop r.length, some .shortRead)

/-- Go `d.read(bs)` for `bs := d.buf[:n]`: `readAtLeast(d.reader, bs, len(bs))`. -/
def decoder.read (d : decoder) (n : Nat) : decoder × Option Error :=
  match readAtLeast d.reader (d.buf.take n) n with
  | (r, bs, err) => ({ d with buf := bs ++ d.buf.drop n, reader := r }, err)

/-- Go `io.CopyN(ioutil.Discard, r, l)`: drops `l` bytes; on a shorter stream it drops what
is there and returns `io.EOF`. The result is the stream left and the error. -/
def CopyNDiscard (r : List Byte) (l : Nat) : List Byte × Option Error :=
  if l ≤ r.length then (r.drop l, none) else ([], some .EOF)

/-- What a call of a decoder does: it returns `err` and leaves the decoder state `dec` and
the destination `v`, or it panics inside reflect. -/
inductive Outcome (α : Type) where
  | ret (dec : decoder) (v : α) (err : Option Error)
  | panic
deriving Repr

/-- Go `type typeDecoder func(dec *decoder, v reflect.Value) error`. -/
abbrev typeDecoder := decoder → Value → Outcome Value

/-- The process-wide `decoders.cache`, a `map[reflect.Type]typeDecoder`; a `nil` map and a
missing key both give `none`. -/
abbrev Cache := TypeId → Option typeDecoder

/-- The cache at process start (`nil`). -/
def Cache.empty : Cache := fun _ => none

/-- Go `decoders.cache[typ] = decoder`. -/
def Cache.insert (c : Cache) (typ : TypeId) (d : typeDecoder) : Cache :=
  fun t => if t = typ then some d else c t

/-! ## Primitive decoders -/

/-- Go `int8Decoder`. -/
def int8Decoder : typeDecoder := fun dec v =>
  match dec.read 1 with
  | (dec, some err) => .ret dec v (some err)
  | (dec, none) =>
    let bs := dec.buf.take 1
    match v.SetInt ((bs.getD 0 0).val : Int) with
    | some v => .ret dec v none
    | none => .panic

/-- Go `int16Decoder`. -/
def int16Decoder : typeDecoder := fun dec v =>
  match dec.read 2 with
  | (dec, some err) => .ret dec v (some err)
  | (dec, none) =>
    let bs := dec.buf.take 2
    match v.SetInt (toInt64 (dec.order.Uint16 bs)) with
    | some v => .ret dec v none
    | none => .panic

/-- Go `int32Decoder`. -/
def int32Decoder : typeDecoder := fun dec v =>
  match dec.read 4 with
  | (dec, some err) => .ret dec v (some err)
  | (dec, none) =>
    let bs := dec.buf.take 4
    match v.SetInt (toInt64 (dec.order.Uint32 bs)) with
    | some v => .ret dec v none
    | none => .panic

/-- Go `int64Decoder`. -/
def int64Decoder : typeDecoder := fun dec v =>
  match dec.read 8 with
  | (dec, some err) => .ret dec v (some err)
  | (dec, none) =>
    let bs := dec.buf.take 8
    match v.SetInt (toInt64 (dec.order.Uint64 bs)) with
    | some v => .ret dec v none
    | none => .panic

/-- Go `uint8Decoder`. -/
def uint8Decoder : typeDecoder := fun dec v =>
  match dec.read 1 with
  | (dec, some err) => .ret dec v (some err)
  | (dec, none) =>
    let bs := dec.buf.take 1
    match v.SetUint (toUint64 (bs.getD 0 0).val) with
    | some v => .ret dec v none
    | none => .panic

/-- Go `uint16Decoder`. -/
def uint16Decoder : typeDecoder := fun dec v =>
  match dec.read 2 with
  | (dec, some err) => .ret dec v (some err)
  | (dec, none) =>
    let bs := dec.buf.take 2
    match v.SetUint (toUint64 (dec.order.Uint16 bs)) with
    | some v => .ret dec v none
    | none => .panic

/-- Go `uint32Decoder`. -/
def uint32Decoder : typeDecoder := fun dec v =>
  match dec.read 4 with
  | (dec, some err) => .ret dec v (some err)
  | (dec, none) =>
    let bs := dec.buf.take 4
    match v.SetUint (toUint64 (dec.order.Uint32 bs)) with
    | some v => .ret dec v none
    | none => .panic

/-- Go `uint64Decoder`. -/
def uint64Decoder : typeDecoder := fun dec v =>
  match dec.read 8 with
  | (dec, some err) => .ret dec v (some err)
  | (dec, none) =>
    let bs := dec.buf.take 8
    match v.SetUint (toUint64 (dec.order.Uint64 bs)) with
    | some v => .ret dec v none
    | none => .panic

/-- Go `float32Decoder`. -/
def float32Decoder : typeDecoder := fun dec v =>
  match dec.read 4 with
  | (dec, some err) => .ret dec v (some err)
  | (dec, none) =>
    let bs := dec.buf.take 4
    match v.SetFloat (.Float32frombits (dec.order.Uint32 bs)) with
    | some v => .ret dec v none
    | none => .panic

/-- Go `float64Decoder`. -/
def float64Decoder : typeDecoder := fun dec v =>
  match dec.read 8 with
  | (dec, some err) => .ret dec v (some err)
  | (dec, none) =>
    let bs := dec.buf.take 8
    match v.SetFloat (.Float64frombits (dec.order.Uint64 bs)) with
    | some v => .ret dec v none
    | none => .panic

/-- Go `complex64Decoder`: one read of 8 bytes, two 4-byte halves. -/
def complex64Decoder : typeDecoder := fun dec v =>
  match dec.read 8 with
  | (dec, some err) => .ret dec v (some err)
  | (dec, none) =>
    let bs := dec.buf.take 8
    match v.SetComplex (.Float32frombits (dec.order.Uint32 bs))
        (.Float32frombits (dec.order.Uint32 (bs.drop 4))) with
    | some v => .ret dec v none
    | none => .panic

/-- Go `complex128Decoder`: two reads of 8 bytes into the same scratch window. -/
def complex128Decoder : typeDecoder := fun dec v =>
  match dec.read 8 with
  | (dec, some err) => .ret dec v (some err)
  | (dec, none) =>
    let bs := dec.buf.take 8
    let f1 := GoFloat.Float64frombits (dec.order.Uint64 bs)
    match dec.read 8 with
    | (dec, some err) => .ret dec v (some err)
    | (dec, none) =>
      let bs := dec.buf.take 8
      match v.SetComplex f1 (.Float64frombits (dec.order.Uint64 bs)) with
      | some v => .ret dec v none
      | none => .panic

/-! ## Composite decoders: the closures -/

/-- The closure that `skipDecoder` returns, for `l := int64(s)`. -/
def skipDecoder.closure (l : Nat) : typeDecoder := fun dec v =>
  match CopyNDiscard dec.reader l with
  | (r, err) => .ret { dec with reader := r } v err

/-- The loop of the closure of `sliceDecoder`, over the elements `v.Index(ii)` from `ii` on:
it stops at the first element whose decoder returns an error. -/
def sliceDecoder.loop (edec : typeDecoder) : decoder → List Value → Outcome (List Value)
  | dec, [] => .ret dec [] none
  | dec, e :: rest =>
    match edec dec e with
    | .panic => .panic
    | .ret dec e (some err) => .ret dec (e :: rest) (some err)
    | .ret dec e none =>
      match sliceDecoder.loop edec dec rest with
      | .panic => .panic
      | .ret dec rest err => .ret dec (e :: rest) err

/-- The closure that `sliceDecoder` returns: it runs over the `v.Len()` elements that the
destination already has (`v.Len()` panics on a value that has no length). -/
def sliceDecoder.closure (edec : typeDecoder) : typeDecoder := fun dec v =>
  match v with
  | .seq elems =>
    match sliceDecoder.loop edec dec elems with
    | .panic => .panic
    | .ret dec elems err => .ret dec (.seq elems) err
  | _ => .panic

/-- The loop of the closure of `structDecoder`, `for ii, fdec := range decoders`, from `ii`
on. The second test `err != nil` of the Go loop reads the variable of the enclosing
`structDecoder`, which is `nil` whenever the closure exists. -/
def structDecoder.loop (indexes : List (List Nat)) :
    Nat → List typeDecoder → decoder → Value → Outcome Value
  | _, [], dec, v => .ret dec v none
  | ii, fdec :: rest, dec, v =>
    match indexes[ii]? with
    | none => .panic
    | some index =>
      match v.FieldByIndex index with
      | none => .panic
      | some f =>
        match fdec dec f with
        | .panic => .panic
        | .ret dec f (some err) => .ret dec (v.setFieldByIndex index f) (some err)
        | .ret dec f none =>
          structDecoder.loop indexes (ii + 1) rest dec (v.setFieldByIndex index f)

/-- The closure that `structDecoder` returns. -/
def structDecoder.closure (decoders : List typeDecoder) (indexes : List (List Nat)) :
    typeDecoder := fun dec v =>
  structDecoder.loop indexes 0 decoders dec v

/-! ## The compiler -/

/-- What a compiler function gives: `none` when the fuel ran out (the Go call has not
returned), else the cache it leaves and the pair `(result, error)` it returns. -/
abbrev Compiled (α : Type) := Option (Cache × Except Error α)

/-- Go `skipDecoder`. -/
def skipDecoder (E : Env) (typ : TypeId) : Except Error typeDecoder :=
  match E.dataSize typ with
  | .error err => .error err
  | .ok s => .ok (skipDecoder.closure s)

/-- Go `sliceDecoder`; `makeDecoder` is the recursive call. -/
def sliceDecoder (E : Env) (makeDecoder : Cache → TypeId → Compiled typeDecoder)
    (c : Cache) (typ : TypeId) : Compiled typeDecoder :=
  match makeDecoder c (E.types typ).elem with
  | none => none
  | some (c, .error err) => some (c, .error err)
  | some (c, .ok edec) => some (c, .ok (sliceDecoder.closure edec))

/-- The compile loop of `structDecoder`, `for ii := 0; ii < count; ii++`, over the fields
from number `ii` on, with the `decoders` and `indexes` collected so far. -/
def structDecoder.fields (E : Env) (makeDecoder : Cache → TypeId → Compiled typeDecoder) :
    Nat → List StructField → Cache → List typeDecoder → List (List Nat) →
      Compiled (List typeDecoder × List (List Nat))
  | _, [], c, decoders, indexes => some (c, .ok (decoders, indexes))
  | ii, f :: rest, c, decoders, indexes =>
    if f.Name = "_" then
      match skipDecoder E f.Typ with
      | .error err => some (c, .error err)
      | .ok dec =>
        structDecoder.fields E makeDecoder (ii + 1) rest c (decoders ++ [dec]) (indexes ++ [[ii]])
    else if f.PkgPath ≠ "" then
      structDecoder.fields E makeDecoder (ii + 1) rest c decoders indexes
    else
      match makeDecoder c f.Typ with
      | none => none
      | some (c, .error err) => some (c, .error err)
      | some (c, .ok dec) =>
        structDecoder.fields E makeDecoder (ii + 1) rest c (decoders ++ [dec]) (indexes ++ [[ii]])

/-- Go `structDecoder`; `makeDecoder` is the recursive call. -/
def structDecoder (E : Env) (makeDecoder : Cache → TypeId → Compiled typeDecoder)
    (c : Cache) (typ : TypeId) : Compiled typeDecoder :=
  match structDecoder.fields E makeDecoder 0 (E.types typ).fields c [] [] with
  | none => none
  | some (c, .error err) => some (c, .error err)
  | some (c, .ok (decoders, indexes)) => some (c, .ok (structDecoder.closure decoders indexes))

/-- Go `newDecoder`; `makeDecoder` is the recursive call. -/
def newDecoder (E : Env) (makeDecoder : Cache → TypeId → Compiled typeDecoder)
    (c : Cache) (typ : TypeId) : Compiled typeDecoder :=
  match (E.types typ).kind with
  | .Array | .Slice => sliceDecoder E makeDecoder c typ
  | .Struct => structDecoder E makeDecoder c typ
  | .Int8 => some (c, .ok int8Decoder)
  | .Int16 => some (c, .ok int16Decoder)
  | .Int32 => some (c, .ok int32Decoder)
  | .Int64 => some (c, .ok int64Decoder)
  | .Uint8 => some (c, .ok uint8Decoder)
  | .Uint16 => some (c, .ok uint16Decoder)
  | .Uint32 => some (c, .ok uint32Decoder)
  | .Uint64 => some (c, .ok uint64Decoder)
  | .Float32 => some (c, .ok float32Decoder)
  | .Float64 => some (c, .ok float64Decoder)
  | .Complex64 => some (c, .ok complex64Decoder)
  | .Complex128 => some (c, .ok complex128Decoder)
  | _ => some (c, .error (.cantEncode typ))

/-- Go `makeDecoder`, on `fuel` nested calls: a cache hit returns the stored decoder, a miss
compiles and, on success only, stores the new decoder. -/
def makeDecoder (E : Env) : Nat → Cache → TypeId → Compiled typeDecoder
  | 0, _, _ => none
  | fuel + 1, c, typ =>
    match c typ with
    | some decoder => some (c, .ok decoder)
    | none =>
      match newDecoder E (makeDecoder E fuel) c typ with
      | none => none
      | some (c, .error err) => some (c, .error err)
      | some (c, .ok decoder) => some (c.insert typ decoder, .ok decoder)

/-! ## A concrete universe of types -/

/-- Modelled from the spec: the package function `dataSize`, whose source is in another file,
on the fixed-size types among the first eleven of `exampleTypes`: a primitive has the fixed
width of its kind, a fixed array has `length × element width`, a struct the sum of its fields,
and the width of a slice is not statically known. -/
def exampleDataSize : TypeId → Except Error Nat
  | 0 => .ok 16
  | 1 => .ok 4
  | 2 => .ok 4
  | 3 => .ok 8
  | 4 => .ok 1
  | 5 => .ok 2
  | 7 => .ok 12
  | 10 => .ok 4
  | t => .error (.dataSize t)

/-- A small type table:
`0 = struct { A int32; _ [4]byte; B float64 }`, `1 = int32`, `2 = [4]byte`, `3 = float64`,
`4 = uint8`, `5 = int16`, `6 = []int16`, `7 = struct { X int32; _ [4]byte; Y int32 }`,
`8 = struct { Children []T8 }`, `9 = []T8`, `10 = struct { _ [4]byte }`,
`11 = struct { Children []T11; Name string }`, `12 = []T11`, `13 = string`,
`14 = struct { X int32; hidden string; _ [4]byte; Y int32 }`,
`15 = struct { A int32; S string }`, `16 = struct { Name string; Children []T16 }` and
`17 = []T16`; every other identity is the kind `int`. -/
def exampleTypes : TypeId → rtype
  | 0 => { kind := .Struct, fields := [⟨"A", "", 1⟩, ⟨"_", "main", 2⟩, ⟨"B", "", 3⟩] }
  | 1 => { kind := .Int32 }
  | 2 => { kind := .Array, elem := 4, len := 4 }
  | 3 => { kind := .Float64 }
  | 4 => { kind := .Uint8 }
  | 5 => { kind := .Int16 }
  | 6 => { kind := .Slice, elem := 5 }
  | 7 => { kind := .Struct, fields := [⟨"X", "", 1⟩, ⟨"_", "main", 2⟩, ⟨"Y", "", 1⟩] }
  | 8 => { kind := .Struct, fields := [⟨"Children", "", 9⟩] }
  | 9 => { kind := .Slice, elem := 8 }
  | 10 => { kind := .Struct, fields := [⟨"_", "main", 2⟩] }
  | 11 => { kind := .Struct, fields := [⟨"Children", "", 12⟩, ⟨"Name", "", 13⟩] }
  | 12 => { kind := .Slice, elem := 11 }
  | 13 => { kind := .String }
  | 14 => { kind := .Struct,
            fields := [⟨"X", "", 1⟩, ⟨"hidden", "main", 13⟩, ⟨"_", "main", 2⟩, ⟨"Y", "", 1⟩] }
  | 15 => { kind := .Struct, fields := [⟨"A", "", 1⟩, ⟨"S", "", 13⟩] }
  | 16 => { kind := .Struct, fields := [⟨"Name", "", 13⟩, ⟨"Children", "", 17⟩] }
  | 17 => { kind := .Slice, elem := 16 }
  | _ => { kind := .Int }

/-- The example environment. -/
def exampleEnv : Env := ⟨exampleTypes, exampleDataSize⟩

/-! ## Sizes and well-typed destinations -/

/-- The on-wire width of the twelve kinds that have a primitive decoder. -/
def Kind.width : Kind → Option Nat
  | .Int8 | .Uint8 => some 1
  | .Int16 | .Uint16 => some 2
  | .Int32 | .Uint32 | .Float32 => some 4
  | .Int64 | .Uint64 | .Float64 | .Complex64 => some 8
  | .Complex128 => some 16
  | _ => none

/-- The primitive decoder of a kind, as `newDecoder` chooses it. -/
def Kind.decoder : Kind → Option typeDecoder
  | .Int8 => some int8Decoder
  | .Int16 => some int16Decoder
  | .Int32 => some int32Decoder
  | .Int64 => some int64Decoder
  | .Uint8 => some uint8Decoder
  | .Uint16 => some uint16Decoder
  | .Uint32 => some uint32Decoder
  | .Uint64 => some uint64Decoder
  | .Float32 => some float32Decoder
  | .Float64 => some float64Decoder
  | .Complex64 => some complex64Decoder
  | .Complex128 => some complex128Decoder
  | _ => none

/-- The width of a skip field of type `typ`: what `dataSize` returns. -/
def skipSize (E : Env) (typ : TypeId) : Nat :=
  match E.dataSize typ with
  | .ok s => s
  | .error _ => 0

mutual
/-- The number of bytes that decoding into the destination `v` of type `typ` takes: the
fixed width of a primitive, the sum over the existing elements of an array or slice, the sum
over the participating and skip fields of a struct. -/
def size (E : Env) : TypeId → Value → Nat
  | typ, .seq elems => sizeElems E (E.types typ).elem elems
  | typ, .struct fields => sizeFields E (E.types typ).fields fields
  | typ, _ => ((E.types typ).kind.width).getD 0
/-- The sum of `size` over the elements of a sequence with element type `typ`. -/
def sizeElems (E : Env) : TypeId → List Value → Nat
  | _, [] => 0
  | typ, e :: rest => size E typ e + sizeElems E typ rest
/-- The sum of `size` over the fields of a struct: a field named `_` counts with its
`dataSize`, an unexported field not at all. -/
def sizeFields (E : Env) : List StructField → List Value → Nat
  | f :: fs, v :: vs =>
    (if f.Name = "_" then skipSize E f.Typ
     else if f.PkgPath ≠ "" then 0
     else size E f.Typ v) + sizeFields E fs vs
  | _, _ => 0
end

mutual
/-- The destination `v` is a Go value of type `typ`: a leaf has the kind of the type, an
array has `Len()` elements of the element type, a slice any number of them, and a struct one
value for each field, of that field's type. -/
def hasType (E : Env) : TypeId → Value → Bool
  | typ, .int8 _ => decide ((E.types typ).kind = .Int8)
  | typ, .int16 _ => decide ((E.types typ).kind = .Int16)
  | typ, .int32 _ => decide ((E.types typ).kind = .Int32)
  | typ, .int64 _ => decide ((E.types typ).kind = .Int64)
  | typ, .uint8 _ => decide ((E.types typ).kind = .Uint8)
  | typ, .uint16 _ => decide ((E.types typ).kind = .Uint16)
  | typ, .uint32 _ => decide ((E.types typ).kind = .Uint32)
  | typ, .uint64 _ => decide ((E.types typ).kind = .Uint64)
  | typ, .float32 _ => decide ((E.types typ).kind = .Float32)
  | typ, .float64 _ => decide ((E.types typ).kind = .Float64)
  | typ, .complex64 _ _ => decide ((E.types typ).kind = .Complex64)
  | typ, .complex128 _ _ => decide ((E.types typ).kind = .Complex128)
  | typ, .seq elems =>
    (decide ((E.types typ).kind = .Slice) ||
      (decide ((E.types typ).kind = .Array) && decide (elems.length = (E.types typ).len))) &&
    elemsHaveType E (E.types typ).elem elems
  | typ, .struct fields =>
    decide ((E.types typ).kind = .Struct) && fieldsHaveType E (E.types typ).fields fields
  | typ, .other =>
    decide ((E.types typ).kind.width = none) && decide ((E.types typ).kind ≠ .Slice) &&
    decide ((E.types typ).kind ≠ .Array) && decide ((E.types typ).kind ≠ .Struct)
/-- Every element has the element type `typ`. -/
def elemsHaveType (E : Env) : TypeId → List Value → Bool
  | _, [] => true
  | typ, e :: rest => hasType E typ e && elemsHaveType E typ rest
/-- The values are the fields of a struct with the fields `fs`, one by one. -/
def fieldsHaveType (E : Env) : List StructField → List Value → Bool
  | [], [] => true
  | f :: fs, v :: vs => hasType E f.Typ v && fieldsHaveType E fs vs
  | _, _ => false
end

/-! ## Which decoders the compiler returns -/

/-- The caches that a process can hold: the empty one and what any returning call of
`makeDecoder` leaves. -/
inductive Reachable (E : Env) : Cache → Prop where
  | empty : Reachable E Cache.empty
  | step {c c' : Cache} {fuel : Nat} {typ : TypeId} {r : Except Error typeDecoder} :
      Reachable E c → makeDecoder E fuel c typ = some (c', r) → Reachable E c'

/-- The type `typ` compiles to `dec`: some call `makeDecoder(typ)` of some process returns
`dec` and no error. -/
def CompilesTo (E : Env) (typ : TypeId) (dec : typeDecoder) : Prop :=
  ∃ (c : Cache) (fuel : Nat) (c' : Cache),
    Reachable E c ∧ makeDecoder E fuel c typ = some (c', .ok dec)

/-- The decoders and indexes that the compile loop of `structDecoder` collects for the fields
`fs`, the first of which has number `ii`, when the participating fields have decoders with the
property `P`. -/
inductive FieldPlan (E : Env) (P : TypeId → typeDecoder → Prop) :
    Nat → List StructField → List typeDecoder → List (List Nat) → Prop where
  | nil (ii : Nat) : FieldPlan E P ii [] [] []
  | skip {ii : Nat} {f : StructField} {fs : List StructField} {l : Nat}
      {ds : List typeDecoder} {ixs : List (List Nat)} :
      f.Name = "_" → E.dataSize f.Typ = .ok l → FieldPlan E P (ii + 1) fs ds ixs →
      FieldPlan E P ii (f :: fs) (skipDecoder.closure l :: ds) ([ii] :: ixs)
  | unexported {ii : Nat} {f : StructField} {fs : List StructField}
      {ds : List typeDecoder} {ixs : List (List Nat)} :
      f.Name ≠ "_" → f.PkgPath ≠ "" → FieldPlan E P (ii + 1) fs ds ixs →
      FieldPlan E P ii (f :: fs) ds ixs
  | field {ii : Nat} {f : StructField} {fs : List StructField} {d : typeDecoder}
      {ds : List typeDecoder} {ixs : List (List Nat)} :
      f.Name ≠ "_" → f.PkgPath = "" → P f.Typ d → FieldPlan E P (ii + 1) fs ds ixs →
      FieldPlan E P ii (f :: fs) (d :: ds) ([ii] :: ixs)

/-- Every decoder stored in the cache has the property `P`. -/
def Cache.All (P : TypeId → typeDecoder → Prop) (c : Cache) : Prop :=
  ∀ t d, c t = some d → P t d

/-- The property `P` of decoders is kept by every way in which `newDecoder` builds one. -/
structure Closed (E : Env) (P : TypeId → typeDecoder → Prop) : Prop where
  prim : ∀ t d, (E.types t).kind.decoder = some d → P t d
  slice : ∀ t edec, ((E.types t).kind = .Array ∨ (E.types t).kind = .Slice) →
    P (E.types t).elem edec → P t (sliceDecoder.closure edec)
  struct : ∀ t ds ixs, (E.types t).kind = .Struct →
    FieldPlan E P 0 (E.types t).fields ds ixs → P t (structDecoder.closure ds ixs)

/-- What is known of a compiler function `mk` when it returns: it keeps `P` on the cache and
the decoder it returns for a type has `P` at that type. -/
def Keeps (P : TypeId → typeDecoder → Prop)
    (mk : Cache → TypeId → Compiled typeDecoder) : Prop :=
  ∀ c t c' r, Cache.All P c → mk c t = some (c', r) →
    Cache.All P c' ∧ ∀ d, r = .ok d → P t d

/-- The value that the primitive decoder of kind `k` stores into `v` from the window `w` of
the stream (`none`: the setter panics): the setter calls of the twelve primitive decoders, side
by side. -/
def Kind.store (k : Kind) (order : ByteOrder) (w : List Byte) (v : Value) : Option Value :=
  match k with
  | .Int8 => v.SetInt ((w.getD 0 0).val : ℤ)
  | .Int16 => v.SetInt (toInt64 (order.Uint16 w))
  | .Int32 => v.SetInt (toInt64 (order.Uint32 w))
  | .Int64 => v.SetInt (toInt64 (order.Uint64 w))
  | .Uint8 => v.SetUint (toUint64 (w.getD 0 0).val)
  | .Uint16 => v.SetUint (toUint64 (order.Uint16 w))
  | .Uint32 => v.SetUint (toUint64 (order.Uint32 w))
  | .Uint64 => v.SetUint (toUint64 (order.Uint64 w))
  | .Float32 => v.SetFloat (.Float32frombits (order.Uint32 w))
  | .Float64 => v.SetFloat (.Float64frombits (order.Uint64 w))
  | .Complex64 =>
    v.SetComplex (.Float32frombits (order.Uint32 w)) (.Float32frombits (order.Uint32 (w.drop 4)))
  | .Complex128 =>
    v.SetComplex (.Float64frombits (order.Uint64 w)) (.Float64frombits (order.Uint64 (w.drop 8)))
  | _ => none

/-- The decoder `d` decodes destinations of type `typ` exactly: from a stream that starts with
a window `w` of `size` bytes it returns no error, leaves the stream right behind the window and
a destination of the same type and size that depends on the byte order, the window and the
old destination only; on a stream shorter than `size` it returns an error. -/
def Exact (E : Env) (typ : TypeId) (d : typeDecoder) : Prop :=
  ∀ v, hasType E typ v = true →
    (∀ (order : ByteOrder) (w : List Byte), w.length = size E typ v →
      ∃ v', hasType E typ v' = true ∧ size E typ v' = size E typ v ∧
        ∀ buf rest, ∃ buf',
          d ⟨⟨order, buf⟩, w ++ rest⟩ v = .ret ⟨⟨order, buf'⟩, rest⟩ v' none) ∧
    (∀ dec : decoder, dec.reader.length < size E typ v →
      ∃ dec' v' err, d dec v = .ret dec' v' (some err))

/-- The decoder `d` is put together as `newDecoder` does it for the type `typ`: the primitive
decoder of the kind, or the closure of `sliceDecoder` over an element decoder with the property
`Q`, or the closure of `structDecoder` over field decoders with the property `Q`. -/
def Built (E : Env) (Q : TypeId → typeDecoder → Prop) (typ : TypeId) (d : typeDecoder) : Prop :=
  (E.types typ).kind.decoder = some d ∨
  (((E.types typ).kind = .Array ∨ (E.types typ).kind = .Slice) ∧
    ∃ edec, Q (E.types typ).elem edec ∧ d = sliceDecoder.closure edec) ∨
  ((E.types typ).kind = .Struct ∧
    ∃ ds ixs, FieldPlan E Q 0 (E.types typ).fields ds ixs ∧ d = structDecoder.closure ds ixs)

/-- The decoder `d` is put together as `newDecoder` does it for `typ`, through at most `n`
levels of nested types. -/
def BuiltN (E : Env) : Nat → TypeId → typeDecoder → Prop
  | 0 => fun _ _ => False
  | n + 1 => Built E (BuiltN E n)

/-- The bytes of one primitive window with every primitive in it reversed: the whole window
for the integer and float kinds, each of the two float halves on its own for the complex
kinds. -/
def Kind.reverseWindow (k : Kind) (w : List Byte) : List Byte :=
  match k with
  | .Complex64 => (w.take 4).reverse ++ (w.drop 4).reverse
  | .Complex128 => (w.take 8).reverse ++ (w.drop 8).reverse
  | _ => w.reverse

/-- What a call leaves apart from the byte order and the scratch buffer of the decoder: the
stream, the destination and the error (`none` for a panic). -/
def Outcome.result : Outcome Value → Option (List Byte × Value × Option Error)
  | .ret dec v err => some (dec.reader, v, err)
  | .panic => none

/-- The decoder `d` leaves the byte order of the decoder state as it found it, whatever it
returns. -/
def KeepsOrder (d : typeDecoder) : Prop :=
  ∀ dec v dec' v' err, d dec v = .ret dec' v' err → dec'.order = dec.order

/-- Whenever the decoder `d` returns no error, it has taken exactly `w` bytes from the front
of the stream. -/
def ConsumesExactly (d : typeDecoder) (w : Nat) : Prop :=
  ∀ dec v dec' v', d dec v = .ret dec' v' none →
    w ≤ dec.reader.length ∧ dec'.reader = dec.reader.drop w

/-- For every type of kind `k`, `newDecoder` returns the decoder `d` and no error, and leaves
the cache alone. -/
def Chooses (k : Kind) (d : typeDecoder) : Prop :=
  ∀ (E : Env) (mk : Cache → TypeId → Compiled typeDecoder) (c : Cache) (typ : TypeId),
    (E.types typ).kind = k → newDecoder E mk c typ = some (c, .ok d)

/-- On every stream of at least `w` bytes the decoder `d` returns no error for the destination
`v`. -/
def SucceedsOn (d : typeDecoder) (w : Nat) (v : Value) : Prop :=
  ∀ dec : decoder, w ≤ dec.reader.length → ∃ dec' v', d dec v = .ret dec' v' none

/-! ## The type graph that the compiler walks -/

/-- One step of the compiler from a type to a type it compiles next: from an array or slice
to its element type (`sliceDecoder`), from a struct to the type of a field that is exported
and not named `_` (the `makeDecoder` branch of the loop of `structDecoder`). -/
inductive Child (E : Env) : TypeId → TypeId → Prop where
  | elem {t : TypeId} :
      (E.types t).kind = .Array ∨ (E.types t).kind = .Slice → Child E t (E.types t).elem
  | field {t : TypeId} {f : StructField} :
      (E.types t).kind = .Struct → f ∈ (E.types t).fields → f.Name ≠ "_" → f.PkgPath = "" →
      Child E t f.Typ

/-- The type `u` is `t` or is reached from `t` through elements and participating fields. -/
inductive Reaches (E : Env) : TypeId → TypeId → Prop where
  | refl (t : TypeId) : Reaches E t t
  | step {t u w : TypeId} : Child E t u → Reaches E u w → Reaches E t w

/-- The type contains itself, directly or through other types. -/
def Recursive (E : Env) (t : TypeId) : Prop := ∃ u, Child E t u ∧ Reaches E u t

/-- A kind for which `newDecoder` has no case: not one of the twelve fixed-width numeric
kinds, not array, slice or struct. -/
def Kind.unsupported (k : Kind) : Prop :=
  k.decoder = none ∧ k ≠ .Array ∧ k ≠ .Slice ∧ k ≠ .Struct

/-- Where an error of the compiler for the type `t` comes from: a type of an unsupported kind
that `t` reaches, which the error names, or a skip field of a struct that `t` reaches, for
which `dataSize` returns the error. -/
def ErrorFrom (E : Env) (t : TypeId) (err : Error) : Prop :=
  ∃ u, Reaches E t u ∧
    (((E.types u).kind.unsupported ∧ err = .cantEncode u) ∨
      ((E.types u).kind = .Struct ∧
        ∃ f ∈ (E.types u).fields, f.Name = "_" ∧ E.dataSize f.Typ = .error err))

/-- Every path of the type graph from `t` ends within `n` steps: the type is not recursive
and nests at most `n` levels deep. -/
def Depth (E : Env) : Nat → TypeId → Prop
  | 0, _ => False
  | n + 1, t => ∀ u, Child E t u → Depth E n u

/-- The only errors that the decoder `d` returns are those of the stream: `io.EOF` from a
skip and the short read of `readAtLeast`. -/
def StreamErrors (d : typeDecoder) : Prop :=
  ∀ dec v dec' v' err, d dec v = .ret dec' v' (some err) → err = .EOF ∨ err = .shortRead

/-- The cache `c2` is what the cache `c` has become after any number of calls of
`makeDecoder` that returned, for whatever types and whether with a decoder or an error. -/
inductive Later (E : Env) : Cache → Cache → Prop where
  | refl (c : Cache) : Later E c c
  | step {c c1 c2 : Cache} {fuel : Nat} {typ : TypeId} {r : Except Error typeDecoder} :
      Later E c c1 → makeDecoder E fuel c1 typ = some (c2, r) → Later E c c2

/-- The cache of the example environment after `makeDecoder` compiled type 0 from the empty
cache: the decoders of `int32`, `float64` and of the struct itself. -/
def exampleCache : Cache :=
  ((Cache.empty.insert 1 int32Decoder).insert 3 float64Decoder).insert 0
    (structDecoder.closure [int32Decoder, skipDecoder.closure 4, float64Decoder]
      [[0], [1], [2]])

/-- The number that field number `j` of a struct has once one more field is declared at
position `k`. -/
def shiftField (k j : Nat) : Nat := if j < k then j else j + 1

/-- The outcome of a decode into a struct, with the value `vf` put in as field number `k`:
what the same decode leaves of a struct that has one more field, at position `k`, which no
decoder touches. -/
def Outcome.insertField (k : Nat) (vf : Value) : Outcome Value → Outcome Value
  | .ret dec (.struct vs) err => .ret dec (.struct (vs.take k ++ vf :: vs.drop k)) err
  | o => o

/-! ## The encoder, for the round trip -/

/-- The `n` low bytes of `x`, the least significant first. -/
def leBytes : Nat → Nat → List Byte
  | 0, _ => []
  | n + 1, x => ⟨x % 256, Nat.mod_lt _ (by decide)⟩ :: leBytes n (x / 256)

/-- Modelled from the spec: `order.PutUint16/32/64`, with which the encoder, whose source is
in another file of the package, converts a primitive to bytes per the byte order: the `n`
low bytes of `x` in that order. -/
def ByteOrder.PutUint (order : ByteOrder) (n : Nat) (x : Nat) : List Byte :=
  match order with
  | .BigEndian => (leBytes n x).reverse
  | .LittleEndian => leBytes n x

/-- The bit pattern `u` of a `float32` is a signalling NaN: exponent all ones, quiet bit
clear, payload not zero. -/
def signalling32 (u : Nat) : Bool :=
  (u / 2 ^ 23) % 2 ^ 8 == 255 && (u / 2 ^ 22) % 2 == 0 && u % 2 ^ 22 != 0

/-- The bit pattern that a stored float holds: Go `math.Float32bits` of the `float32` that
`SetFloat` stores for `float64(math.Float32frombits(u))`, and `math.Float64bits` of
`math.Float64frombits(u)`. The conversion of a `float32` to `float64` and back is exact for
every number, infinity and quiet NaN; a signalling NaN comes out of the conversion as the
quiet NaN of the same payload, with the quiet bit set (IEEE 754: a conversion delivers a quiet
NaN for a signalling one). -/
def GoFloat.bits : GoFloat → Nat
  | .Float32frombits u => if signalling32 u then u + 2 ^ 22 else u
  | .Float64frombits u => u

mutual
/-- The value is one that Go can hold, given by what it holds: every integer is in the range
of its kind and every float is built from the bit pattern of its width that it holds. The bit
pattern of a `float32` signalling NaN is left out: the decoder stores `float32(float64(f))`,
which holds the quiet NaN instead (`GoFloat.bits`). -/
def representable : Value → Bool
  | .int8 x => decide (-2 ^ 7 ≤ x ∧ x < 2 ^ 7)
  | .int16 x => decide (-2 ^ 15 ≤ x ∧ x < 2 ^ 15)
  | .int32 x => decide (-2 ^ 31 ≤ x ∧ x < 2 ^ 31)
  | .int64 x => decide (-2 ^ 63 ≤ x ∧ x < 2 ^ 63)
  | .uint8 x => decide (x < 2 ^ 8)
  | .uint16 x => decide (x < 2 ^ 16)
  | .uint32 x => decide (x < 2 ^ 32)
  | .uint64 x => decide (x < 2 ^ 64)
  | .float32 (.Float32frombits u) => decide (u < 2 ^ 32) && !signalling32 u
  | .float32 (.Float64frombits _) => false
  | .float64 (.Float64frombits u) => decide (u < 2 ^ 64)
  | .float64 (.Float32frombits _) => false
  | .complex64 (.Float32frombits a) (.Float32frombits b) =>
    decide (a < 2 ^ 32) && !signalling32 a && (decide (b < 2 ^ 32) && !signalling32 b)
  | .complex64 _ _ => false
  | .complex128 (.Float64frombits a) (.Float64frombits b) =>
    decide (a < 2 ^ 64) && decide (b < 2 ^ 64)
  | .complex128 _ _ => false
  | .seq elems => representableAll elems
  | .struct fields => representableAll fields
  | .other => true
/-- Every value of the list is one that Go can hold. -/
def representableAll : List Value → Bool
  | [] => true
  | v :: vs => representable v && representableAll vs
end

mutual
/-- Modelled from the spec: the encoder engine (§4.4), whose source is in another file of the
package. It walks the same plan as the decoder: a primitive is converted to bytes per the byte
order (a signed integer as its two's complement, a float as its bit pattern, a complex number
as its real and then its imaginary part), a sequence is written element by element at its
existing length, a struct field by field in declaration order; a skip field writes `dataSize`
zero bytes and an unexported field writes nothing. -/
def encode (E : Env) (order : ByteOrder) : TypeId → Value → List Byte
  | _, .int8 x => order.PutUint 1 (x % 2 ^ 8).toNat
  | _, .int16 x => order.PutUint 2 (x % 2 ^ 16).toNat
  | _, .int32 x => order.PutUint 4 (x % 2 ^ 32).toNat
  | _, .int64 x => order.PutUint 8 (x % 2 ^ 64).toNat
  | _, .uint8 x => order.PutUint 1 x
  | _, .uint16 x => order.PutUint 2 x
  | _, .uint32 x => order.PutUint 4 x
  | _, .uint64 x => order.PutUint 8 x
  | _, .float32 x => order.PutUint 4 x.bits
  | _, .float64 x => order.PutUint 8 x.bits
  | _, .complex64 re im => order.PutUint 4 re.bits ++ order.PutUint 4 im.bits
  | _, .complex128 re im => order.PutUint 8 re.bits ++ order.PutUint 8 im.bits
  | typ, .seq elems => encodeElems E order (E.types typ).elem elems
  | typ, .struct fields => encodeFields E order (E.types typ).fields fields
  | _, .other => []
/-- The bytes of the elements of a sequence with element type `typ`, one after the other. -/
def encodeElems (E : Env) (order : ByteOrder) : TypeId → List Value → List Byte
  | _, [] => []
  | typ, e :: rest => encode E order typ e ++ encodeElems E order typ rest
/-- The bytes of the fields of a struct, one after the other. -/
def encodeFields (E : Env) (order : ByteOrder) : List StructField → List Value → List Byte
  | f :: fs, v :: vs =>
    (if f.Name = "_" then List.replicate (skipSize E f.Typ) 0
     else if f.PkgPath ≠ "" then []
     else encode E order f.Typ v) ++ encodeFields E order fs vs
  | _, _ => []
end

mutual
/-- The destination `v0` is ready to take the value `v` of type `typ`: its sequences have the
lengths of those of `v` (the decoder never resizes), and the struct fields that take no part
in decoding, skip fields and unexported fields, hold what they hold in `v` (the decoder never
writes them). -/
def presized (E : Env) : TypeId → Value → Value → Prop
  | typ, .seq es0, .seq es => presizedElems E (E.types typ).elem es0 es
  | typ, .struct fs0, .struct fs => presizedFields E (E.types typ).fields fs0 fs
  | _, _, _ => True
/-- The elements of the destination are ready, one by one, and as many as the values. -/
def presizedElems (E : Env) : TypeId → List Value → List Value → Prop
  | _, [], [] => True
  | typ, a :: as, b :: bs => presized E typ a b ∧ presizedElems E typ as bs
  | _, _, _ => False
/-- The fields of the destination are ready, one by one. -/
def presizedFields (E : Env) : List StructField → List Value → List Value → Prop
  | f :: fs, a :: as, b :: bs =>
    (if f.Name = "_" ∨ f.PkgPath ≠ "" then a = b else presized E f.Typ a b) ∧
      presizedFields E fs as bs
  | _, _, _ => True
end

/-- The decoder `d` undoes the encoder on the type `typ`: from a stream that starts with the
bytes of a value `v`, and into a destination ready for `v`, it returns no error, leaves the
stream right behind those bytes and the destination equal to `v`. -/
def RoundTrip (E : Env) (typ : TypeId) (d : typeDecoder) : Prop :=
  ∀ (order : ByteOrder) (v v0 : Value), hasType E typ v = true → hasType E typ v0 = true →
    representable v = true → presized E typ v0 v →
    ∀ buf rest, ∃ buf',
      d ⟨⟨order, buf⟩, encode E order typ v ++ rest⟩ v0 = .ret ⟨⟨order, buf'⟩, rest⟩ v none

/-- The kind is one of the eight integer kinds that have a decoder. -/
def isIntegerKind : Kind → Bool
  | .Int8 | .Int16 | .Int32 | .Int64 | .Uint8 | .Uint16 | .Uint32 | .Uint64 => true
  | _ => false

/-- The decoder `d` assigns every participating primitive of a destination of type `typ`:
from a stream that starts with a window of `size` bytes it returns no error and leaves the
stream right behind the window, and two destinations that differ only in what their
participating primitives hold (whatever the scratch buffers hold) end up equal. -/
def Assigns (E : Env) (typ : TypeId) (d : typeDecoder) : Prop :=
  ∀ (order : ByteOrder) (v0 v1 : Value), hasType E typ v0 = true → hasType E typ v1 = true →
    presized E typ v0 v1 →
    ∀ w : List Byte, w.length = size E typ v0 →
      ∃ v', ∀ buf0 buf1 rest, ∃ buf0' buf1',
        d ⟨⟨order, buf0⟩, w ++ rest⟩ v0 = .ret ⟨⟨order, buf0'⟩, rest⟩ v' none ∧
        d ⟨⟨order, buf1⟩, w ++ rest⟩ v1 = .ret ⟨⟨order, buf1'⟩, rest⟩ v' none

mutual
/-- The destination `v` of type `typ` once every participating primitive has been stored from
its own window of `w`, each by the setter of its kind (`Kind.store`) and all of them with the
one byte order `order`: the elements of a sequence and the fields of a struct take their
windows one after the other, a skip field passes over its `dataSize` bytes and keeps its
value, an unexported field takes no bytes and keeps its value. -/
def decoded (E : Env) (order : ByteOrder) : TypeId → Value → List Byte → Value
  | typ, .seq elems, w => .seq (decodedElems E order (E.types typ).elem elems w)
  | typ, .struct fields, w => .struct (decodedFields E order (E.types typ).fields fields w)
  | typ, v, w => ((E.types typ).kind.store order w v).getD v
/-- The elements of a sequence with element type `typ`, each stored from its own window. -/
def decodedElems (E : Env) (order : ByteOrder) : TypeId → List Value → List Byte → List Value
  | typ, e :: rest, w =>
    decoded E order typ e (w.take (size E typ e)) ::
      decodedElems E order typ rest (w.drop (size E typ e))
  | _, [], _ => []
/-- The fields of a struct, each participating one stored from its own window. -/
def decodedFields (E : Env) (order : ByteOrder) :
    List StructField → List Value → List Byte → List Value
  | f :: fs, v :: vs, w =>
    if f.Name = "_" then v :: decodedFields E order fs vs (w.drop (skipSize E f.Typ))
    else if f.PkgPath ≠ "" then v :: decodedFields E order fs vs w
    else decoded E order f.Typ v (w.take (size E f.Typ v)) ::
      decodedFields E order fs vs (w.drop (size E f.Typ v))
  | _, vs, _ => vs
end

/-- The decoder `d` applies the byte order of the call to every primitive of a destination of
type `typ`: from a stream that starts with a window `w` of `size` bytes it returns no error,
leaves the stream right behind the window, the byte order as it was, and the destination with
every participating primitive stored from its window with that one order. -/
def Uniform (E : Env) (typ : TypeId) (d : typeDecoder) : Prop :=
  ∀ (order : ByteOrder) (v : Value), hasType E typ v = true →
    ∀ w : List Byte, w.length = size E typ v →
      ∀ buf rest, ∃ buf',
        d ⟨⟨order, buf⟩, w ++ rest⟩ v = .ret ⟨⟨order, buf'⟩, rest⟩ (decoded E order typ v w) none

mutual
/-- The window `w` of a destination `v` of type `typ` with the bytes of every skip field set
to zero, all other bytes as they are: the windows of the elements of a sequence and of the
fields of a struct follow one another as in `size`. -/
def zeroSkips (E : Env) : TypeId → Value → List Byte → List Byte
  | typ, .seq elems, w => zeroSkipsElems E (E.types typ).elem elems w
  | typ, .struct fields, w => zeroSkipsFields E (E.types typ).fields fields w
  | _, _, w => w
/-- The windows of the elements of a sequence with element type `typ`, skip bytes zeroed. -/
def zeroSkipsElems (E : Env) : TypeId → List Value → List Byte → List Byte
  | typ, e :: rest, w =>
    zeroSkips E typ e (w.take (size E typ e)) ++ zeroSkipsElems E typ rest (w.drop (size E typ e))
  | _, [], _ => []
/-- The windows of the fields of a struct, skip bytes zeroed. -/
def zeroSkipsFields (E : Env) : List StructField → List Value → List Byte → List Byte
  | f :: fs, v :: vs, w =>
    if f.Name = "_" then
      List.replicate (skipSize E f.Typ) 0 ++ zeroSkipsFields E fs vs (w.drop (skipSize E f.Typ))
    else if f.PkgPath ≠ "" then zeroSkipsFields E fs vs w
    else zeroSkips E f.Typ v (w.take (size E f.Typ v)) ++
      zeroSkipsFields E fs vs (w.drop (size E f.Typ v))
  | _, _, _ => []
end

/-- On the type `typ`, a window is given back by the encoder: if what the decoding of a
window `w` of `size` bytes leaves in the destination is a value that Go can hold as it is
given, the encoder writes for it the bytes of `w`, with zeros for the bytes of the skip
fields. -/
def Canonical (E : Env) (typ : TypeId) : Prop :=
  ∀ (order : ByteOrder) (v0 : Value), hasType E typ v0 = true →
    ∀ w : List Byte, w.length = size E typ v0 →
      representable (decoded E order typ v0 w) = true →
      encode E order typ (decoded E order typ v0 w) = zeroSkips E typ v0 w

/-- An environment in which every type is `float32`. -/
def float32Env : Env := ⟨fun _ => { kind := .Float32 }, fun _ => .ok 4⟩

mutual
/-- The destination `v` of type `typ` has no skip field among the parts that take part in
decoding, at any depth. -/
def noSkips (E : Env) : TypeId → Value → Bool
  | typ, .seq elems => noSkipsElems E (E.types typ).elem elems
  | typ, .struct fields => noSkipsFields E (E.types typ).fields fields
  | _, _ => true
/-- No element of a sequence with element type `typ` has a skip field. -/
def noSkipsElems (E : Env) : TypeId → List Value → Bool
  | typ, e :: rest => noSkips E typ e && noSkipsElems E typ rest
  | _, [] => true
/-- None of the fields is a skip field, and no exported one has a skip field. -/
def noSkipsFields (E : Env) : List StructField → List Value → Bool
  | f :: fs, v :: vs =>
    decide (f.Name ≠ "_") && (decide (f.PkgPath ≠ "") || noSkips E f.Typ v) &&
      noSkipsFields E fs vs
  | _, _ => true
end

/-- On the type `typ`, a window without skip fields has no byte to set to zero. -/
def SkipFree (E : Env) (typ : TypeId) : Prop :=
  ∀ v0 : Value, hasType E typ v0 = true → noSkips E typ v0 = true →
    ∀ w : List Byte, w.length = size E typ v0 → zeroSkips E typ v0 w = w

end binary

/-!
# gondola `template`: the functions of `template/funcs.go`

The template functions take their arguments as `interface{}` values. A `GoValue` is such a
value: the nil interface, or a value of one of the dynamic types below. Equality of two
interface values (`==`) and `reflect.DeepEqual` belong to Go and its standard library and are
written down here as Go defines them.
-/

namespace template

/-- A Go value in an `interface{}`: the nil interface, a boolean, a string, an integer or a
float of one of the numeric types (`uint8` is `byte`), or a `[]interface{}`. A float is the
IEEE 754 bit pattern of its width. A slice has the identity of its backing array (`none` for
the nil slice) and its elements. -/
inductive GoValue where
  | nil
  | bool (b : Bool)
  | string (s : String)
  | int (x : Int) | int8 (x : Int) | int16 (x : Int) | int32 (x : Int) | int64 (x : Int)
  | uint (x : Nat) | uint8 (x : Nat) | uint16 (x : Nat) | uint32 (x : Nat) | uint64 (x : Nat)
  | float32 (bits : Nat) | float64 (bits : Nat)
  | slice (data : Option Nat) (elems : List GoValue)
deriving Repr

/-- The dynamic types of the values of `GoValue`. -/
inductive GoType where
  | bool | string | int | int8 | int16 | int32 | int64
  | uint | uint8 | uint16 | uint32 | uint64 | float32 | float64 | slice
deriving DecidableEq, Repr

/-- The dynamic type of an interface value; the nil interface has none. -/
def GoValue.Type : GoValue → Option GoType
  | .nil => none
  | .bool _ => some .bool
  | .string _ => some .string
  | .int _ => some .int
  | .int8 _ => some .int8
  | .int16 _ => some .int16
  | .int32 _ => some .int32
  | .int64 _ => some .int64
  | .uint _ => some .uint
  | .uint8 _ => some .uint8
  | .uint16 _ => some .uint16
  | .uint32 _ => some .uint32
  | .uint64 _ => some .uint64
  | .float32 _ => some .float32
  | .float64 _ => some .float64
  | .slice _ _ => some .slice

/-- Go `x == nil` for an interface value. -/
def GoValue.isNil : GoValue → Bool
  | .nil => true
  | _ => false

/-- Go `a == b` for two `float32`, on their bit patterns: a NaN equals nothing, the two
zeros are equal, any other number equals only itself. -/
def float32Eq (a b : Nat) : Bool :=
  !((a / 2 ^ 23) % 2 ^ 8 == 255 && a % 2 ^ 23 != 0) &&
  !((b / 2 ^ 23) % 2 ^ 8 == 255 && b % 2 ^ 23 != 0) &&
  (a == b || (a % 2 ^ 31 == 0 && b % 2 ^ 31 == 0))

/-- Go `a == b` for two `float64`, on their bit patterns. -/
def float64Eq (a b : Nat) : Bool :=
  !((a / 2 ^ 52) % 2 ^ 11 == 2047 && a % 2 ^ 52 != 0) &&
  !((b / 2 ^ 52) % 2 ^ 11 == 2047 && b % 2 ^ 52 != 0) &&
  (a == b || (a % 2 ^ 63 == 0 && b % 2 ^ 63 == 0))

/-- Go `x == y` for two interface values: they are equal when they have identical dynamic
types and equal dynamic values, or when both are nil. Comparing two values of the same
uncomparable type, here two slices, panics at run time (`none`). -/
def interfaceEq : GoValue → GoValue → Option Bool
  | .nil, .nil => some true
  | .bool a, .bool b => some (a == b)
  | .string a, .string b => some (a == b)
  | .int a, .int b => some (a == b)
  | .int8 a, .int8 b => some (a == b)
  | .int16 a, .int16 b => some (a == b)
  | .int32 a, .int32 b => some (a == b)
  | .int64 a, .int64 b => some (a == b)
  | .uint a, .uint b => some (a == b)
  | .uint8 a, .uint8 b => some (a == b)
  | .uint16 a, .uint16 b => some (a == b)
  | .uint32 a, .uint32 b => some (a == b)
  | .uint64 a, .uint64 b => some (a == b)
  | .float32 a, .float32 b => some (float32Eq a b)
  | .float64 a, .float64 b => some (float64Eq a b)
  | .slice _ _, .slice _ _ => none
  | _, _ => some false

mutual
/-- Go `deepValueEqual` of package `reflect`, for two values of the same type: numbers,
strings and booleans by `==`; two slices when both or neither are nil, they have the same
length, and they share their backing array or are deeply equal element by element. -/
def deepValueEqual : GoValue → GoValue → Bool
  | .bool a, .bool b => a == b
  | .string a, .string b => a == b
  | .int a, .int b => a == b
  | .int8 a, .int8 b => a == b
  | .int16 a, .int16 b => a == b
  | .int32 a, .int32 b => a == b
  | .int64 a, .int64 b => a == b
  | .uint a, .uint b => a == b
  | .uint8 a, .uint8 b => a == b
  | .uint16 a, .uint16 b => a == b
  | .uint32 a, .uint32 b => a == b
  | .uint64 a, .uint64 b => a == b
  | .float32 a, .float32 b => float32Eq a b
  | .float64 a, .float64 b => float64Eq a b
  | .slice p1 es1, .slice p2 es2 =>
    (p1.isNone == p2.isNone) && (es1.length == es2.length) &&
      (p1 == p2 || deepElems es1 es2)
  | _, _ => false
/-- The loop of `deepValueEqual` over the elements of two `[]interface{}`: two elements are
deeply equal when both are nil, or neither is and they have the same dynamic type and are
deeply equal. -/
def deepElems : List GoValue → List GoValue → Bool
  | [], [] => true
  | a :: as, b :: bs =>
    (if a.isNil || b.isNil then a.isNil && b.isNil
     else decide (a.Type = b.Type) && deepValueEqual a b) && deepElems as bs
  | _, _ => false
end

/-- Go `reflect.DeepEqual(x, y)`: if one of the two is nil both must be; values of different
types are never deeply equal; else `deepValueEqual`. -/
def DeepEqual (x y : GoValue) : Bool :=
  if x.isNil || y.isNil then x.isNil && y.isNil
  else if x.Type ≠ y.Type then false
  else deepValueEqual x y

/-- The first loop of `eq`, `for _, y := range args[1:] { if x == y { return true } }` and
`return false` after it; `none` is a panic of `==`. -/
def eq.loop (x : GoValue) : List GoValue → Option Bool
  | [] => some false
  | y :: rest =>
    match interfaceEq x y with
    | none => none
    | some true => some true
    | some false => eq.loop x rest

/-- The second loop of `eq`, `for _, y := range args[1:] { if reflect.DeepEqual(x, y) {
return true } }` and `return false` after it. -/
def eq.deepLoop (x : GoValue) : List GoValue → Bool
  | [] => false
  | y :: rest => if DeepEqual x y then true else eq.deepLoop x rest

/-- Go `eq`: no arguments give `false`; a first argument of type `string`, `int`, `int64`,
`byte`, `float32` or `float64` is compared with `==`, any other with `reflect.DeepEqual`.
`none` is a run-time panic. -/
def eq (args : List GoValue) : Option Bool :=
  match args with
  | [] => some false
  | x :: rest =>
    match x with
    | .string _ | .int _ | .int64 _ | .uint8 _ | .float32 _ | .float64 _ => eq.loop x rest
    | _ => some (eq.deepLoop x rest)

/-! ## Comparisons, truth values and divisibility -/

/-- The errors that the template functions return. -/
inductive Error where
  /-- `fmt.Errorf("can't compare %T with %T", arg1, arg2)`. -/
  | cantCompare (arg1 arg2 : GoType)
  /-- What `types.ToInt` returns for a value it cannot convert. -/
  | conversion
  /-- `fmt.Errorf("divisible() invalid number %v: %s", n, err)`. -/
  | invalidNumber
  /-- `fmt.Errorf("divisible() invalid divisor %v: %s", d, err)`. -/
  | invalidDivisor
deriving DecidableEq, Repr

/-- The functions of package `gnd.la/util/types` that the template functions call; the
package is not under `src` and is taken as given. `ToInt` returns a Go `int`. -/
structure Types where
  IsInt : GoType → Bool
  IsUint : GoType → Bool
  IsFloat : GoType → Bool
  IsTrue : GoValue → Bool × Bool
  ToInt : GoValue → Except Error Int

/-- Go `reflect.Value.Int`: the value of a signed integer as an `int64`; panics (`none`) on
any other kind. -/
def GoValue.Int : GoValue → Option Int
  | .int x | .int8 x | .int16 x | .int32 x | .int64 x => some x
  | _ => none

/-- Go `reflect.Value.Uint`: the value of an unsigned integer as a `uint64`; panics (`none`)
on any other kind. -/
def GoValue.Uint : GoValue → Option Nat
  | .uint x | .uint8 x | .uint16 x | .uint32 x | .uint64 x => some x
  | _ => none

/-- The position of the highest set bit of `m`, for `0 < m < 2 ^ fuel`. -/
def highBit : Nat → Nat → Nat
  | 0, _ => 0
  | k + 1, m => if 2 ^ k ≤ m then k else highBit k m

/-- Go `float64(f)` for a `float32`, on bit patterns: the conversion is exact. An infinity or
NaN keeps its exponent of all ones, a zero its sign, a denormal becomes a normal number. -/
def float32To64 (u : Nat) : Nat :=
  let s := (u / 2 ^ 31) % 2
  let e := (u / 2 ^ 23) % 2 ^ 8
  let m := u % 2 ^ 23
  if e = 255 then s * 2 ^ 63 + 2047 * 2 ^ 52 + m * 2 ^ 29
  else if e = 0 then
    if m = 0 then s * 2 ^ 63
    else s * 2 ^ 63 + (highBit 23 m + 874) * 2 ^ 52 + (m - 2 ^ highBit 23 m) * 2 ^ (52 - highBit 23 m)
  else s * 2 ^ 63 + (e + 896) * 2 ^ 52 + m * 2 ^ 29

/-- Go `reflect.Value.Float`: the value of a float as a `float64`; panics (`none`) on any
other kind. -/
def GoValue.Float : GoValue → Option Nat
  | .float32 u => some (float32To64 u)
  | .float64 u => some u
  | _ => none

/-- Go `a < b` for two `float64`, on their bit patterns: never with a NaN; else by sign and
magnitude, the two zeros being equal. -/
def float64Lt (a b : Nat) : Bool :=
  !((a / 2 ^ 52) % 2 ^ 11 == 2047 && a % 2 ^ 52 != 0) &&
  !((b / 2 ^ 52) % 2 ^ 11 == 2047 && b % 2 ^ 52 != 0) &&
  decide ((if (a / 2 ^ 63) % 2 = 1 then -((a % 2 ^ 63 : Nat) : ℤ) else ((a % 2 ^ 63 : Nat) : ℤ)) <
    (if (b / 2 ^ 63) % 2 = 1 then -((b % 2 ^ 63 : Nat) : ℤ) else ((b % 2 ^ 63 : Nat) : ℤ)))

/-- Go `lt`. The result is the pair that the function returns, or `none` for a run-time
panic: `reflect.ValueOf(nil).Type()` panics. -/
def lt (T : Types) (arg1 arg2 : GoValue) : Option (Bool × Option Error) :=
  match arg1.Type, arg2.Type with
  | some t1, some t2 =>
    if T.IsInt t1 && T.IsInt t2 then
      match arg1.Int, arg2.Int with
      | some a, some b => some (decide (a < b), none)
      | _, _ => none
    else if T.IsUint t1 && T.IsUint t2 then
      match arg1.Uint, arg2.Uint with
      | some a, some b => some (decide (a < b), none)
      | _, _ => none
    else if T.IsFloat t1 && T.IsFloat t2 then
      match arg1.Float, arg2.Float with
      | some a, some b => some (float64Lt a b, none)
      | _, _ => none
    else some (false, some (.cantCompare t1 t2))
  | _, _ => none

/-- Go `lte`: what `lt` returns if that is `true` or an error, else what `eq` returns. -/
def lte (T : Types) (arg1 arg2 : GoValue) : Option (Bool × Option Error) :=
  match lt T arg1 arg2 with
  | none => none
  | some (lessThan, err) =>
    if lessThan || err.isSome then some (lessThan, err)
    else
      match eq [arg1, arg2] with
      | none => none
      | some b => some (b, none)

/-- The loop of `and`: the first argument that is not true; `none` if all are true. -/
def and.loop (T : Types) : List GoValue → Option GoValue
  | [] => none
  | v :: rest => if !(T.IsTrue v).1 then some v else and.loop T rest

/-- Go `and`: the first argument that is not true, else `args[len(args)-1]`, which panics
(`none`) when there is no argument. -/
def and (T : Types) (args : List GoValue) : Option GoValue :=
  match and.loop T args with
  | some v => some v
  | none => args.getLast?

/-- The loop of `or`: the first argument that is true; `none` if none is. -/
def or.loop (T : Types) : List GoValue → Option GoValue
  | [] => none
  | v :: rest => if (T.IsTrue v).1 then some v else or.loop T rest

/-- Go `or`: the first argument that is true, else `args[len(args)-1]`, which panics
(`none`) when there is no argument. -/
def or (T : Types) (args : List GoValue) : Option GoValue :=
  match or.loop T args with
  | some v => some v
  | none => args.getLast?

/-- Go `divisible`. `ni % di` is the remainder of Go's truncated division, which panics
(`none`) for a zero divisor; it is smaller than the divisor in absolute value, so the
arithmetic does not overflow. -/
def divisible (T : Types) (n d : GoValue) : Option (Bool × Option Error) :=
  match T.ToInt n with
  | .error _ => some (false, some .invalidNumber)
  | .ok ni =>
    match T.ToInt d with
    | .error _ => some (false, some .invalidDivisor)
    | .ok di => if di = 0 then none else some (decide (Int.tmod ni di = 0), none)

/-- Go `even`: `divisible(arg, 2)`, the constant being an `int`. -/
def even (T : Types) (arg : GoValue) : Option (Bool × Option Error) :=
  divisible T arg (.int 2)

/-- Go `odd`. -/
def odd (T : Types) (arg : GoValue) : Option (Bool × Option Error) :=
  match divisible T arg (.int 2) with
  | none => none
  | some (res, err) => if err.isSome then some (false, err) else some (!res, none)

/-- Modelled from the spec: the functions of package `gnd.la/util/types`, whose source is not
under `src`. The spec says nothing of them; they are taken by their names and by how
`funcs.go` uses them. `IsInt`, `IsUint` and `IsFloat` tell the class of the kind of a type
(the caller goes on to call `Int()`, `Uint()` or `Float()`, which panic on any other kind).
`IsTrue` is the truth value of Go's templates: a value is true when it is not the zero value
of its type (a non-empty string or slice, a number other than zero), and nil is not true.
`ToInt` gives the number of an integer value as an `int` of 64 bits; booleans, floats and
strings, which it may convert too, are not modelled. -/
def types : Types where
  IsInt t := t == .int || t == .int8 || t == .int16 || t == .int32 || t == .int64
  IsUint t := t == .uint || t == .uint8 || t == .uint16 || t == .uint32 || t == .uint64
  IsFloat t := t == .float32 || t == .float64
  IsTrue v :=
    match v with
    | .nil => (false, true)
    | .bool b => (b, true)
    | .string s => (decide (s ≠ ""), true)
    | .int x | .int8 x | .int16 x | .int32 x | .int64 x => (decide (x ≠ 0), true)
    | .uint x | .uint8 x | .uint16 x | .uint32 x | .uint64 x => (decide (x ≠ 0), true)
    | .float32 u => (decide (u % 2 ^ 31 ≠ 0), true)
    | .float64 u => (decide (u % 2 ^ 63 ≠ 0), true)
    | .slice _ elems => (decide (elems.length > 0), true)
  ToInt v :=
    match v with
    | .int x | .int8 x | .int16 x | .int32 x | .int64 x => .ok x
    | .uint x | .uint8 x | .uint16 x | .uint32 x | .uint64 x =>
      .ok (if x < 2 ^ 63 then (x : ℤ) else (x : ℤ) - 2 ^ 64)
    | _ => .error .conversion

end template

/-!
# gondola `cmd/gondola`: the handler of the development server (`dev.go`)

`Project.Handler` answers a request with one of three pages or hands it to the reverse proxy
of the running application. The fields of `Project` that decide the answer are its build
errors, the error of the last run and the proxy, which `projectStarted` sets once the
application listens. While `Handler` waits, it reads `p.proxy` again every 10 milliseconds;
what it reads then is the history `later` of that field.
-/

namespace dev

/-- The fields of `Project` that `Handler` branches on: `errors`, `runError` (`none` for a nil
error) and `proxy` (`none` for a nil pointer, else the identity of the reverse proxy). -/
structure Project where
  errors : List String
  runError : Option String
  proxy : Option Nat
deriving Repr

/-- What `Handler` does with a request: the template it executes, or the proxy whose
`ServeHTTP` it calls. -/
inductive Response where
  /-- `ctx.MustExecute("errors.html", data)`. -/
  | errors
  /-- `ctx.MustExecute("exited.html", data)`. -/
  | exited
  /-- `ctx.MustExecute("building.html", data)`. -/
  | building
  /-- `p.proxy.ServeHTTP(ctx, ctx.R)`. -/
  | proxied (proxy : Nat)
deriving DecidableEq, Repr

/-- The loop `for { time.Sleep(10 * time.Millisecond); if p.proxy != nil { break } }`:
`later i` is the value of `p.proxy` at the reading number `i`. The loop ends with the first
proxy it reads; `none` when the fuel runs out before. -/
def Handler.wait (later : Nat → Option Nat) : Nat → Nat → Option Nat
  | 0, _ => none
  | fuel + 1, i =>
    match later i with
    | some proxy => some proxy
    | none => Handler.wait later fuel (i + 1)

/-- Go `(*Project).Handler`, for a request of method `method` (`ctx.R.Method`). -/
def Handler (p : Project) (method : String) (later : Nat → Option Nat) (fuel : Nat) :
    Option Response :=
  if p.errors.length > 0 then some .errors
  else if p.runError.isSome then some .exited
  else
    match p.proxy with
    | none =>
      if method != "POST" || method != "PUT" then some .building
      else
        match Handler.wait later fuel 0 with
        | none => none
        | some proxy => some (.proxied proxy)
    | some proxy => some (.proxied proxy)

end dev

namespace binary

/-! # Theorems -/

/-! ## The decoders that the compiler returns -/

theorem FieldPlan.append_of_fields {E : Env} {P : TypeId → typeDecoder → Prop}
    {mk : Cache → TypeId → Compiled typeDecoder} (hmk : Keeps P mk) :
    ∀ (fs : List StructField) (ii : Nat) (c : Cache) (decoders : List typeDecoder)
      (indexes : List (List Nat)) (c' : Cache)
      (r : Except Error (List typeDecoder × List (List Nat))),
      Cache.All P c →
      structDecoder.fields E mk ii fs c decoders indexes = some (c', r) →
      Cache.All P c' ∧ ∀ ds ixs, r = .ok (ds, ixs) →
        ∃ ds' ixs', ds = decoders ++ ds' ∧ ixs = indexes ++ ixs' ∧ FieldPlan E P ii fs ds' ixs' := by
  intro fs
  induction fs with
  | nil =>
    intro ii c decoders indexes c' r hc h
    simp only [structDecoder.fields, Option.some.injEq, Prod.mk.injEq] at h
    obtain ⟨rfl, rfl⟩ := h
    refine ⟨hc, ?_⟩
    intro ds ixs hr
    injection hr with hr
    injection hr with h1 h2
    exact ⟨[], [], by simp [h1], by simp [h2], FieldPlan.nil ii⟩
  | cons f fs ih =>
    intro ii c decoders indexes c' r hc h
    rw [structDecoder.fields] at h
    by_cases hname : f.Name = "_"
    · rw [if_pos hname] at h
      cases hsz : E.dataSize f.Typ with
      | error err =>
        simp only [skipDecoder, hsz, Option.some.injEq, Prod.mk.injEq] at h
        obtain ⟨rfl, rfl⟩ := h
        exact ⟨hc, by intro ds ixs hr; cases hr⟩
      | ok l =>
        simp only [skipDecoder, hsz] at h
        obtain ⟨hc', hres⟩ := ih _ _ _ _ _ _ hc h
        refine ⟨hc', ?_⟩
        intro ds ixs hr
        obtain ⟨ds', ixs', h1, h2, hplan⟩ := hres ds ixs hr
        exact ⟨skipDecoder.closure l :: ds', [ii] :: ixs', by simp [h1], by simp [h2],
          FieldPlan.skip hname hsz hplan⟩
    · rw [if_neg hname] at h
      by_cases hpkg : f.PkgPath = ""
      · rw [if_neg (by simpa using hpkg)] at h
        cases hm : mk c f.Typ with
        | none => simp [hm] at h
        | some res =>
          obtain ⟨c1, r1⟩ := res
          obtain ⟨hc1, hd1⟩ := hmk _ _ _ _ hc hm
          cases r1 with
          | error err =>
            simp only [hm, Option.some.injEq, Prod.mk.injEq] at h
            obtain ⟨rfl, rfl⟩ := h
            exact ⟨hc1, by intro ds ixs hr; cases hr⟩
          | ok d =>
            simp only [hm] at h
            obtain ⟨hc', hres⟩ := ih _ _ _ _ _ _ hc1 h
            refine ⟨hc', ?_⟩
            intro ds ixs hr
            obtain ⟨ds', ixs', h1, h2, hplan⟩ := hres ds ixs hr
            exact ⟨d :: ds', [ii] :: ixs', by simp [h1], by simp [h2],
              FieldPlan.field hname hpkg (hd1 d rfl) hplan⟩
      · rw [if_pos (by simpa using hpkg)] at h
        obtain ⟨hc', hres⟩ := ih _ _ _ _ _ _ hc h
        refine ⟨hc', ?_⟩
        intro ds ixs hr
        obtain ⟨ds', ixs', h1, h2, hplan⟩ := hres ds ixs hr
        exact ⟨ds', ixs', h1, h2, FieldPlan.unexported hname hpkg hplan⟩

theorem newDecoder_keeps {E : Env} {P : TypeId → typeDecoder → Prop} (hP : Closed E P)
    {mk : Cache → TypeId → Compiled typeDecoder} (hmk : Keeps P mk) :
    Keeps P (newDecoder E mk) := by
  intro c t c' r hc h
  have prim : ∀ d, (E.types t).kind.decoder = some d →
      (some (c, Except.ok d) : Compiled typeDecoder) = some (c', r) →
      Cache.All P c' ∧ ∀ d, r = .ok d → P t d := by
    intro d hk h
    simp only [Option.some.injEq, Prod.mk.injEq] at h
    obtain ⟨rfl, rfl⟩ := h
    refine ⟨hc, ?_⟩
    intro d' hd'
    injection hd' with hd'
    subst hd'
    exact hP.prim t d hk
  have bad : (some (c, Except.error (Error.cantEncode t)) : Compiled typeDecoder) = some (c', r) →
      Cache.All P c' ∧ ∀ d, r = .ok d → P t d := by
    intro h
    simp only [Option.some.injEq, Prod.mk.injEq] at h
    obtain ⟨rfl, rfl⟩ := h
    exact ⟨hc, by intro d hd; cases hd⟩
  have slice : ((E.types t).kind = .Array ∨ (E.types t).kind = .Slice) →
      sliceDecoder E mk c t = some (c', r) → Cache.All P c' ∧ ∀ d, r = .ok d → P t d := by
    intro hk h
    unfold sliceDecoder at h
    cases hm : mk c (E.types t).elem with
    | none => simp [hm] at h
    | some res =>
      obtain ⟨c1, r1⟩ := res
      obtain ⟨hc1, hd1⟩ := hmk _ _ _ _ hc hm
      cases r1 with
      | error err =>
        simp only [hm, Option.some.injEq, Prod.mk.injEq] at h
        obtain ⟨rfl, rfl⟩ := h
        exact ⟨hc1, by intro d hd; cases hd⟩
      | ok edec =>
        simp only [hm, Option.some.injEq, Prod.mk.injEq] at h
        obtain ⟨rfl, rfl⟩ := h
        refine ⟨hc1, ?_⟩
        intro d hd
        injection hd with hd
        subst hd
        exact hP.slice t edec hk (hd1 edec rfl)
  unfold newDecoder at h
  cases hk : (E.types t).kind <;> rw [hk] at h <;> simp only at h <;>
    first
    | exact bad h
    | exact prim _ (by rw [hk]; rfl) h
    | exact slice (by simp [hk]) h
    | skip
  -- the struct case
  unfold structDecoder at h
  cases hf : structDecoder.fields E mk 0 (E.types t).fields c [] [] with
  | none => simp [hf] at h
  | some res =>
    obtain ⟨c1, r1⟩ := res
    obtain ⟨hc1, hres⟩ := FieldPlan.append_of_fields hmk _ _ _ _ _ _ _ hc hf
    cases r1 with
    | error err =>
      simp only [hf, Option.some.injEq, Prod.mk.injEq] at h
      obtain ⟨rfl, rfl⟩ := h
      exact ⟨hc1, by intro d hd; cases hd⟩
    | ok p =>
      obtain ⟨ds, ixs⟩ := p
      simp only [hf, Option.some.injEq, Prod.mk.injEq] at h
      obtain ⟨rfl, rfl⟩ := h
      refine ⟨hc1, ?_⟩
      intro d hd
      injection hd with hd
      subst hd
      obtain ⟨ds', ixs', h1, h2, hplan⟩ := hres ds ixs rfl
      simp only [List.nil_append] at h1 h2
      subst h1 h2
      exact hP.struct t ds ixs hk hplan

theorem makeDecoder_keeps {E : Env} {P : TypeId → typeDecoder → Prop} (hP : Closed E P) :
    ∀ fuel, Keeps P (makeDecoder E fuel) := by
  intro fuel
  induction fuel with
  | zero =>
    intro c t c' r _ h
    simp [makeDecoder] at h
  | succ n ih =>
    intro c t c' r hc h
    rw [makeDecoder] at h
    cases hct : c t with
    | some d =>
      simp only [hct, Option.some.injEq, Prod.mk.injEq] at h
      obtain ⟨rfl, rfl⟩ := h
      refine ⟨hc, ?_⟩
      intro d' hd'
      injection hd' with hd'
      subst hd'
      exact hc _ _ hct
    | none =>
      simp only [hct] at h
      cases hn : newDecoder E (makeDecoder E n) c t with
      | none => simp [hn] at h
      | some res =>
        obtain ⟨c1, r1⟩ := res
        obtain ⟨hc1, hd1⟩ := newDecoder_keeps hP ih _ _ _ _ hc hn
        cases r1 with
        | error err =>
          simp only [hn, Option.some.injEq, Prod.mk.injEq] at h
          obtain ⟨rfl, rfl⟩ := h
          exact ⟨hc1, by intro d hd; cases hd⟩
        | ok d =>
          simp only [hn, Option.some.injEq, Prod.mk.injEq] at h
          obtain ⟨rfl, rfl⟩ := h
          have hd := hd1 d rfl
          refine ⟨?_, ?_⟩
          · intro t' d' hins
            unfold Cache.insert at hins
            by_cases ht : t' = t
            · subst ht
              simp only [if_true, Option.some.injEq] at hins
              subst hins
              exact hd
            · rw [if_neg ht] at hins
              exact hc1 _ _ hins
          · intro d' hd'
            injection hd' with hd'
            subst hd'
            exact hd

theorem Reachable.all {E : Env} {P : TypeId → typeDecoder → Prop} (hP : Closed E P)
    {c : Cache} (hc : Reachable E c) : Cache.All P c := by
  induction hc with
  | empty =>
    intro t d h
    simp [Cache.empty] at h
  | step _ hstep ih => exact (makeDecoder_keeps hP _ _ _ _ _ ih hstep).1

/-- Induction over compiled decoders: a property that every construction of `newDecoder`
keeps holds of every decoder that `makeDecoder` returns. -/
theorem CompilesTo.induct {E : Env} {P : TypeId → typeDecoder → Prop} (hP : Closed E P)
    {typ : TypeId} {dec : typeDecoder} (h : CompilesTo E typ dec) : P typ dec := by
  obtain ⟨c, fuel, c', hc, hmk⟩ := h
  exact (makeDecoder_keeps hP fuel c typ c' _ (hc.all hP) hmk).2 dec rfl

/-! ## Reading from the stream -/

theorem decoder.read_ok (d : decoder) (n : Nat) (h : n ≤ d.reader.length) :
    d.read n = (⟨⟨d.order, d.reader.take n ++ d.buf.drop n⟩, d.reader.drop n⟩, none) := by
  simp [decoder.read, readAtLeast, h]

theorem decoder.read_short (d : decoder) (n : Nat) (h : d.reader.length < n) :
    ∃ d', d.read n = (d', some Error.shortRead) := by
  have h' : ¬ n ≤ d.reader.length := by omega
  simp [decoder.read, readAtLeast, h']

theorem take_scratch (r buf : List Byte) (n : Nat) (h : n ≤ r.length) :
    (r.take n ++ buf.drop n).take n = r.take n := by
  rw [List.take_append_of_le_length (by simp [h])]
  simp

/-! ## The primitive decoders -/

/-- On a stream that holds the width of the kind, a primitive decoder consumes exactly that
width and stores what `Kind.store` computes from those bytes. -/
theorem prim_decoder_ok {k : Kind} {d : typeDecoder} {n : Nat} (hd : k.decoder = some d)
    (hw : k.width = some n) (dec : decoder) (v : Value) (h : n ≤ dec.reader.length) :
    ∃ buf, d dec v =
      match k.store dec.order (dec.reader.take n) v with
      | some v' => .ret ⟨⟨dec.order, buf⟩, dec.reader.drop n⟩ v' none
      | none => .panic := by
  cases k <;> simp only [Kind.decoder, Option.some.injEq] at hd <;> try exact absurd hd (by simp)
  all_goals (subst hd; simp only [Kind.width, Option.some.injEq] at hw; subst hw)
  case Complex128 =>
    have h8 : 8 ≤ dec.reader.length := by omega
    have h8' : 8 ≤ (dec.reader.drop 8).length := by simp; omega
    refine ⟨(dec.reader.drop 8).take 8 ++ (dec.reader.take 8 ++ dec.buf.drop 8).drop 8, ?_⟩
    simp only [complex128Decoder, decoder.read_ok dec 8 h8, Kind.store]
    rw [decoder.read_ok _ 8 h8']
    simp only [take_scratch _ _ _ h8, take_scratch _ _ _ h8', ByteOrder.Uint64, List.take_take,
      List.drop_take, List.drop_drop]
    cases v <;> simp [Value.SetComplex]
  all_goals
    first
    | (refine ⟨dec.reader.take 1 ++ dec.buf.drop 1, ?_⟩
       simp only [int8Decoder, uint8Decoder, decoder.read_ok dec _ h, Kind.store,
         take_scratch _ _ _ h]
       done)
    | (refine ⟨dec.reader.take 2 ++ dec.buf.drop 2, ?_⟩
       simp only [int16Decoder, uint16Decoder, decoder.read_ok dec _ h, Kind.store,
         take_scratch _ _ _ h]
       done)
    | (refine ⟨dec.reader.take 4 ++ dec.buf.drop 4, ?_⟩
       simp only [int32Decoder, uint32Decoder, float32Decoder, decoder.read_ok dec _ h,
         Kind.store, take_scratch _ _ _ h]
       done)
    | (refine ⟨dec.reader.take 8 ++ dec.buf.drop 8, ?_⟩
       simp only [int64Decoder, uint64Decoder, float64Decoder, complex64Decoder,
         decoder.read_ok dec _ h, Kind.store, take_scratch _ _ _ h]
       )

/-- On a stream shorter than the width of the kind, a primitive decoder returns an error and
leaves the destination as it was. -/
theorem prim_decoder_short {k : Kind} {d : typeDecoder} {n : Nat} (hd : k.decoder = some d)
    (hw : k.width = some n) (dec : decoder) (v : Value) (h : dec.reader.length < n) :
    ∃ dec' err, d dec v = .ret dec' v (some err) := by
  cases k <;> simp only [Kind.decoder, Option.some.injEq] at hd <;> try exact absurd hd (by simp)
  all_goals (subst hd; simp only [Kind.width, Option.some.injEq] at hw; subst hw)
  case Complex128 =>
    by_cases h8 : 8 ≤ dec.reader.length
    · have h8' : (dec.reader.drop 8).length < 8 := by simp; omega
      simp only [complex128Decoder, decoder.read_ok dec 8 h8]
      obtain ⟨d', hd'⟩ := decoder.read_short
        ⟨⟨dec.order, dec.reader.take 8 ++ dec.buf.drop 8⟩, dec.reader.drop 8⟩ 8 h8'
      rw [hd']
      exact ⟨_, _, rfl⟩
    · obtain ⟨d', hd'⟩ := decoder.read_short dec 8 (by omega)
      simp only [complex128Decoder, hd']
      exact ⟨_, _, rfl⟩
  all_goals
    obtain ⟨d', hd'⟩ := decoder.read_short dec _ h
    simp only [int8Decoder, int16Decoder, int32Decoder, int64Decoder, uint8Decoder,
      uint16Decoder, uint32Decoder, uint64Decoder, float32Decoder, float64Decoder,
      complex64Decoder, hd']
    exact ⟨_, _, rfl⟩

/-- A well-typed destination of a primitive kind takes the value its decoder stores, stays
well typed, and has the width of the kind as its size. -/
theorem store_of_hasType {E : Env} {t : TypeId} {v : Value} {n : Nat}
    (hw : (E.types t).kind.width = some n) (hv : hasType E t v = true)
    (order : ByteOrder) (w : List Byte) :
    ∃ v', (E.types t).kind.store order w v = some v' ∧ hasType E t v' = true ∧
      size E t v' = n ∧ size E t v = n := by
  cases v <;> simp only [hasType, decide_eq_true_eq, Bool.and_eq_true, Bool.or_eq_true] at hv
  case seq elems =>
    rcases hv with ⟨hk | ⟨hk, _⟩, _⟩ <;> rw [hk] at hw <;> simp [Kind.width] at hw
  case struct fields =>
    rw [hv.1] at hw
    simp [Kind.width] at hw
  case other =>
    rw [hv.1.1.1] at hw
    simp at hw
  all_goals
    rw [hv] at hw
    simp only [hv, Kind.store, Value.SetInt, Value.SetUint, Value.SetFloat, Value.SetComplex,
      Option.some.injEq, exists_eq_left', hasType, size, hw, decide_True, Option.getD_some,
      and_self]

theorem width_of_decoder {k : Kind} {d : typeDecoder} (hd : k.decoder = some d) :
    ∃ n, k.width = some n := by
  cases k <;> simp [Kind.decoder] at hd <;> exact ⟨_, rfl⟩

theorem Exact.prim {E : Env} {t : TypeId} {d : typeDecoder}
    (hd : (E.types t).kind.decoder = some d) : Exact E t d := by
  obtain ⟨n, hw⟩ := width_of_decoder hd
  intro v hv
  obtain ⟨_, _, _, _, hsz⟩ := store_of_hasType hw hv .BigEndian []
  refine ⟨?_, ?_⟩
  · intro order w hlen
    obtain ⟨v', hst, hty, hsz', _⟩ := store_of_hasType hw hv order w
    refine ⟨v', hty, by rw [hsz', hsz], ?_⟩
    intro buf rest
    have hlen' : n ≤ (⟨⟨order, buf⟩, w ++ rest⟩ : decoder).reader.length := by
      simp only [List.length_append]; omega
    obtain ⟨buf', hrun⟩ := prim_decoder_ok hd hw ⟨⟨order, buf⟩, w ++ rest⟩ v hlen'
    have hn : n = w.length := by omega
    subst hn
    simp only [List.take_left', List.drop_left', hst] at hrun
    exact ⟨buf', hrun⟩
  · intro dec hshort
    obtain ⟨dec', err, h⟩ := prim_decoder_short hd hw dec v (by omega)
    exact ⟨dec', v, err, h⟩

/-! ## The sequence decoder -/

theorem decoder.split (dec : decoder) (n : Nat) :
    dec = ⟨⟨dec.order, dec.buf⟩, dec.reader.take n ++ dec.reader.drop n⟩ := by
  rw [List.take_append_drop]

theorem sliceDecoder.loop_exact {E : Env} {et : TypeId} {edec : typeDecoder}
    (he : Exact E et edec) :
    ∀ elems, elemsHaveType E et elems = true →
      (∀ (order : ByteOrder) (w : List Byte), w.length = sizeElems E et elems →
        ∃ elems', elemsHaveType E et elems' = true ∧ elems'.length = elems.length ∧
          sizeElems E et elems' = sizeElems E et elems ∧
          ∀ buf rest, ∃ buf',
            sliceDecoder.loop edec ⟨⟨order, buf⟩, w ++ rest⟩ elems =
              .ret ⟨⟨order, buf'⟩, rest⟩ elems' none) ∧
      (∀ dec : decoder, dec.reader.length < sizeElems E et elems →
        ∃ dec' v' err, sliceDecoder.loop edec dec elems = .ret dec' v' (some err)) := by
  intro elems
  induction elems with
  | nil =>
    intro _
    refine ⟨?_, ?_⟩
    · intro order w hlen
      simp only [sizeElems, List.length_eq_zero] at hlen
      subst hlen
      exact ⟨[], rfl, rfl, rfl, fun buf rest => ⟨buf, rfl⟩⟩
    · intro dec hshort
      simp [sizeElems] at hshort
  | cons e es ih =>
    intro hty
    simp only [elemsHaveType, Bool.and_eq_true] at hty
    obtain ⟨hok, hshortE⟩ := he e hty.1
    obtain ⟨hokS, hshortS⟩ := ih hty.2
    refine ⟨?_, ?_⟩
    · intro order w hlen
      simp only [sizeElems] at hlen
      obtain ⟨e', hte, hse, hrun⟩ := hok order (w.take (size E et e)) (by simp; omega)
      obtain ⟨es', htes, hles, hses, hruns⟩ :=
        hokS order (w.drop (size E et e)) (by simp; omega)
      refine ⟨e' :: es', by simp [elemsHaveType, hte, htes], by simp [hles],
        by simp [sizeElems, hse, hses], ?_⟩
      intro buf rest
      obtain ⟨buf1, h1⟩ := hrun buf (w.drop (size E et e) ++ rest)
      obtain ⟨buf2, h2⟩ := hruns buf1 rest
      refine ⟨buf2, ?_⟩
      rw [← List.append_assoc, List.take_append_drop] at h1
      rw [sliceDecoder.loop, h1]
      simp only [h2]
    · intro dec hshort
      simp only [sizeElems] at hshort
      by_cases hfst : dec.reader.length < size E et e
      · obtain ⟨dec', v', err, h⟩ := hshortE dec hfst
        rw [sliceDecoder.loop, h]
        exact ⟨_, _, _, rfl⟩
      · obtain ⟨e', _, _, hrun⟩ :=
          hok dec.order (dec.reader.take (size E et e)) (by simp; omega)
        obtain ⟨buf1, h1⟩ := hrun dec.buf (dec.reader.drop (size E et e))
        rw [← decoder.split] at h1
        obtain ⟨dec', v', err, h⟩ :=
          hshortS ⟨⟨dec.order, buf1⟩, dec.reader.drop (size E et e)⟩ (by simp; omega)
        rw [sliceDecoder.loop, h1]
        simp only [h]
        exact ⟨_, _, _, rfl⟩

theorem seq_of_hasType {E : Env} {t : TypeId} {v : Value}
    (hk : (E.types t).kind = .Array ∨ (E.types t).kind = .Slice) (hv : hasType E t v = true) :
    ∃ elems, v = .seq elems ∧ elemsHaveType E (E.types t).elem elems = true ∧
      ((E.types t).kind = .Array → elems.length = (E.types t).len) := by
  cases v <;> simp only [hasType, decide_eq_true_eq, Bool.and_eq_true, Bool.or_eq_true] at hv
  case seq elems =>
    refine ⟨elems, rfl, hv.2, ?_⟩
    intro ha
    rcases hv.1 with h | h
    · rw [ha] at h; cases h
    · exact h.2
  case struct fields =>
    rcases hk with hk | hk <;> rw [hv.1] at hk <;> cases hk
  case other =>
    rcases hk with hk | hk
    · exact absurd hk hv.1.2
    · exact absurd hk hv.1.1.2
  all_goals (rcases hk with hk | hk <;> rw [hv] at hk <;> cases hk)

theorem Exact.slice {E : Env} {t : TypeId} {edec : typeDecoder}
    (hk : (E.types t).kind = .Array ∨ (E.types t).kind = .Slice)
    (he : Exact E (E.types t).elem edec) : Exact E t (sliceDecoder.closure edec) := by
  intro v hv
  obtain ⟨elems, rfl, hty, hlen⟩ := seq_of_hasType hk hv
  obtain ⟨hok, hshort⟩ := sliceDecoder.loop_exact he elems hty
  refine ⟨?_, ?_⟩
  · intro order w hw
    simp only [size] at hw
    obtain ⟨elems', hty', hlen', hsz', hrun⟩ := hok order w hw
    refine ⟨.seq elems', ?_, by simp only [size, hsz'], ?_⟩
    · simp only [hasType, decide_eq_true_eq, Bool.and_eq_true, Bool.or_eq_true] at hv ⊢
      exact ⟨by rw [hlen']; exact hv.1, hty'⟩
    · intro buf rest
      obtain ⟨buf', h⟩ := hrun buf rest
      exact ⟨buf', by simp only [sliceDecoder.closure, h]⟩
  · intro dec hs
    simp only [size] at hs
    obtain ⟨dec', v', err, h⟩ := hshort dec hs
    exact ⟨dec', .seq v', err, by simp only [sliceDecoder.closure, h]⟩

/-! ## The struct decoder -/

theorem structDecoder.loop_cons (pre ixs : List (List Nat)) (fdec : typeDecoder)
    (rest : List typeDecoder) (dec : decoder) (vpre : List Value) (v0 : Value)
    (vs : List Value) :
    structDecoder.loop (pre ++ [vpre.length] :: ixs) pre.length (fdec :: rest) dec
        (.struct (vpre ++ v0 :: vs)) =
      match fdec dec v0 with
      | .panic => .panic
      | .ret dec f (some err) => .ret dec (.struct (vpre ++ f :: vs)) (some err)
      | .ret dec f none =>
        structDecoder.loop ((pre ++ [[vpre.length]]) ++ ixs) (pre ++ [[vpre.length]]).length
          rest dec (.struct ((vpre ++ [f]) ++ vs)) := by
  rw [structDecoder.loop]
  simp only [List.getElem?_append_right (Nat.le_refl _), Nat.sub_self, List.getElem?_cons_zero,
    Value.FieldByIndex, Value.setFieldByIndex, List.length_append, List.length_singleton,
    List.append_assoc, List.singleton_append, List.set_append_right _ _ (Nat.le_refl _),
    List.set_cons_zero]

theorem skipDecoder.closure_ok (l : Nat) (order : ByteOrder) (buf w rest : List Byte)
    (v : Value) (h : w.length = l) :
    skipDecoder.closure l ⟨⟨order, buf⟩, w ++ rest⟩ v = .ret ⟨⟨order, buf⟩, rest⟩ v none := by
  subst h
  simp [skipDecoder.closure, CopyNDiscard]

theorem skipDecoder.closure_short (l : Nat) (dec : decoder) (v : Value)
    (h : dec.reader.length < l) :
    skipDecoder.closure l dec v = .ret ⟨⟨dec.order, dec.buf⟩, []⟩ v (some .EOF) := by
  have h' : ¬ l ≤ dec.reader.length := by omega
  simp [skipDecoder.closure, CopyNDiscard, h']

/-- One step of the struct loop followed by the rest of the loop: if the first decoder is
exact on a window of `n` bytes and the rest of the loop on the bytes after it, so is the
whole loop. -/
theorem structDecoder.loop_step (fdec : typeDecoder) (rest : List typeDecoder)
    (pre ixs : List (List Nat)) (vpre vs : List Value) (v0 : Value) (n m : Nat)
    (T : Value → Prop) (R : List Value → Prop)
    (hfst : ∀ (order : ByteOrder) (w : List Byte), w.length = n →
      ∃ v0', T v0' ∧ ∀ buf tail, ∃ buf',
        fdec ⟨⟨order, buf⟩, w ++ tail⟩ v0 = .ret ⟨⟨order, buf'⟩, tail⟩ v0' none)
    (hfstShort : ∀ dec : decoder, dec.reader.length < n →
      ∃ dec' v' err, fdec dec v0 = .ret dec' v' (some err))
    (hrest : ∀ v0', (∀ (order : ByteOrder) (w : List Byte), w.length = m →
        ∃ vs', R vs' ∧ ∀ buf tail, ∃ buf',
          structDecoder.loop ((pre ++ [[vpre.length]]) ++ ixs) (pre ++ [[vpre.length]]).length
              rest ⟨⟨order, buf⟩, w ++ tail⟩ (.struct ((vpre ++ [v0']) ++ vs)) =
            .ret ⟨⟨order, buf'⟩, tail⟩ (.struct ((vpre ++ [v0']) ++ vs')) none) ∧
      (∀ dec : decoder, dec.reader.length < m →
        ∃ dec' v' err,
          structDecoder.loop ((pre ++ [[vpre.length]]) ++ ixs) (pre ++ [[vpre.length]]).length
              rest dec (.struct ((vpre ++ [v0']) ++ vs)) = .ret dec' v' (some err))) :
    (∀ (order : ByteOrder) (w : List Byte), w.length = n + m →
      ∃ v0' vs', T v0' ∧ R vs' ∧ ∀ buf tail, ∃ buf',
        structDecoder.loop (pre ++ [vpre.length] :: ixs) pre.length (fdec :: rest)
            ⟨⟨order, buf⟩, w ++ tail⟩ (.struct (vpre ++ v0 :: vs)) =
          .ret ⟨⟨order, buf'⟩, tail⟩ (.struct (vpre ++ v0' :: vs')) none) ∧
    (∀ dec : decoder, dec.reader.length < n + m →
      ∃ dec' v' err,
        structDecoder.loop (pre ++ [vpre.length] :: ixs) pre.length (fdec :: rest) dec
            (.struct (vpre ++ v0 :: vs)) = .ret dec' v' (some err)) := by
  refine ⟨?_, ?_⟩
  · intro order w hlen
    obtain ⟨v0', hT, hrun⟩ := hfst order (w.take n) (by simp; omega)
    obtain ⟨vs', hR, hruns⟩ := (hrest v0').1 order (w.drop n) (by simp; omega)
    refine ⟨v0', vs', hT, hR, ?_⟩
    intro buf tail
    obtain ⟨buf1, h1⟩ := hrun buf (w.drop n ++ tail)
    obtain ⟨buf2, h2⟩ := hruns buf1 tail
    refine ⟨buf2, ?_⟩
    rw [← List.append_assoc, List.take_append_drop] at h1
    rw [structDecoder.loop_cons, h1]
    simp only
    rw [h2]
    simp only [List.append_assoc, List.singleton_append]
  · intro dec hshort
    rw [structDecoder.loop_cons]
    by_cases hn : dec.reader.length < n
    · obtain ⟨dec', v', err, h⟩ := hfstShort dec hn
      rw [h]
      exact ⟨_, _, _, rfl⟩
    · obtain ⟨v0', _, hrun⟩ := hfst dec.order (dec.reader.take n) (by simp; omega)
      obtain ⟨buf1, h1⟩ := hrun dec.buf (dec.reader.drop n)
      rw [← decoder.split] at h1
      obtain ⟨dec', v', err, h⟩ :=
        (hrest v0').2 ⟨⟨dec.order, buf1⟩, dec.reader.drop n⟩ (by simp; omega)
      rw [h1]
      simp only
      exact ⟨_, _, _, h⟩

theorem fieldsHaveType_cons {E : Env} {f : StructField} {fs : List StructField}
    {vs : List Value} (h : fieldsHaveType E (f :: fs) vs = true) :
    ∃ v0 vs', vs = v0 :: vs' ∧ hasType E f.Typ v0 = true ∧ fieldsHaveType E fs vs' = true := by
  cases vs with
  | nil => simp [fieldsHaveType] at h
  | cons v0 vs' =>
    simp only [fieldsHaveType, Bool.and_eq_true] at h
    exact ⟨v0, vs', rfl, h.1, h.2⟩

theorem structDecoder.fields_exact {E : Env} {ii : Nat} {fs : List StructField}
    {ds : List typeDecoder} {ixs : List (List Nat)}
    (hplan : FieldPlan E (Exact E) ii fs ds ixs) :
    ∀ (pre : List (List Nat)) (vpre vs : List Value), vpre.length = ii →
      fieldsHaveType E fs vs = true →
      (∀ (order : ByteOrder) (w : List Byte), w.length = sizeFields E fs vs →
        ∃ vs', (fieldsHaveType E fs vs' = true ∧ sizeFields E fs vs' = sizeFields E fs vs) ∧
          ∀ buf rest, ∃ buf',
            structDecoder.loop (pre ++ ixs) pre.length ds ⟨⟨order, buf⟩, w ++ rest⟩
                (.struct (vpre ++ vs)) =
              .ret ⟨⟨order, buf'⟩, rest⟩ (.struct (vpre ++ vs')) none) ∧
      (∀ dec : decoder, dec.reader.length < sizeFields E fs vs →
        ∃ dec' v' err,
          structDecoder.loop (pre ++ ixs) pre.length ds dec (.struct (vpre ++ vs)) =
            .ret dec' v' (some err)) := by
  induction hplan with
  | nil ii =>
    intro pre vpre vs _ hty
    cases vs with
    | cons v0 vs' => simp [fieldsHaveType] at hty
    | nil =>
      refine ⟨?_, ?_⟩
      · intro order w hlen
        simp only [sizeFields, List.length_eq_zero] at hlen
        subst hlen
        exact ⟨[], ⟨rfl, rfl⟩, fun buf rest => ⟨buf, rfl⟩⟩
      · intro dec hshort
        simp [sizeFields] at hshort
  | @skip ii f fs l ds ixs hname hsz _ ih =>
    intro pre vpre vs hlen hty
    obtain ⟨v0, vs', rfl, hty0, htys⟩ := fieldsHaveType_cons hty
    subst hlen
    have hsize : ∀ u us, sizeFields E (f :: fs) (u :: us) = l + sizeFields E fs us := by
      intro u us
      simp [sizeFields, hname, skipSize, hsz]
    have key := structDecoder.loop_step (skipDecoder.closure l) ds pre ixs vpre vs' v0 l
      (sizeFields E fs vs') (fun v0' => v0' = v0)
      (fun us => fieldsHaveType E fs us = true ∧ sizeFields E fs us = sizeFields E fs vs')
      (fun order w hw => ⟨v0, rfl, fun buf tail =>
        ⟨buf, skipDecoder.closure_ok l order buf w tail v0 hw⟩⟩)
      (fun dec hs => ⟨_, _, _, skipDecoder.closure_short l dec v0 hs⟩)
      (fun v0' => ih (pre ++ [[vpre.length]]) (vpre ++ [v0']) vs' (by simp) htys)
    refine ⟨?_, ?_⟩
    · intro order w hw
      rw [hsize] at hw
      obtain ⟨v0', us, hv0, ⟨hus, hsz'⟩, hrun⟩ := key.1 order w hw
      subst hv0
      exact ⟨v0' :: us, ⟨by simp [fieldsHaveType, hty0, hus], by rw [hsize, hsize, hsz']⟩, hrun⟩
    · intro dec hs
      rw [hsize] at hs
      exact key.2 dec hs
  | @unexported ii f fs ds ixs hname hpkg _ ih =>
    intro pre vpre vs hlen hty
    obtain ⟨v0, vs', rfl, hty0, htys⟩ := fieldsHaveType_cons hty
    subst hlen
    have hsize : ∀ u us, sizeFields E (f :: fs) (u :: us) = sizeFields E fs us := by
      intro u us
      simp [sizeFields, hname, hpkg]
    obtain ⟨hok, hshort⟩ := ih pre (vpre ++ [v0]) vs' (by simp) htys
    simp only [List.append_assoc, List.singleton_append] at hok hshort
    refine ⟨?_, ?_⟩
    · intro order w hw
      rw [hsize] at hw
      obtain ⟨us, ⟨hus, hsz'⟩, hrun⟩ := hok order w hw
      exact ⟨v0 :: us, ⟨by simp [fieldsHaveType, hty0, hus], by rw [hsize, hsize, hsz']⟩, hrun⟩
    · intro dec hs
      rw [hsize] at hs
      exact hshort dec hs
  | @field ii f fs d ds ixs hname hpkg hd _ ih =>
    intro pre vpre vs hlen hty
    obtain ⟨v0, vs', rfl, hty0, htys⟩ := fieldsHaveType_cons hty
    subst hlen
    have hsize : ∀ u us,
        sizeFields E (f :: fs) (u :: us) = size E f.Typ u + sizeFields E fs us := by
      intro u us
      simp [sizeFields, hname, hpkg]
    obtain ⟨hok0, hshort0⟩ := hd v0 hty0
    have key := structDecoder.loop_step d ds pre ixs vpre vs' v0 (size E f.Typ v0)
      (sizeFields E fs vs')
      (fun v0' => hasType E f.Typ v0' = true ∧ size E f.Typ v0' = size E f.Typ v0)
      (fun us => fieldsHaveType E fs us = true ∧ sizeFields E fs us = sizeFields E fs vs')
      (fun order w hw => by
        obtain ⟨v0', h1, h2, h3⟩ := hok0 order w hw
        exact ⟨v0', ⟨h1, h2⟩, h3⟩)
      hshort0
      (fun v0' => ih (pre ++ [[vpre.length]]) (vpre ++ [v0']) vs' (by simp) htys)
    refine ⟨?_, ?_⟩
    · intro order w hw
      rw [hsize] at hw
      obtain ⟨v0', us, ⟨hv0, hs0⟩, ⟨hus, hsz'⟩, hrun⟩ := key.1 order w hw
      exact ⟨v0' :: us, ⟨by simp [fieldsHaveType, hv0, hus], by rw [hsize, hsize, hsz', hs0]⟩,
        hrun⟩
    · intro dec hs
      rw [hsize] at hs
      exact key.2 dec hs

theorem struct_of_hasType {E : Env} {t : TypeId} {v : Value}
    (hk : (E.types t).kind = .Struct) (hv : hasType E t v = true) :
    ∃ fields, v = .struct fields ∧ fieldsHaveType E (E.types t).fields fields = true := by
  cases v <;> simp only [hasType, decide_eq_true_eq, Bool.and_eq_true, Bool.or_eq_true] at hv
  case seq elems =>
    rcases hv.1 with h | h
    · rw [hk] at h; cases h
    · rw [hk] at h; cases h.1
  case struct fields => exact ⟨fields, rfl, hv.2⟩
  case other => exact absurd hk hv.2
  all_goals (rw [hk] at hv; cases hv)

theorem Exact.struct {E : Env} {t : TypeId} {ds : List typeDecoder} {ixs : List (List Nat)}
    (hk : (E.types t).kind = .Struct)
    (hplan : FieldPlan E (Exact E) 0 (E.types t).fields ds ixs) :
    Exact E t (structDecoder.closure ds ixs) := by
  intro v hv
  obtain ⟨fields, rfl, hty⟩ := struct_of_hasType hk hv
  obtain ⟨hok, hshort⟩ := structDecoder.fields_exact hplan [] [] fields rfl hty
  simp only [List.nil_append, List.length_nil] at hok hshort
  refine ⟨?_, ?_⟩
  · intro order w hw
    simp only [size] at hw
    obtain ⟨vs', ⟨hty', hsz'⟩, hrun⟩ := hok order w hw
    refine ⟨.struct vs', ?_, by simp only [size, hsz'], hrun⟩
    simp only [hasType, decide_eq_true_eq, Bool.and_eq_true]
    exact ⟨hk, hty'⟩
  · intro dec hs
    simp only [size] at hs
    exact hshort dec hs

/-- Every decoder that the compiler builds is exact. -/
theorem Exact.closed (E : Env) : Closed E (Exact E) :=
  ⟨fun _ _ hd => Exact.prim hd, fun _ _ hk he => Exact.slice hk he,
    fun _ _ _ hk hplan => Exact.struct hk hplan⟩

/-! ## The shape of a compiled decoder -/

theorem FieldPlan.mono {E : Env} {P Q : TypeId → typeDecoder → Prop}
    (hPQ : ∀ t d, P t d → Q t d) {ii : Nat} {fs : List StructField} {ds : List typeDecoder}
    {ixs : List (List Nat)} (h : FieldPlan E P ii fs ds ixs) : FieldPlan E Q ii fs ds ixs := by
  induction h with
  | nil ii => exact FieldPlan.nil ii
  | skip hname hsz _ ih => exact FieldPlan.skip hname hsz ih
  | unexported hname hpkg _ ih => exact FieldPlan.unexported hname hpkg ih
  | field hname hpkg hd _ ih => exact FieldPlan.field hname hpkg (hPQ _ _ hd) ih

theorem Built.weaken {E : Env} {P Q : TypeId → typeDecoder → Prop}
    (hPQ : ∀ t d, P t d → Q t d) {t : TypeId} {d : typeDecoder} (h : Built E P t d) :
    Built E Q t d := by
  rcases h with h | ⟨hk, edec, he, rfl⟩ | ⟨hk, ds, ixs, hplan, rfl⟩
  · exact Or.inl h
  · exact Or.inr (Or.inl ⟨hk, edec, hPQ _ _ he, rfl⟩)
  · exact Or.inr (Or.inr ⟨hk, ds, ixs, hplan.mono hPQ, rfl⟩)

theorem BuiltN.succ {E : Env} : ∀ (n : Nat) (t : TypeId) (d : typeDecoder),
    BuiltN E n t d → BuiltN E (n + 1) t d := by
  intro n
  induction n with
  | zero => intro t d h; exact h.elim
  | succ n ih => intro t d h; exact Built.weaken ih h

theorem BuiltN.le {E : Env} {n m : Nat} (hnm : n ≤ m) {t : TypeId} {d : typeDecoder}
    (h : BuiltN E n t d) : BuiltN E m t d := by
  induction hnm with
  | refl => exact h
  | step _ ih => exact BuiltN.succ _ _ _ ih

theorem FieldPlan.bounded {E : Env} {ii : Nat} {fs : List StructField}
    {ds : List typeDecoder} {ixs : List (List Nat)}
    (h : FieldPlan E (fun t d => ∃ n, BuiltN E n t d) ii fs ds ixs) :
    ∃ N, FieldPlan E (BuiltN E N) ii fs ds ixs := by
  induction h with
  | nil ii => exact ⟨0, FieldPlan.nil ii⟩
  | skip hname hsz _ ih =>
    obtain ⟨N, hN⟩ := ih
    exact ⟨N, FieldPlan.skip hname hsz hN⟩
  | unexported hname hpkg _ ih =>
    obtain ⟨N, hN⟩ := ih
    exact ⟨N, FieldPlan.unexported hname hpkg hN⟩
  | field hname hpkg hd _ ih =>
    obtain ⟨N, hN⟩ := ih
    obtain ⟨n, hn⟩ := hd
    exact ⟨max n N, FieldPlan.field hname hpkg (BuiltN.le (Nat.le_max_left n N) hn)
      (hN.mono (fun _ _ h => BuiltN.le (Nat.le_max_right n N) h))⟩

theorem BuiltN.all_closed (E : Env) : Closed E (fun t d => ∃ n, BuiltN E n t d) := by
  refine ⟨?_, ?_, ?_⟩
  · intro t d hd
    exact ⟨1, Or.inl hd⟩
  · intro t edec hk he
    obtain ⟨n, hn⟩ := he
    exact ⟨n + 1, Or.inr (Or.inl ⟨hk, edec, hn, rfl⟩)⟩
  · intro t ds ixs hk hplan
    obtain ⟨N, hN⟩ := hplan.bounded
    exact ⟨N + 1, Or.inr (Or.inr ⟨hk, ds, ixs, hN, rfl⟩)⟩

/-- Every decoder that `makeDecoder` returns is put together as `newDecoder` does it, all the
way down. -/
theorem CompilesTo.built {E : Env} {typ : TypeId} {dec : typeDecoder}
    (h : CompilesTo E typ dec) : ∃ n, BuiltN E n typ dec :=
  h.induct (BuiltN.all_closed E)

/-- A decoder for a primitive kind is the primitive decoder of that kind. -/
theorem BuiltN.eq_prim {E : Env} {n : Nat} {t : TypeId} {d : typeDecoder} (d0 : typeDecoder)
    (h : BuiltN E n t d) (hk : (E.types t).kind.decoder = some d0) : d = d0 := by
  cases n with
  | zero => exact h.elim
  | succ n =>
    rcases h with h | ⟨hk', _⟩ | ⟨hk', _⟩
    · rw [hk] at h
      exact (Option.some.inj h).symm
    · rcases hk' with hk' | hk' <;> rw [hk'] at hk <;> cases hk
    · rw [hk'] at hk
      cases hk

/-- A decoder for an array or slice is the closure of `sliceDecoder` over a decoder for the
element type. -/
theorem BuiltN.eq_slice {E : Env} {n : Nat} {t : TypeId} {d : typeDecoder}
    (h : BuiltN E n t d) (hk : (E.types t).kind = .Array ∨ (E.types t).kind = .Slice) :
    ∃ m edec, BuiltN E m (E.types t).elem edec ∧ d = sliceDecoder.closure edec := by
  cases n with
  | zero => exact h.elim
  | succ n =>
    rcases h with h | ⟨_, edec, he, rfl⟩ | ⟨hk', _⟩
    · rcases hk with hk | hk <;> rw [hk] at h <;> cases h
    · exact ⟨n, edec, he, rfl⟩
    · rcases hk with hk | hk <;> rw [hk'] at hk <;> cases hk

/-- A decoder for a struct is the closure of `structDecoder` over the plan of its fields. -/
theorem BuiltN.eq_struct {E : Env} {n : Nat} {t : TypeId} {d : typeDecoder}
    (h : BuiltN E n t d) (hk : (E.types t).kind = .Struct) :
    ∃ m ds ixs, FieldPlan E (BuiltN E m) 0 (E.types t).fields ds ixs ∧
      d = structDecoder.closure ds ixs := by
  cases n with
  | zero => exact h.elim
  | succ n =>
    rcases h with h | ⟨hk', _⟩ | ⟨_, ds, ixs, hplan, rfl⟩
    · rw [hk] at h
      cases h
    · rcases hk' with hk' | hk' <;> rw [hk] at hk' <;> cases hk'
    · exact ⟨n, ds, ixs, hplan, rfl⟩

/-! ## Compiling primitive kinds -/

theorem newDecoder_prim {E : Env} {t : TypeId} {d : typeDecoder}
    (hd : (E.types t).kind.decoder = some d) (mk : Cache → TypeId → Compiled typeDecoder)
    (c : Cache) : newDecoder E mk c t = some (c, .ok d) := by
  unfold newDecoder
  cases hk : (E.types t).kind <;> rw [hk] at hd <;>
    simp only [Kind.decoder, Option.some.injEq] at hd <;>
    first
    | exact absurd hd (by simp)
    | (subst hd; rfl)

theorem makeDecoder_prim {E : Env} {t : TypeId} {d : typeDecoder}
    (hd : (E.types t).kind.decoder = some d) (n : Nat) (c : Cache) :
    ∃ c' d', makeDecoder E (n + 1) c t = some (c', .ok d') := by
  rw [makeDecoder]
  cases hc : c t with
  | some d0 => exact ⟨c, d0, rfl⟩
  | none =>
    simp only [newDecoder_prim hd]
    exact ⟨_, _, rfl⟩

/-! ## C1: the concrete scenario -/

theorem int32Decoder_one (buf : List Byte) (a : Int) (rest : List Byte) :
    int32Decoder ⟨⟨.BigEndian, buf⟩, 0 :: 0 :: 0 :: 1 :: rest⟩ (.int32 a) =
      .ret ⟨⟨.BigEndian, [0, 0, 0, 1] ++ buf.drop 4⟩, rest⟩ (.int32 1) none := by
  simp [int32Decoder, decoder.read, readAtLeast, Value.SetInt, ByteOrder.Uint32,
    ByteOrder.Uint, beUint, toInt64, wrapInt, List.drop_take]

theorem float64Decoder_two_and_a_half (buf : List Byte) (b : GoFloat) :
    float64Decoder ⟨⟨.BigEndian, buf⟩, [0x40, 0x04, 0, 0, 0, 0, 0, 0]⟩ (.float64 b) =
      .ret ⟨⟨.BigEndian, [0x40, 0x04, 0, 0, 0, 0, 0, 0] ++ buf.drop 8⟩, []⟩
        (.float64 (.Float64frombits 0x4004000000000000)) none := by
  simp [float64Decoder, decoder.read, readAtLeast, Value.SetFloat, ByteOrder.Uint64,
    ByteOrder.Uint, beUint, List.drop_take]
  decide

/-- C1. Decoding the 16 bytes `00 00 00 01 | 00 00 00 00 | 40 04 00 00 00 00 00 00` with
big-endian order into a struct `{A int32; _ [4]byte; B float64}` succeeds: the type compiles,
from any cache, and every decoder compiled for it returns no error on that stream, consumes
all 16 bytes and leaves `A = 1` and `B` the float64 with bit pattern `0x4004000000000000`
(2.5), whatever `A`, `B` and the blank field held before; the width of the skip field is what
`dataSize([4]byte)` returns, 4. -/
theorem decode_concrete_scenario (E : Env) (typ tA tS tB : TypeId) (pkg : String)
    (hk : (E.types typ).kind = .Struct)
    (hf : (E.types typ).fields = [⟨"A", "", tA⟩, ⟨"_", pkg, tS⟩, ⟨"B", "", tB⟩])
    (hA : (E.types tA).kind = .Int32) (hB : (E.types tB).kind = .Float64)
    (hS : E.dataSize tS = .ok 4) :
    (∀ c : Cache, ∃ c' dec, makeDecoder E 2 c typ = some (c', .ok dec)) ∧
    ∀ dec, CompilesTo E typ dec →
      ∀ (a : Int) (s : Value) (b : GoFloat) (buf : List Byte), ∃ buf',
        dec ⟨⟨.BigEndian, buf⟩, [0, 0, 0, 1, 0, 0, 0, 0, 0x40, 0x04, 0, 0, 0, 0, 0, 0]⟩
            (.struct [.int32 a, s, .float64 b]) =
          .ret ⟨⟨.BigEndian, buf'⟩, []⟩
            (.struct [.int32 1, s, .float64 (.Float64frombits 0x4004000000000000)]) none := by
  refine ⟨?_, ?_⟩
  · intro c
    rw [makeDecoder]
    cases hc : c typ with
    | some d0 => exact ⟨c, d0, rfl⟩
    | none =>
      have hdA : (E.types tA).kind.decoder = some int32Decoder := by rw [hA]; rfl
      have hdB : (E.types tB).kind.decoder = some float64Decoder := by rw [hB]; rfl
      obtain ⟨c1, d1, h1⟩ := makeDecoder_prim hdA 0 c
      obtain ⟨c2, d3, h3⟩ := makeDecoder_prim hdB 0 c1
      have hfields : structDecoder.fields E (makeDecoder E 1) 0 (E.types typ).fields c [] [] =
          some (c2, .ok ([d1, skipDecoder.closure 4, d3], [[0], [1], [2]])) := by
        rw [hf]
        simp [structDecoder.fields, skipDecoder, h1, h3, hS]
      simp only [newDecoder, hk, structDecoder, hfields]
      exact ⟨_, _, rfl⟩
  · intro dec hdec a s b buf
    obtain ⟨n, hn⟩ := hdec.built
    obtain ⟨m, ds, ixs, hplan, rfl⟩ := hn.eq_struct hk
    rw [hf] at hplan
    cases hplan with
    | skip hname _ _ => simp at hname
    | unexported _ hpkg _ => simp at hpkg
    | field _ _ hd1 hrest =>
      cases hrest with
      | unexported hname _ _ => simp at hname
      | field hname _ _ _ => simp at hname
      | skip _ hsz hrest =>
        cases hrest with
        | skip hname _ _ => simp at hname
        | unexported _ hpkg _ => simp at hpkg
        | field _ _ hd3 hrest =>
          cases hrest
          have e1 := BuiltN.eq_prim int32Decoder hd1 (by simp only [hA]; rfl)
          have e3 := BuiltN.eq_prim float64Decoder hd3 (by simp only [hB]; rfl)
          simp only [hS, Except.ok.injEq] at hsz
          subst e1 e3 hsz
          have s1 := structDecoder.loop_cons [] [[1], [2]] int32Decoder
            [skipDecoder.closure 4, float64Decoder]
            ⟨⟨.BigEndian, buf⟩, [0, 0, 0, 1, 0, 0, 0, 0, 0x40, 0x04, 0, 0, 0, 0, 0, 0]⟩ []
            (.int32 a) [s, .float64 b]
          rw [int32Decoder_one] at s1
          have s2 := structDecoder.loop_cons [[0]] [[2]] (skipDecoder.closure 4)
            [float64Decoder]
            ⟨⟨.BigEndian, [0, 0, 0, 1] ++ buf.drop 4⟩,
              [0, 0, 0, 0, 0x40, 0x04, 0, 0, 0, 0, 0, 0]⟩
            [.int32 1] s [.float64 b]
          have hskip : skipDecoder.closure 4
              ⟨⟨.BigEndian, [0, 0, 0, 1] ++ buf.drop 4⟩,
                [0, 0, 0, 0, 0x40, 0x04, 0, 0, 0, 0, 0, 0]⟩ s =
              .ret ⟨⟨.BigEndian, [0, 0, 0, 1] ++ buf.drop 4⟩,
                [0x40, 0x04, 0, 0, 0, 0, 0, 0]⟩ s none :=
            skipDecoder.closure_ok 4 .BigEndian _ [0, 0, 0, 0] [0x40, 0x04, 0, 0, 0, 0, 0, 0]
              s rfl
          rw [hskip] at s2
          have s3 := structDecoder.loop_cons [[0], [1]] [] float64Decoder []
            ⟨⟨.BigEndian, [0, 0, 0, 1] ++ buf.drop 4⟩, [0x40, 0x04, 0, 0, 0, 0, 0, 0]⟩
            [.int32 1, s] (.float64 b) []
          rw [float64Decoder_two_and_a_half] at s3
          exact ⟨_, s1.trans (s2.trans (s3.trans rfl))⟩

/-- C1 at the example environment, where the struct is type 0: the decoder that a fresh
process compiles for it decodes the 16 bytes into `{A: 7, B: 0}` as `{A: 1, B: 2.5}`. -/
theorem decode_concrete_scenario_witness :
    CompilesTo exampleEnv 0
      (structDecoder.closure [int32Decoder, skipDecoder.closure 4, float64Decoder]
        [[0], [1], [2]]) ∧
    ∃ buf',
      structDecoder.closure [int32Decoder, skipDecoder.closure 4, float64Decoder]
          [[0], [1], [2]]
          ⟨⟨.BigEndian, [0, 0, 0, 0, 0, 0, 0, 0]⟩,
            [0, 0, 0, 1, 0, 0, 0, 0, 0x40, 0x04, 0, 0, 0, 0, 0, 0]⟩
          (.struct [.int32 7, .seq [.uint8 0, .uint8 0, .uint8 0, .uint8 0],
            .float64 (.Float64frombits 0)]) =
        .ret ⟨⟨.BigEndian, buf'⟩, []⟩
          (.struct [.int32 1, .seq [.uint8 0, .uint8 0, .uint8 0, .uint8 0],
            .float64 (.Float64frombits 0x4004000000000000)]) none :=
  have hc : CompilesTo exampleEnv 0
      (structDecoder.closure [int32Decoder, skipDecoder.closure 4, float64Decoder]
        [[0], [1], [2]]) := ⟨Cache.empty, 2, _, Reachable.empty, rfl⟩
  ⟨hc, (decode_concrete_scenario exampleEnv 0 1 2 3 "main" rfl rfl rfl rfl rfl).2 _ hc 7
    (.seq [.uint8 0, .uint8 0, .uint8 0, .uint8 0]) (.Float64frombits 0)
    [0, 0, 0, 0, 0, 0, 0, 0]⟩

/-! ## C2, C3: short streams fail, successful decodes consume exactly `size` bytes -/

/-- Induction over the shape of a decoder. -/
theorem BuiltN.property {E : Env} {P : TypeId → typeDecoder → Prop} (hP : Closed E P) :
    ∀ (n : Nat) (t : TypeId) (d : typeDecoder), BuiltN E n t d → P t d := by
  intro n
  induction n with
  | zero => intro t d h; exact h.elim
  | succ n ih =>
    intro t d h
    rcases h with h | ⟨hk, edec, he, rfl⟩ | ⟨hk, ds, ixs, hplan, rfl⟩
    · exact hP.prim t d h
    · exact hP.slice t edec hk (ih _ _ he)
    · exact hP.struct t ds ixs hk (hplan.mono ih)

/-- Every compiled decoder is exact. -/
theorem CompilesTo.exact {E : Env} {typ : TypeId} {dec : typeDecoder}
    (h : CompilesTo E typ dec) : Exact E typ dec :=
  h.induct (Exact.closed E)

/-- C2. For every compiled type, every destination of that type and every byte order: on a
stream that holds fewer bytes than `size` (the widths of all participating primitives and skip
fields, sequences at the length the destination has) the decoder returns an error. -/
theorem short_stream_is_error (E : Env) (typ : TypeId) (dec : typeDecoder)
    (h : CompilesTo E typ dec) (d : decoder) (v : Value) (hv : hasType E typ v = true)
    (hshort : d.reader.length < size E typ v) :
    ∃ d' v' err, dec d v = .ret d' v' (some err) :=
  (h.exact v hv).2 d hshort

/-- The decoder compiled for type 0 of the example environment. -/
theorem exampleEnv_compiles_struct :
    CompilesTo exampleEnv 0
      (structDecoder.closure [int32Decoder, skipDecoder.closure 4, float64Decoder]
        [[0], [1], [2]]) :=
  ⟨Cache.empty, 2, _, Reachable.empty, rfl⟩

/-- C2 on a stream of 15 bytes for the 16-byte struct of the example environment, in
little-endian order. -/
theorem short_stream_is_error_witness :
    ∃ d' v' err,
      structDecoder.closure [int32Decoder, skipDecoder.closure 4, float64Decoder]
          [[0], [1], [2]]
          ⟨⟨.LittleEndian, [0, 0, 0, 0, 0, 0, 0, 0]⟩,
            [0, 0, 0, 1, 0, 0, 0, 0, 0x40, 0x04, 0, 0, 0, 0, 0]⟩
          (.struct [.int32 7, .seq [.uint8 0, .uint8 0, .uint8 0, .uint8 0],
            .float64 (.Float64frombits 0)]) = .ret d' v' (some err) :=
  short_stream_is_error exampleEnv 0 _ exampleEnv_compiles_struct
    ⟨⟨.LittleEndian, [0, 0, 0, 0, 0, 0, 0, 0]⟩,
      [0, 0, 0, 1, 0, 0, 0, 0, 0x40, 0x04, 0, 0, 0, 0, 0]⟩
    (.struct [.int32 7, .seq [.uint8 0, .uint8 0, .uint8 0, .uint8 0],
      .float64 (.Float64frombits 0)]) rfl (by decide)

/-- A decode that returns no error has consumed exactly `size` bytes and leaves a
destination of the same type and size. -/
theorem Exact.consumed {E : Env} {typ : TypeId} {dec : typeDecoder} (h : Exact E typ dec)
    {d d' : decoder} {v v' : Value} (hv : hasType E typ v = true)
    (hrun : dec d v = .ret d' v' none) :
    size E typ v ≤ d.reader.length ∧ d'.order = d.order ∧
      d'.reader = d.reader.drop (size E typ v) ∧ hasType E typ v' = true ∧
      size E typ v' = size E typ v := by
  obtain ⟨hok, hshort⟩ := h v hv
  by_cases hlen : d.reader.length < size E typ v
  · obtain ⟨d1, v1, err, h1⟩ := hshort d hlen
    rw [h1] at hrun
    cases hrun
  · obtain ⟨v1, hty, hsz, hrun1⟩ :=
      hok d.order (d.reader.take (size E typ v)) (by simp; omega)
    obtain ⟨buf1, h1⟩ := hrun1 d.buf (d.reader.drop (size E typ v))
    rw [← decoder.split, hrun] at h1
    injection h1 with hd hval _
    subst hd hval
    exact ⟨by omega, rfl, rfl, hty, hsz⟩

theorem sizeFields_unexported (E : Env) :
    ∀ (fs : List StructField) (vs : List Value),
      (∀ f ∈ fs, f.Name ≠ "_" ∧ f.PkgPath ≠ "") → sizeFields E fs vs = 0 := by
  intro fs
  induction fs with
  | nil => intro vs _; cases vs <;> rfl
  | cons f fs ih =>
    intro vs hall
    cases vs with
    | nil => rfl
    | cons v vs =>
      have hf := hall f (List.mem_cons_self f fs)
      have hrest := ih vs (fun g hg => hall g (List.mem_cons_of_mem f hg))
      simp [sizeFields, hf.1, hf.2, hrest]

/-- C3, amended. For every compiled type and destination of that type, a decode that returns
no error consumes exactly `size` bytes from the front of the stream (a primitive: its fixed
width; a struct: the sum over its participating and skip fields; an array or slice: the sum
over the existing elements), and the stream left is the input without that prefix; a
zero-length sequence and a struct that has neither participating nor skip fields consume
nothing. -/
theorem decode_consumes_size (E : Env) (typ : TypeId) (dec : typeDecoder)
    (h : CompilesTo E typ dec) (d d' : decoder) (v v' : Value)
    (hv : hasType E typ v = true) (hrun : dec d v = .ret d' v' none) :
    d.reader = d.reader.take (size E typ v) ++ d'.reader ∧
    (d.reader.take (size E typ v)).length = size E typ v ∧
    d'.reader = d.reader.drop (size E typ v) ∧
    (v = .seq [] → d'.reader = d.reader) ∧
    (∀ vs, v = .struct vs → (∀ f ∈ (E.types typ).fields, f.Name ≠ "_" ∧ f.PkgPath ≠ "") →
      d'.reader = d.reader) := by
  obtain ⟨hlen, _, hrd, _, _⟩ := h.exact.consumed hv hrun
  refine ⟨by rw [hrd, List.take_append_drop], by simp; omega, hrd, ?_, ?_⟩
  · intro hnil
    subst hnil
    simpa [size, sizeElems] using hrd
  · intro vs hstruct hall
    subst hstruct
    simpa [size, sizeFields_unexported E _ vs hall] using hrd

/-- C3 at the example environment: the struct of type 0 takes the 16 bytes of a 17-byte
stream and leaves the last one. -/
theorem decode_consumes_size_witness :
    structDecoder.closure [int32Decoder, skipDecoder.closure 4, float64Decoder]
        [[0], [1], [2]]
        ⟨⟨.BigEndian, [0, 0, 0, 0, 0, 0, 0, 0]⟩,
          [0, 0, 0, 1, 0, 0, 0, 0, 0x40, 0x04, 0, 0, 0, 0, 0, 0, 9]⟩
        (.struct [.int32 7, .seq [.uint8 0, .uint8 0, .uint8 0, .uint8 0],
          .float64 (.Float64frombits 0)]) =
      .ret ⟨⟨.BigEndian, [0x40, 0x04, 0, 0, 0, 0, 0, 0]⟩, [9]⟩
        (.struct [.int32 1, .seq [.uint8 0, .uint8 0, .uint8 0, .uint8 0],
          .float64 (.Float64frombits 0x4004000000000000)]) none ∧
    ([0, 0, 0, 1, 0, 0, 0, 0, 0x40, 0x04, 0, 0, 0, 0, 0, 0, 9] : List Byte) =
      List.take 16 [0, 0, 0, 1, 0, 0, 0, 0, 0x40, 0x04, 0, 0, 0, 0, 0, 0, 9] ++ [9] ∧
    ([9] : List Byte) =
      List.drop 16 [0, 0, 0, 1, 0, 0, 0, 0, 0x40, 0x04, 0, 0, 0, 0, 0, 0, 9] :=
  have hrun : structDecoder.closure [int32Decoder, skipDecoder.closure 4, float64Decoder]
      [[0], [1], [2]]
      ⟨⟨.BigEndian, [0, 0, 0, 0, 0, 0, 0, 0]⟩,
        [0, 0, 0, 1, 0, 0, 0, 0, 0x40, 0x04, 0, 0, 0, 0, 0, 0, 9]⟩
      (.struct [.int32 7, .seq [.uint8 0, .uint8 0, .uint8 0, .uint8 0],
        .float64 (.Float64frombits 0)]) =
      .ret ⟨⟨.BigEndian, [0x40, 0x04, 0, 0, 0, 0, 0, 0]⟩, [9]⟩
        (.struct [.int32 1, .seq [.uint8 0, .uint8 0, .uint8 0, .uint8 0],
          .float64 (.Float64frombits 0x4004000000000000)]) none := rfl
  have h := decode_consumes_size exampleEnv 0 _ exampleEnv_compiles_struct _ _ _ _
    (by rfl) hrun
  ⟨hrun, h.1, h.2.2.1⟩

/-- C3 as stated fails for a struct whose only field is a skip field: type 10 of the example
environment, `struct { _ [4]byte }`, has no participating field, and its compiled decoder
returns no error and consumes the 4 bytes that `dataSize([4]byte)` gives. -/
theorem skip_only_struct_consumes :
    CompilesTo exampleEnv 10 (structDecoder.closure [skipDecoder.closure 4] [[0]]) ∧
    hasType exampleEnv 10 (.struct [.seq [.uint8 0, .uint8 0, .uint8 0, .uint8 0]]) = true ∧
    ((exampleEnv.types 10).fields.all (fun f => decide (f.Name = "_"))) = true ∧
    structDecoder.closure [skipDecoder.closure 4] [[0]]
        ⟨⟨.BigEndian, [0, 0, 0, 0, 0, 0, 0, 0]⟩, [1, 2, 3, 4, 5]⟩
        (.struct [.seq [.uint8 0, .uint8 0, .uint8 0, .uint8 0]]) =
      .ret ⟨⟨.BigEndian, [0, 0, 0, 0, 0, 0, 0, 0]⟩, [5]⟩
        (.struct [.seq [.uint8 0, .uint8 0, .uint8 0, .uint8 0]]) none :=
  ⟨⟨Cache.empty, 1, _, Reachable.empty, rfl⟩, rfl, rfl, rfl⟩

/-! ## Determinism of the compiler -/

theorem FieldPlan.deterministic {E : Env} {P Q : TypeId → typeDecoder → Prop}
    (hPQ : ∀ t d1 d2, P t d1 → Q t d2 → d1 = d2) {ii : Nat} {fs : List StructField}
    {ds1 : List typeDecoder} {ixs1 : List (List Nat)} (h1 : FieldPlan E P ii fs ds1 ixs1) :
    ∀ {ds2 : List typeDecoder} {ixs2 : List (List Nat)}, FieldPlan E Q ii fs ds2 ixs2 →
      ds1 = ds2 ∧ ixs1 = ixs2 := by
  induction h1 with
  | nil ii =>
    intro ds2 ixs2 h2
    cases h2
    exact ⟨rfl, rfl⟩
  | skip hname hsz _ ih =>
    intro ds2 ixs2 h2
    cases h2 with
    | skip _ hsz2 hrest =>
      obtain ⟨e1, e2⟩ := ih hrest
      rw [hsz] at hsz2
      injection hsz2 with hl
      subst hl e1 e2
      exact ⟨rfl, rfl⟩
    | unexported hname2 _ _ => exact absurd hname hname2
    | field hname2 _ _ _ => exact absurd hname hname2
  | unexported hname hpkg _ ih =>
    intro ds2 ixs2 h2
    cases h2 with
    | skip hname2 _ _ => exact absurd hname2 hname
    | unexported _ _ hrest => exact ih hrest
    | field _ hpkg2 _ _ => exact absurd hpkg2 hpkg
  | field hname hpkg hd _ ih =>
    intro ds2 ixs2 h2
    cases h2 with
    | skip hname2 _ _ => exact absurd hname2 hname
    | unexported _ hpkg2 _ => exact absurd hpkg hpkg2
    | field _ _ hd2 hrest =>
      obtain ⟨e1, e2⟩ := ih hrest
      have e0 := hPQ _ _ _ hd hd2
      subst e0 e1 e2
      exact ⟨rfl, rfl⟩

/-- Two decoders put together for the same type are the same function. -/
theorem BuiltN.same {E : Env} : ∀ (n m : Nat) (t : TypeId) (d1 d2 : typeDecoder),
    BuiltN E n t d1 → BuiltN E m t d2 → d1 = d2 := by
  intro n
  induction n with
  | zero => intro m t d1 d2 h1 _; exact h1.elim
  | succ n ih =>
    intro m t d1 d2 h1 h2
    cases m with
    | zero => exact h2.elim
    | succ m =>
      rcases h1 with h1 | ⟨hk1, e1, he1, rfl⟩ | ⟨hk1, ds1, ixs1, hp1, rfl⟩
      · exact (BuiltN.eq_prim d1 (n := m + 1) h2 h1).symm
      · obtain ⟨m', e2, he2, rfl⟩ := BuiltN.eq_slice (n := m + 1) h2 hk1
        rw [ih _ _ _ _ he1 he2]
      · obtain ⟨m', ds2, ixs2, hp2, rfl⟩ := BuiltN.eq_struct (n := m + 1) h2 hk1
        obtain ⟨e1, e2⟩ := hp1.deterministic (fun t a b ha hb => ih m' t a b ha hb) hp2
        rw [e1, e2]

/-- Any two decoders compiled for the same type, in whatever state of the cache, are the
same function. -/
theorem CompilesTo.unique {E : Env} {typ : TypeId} {d1 d2 : typeDecoder}
    (h1 : CompilesTo E typ d1) (h2 : CompilesTo E typ d2) : d1 = d2 := by
  obtain ⟨n, hn⟩ := h1.built
  obtain ⟨m, hm⟩ := h2.built
  exact BuiltN.same n m typ d1 d2 hn hm

/-! ## C4: a sequence is decoded element by element, at its existing length -/

theorem sliceDecoder.loop_windows {E : Env} {et : TypeId} {edec : typeDecoder}
    (he : Exact E et edec) (order : ByteOrder) (w : Nat) :
    ∀ (elems : List Value) (s buf : List Byte), elemsHaveType E et elems = true →
      (∀ e ∈ elems, size E et e = w) → elems.length * w ≤ s.length →
      ∃ buf' elems',
        sliceDecoder.loop edec ⟨⟨order, buf⟩, s⟩ elems =
          .ret ⟨⟨order, buf'⟩, s.drop (elems.length * w)⟩ elems' none ∧
        elems'.length = elems.length ∧
        ∀ i e, elems[i]? = some e → ∃ e', elems'[i]? = some e' ∧
          ∀ buf0, ∃ buf1,
            edec ⟨⟨order, buf0⟩, (s.drop (i * w)).take w⟩ e =
              .ret ⟨⟨order, buf1⟩, []⟩ e' none := by
  intro elems
  induction elems with
  | nil =>
    intro s buf _ _ _
    refine ⟨buf, [], by simp [sliceDecoder.loop], rfl, ?_⟩
    intro i e hi
    simp at hi
  | cons e es ih =>
    intro s buf hty hw hlen
    simp only [elemsHaveType, Bool.and_eq_true] at hty
    have hwe : size E et e = w := hw e (List.mem_cons_self e es)
    have hlen' : w + es.length * w ≤ s.length := by
      simp only [List.length_cons, Nat.add_mul, Nat.one_mul] at hlen
      omega
    obtain ⟨e', _, _, hrun⟩ := (he e hty.1).1 order (s.take w) (by simp; omega)
    obtain ⟨buf1, h1⟩ := hrun buf (s.drop w)
    rw [List.take_append_drop] at h1
    obtain ⟨buf2, es', h2, hl2, hpt⟩ := ih (s.drop w) buf1 hty.2
      (fun x hx => hw x (List.mem_cons_of_mem e hx)) (by simp; omega)
    refine ⟨buf2, e' :: es', ?_, by simp [hl2], ?_⟩
    · rw [sliceDecoder.loop, h1]
      simp only [h2, List.drop_drop, List.length_cons, Nat.add_mul, Nat.one_mul]
      rw [Nat.add_comm w]
    · intro i x hi
      cases i with
      | zero =>
        simp only [List.getElem?_cons_zero, Option.some.injEq] at hi
        subst hi
        refine ⟨e', by simp, ?_⟩
        intro buf0
        obtain ⟨b, hb⟩ := hrun buf0 []
        simp only [List.append_nil] at hb
        exact ⟨b, by simpa using hb⟩
      | succ j =>
        simp only [List.getElem?_cons_succ] at hi
        obtain ⟨x', hx', hwin⟩ := hpt j x hi
        refine ⟨x', by simpa using hx', ?_⟩
        intro buf0
        obtain ⟨b, hb⟩ := hwin buf0
        refine ⟨b, ?_⟩
        rw [List.drop_drop] at hb
        have harith : (j + 1) * w = w + j * w := by rw [Nat.add_mul, Nat.one_mul, Nat.add_comm]
        rw [harith]
        exact hb

/-- C4. For a compiled array or slice type whose existing destination has `n` elements, each
of width `w`, and a stream `s` of at least `n * w` bytes: the decoder is the closure of
`sliceDecoder` over an element decoder `edec` (the one every compilation of the element type
gives), it returns no error, leaves the stream
`s.drop (n * w)` (all later bytes unread) and a sequence of the same length `n`, and element
`i` of the result is what `edec` makes of the old element `i` on the window
`[i * w, (i + 1) * w)` alone. -/
theorem slice_decode_windows (E : Env) (typ : TypeId) (dec : typeDecoder)
    (h : CompilesTo E typ dec)
    (hk : (E.types typ).kind = .Array ∨ (E.types typ).kind = .Slice)
    (order : ByteOrder) (buf s : List Byte) (elems : List Value) (w : Nat)
    (hv : hasType E typ (.seq elems) = true)
    (hw : ∀ e ∈ elems, size E (E.types typ).elem e = w)
    (hlen : elems.length * w ≤ s.length) :
    ∃ edec buf' elems',
      dec = sliceDecoder.closure edec ∧
      (∀ d2, CompilesTo E (E.types typ).elem d2 → d2 = edec) ∧
      dec ⟨⟨order, buf⟩, s⟩ (.seq elems) =
        .ret ⟨⟨order, buf'⟩, s.drop (elems.length * w)⟩ (.seq elems') none ∧
      elems'.length = elems.length ∧
      ∀ i e, elems[i]? = some e → ∃ e', elems'[i]? = some e' ∧
        ∀ buf0, ∃ buf1,
          edec ⟨⟨order, buf0⟩, (s.drop (i * w)).take w⟩ e =
            .ret ⟨⟨order, buf1⟩, []⟩ e' none := by
  obtain ⟨n, hn⟩ := h.built
  obtain ⟨m, edec, he, rfl⟩ := hn.eq_slice hk
  obtain ⟨elems0, h0, hty, _⟩ := seq_of_hasType hk hv
  injection h0 with h0
  subst h0
  obtain ⟨buf', elems', hrun, hl, hpt⟩ :=
    sliceDecoder.loop_windows (BuiltN.property (Exact.closed E) m _ _ he) order w elems s buf
      hty hw hlen
  refine ⟨edec, buf', elems', rfl, ?_, by simp only [sliceDecoder.closure, hrun], hl, hpt⟩
  intro d2 hd2
  obtain ⟨k2, hb2⟩ := hd2.built
  exact BuiltN.same k2 m _ d2 edec hb2 he

/-- The decoder compiled for `[]int16`, type 6 of the example environment. -/
theorem exampleEnv_compiles_slice :
    CompilesTo exampleEnv 6 (sliceDecoder.closure int16Decoder) :=
  ⟨Cache.empty, 2, _, Reachable.empty, rfl⟩

/-- C4 for a `[]int16` pre-sized to 2 on a little-endian stream that holds 3 elements: 4 bytes
are consumed, the third element stays in the stream and the slice keeps its 2 elements. -/
theorem slice_decode_windows_witness :
    ∃ edec buf' elems',
      sliceDecoder.closure int16Decoder = sliceDecoder.closure edec ∧
      (∀ d2, CompilesTo exampleEnv (exampleEnv.types 6).elem d2 → d2 = edec) ∧
      sliceDecoder.closure int16Decoder
          ⟨⟨.LittleEndian, [0, 0, 0, 0, 0, 0, 0, 0]⟩, [0xfe, 0xff, 1, 0, 3, 0]⟩
          (.seq [.int16 0, .int16 0]) =
        .ret ⟨⟨.LittleEndian, buf'⟩, List.drop ([Value.int16 0, .int16 0].length * 2)
          [0xfe, 0xff, 1, 0, 3, 0]⟩ (.seq elems') none ∧
      elems'.length = [Value.int16 0, .int16 0].length ∧
      ∀ i e, [Value.int16 0, .int16 0][i]? = some e → ∃ e', elems'[i]? = some e' ∧
        ∀ buf0, ∃ buf1,
          edec ⟨⟨.LittleEndian, buf0⟩,
              (List.drop (i * 2) [0xfe, 0xff, 1, 0, 3, 0]).take 2⟩ e =
            .ret ⟨⟨.LittleEndian, buf1⟩, []⟩ e' none :=
  slice_decode_windows exampleEnv 6 _ exampleEnv_compiles_slice (Or.inr rfl) .LittleEndian
    [0, 0, 0, 0, 0, 0, 0, 0] [0xfe, 0xff, 1, 0, 3, 0] [.int16 0, .int16 0] 2 (by rfl)
    (by
      intro e he
      simp only [List.mem_cons, List.mem_singleton, List.not_mem_nil, or_false, or_self] at he
      subst he
      rfl)
    (by decide)

/-! ## C5: the bytes of a skip field are dropped -/

theorem int32Decoder_bytes (order : ByteOrder) (buf : List Byte) (b0 b1 b2 b3 : Byte)
    (rest : List Byte) (x : Int) :
    int32Decoder ⟨⟨order, buf⟩, b0 :: b1 :: b2 :: b3 :: rest⟩ (.int32 x) =
      .ret ⟨⟨order, [b0, b1, b2, b3] ++ buf.drop 4⟩, rest⟩
        (.int32 (wrapInt 32 (toInt64 (order.Uint [b0, b1, b2, b3])))) none := by
  simp [int32Decoder, decoder.read, readAtLeast, Value.SetInt, ByteOrder.Uint32,
    List.drop_take]

/-- The decoder of a struct with an int32 field, a skip field of width 4 and a second int32
field, on 12 bytes. -/
theorem skip_struct_run (order : ByteOrder) (buf : List Byte)
    (b0 b1 b2 b3 b4 b5 b6 b7 b8 b9 b10 b11 : Byte) (x y : Int) (s : Value) :
    structDecoder.closure [int32Decoder, skipDecoder.closure 4, int32Decoder]
        [[0], [0 + 1], [0 + 1 + 1]]
        ⟨⟨order, buf⟩, [b0, b1, b2, b3, b4, b5, b6, b7, b8, b9, b10, b11]⟩
        (.struct [.int32 x, s, .int32 y]) =
      .ret ⟨⟨order, [b8, b9, b10, b11] ++ buf.drop 4⟩, []⟩
        (.struct [.int32 (wrapInt 32 (toInt64 (order.Uint [b0, b1, b2, b3]))), s,
          .int32 (wrapInt 32 (toInt64 (order.Uint [b8, b9, b10, b11])))]) none := by
  have s1 := structDecoder.loop_cons [] [[1], [2]] int32Decoder
    [skipDecoder.closure 4, int32Decoder]
    ⟨⟨order, buf⟩, [b0, b1, b2, b3, b4, b5, b6, b7, b8, b9, b10, b11]⟩ []
    (.int32 x) [s, .int32 y]
  rw [int32Decoder_bytes] at s1
  have s2 := structDecoder.loop_cons [[0]] [[2]] (skipDecoder.closure 4) [int32Decoder]
    ⟨⟨order, [b0, b1, b2, b3] ++ buf.drop 4⟩, [b4, b5, b6, b7, b8, b9, b10, b11]⟩
    [.int32 (wrapInt 32 (toInt64 (order.Uint [b0, b1, b2, b3])))] s [.int32 y]
  have hskip : skipDecoder.closure 4
      ⟨⟨order, [b0, b1, b2, b3] ++ buf.drop 4⟩, [b4, b5, b6, b7, b8, b9, b10, b11]⟩ s =
      .ret ⟨⟨order, [b0, b1, b2, b3] ++ buf.drop 4⟩, [b8, b9, b10, b11]⟩ s none :=
    skipDecoder.closure_ok 4 order _ [b4, b5, b6, b7] [b8, b9, b10, b11] s rfl
  rw [hskip] at s2
  have s3 := structDecoder.loop_cons [[0], [1]] [] int32Decoder []
    ⟨⟨order, [b0, b1, b2, b3] ++ buf.drop 4⟩, [b8, b9, b10, b11]⟩
    [.int32 (wrapInt 32 (toInt64 (order.Uint [b0, b1, b2, b3]))), s] (.int32 y) []
  rw [int32Decoder_bytes] at s3
  exact s1.trans (s2.trans (s3.trans rfl))

/-- C5. For a struct with an int32 field, a skip field named `_` of width 4 and a second
int32 field, every 12-byte input and every byte order: each compiled decoder returns no error,
binds the first field from bytes 0-3 and the third from bytes 8-11, leaves the blank field as
it was, and the whole outcome is the same for any two inputs that differ only in bytes
4-7. -/
theorem skip_field_ignored (E : Env) (typ tX tS tY : TypeId) (nameX nameY pkg : String)
    (hk : (E.types typ).kind = .Struct)
    (hf : (E.types typ).fields = [⟨nameX, "", tX⟩, ⟨"_", pkg, tS⟩, ⟨nameY, "", tY⟩])
    (hnX : nameX ≠ "_") (hnY : nameY ≠ "_")
    (hX : (E.types tX).kind = .Int32) (hY : (E.types tY).kind = .Int32)
    (hS : E.dataSize tS = .ok 4) (dec : typeDecoder) (h : CompilesTo E typ dec)
    (order : ByteOrder) (buf : List Byte) (b0 b1 b2 b3 b4 b5 b6 b7 b8 b9 b10 b11 : Byte)
    (x y : Int) (s : Value) :
    dec ⟨⟨order, buf⟩, [b0, b1, b2, b3, b4, b5, b6, b7, b8, b9, b10, b11]⟩
        (.struct [.int32 x, s, .int32 y]) =
      .ret ⟨⟨order, [b8, b9, b10, b11] ++ buf.drop 4⟩, []⟩
        (.struct [.int32 (wrapInt 32 (toInt64 (order.Uint [b0, b1, b2, b3]))), s,
          .int32 (wrapInt 32 (toInt64 (order.Uint [b8, b9, b10, b11])))]) none ∧
    ∀ c4 c5 c6 c7 : Byte,
      dec ⟨⟨order, buf⟩, [b0, b1, b2, b3, c4, c5, c6, c7, b8, b9, b10, b11]⟩
          (.struct [.int32 x, s, .int32 y]) =
        dec ⟨⟨order, buf⟩, [b0, b1, b2, b3, b4, b5, b6, b7, b8, b9, b10, b11]⟩
          (.struct [.int32 x, s, .int32 y]) := by
  obtain ⟨n, hn⟩ := h.built
  obtain ⟨m, ds, ixs, hplan, rfl⟩ := hn.eq_struct hk
  rw [hf] at hplan
  cases hplan with
  | skip hname _ _ => exact absurd hname hnX
  | unexported _ hpkg _ => simp at hpkg
  | field _ _ hd1 hrest =>
    cases hrest with
    | unexported hname _ _ => simp at hname
    | field hname _ _ _ => simp at hname
    | skip _ hsz hrest =>
      cases hrest with
      | skip hname _ _ => exact absurd hname hnY
      | unexported _ hpkg _ => simp at hpkg
      | field _ _ hd3 hrest =>
        cases hrest
        have e1 := BuiltN.eq_prim int32Decoder hd1 (by simp only [hX]; rfl)
        have e3 := BuiltN.eq_prim int32Decoder hd3 (by simp only [hY]; rfl)
        simp only [hS, Except.ok.injEq] at hsz
        subst e1 e3 hsz
        refine ⟨skip_struct_run order buf b0 b1 b2 b3 b4 b5 b6 b7 b8 b9 b10 b11 x y s, ?_⟩
        intro c4 c5 c6 c7
        rw [skip_struct_run, skip_struct_run]

/-- The decoder compiled for `struct { X int32; _ [4]byte; Y int32 }`, type 7 of the example
environment. -/
theorem exampleEnv_compiles_skip_struct :
    CompilesTo exampleEnv 7
      (structDecoder.closure [int32Decoder, skipDecoder.closure 4, int32Decoder]
        [[0], [1], [2]]) :=
  ⟨Cache.empty, 2, _, Reachable.empty, rfl⟩

/-- C5 at type 7 of the example environment, big-endian, on
`00 00 00 01 | aa bb cc dd | ff ff ff fe`: the fields become 1 and -2. -/
theorem skip_field_ignored_witness :
    structDecoder.closure [int32Decoder, skipDecoder.closure 4, int32Decoder]
        [[0], [1], [2]]
        ⟨⟨.BigEndian, [0, 0, 0, 0, 0, 0, 0, 0]⟩,
          [0, 0, 0, 1, 0xaa, 0xbb, 0xcc, 0xdd, 0xff, 0xff, 0xff, 0xfe]⟩
        (.struct [.int32 5, .seq [.uint8 0, .uint8 0, .uint8 0, .uint8 0], .int32 6]) =
      .ret ⟨⟨.BigEndian, [0xff, 0xff, 0xff, 0xfe, 0, 0, 0, 0]⟩, []⟩
        (.struct [.int32 1, .seq [.uint8 0, .uint8 0, .uint8 0, .uint8 0], .int32 (-2)])
        none :=
  (skip_field_ignored exampleEnv 7 1 2 1 "X" "Y" "main" rfl rfl (by decide) (by decide) rfl
    rfl rfl _ exampleEnv_compiles_skip_struct .BigEndian [0, 0, 0, 0, 0, 0, 0, 0]
    0 0 0 1 0xaa 0xbb 0xcc 0xdd 0xff 0xff 0xff 0xfe 5 6
    (.seq [.uint8 0, .uint8 0, .uint8 0, .uint8 0])).1

/-! ## C6: the integer decoders -/

theorem wrapInt8_spec (n : Nat) (h : n < 2 ^ 8) :
    -2 ^ 7 ≤ wrapInt 8 (n : ℤ) ∧ wrapInt 8 (n : ℤ) < 2 ^ 7 ∧ wrapInt 8 (n : ℤ) % 2 ^ 8 = n := by
  unfold wrapInt
  simp only
  norm_num at h ⊢
  split <;> omega

theorem wrapInt16_spec (n : Nat) (h : n < 2 ^ 16) :
    -2 ^ 15 ≤ wrapInt 16 (toInt64 n) ∧ wrapInt 16 (toInt64 n) < 2 ^ 15 ∧
      wrapInt 16 (toInt64 n) % 2 ^ 16 = n := by
  unfold toInt64 wrapInt
  simp only
  norm_num at h ⊢
  split <;> split <;> omega

theorem wrapInt32_spec (n : Nat) (h : n < 2 ^ 32) :
    -2 ^ 31 ≤ wrapInt 32 (toInt64 n) ∧ wrapInt 32 (toInt64 n) < 2 ^ 31 ∧
      wrapInt 32 (toInt64 n) % 2 ^ 32 = n := by
  unfold toInt64 wrapInt
  simp only
  norm_num at h ⊢
  split <;> split <;> omega

theorem wrapInt64_spec (n : Nat) (h : n < 2 ^ 64) :
    -2 ^ 63 ≤ wrapInt 64 (toInt64 n) ∧ wrapInt 64 (toInt64 n) < 2 ^ 63 ∧
      wrapInt 64 (toInt64 n) % 2 ^ 64 = n := by
  unfold toInt64 wrapInt
  simp only
  norm_num at h ⊢
  split <;> split <;> omega

theorem Uint_two (order : ByteOrder) (b0 b1 : Byte) :
    order.Uint [b0, b1] < 2 ^ 16 ∧
    ByteOrder.BigEndian.Uint [b0, b1] = b0.val * 2 ^ 8 + b1.val ∧
    ByteOrder.LittleEndian.Uint [b0, b1] = b0.val + b1.val * 2 ^ 8 := by
  cases order <;> simp only [ByteOrder.Uint, beUint, leUint, List.foldl, List.foldr] <;> omega

theorem Uint_four (order : ByteOrder) (b0 b1 b2 b3 : Byte) :
    order.Uint [b0, b1, b2, b3] < 2 ^ 32 ∧
    ByteOrder.BigEndian.Uint [b0, b1, b2, b3] =
      b0.val * 2 ^ 24 + b1.val * 2 ^ 16 + b2.val * 2 ^ 8 + b3.val ∧
    ByteOrder.LittleEndian.Uint [b0, b1, b2, b3] =
      b0.val + b1.val * 2 ^ 8 + b2.val * 2 ^ 16 + b3.val * 2 ^ 24 := by
  cases order <;> simp only [ByteOrder.Uint, beUint, leUint, List.foldl, List.foldr] <;> omega

theorem Uint_eight (order : ByteOrder) (b0 b1 b2 b3 b4 b5 b6 b7 : Byte) :
    order.Uint [b0, b1, b2, b3, b4, b5, b6, b7] < 2 ^ 64 ∧
    ByteOrder.BigEndian.Uint [b0, b1, b2, b3, b4, b5, b6, b7] =
      b0.val * 2 ^ 56 + b1.val * 2 ^ 48 + b2.val * 2 ^ 40 + b3.val * 2 ^ 32 +
        b4.val * 2 ^ 24 + b5.val * 2 ^ 16 + b6.val * 2 ^ 8 + b7.val ∧
    ByteOrder.LittleEndian.Uint [b0, b1, b2, b3, b4, b5, b6, b7] =
      b0.val + b1.val * 2 ^ 8 + b2.val * 2 ^ 16 + b3.val * 2 ^ 24 + b4.val * 2 ^ 32 +
        b5.val * 2 ^ 40 + b6.val * 2 ^ 48 + b7.val * 2 ^ 56 := by
  cases order <;> simp only [ByteOrder.Uint, beUint, leUint, List.foldl, List.foldr] <;> omega

/-- C6. For every byte order and input of the width of the kind, each of the eight integer
decoders returns no error, consumes the input and stores the integer that the input
represents in that order: an unsigned kind gets the value `order.Uint` of the bytes, which lies
in `[0, 2^(8w))`; a signed kind gets the `x` in `[-2^(8w-1), 2^(8w-1))` with
`x mod 2^(8w) = order.Uint` of the bytes (two's complement), although the bytes are first
widened to `int64`. `order.Uint` is the positional value of the bytes, most significant byte
first for big-endian and last for little-endian. So `int8` from `0xFF` is `-1` and `int16`
from big-endian `FF FE` is `-2`. -/
theorem integer_decoders_value (order : ByteOrder) (buf : List Byte)
    (b0 b1 b2 b3 b4 b5 b6 b7 : Byte) (old : Int) (oldu : Nat) :
    (∃ x, int8Decoder ⟨⟨order, buf⟩, [b0]⟩ (.int8 old) =
        .ret ⟨⟨order, [b0] ++ buf.drop 1⟩, []⟩ (.int8 x) none ∧
      -2 ^ 7 ≤ x ∧ x < 2 ^ 7 ∧ x % 2 ^ 8 = (b0.val : ℤ)) ∧
    (∃ x, int16Decoder ⟨⟨order, buf⟩, [b0, b1]⟩ (.int16 old) =
        .ret ⟨⟨order, [b0, b1] ++ buf.drop 2⟩, []⟩ (.int16 x) none ∧
      -2 ^ 15 ≤ x ∧ x < 2 ^ 15 ∧ x % 2 ^ 16 = (order.Uint [b0, b1] : ℤ)) ∧
    (∃ x, int32Decoder ⟨⟨order, buf⟩, [b0, b1, b2, b3]⟩ (.int32 old) =
        .ret ⟨⟨order, [b0, b1, b2, b3] ++ buf.drop 4⟩, []⟩ (.int32 x) none ∧
      -2 ^ 31 ≤ x ∧ x < 2 ^ 31 ∧ x % 2 ^ 32 = (order.Uint [b0, b1, b2, b3] : ℤ)) ∧
    (∃ x, int64Decoder ⟨⟨order, buf⟩, [b0, b1, b2, b3, b4, b5, b6, b7]⟩ (.int64 old) =
        .ret ⟨⟨order, [b0, b1, b2, b3, b4, b5, b6, b7] ++ buf.drop 8⟩, []⟩ (.int64 x) none ∧
      -2 ^ 63 ≤ x ∧ x < 2 ^ 63 ∧
      x % 2 ^ 64 = (order.Uint [b0, b1, b2, b3, b4, b5, b6, b7] : ℤ)) ∧
    (uint8Decoder ⟨⟨order, buf⟩, [b0]⟩ (.uint8 oldu) =
        .ret ⟨⟨order, [b0] ++ buf.drop 1⟩, []⟩ (.uint8 b0.val) none ∧ b0.val < 2 ^ 8) ∧
    (uint16Decoder ⟨⟨order, buf⟩, [b0, b1]⟩ (.uint16 oldu) =
        .ret ⟨⟨order, [b0, b1] ++ buf.drop 2⟩, []⟩ (.uint16 (order.Uint [b0, b1])) none ∧
      order.Uint [b0, b1] < 2 ^ 16) ∧
    (uint32Decoder ⟨⟨order, buf⟩, [b0, b1, b2, b3]⟩ (.uint32 oldu) =
        .ret ⟨⟨order, [b0, b1, b2, b3] ++ buf.drop 4⟩, []⟩
          (.uint32 (order.Uint [b0, b1, b2, b3])) none ∧
      order.Uint [b0, b1, b2, b3] < 2 ^ 32) ∧
    (uint64Decoder ⟨⟨order, buf⟩, [b0, b1, b2, b3, b4, b5, b6, b7]⟩ (.uint64 oldu) =
        .ret ⟨⟨order, [b0, b1, b2, b3, b4, b5, b6, b7] ++ buf.drop 8⟩, []⟩
          (.uint64 (order.Uint [b0, b1, b2, b3, b4, b5, b6, b7])) none ∧
      order.Uint [b0, b1, b2, b3, b4, b5, b6, b7] < 2 ^ 64) ∧
    (ByteOrder.BigEndian.Uint [b0, b1] = b0.val * 2 ^ 8 + b1.val ∧
      ByteOrder.LittleEndian.Uint [b0, b1] = b0.val + b1.val * 2 ^ 8) ∧
    (ByteOrder.BigEndian.Uint [b0, b1, b2, b3] =
        b0.val * 2 ^ 24 + b1.val * 2 ^ 16 + b2.val * 2 ^ 8 + b3.val ∧
      ByteOrder.LittleEndian.Uint [b0, b1, b2, b3] =
        b0.val + b1.val * 2 ^ 8 + b2.val * 2 ^ 16 + b3.val * 2 ^ 24) ∧
    (ByteOrder.BigEndian.Uint [b0, b1, b2, b3, b4, b5, b6, b7] =
        b0.val * 2 ^ 56 + b1.val * 2 ^ 48 + b2.val * 2 ^ 40 + b3.val * 2 ^ 32 +
          b4.val * 2 ^ 24 + b5.val * 2 ^ 16 + b6.val * 2 ^ 8 + b7.val ∧
      ByteOrder.LittleEndian.Uint [b0, b1, b2, b3, b4, b5, b6, b7] =
        b0.val + b1.val * 2 ^ 8 + b2.val * 2 ^ 16 + b3.val * 2 ^ 24 + b4.val * 2 ^ 32 +
          b5.val * 2 ^ 40 + b6.val * 2 ^ 48 + b7.val * 2 ^ 56) ∧
    int8Decoder ⟨⟨order, buf⟩, [0xFF]⟩ (.int8 old) =
      .ret ⟨⟨order, [0xFF] ++ buf.drop 1⟩, []⟩ (.int8 (-1)) none ∧
    int16Decoder ⟨⟨.BigEndian, buf⟩, [0xFF, 0xFE]⟩ (.int16 old) =
      .ret ⟨⟨.BigEndian, [0xFF, 0xFE] ++ buf.drop 2⟩, []⟩ (.int16 (-2)) none := by
  have h2 := Uint_two order b0 b1
  have h4 := Uint_four order b0 b1 b2 b3
  have h8 := Uint_eight order b0 b1 b2 b3 b4 b5 b6 b7
  refine ⟨⟨wrapInt 8 (b0.val : ℤ), ?_, wrapInt8_spec _ (by omega)⟩,
    ⟨_, ?_, wrapInt16_spec _ h2.1⟩, ⟨_, ?_, wrapInt32_spec _ h4.1⟩,
    ⟨_, ?_, wrapInt64_spec _ h8.1⟩, ⟨?_, by omega⟩, ⟨?_, h2.1⟩, ⟨?_, h4.1⟩, ⟨?_, h8.1⟩,
    h2.2, h4.2, h8.2, ?_, ?_⟩
  · simp [int8Decoder, decoder.read, readAtLeast, Value.SetInt, List.drop_take]
  · simp [int16Decoder, decoder.read, readAtLeast, Value.SetInt, ByteOrder.Uint16,
      List.drop_take]
  · simp [int32Decoder, decoder.read, readAtLeast, Value.SetInt, ByteOrder.Uint32,
      List.drop_take]
  · simp [int64Decoder, decoder.read, readAtLeast, Value.SetInt, ByteOrder.Uint64,
      List.drop_take]
  · simp [uint8Decoder, decoder.read, readAtLeast, Value.SetUint, toUint64, List.drop_take]
    omega
  · have hb := h2.1
    simp [uint16Decoder, decoder.read, readAtLeast, Value.SetUint, toUint64,
      ByteOrder.Uint16, List.drop_take]
    omega
  · have hb := h4.1
    simp [uint32Decoder, decoder.read, readAtLeast, Value.SetUint, toUint64,
      ByteOrder.Uint32, List.drop_take]
    omega
  · have hb := h8.1
    simp [uint64Decoder, decoder.read, readAtLeast, Value.SetUint, toUint64,
      ByteOrder.Uint64, List.drop_take]
    omega
  · simp [int8Decoder, decoder.read, readAtLeast, Value.SetInt, List.drop_take]
    decide
  · simp [int16Decoder, decoder.read, readAtLeast, Value.SetInt, ByteOrder.Uint16,
      List.drop_take]
    decide

/-! ## C7: byte order -/

theorem leUint_eq_beUint_reverse (bs : List Byte) : leUint bs = beUint bs.reverse := by
  unfold leUint beUint
  rw [List.foldl_reverse]
  congr 1
  funext x acc
  omega

theorem store_reverse {k : Kind} {w : Nat} (hw : k.width = some w) (bs : List Byte)
    (hlen : bs.length = w) (v : Value) :
    k.store .LittleEndian bs v = k.store .BigEndian (k.reverseWindow bs) v := by
  cases k <;> simp only [Kind.width, Option.some.injEq] at hw <;> try exact absurd hw (by simp)
  all_goals subst hw
  case Complex64 =>
    have h1 : ((bs.take 4).reverse ++ (bs.drop 4).reverse).take 4 = (bs.take 4).reverse :=
      List.take_left' (by simp; omega)
    have h2 : ((bs.take 4).reverse ++ (bs.drop 4).reverse).drop 4 = (bs.drop 4).reverse :=
      List.drop_left' (by simp; omega)
    have h3 : (bs.drop 4).reverse.take 4 = (bs.drop 4).reverse :=
      List.take_of_length_le (by simp; omega)
    have h4 : (bs.drop 4).take 4 = bs.drop 4 := List.take_of_length_le (by simp; omega)
    simp only [Kind.store, Kind.reverseWindow, ByteOrder.Uint32, ByteOrder.Uint,
      leUint_eq_beUint_reverse, h1, h2, h3, h4]
  case Complex128 =>
    have h1 : ((bs.take 8).reverse ++ (bs.drop 8).reverse).take 8 = (bs.take 8).reverse :=
      List.take_left' (by simp; omega)
    have h2 : ((bs.take 8).reverse ++ (bs.drop 8).reverse).drop 8 = (bs.drop 8).reverse :=
      List.drop_left' (by simp; omega)
    have h3 : (bs.drop 8).reverse.take 8 = (bs.drop 8).reverse :=
      List.take_of_length_le (by simp; omega)
    have h4 : (bs.drop 8).take 8 = bs.drop 8 := List.take_of_length_le (by simp; omega)
    simp only [Kind.store, Kind.reverseWindow, ByteOrder.Uint64, ByteOrder.Uint,
      leUint_eq_beUint_reverse, h1, h2, h3, h4]
  case Int8 | Uint8 =>
    obtain ⟨b, rfl⟩ := List.length_eq_one.mp hlen
    simp only [Kind.store, Kind.reverseWindow, List.reverse_singleton]
  case Int16 | Uint16 =>
    have h1 : bs.take 2 = bs := List.take_of_length_le (by omega)
    have h2 : bs.reverse.take 2 = bs.reverse := List.take_of_length_le (by simp; omega)
    simp only [Kind.store, Kind.reverseWindow, ByteOrder.Uint16, ByteOrder.Uint,
      leUint_eq_beUint_reverse, h1, h2]
  case Int32 | Uint32 | Float32 =>
    have h1 : bs.take 4 = bs := List.take_of_length_le (by omega)
    have h2 : bs.reverse.take 4 = bs.reverse := List.take_of_length_le (by simp; omega)
    simp only [Kind.store, Kind.reverseWindow, ByteOrder.Uint32, ByteOrder.Uint,
      leUint_eq_beUint_reverse, h1, h2]
  case Int64 | Uint64 | Float64 =>
    have h1 : bs.take 8 = bs := List.take_of_length_le (by omega)
    have h2 : bs.reverse.take 8 = bs.reverse := List.take_of_length_le (by simp; omega)
    simp only [Kind.store, Kind.reverseWindow, ByteOrder.Uint64, ByteOrder.Uint,
      leUint_eq_beUint_reverse, h1, h2]

theorem decoder.read_order (d : decoder) (n : Nat) : (d.read n).1.order = d.order := by
  simp only [decoder.read]

theorem prim_keeps_order {k : Kind} {d : typeDecoder} (hd : k.decoder = some d) :
    KeepsOrder d := by
  intro dec v dec' v' err h
  cases k <;> simp only [Kind.decoder, Option.some.injEq] at hd <;> try exact absurd hd (by simp)
  all_goals subst hd
  case Complex128 =>
    unfold complex128Decoder at h
    have h1 := decoder.read_order dec 8
    rcases hr : dec.read 8 with ⟨dec1, _ | e⟩ <;> rw [hr] at h h1 <;> simp only at h h1
    · have h2 := decoder.read_order dec1 8
      rcases hr2 : dec1.read 8 with ⟨dec2, _ | e⟩ <;> rw [hr2] at h h2 <;> simp only at h h2
      · split at h
        · injection h with hdec
          rw [← hdec, h2, h1]
        · cases h
      · injection h with hdec
        rw [← hdec, h2, h1]
    · injection h with hdec
      rw [← hdec, h1]
  all_goals
    simp only [int8Decoder, int16Decoder, int32Decoder, int64Decoder, uint8Decoder,
      uint16Decoder, uint32Decoder, uint64Decoder, float32Decoder, float64Decoder,
      complex64Decoder] at h
    first
    | (have h1 := decoder.read_order dec 1
       rcases hr : dec.read 1 with ⟨dec1, _ | e⟩ <;> rw [hr] at h h1 <;> simp only at h h1
       · split at h
         · injection h with hdec
           rw [← hdec, h1]
         · cases h
       · injection h with hdec
         rw [← hdec, h1])
    | (have h1 := decoder.read_order dec 2
       rcases hr : dec.read 2 with ⟨dec1, _ | e⟩ <;> rw [hr] at h h1 <;> simp only at h h1
       · split at h
         · injection h with hdec
           rw [← hdec, h1]
         · cases h
       · injection h with hdec
         rw [← hdec, h1])
    | (have h1 := decoder.read_order dec 4
       rcases hr : dec.read 4 with ⟨dec1, _ | e⟩ <;> rw [hr] at h h1 <;> simp only at h h1
       · split at h
         · injection h with hdec
           rw [← hdec, h1]
         · cases h
       · injection h with hdec
         rw [← hdec, h1])
    | (have h1 := decoder.read_order dec 8
       rcases hr : dec.read 8 with ⟨dec1, _ | e⟩ <;> rw [hr] at h h1 <;> simp only at h h1
       · split at h
         · injection h with hdec
           rw [← hdec, h1]
         · cases h
       · injection h with hdec
         rw [← hdec, h1])

theorem skip_keeps_order (l : Nat) : KeepsOrder (skipDecoder.closure l) := by
  intro dec v dec' v' err h
  simp only [skipDecoder.closure] at h
  injection h with hdec
  rw [← hdec]

theorem sliceLoop_keeps_order {edec : typeDecoder} (he : KeepsOrder edec) :
    ∀ (elems : List Value) (dec dec' : decoder) (vs' : List Value) (err : Option Error),
      sliceDecoder.loop edec dec elems = .ret dec' vs' err → dec'.order = dec.order := by
  intro elems
  induction elems with
  | nil =>
    intro dec dec' vs' err h
    simp only [sliceDecoder.loop] at h
    injection h with hdec
    rw [← hdec]
  | cons e es ih =>
    intro dec dec' vs' err h
    rw [sliceDecoder.loop] at h
    cases h1 : edec dec e with
    | panic => rw [h1] at h; cases h
    | ret d1 e1 err1 =>
      have ho := he _ _ _ _ _ h1
      rw [h1] at h
      cases err1 with
      | some er =>
        simp only at h
        injection h with hdec
        rw [← hdec, ho]
      | none =>
        simp only at h
        cases h2 : sliceDecoder.loop edec d1 es with
        | panic => rw [h2] at h; cases h
        | ret d2 es2 err2 =>
          rw [h2] at h
          simp only at h
          injection h with hdec
          rw [← hdec, ih _ _ _ _ h2, ho]

theorem structLoop_keeps_order (ixs : List (List Nat)) :
    ∀ (ds : List typeDecoder), (∀ d ∈ ds, KeepsOrder d) →
      ∀ (ii : Nat) (dec : decoder) (v : Value) (dec' : decoder) (v' : Value)
        (err : Option Error),
        structDecoder.loop ixs ii ds dec v = .ret dec' v' err → dec'.order = dec.order := by
  intro ds
  induction ds with
  | nil =>
    intro _ ii dec v dec' v' err h
    simp only [structDecoder.loop] at h
    injection h with hdec
    rw [← hdec]
  | cons d ds ih =>
    intro hall ii dec v dec' v' err h
    rw [structDecoder.loop] at h
    cases hix : ixs[ii]? with
    | none => rw [hix] at h; cases h
    | some index =>
      rw [hix] at h
      simp only at h
      cases hf : v.FieldByIndex index with
      | none => rw [hf] at h; cases h
      | some f =>
        rw [hf] at h
        simp only at h
        cases h1 : d dec f with
        | panic => rw [h1] at h; cases h
        | ret d1 f1 err1 =>
          have ho := hall d (List.mem_cons_self d ds) _ _ _ _ _ h1
          rw [h1] at h
          cases err1 with
          | some er =>
            simp only at h
            injection h with hdec
            rw [← hdec, ho]
          | none =>
            simp only at h
            rw [ih (fun x hx => hall x (List.mem_cons_of_mem d hx)) _ _ _ _ _ _ h, ho]

theorem FieldPlan.forall_mem {E : Env} {P : typeDecoder → Prop}
    (hskip : ∀ l, P (skipDecoder.closure l)) {ii : Nat} {fs : List StructField}
    {ds : List typeDecoder} {ixs : List (List Nat)}
    (h : FieldPlan E (fun _ d => P d) ii fs ds ixs) : ∀ d ∈ ds, P d := by
  induction h with
  | nil ii => intro d hd; cases hd
  | skip _ _ _ ih =>
    intro d hd
    rcases List.mem_cons.mp hd with rfl | hd
    · exact hskip _
    · exact ih d hd
  | unexported _ _ _ ih => exact ih
  | field _ _ hP _ ih =>
    intro d hd
    rcases List.mem_cons.mp hd with rfl | hd
    · exact hP
    · exact ih d hd

/-- No decoder that the compiler builds changes the byte order of the decoder state. -/
theorem keepsOrder_closed (E : Env) : Closed E (fun _ d => KeepsOrder d) := by
  refine ⟨fun _ _ hd => prim_keeps_order hd, ?_, ?_⟩
  · intro t edec _ he dec v dec' v' err h
    simp only [sliceDecoder.closure] at h
    cases v <;> try cases h
    case seq elems =>
      simp only at h
      cases h1 : sliceDecoder.loop edec dec elems with
      | panic => rw [h1] at h; cases h
      | ret d1 es err1 =>
        rw [h1] at h
        simp only at h
        injection h with hdec
        rw [← hdec]
        exact sliceLoop_keeps_order he _ _ _ _ _ h1
  · intro t ds ixs _ hplan dec v dec' v' err h
    exact structLoop_keeps_order ixs ds (hplan.forall_mem skip_keeps_order) _ _ _ _ _ _ h

theorem reverseWindow_length (k : Kind) (bs : List Byte) :
    (k.reverseWindow bs).length = bs.length := by
  cases k <;> simp [Kind.reverseWindow] <;> omega

theorem prim_decoder_window {k : Kind} {d : typeDecoder} {w : Nat} (hd : k.decoder = some d)
    (hw : k.width = some w) (order : ByteOrder) (buf bs rest : List Byte) (v : Value)
    (hlen : bs.length = w) :
    (d ⟨⟨order, buf⟩, bs ++ rest⟩ v).result =
      (k.store order bs v).map (fun v' => (rest, v', none)) := by
  obtain ⟨buf', h⟩ := prim_decoder_ok hd hw ⟨⟨order, buf⟩, bs ++ rest⟩ v
    (by simp only [List.length_append]; omega)
  simp only [List.take_left' hlen, List.drop_left' hlen] at h
  rw [h]
  cases k.store order bs v <;> rfl

theorem Uniform.for_prim {E : Env} {t : TypeId} {d : typeDecoder}
    (hd : (E.types t).kind.decoder = some d) : Uniform E t d := by
  obtain ⟨n, hw⟩ := width_of_decoder hd
  intro order v hv w hlen buf rest
  obtain ⟨v', hst, _, _, hsz⟩ := store_of_hasType hw hv order w
  have hn : w.length = n := by omega
  have hdec : decoded E order t v w = v' := by
    cases v <;> simp only [hasType, decide_eq_true_eq, Bool.and_eq_true, Bool.or_eq_true] at hv
    case seq elems =>
      rcases hv with ⟨hk | ⟨hk, _⟩, _⟩ <;> rw [hk] at hw <;> simp [Kind.width] at hw
    case struct fields =>
      rw [hv.1] at hw
      simp [Kind.width] at hw
    all_goals simp only [decoded, hst, Option.getD_some]
  have hlen' : n ≤ (⟨⟨order, buf⟩, w ++ rest⟩ : decoder).reader.length := by
    simp only [List.length_append]; omega
  obtain ⟨b, h⟩ := prim_decoder_ok hd hw ⟨⟨order, buf⟩, w ++ rest⟩ v hlen'
  simp only [List.take_left' hn, List.drop_left' hn, hst] at h
  rw [hdec]
  exact ⟨b, h⟩

theorem sliceDecoder.loop_uniform {E : Env} {et : TypeId} {edec : typeDecoder}
    (he : Uniform E et edec) (order : ByteOrder) :
    ∀ (es : List Value), elemsHaveType E et es = true →
      ∀ w : List Byte, w.length = sizeElems E et es →
        ∀ buf rest, ∃ buf',
          sliceDecoder.loop edec ⟨⟨order, buf⟩, w ++ rest⟩ es =
            .ret ⟨⟨order, buf'⟩, rest⟩ (decodedElems E order et es w) none := by
  intro es
  induction es with
  | nil =>
    intro _ w hlen buf rest
    simp only [sizeElems, List.length_eq_zero] at hlen
    subst hlen
    exact ⟨buf, rfl⟩
  | cons e es ih =>
    intro hty w hlen buf rest
    simp only [elemsHaveType, Bool.and_eq_true] at hty
    simp only [sizeElems] at hlen
    obtain ⟨a, ha⟩ := he order e hty.1 (w.take (size E et e))
      (by simp only [List.length_take]; omega) buf (w.drop (size E et e) ++ rest)
    obtain ⟨b, hb⟩ := ih hty.2 (w.drop (size E et e))
      (by simp only [List.length_drop]; omega) a rest
    rw [← List.append_assoc, List.take_append_drop] at ha
    refine ⟨b, ?_⟩
    rw [sliceDecoder.loop, ha]
    simp only [hb, decodedElems]

theorem Uniform.for_slice {E : Env} {t : TypeId} {edec : typeDecoder}
    (hk : (E.types t).kind = .Array ∨ (E.types t).kind = .Slice)
    (he : Uniform E (E.types t).elem edec) : Uniform E t (sliceDecoder.closure edec) := by
  intro order v hv w hlen buf rest
  obtain ⟨es, rfl, hty, _⟩ := seq_of_hasType hk hv
  simp only [size] at hlen
  obtain ⟨b, h⟩ := sliceDecoder.loop_uniform he order es hty w hlen buf rest
  exact ⟨b, by simp only [sliceDecoder.closure, h, decoded]⟩

theorem structDecoder.fields_uniform {E : Env} {ii : Nat} {fs : List StructField}
    {ds : List typeDecoder} {ixs : List (List Nat)}
    (hplan : FieldPlan E (Uniform E) ii fs ds ixs) (order : ByteOrder) :
    ∀ (pre : List (List Nat)) (vpre vs : List Value), vpre.length = ii →
      fieldsHaveType E fs vs = true →
      ∀ w : List Byte, w.length = sizeFields E fs vs →
        ∀ buf rest, ∃ buf',
          structDecoder.loop (pre ++ ixs) pre.length ds ⟨⟨order, buf⟩, w ++ rest⟩
              (.struct (vpre ++ vs)) =
            .ret ⟨⟨order, buf'⟩, rest⟩ (.struct (vpre ++ decodedFields E order fs vs w))
              none := by
  induction hplan with
  | nil ii =>
    intro pre vpre vs _ hty w hlen buf rest
    cases vs with
    | cons v vs' => simp [fieldsHaveType] at hty
    | nil =>
      simp only [sizeFields, List.length_eq_zero] at hlen
      subst hlen
      exact ⟨buf, rfl⟩
  | @skip ii f fs l ds ixs hname hsz _ ih =>
    intro pre vpre vs hlen0 hty w hlen buf rest
    obtain ⟨a, vs', rfl, _, htys⟩ := fieldsHaveType_cons hty
    subst hlen0
    have hsk : skipSize E f.Typ = l := by simp [skipSize, hsz]
    have hsize : sizeFields E (f :: fs) (a :: vs') = l + sizeFields E fs vs' := by
      simp [sizeFields, hname, hsk]
    rw [hsize] at hlen
    obtain ⟨b, hb⟩ := ih (pre ++ [[vpre.length]]) (vpre ++ [a]) vs' (by simp) htys (w.drop l)
      (by simp only [List.length_drop]; omega) buf rest
    have hw : w ++ rest = w.take l ++ (w.drop l ++ rest) := by
      rw [← List.append_assoc, List.take_append_drop]
    have hl : (w.take l).length = l := by simp only [List.length_take]; omega
    refine ⟨b, ?_⟩
    rw [hw, structDecoder.loop_cons, skipDecoder.closure_ok l order buf _ _ a hl]
    simp only
    rw [hb]
    simp [decodedFields, hname, hsk]
  | @unexported ii f fs ds ixs hname hpkg _ ih =>
    intro pre vpre vs hlen0 hty w hlen buf rest
    obtain ⟨a, vs', rfl, _, htys⟩ := fieldsHaveType_cons hty
    subst hlen0
    have hsize : sizeFields E (f :: fs) (a :: vs') = sizeFields E fs vs' := by
      simp [sizeFields, hname, hpkg]
    rw [hsize] at hlen
    obtain ⟨b, hb⟩ := ih pre (vpre ++ [a]) vs' (by simp) htys w hlen buf rest
    refine ⟨b, ?_⟩
    simpa [decodedFields, hname, hpkg] using hb
  | @field ii f fs d ds ixs hname hpkg hd _ ih =>
    intro pre vpre vs hlen0 hty w hlen buf rest
    obtain ⟨a, vs', rfl, hta, htys⟩ := fieldsHaveType_cons hty
    subst hlen0
    have hsize : sizeFields E (f :: fs) (a :: vs') = size E f.Typ a + sizeFields E fs vs' := by
      simp [sizeFields, hname, hpkg]
    rw [hsize] at hlen
    obtain ⟨c, hc⟩ := hd order a hta (w.take (size E f.Typ a))
      (by simp only [List.length_take]; omega) buf (w.drop (size E f.Typ a) ++ rest)
    obtain ⟨b, hb⟩ := ih (pre ++ [[vpre.length]])
      (vpre ++ [decoded E order f.Typ a (w.take (size E f.Typ a))]) vs' (by simp) htys
      (w.drop (size E f.Typ a)) (by simp only [List.length_drop]; omega) c rest
    rw [← List.append_assoc, List.take_append_drop] at hc
    refine ⟨b, ?_⟩
    rw [structDecoder.loop_cons, hc]
    simp only
    rw [hb]
    simp [decodedFields, hname, hpkg]

theorem Uniform.for_struct {E : Env} {t : TypeId} {ds : List typeDecoder}
    {ixs : List (List Nat)} (hk : (E.types t).kind = .Struct)
    (hplan : FieldPlan E (Uniform E) 0 (E.types t).fields ds ixs) :
    Uniform E t (structDecoder.closure ds ixs) := by
  intro order v hv w hlen buf rest
  obtain ⟨vs, rfl, hty⟩ := struct_of_hasType hk hv
  simp only [size] at hlen
  obtain ⟨b, h⟩ := structDecoder.fields_uniform hplan order [] [] vs rfl hty w hlen buf rest
  simp only [List.nil_append, List.length_nil] at h
  exact ⟨b, by simp only [structDecoder.closure, h, decoded]⟩

/-- Every decoder that the compiler builds applies the byte order of the call to every
primitive. -/
theorem Uniform.uniform_closed (E : Env) : Closed E (Uniform E) :=
  ⟨fun _ _ hd => Uniform.for_prim hd, fun _ _ hk he => Uniform.for_slice hk he,
    fun _ _ _ hk hplan => Uniform.for_struct hk hplan⟩

/-- C7. For every primitive kind and every input window of its width, decoding with
little-endian order leaves the same stream, destination and error as decoding with big-endian
order after the bytes of the window were reversed, where for the complex kinds each of the two
float halves is reversed on its own (for complex64, little-endian `01 00 00 00 02 00 00 00`
and big-endian `00 00 00 01 00 00 00 02` both give real bits 1 and imaginary bits 2, while
the wholly reversed `00 00 00 02 00 00 00 01` gives real bits 2 and imaginary bits 1); for a
kind of width 1 the result is the same in any two orders. One order is applied to every
primitive of a decode call: no compiled decoder changes the byte order of the decoder state,
and a compiled decoder called with an order on a window of the size of the destination
returns the destination with every participating primitive stored from its own window with
that very order (for `struct { X int32; _ [4]byte; Y int32 }`, a little-endian call on
`01 00 00 00 09 09 09 09 02 00 00 00` gives `X = 1` and `Y = 2`, a big-endian call
`X = 16777216` and `Y = 33554432`). -/
theorem byte_order_reversal (k : Kind) (d : typeDecoder) (w : Nat)
    (hd : k.decoder = some d) (hw : k.width = some w) (bs rest buf : List Byte) (v : Value)
    (hlen : bs.length = w) :
    (d ⟨⟨.LittleEndian, buf⟩, bs ++ rest⟩ v).result =
      (d ⟨⟨.BigEndian, buf⟩, k.reverseWindow bs ++ rest⟩ v).result ∧
    (w = 1 → ∀ o1 o2 : ByteOrder,
      (d ⟨⟨o1, buf⟩, bs ++ rest⟩ v).result = (d ⟨⟨o2, buf⟩, bs ++ rest⟩ v).result) ∧
    (∀ (E : Env) (typ : TypeId) (dec : typeDecoder), CompilesTo E typ dec → KeepsOrder dec) ∧
    (∀ re im : GoFloat,
      (complex64Decoder ⟨⟨.LittleEndian, buf⟩, [1, 0, 0, 0, 2, 0, 0, 0]⟩
          (.complex64 re im)).result =
        some ([], .complex64 (.Float32frombits 1) (.Float32frombits 2), none) ∧
      (complex64Decoder ⟨⟨.BigEndian, buf⟩, [0, 0, 0, 1, 0, 0, 0, 2]⟩
          (.complex64 re im)).result =
        some ([], .complex64 (.Float32frombits 1) (.Float32frombits 2), none) ∧
      (complex64Decoder ⟨⟨.BigEndian, buf⟩, [0, 0, 0, 2, 0, 0, 0, 1]⟩
          (.complex64 re im)).result =
        some ([], .complex64 (.Float32frombits 2) (.Float32frombits 1), none)) ∧
    (∀ (E : Env) (typ : TypeId) (dec : typeDecoder), CompilesTo E typ dec →
      ∀ (order : ByteOrder) (dst : Value), hasType E typ dst = true →
        ∀ win : List Byte, win.length = size E typ dst →
          ∀ scratch tail : List Byte, ∃ scratch',
            dec ⟨⟨order, scratch⟩, win ++ tail⟩ dst =
              .ret ⟨⟨order, scratch'⟩, tail⟩ (decoded E order typ dst win) none) ∧
    (∀ x y : Int,
      decoded exampleEnv .LittleEndian 7
          (.struct [.int32 x, .seq [.uint8 0, .uint8 0, .uint8 0, .uint8 0], .int32 y])
          [1, 0, 0, 0, 9, 9, 9, 9, 2, 0, 0, 0] =
        .struct [.int32 1, .seq [.uint8 0, .uint8 0, .uint8 0, .uint8 0], .int32 2] ∧
      decoded exampleEnv .BigEndian 7
          (.struct [.int32 x, .seq [.uint8 0, .uint8 0, .uint8 0, .uint8 0], .int32 y])
          [1, 0, 0, 0, 9, 9, 9, 9, 2, 0, 0, 0] =
        .struct [.int32 16777216, .seq [.uint8 0, .uint8 0, .uint8 0, .uint8 0],
          .int32 33554432]) := by
  refine ⟨?_, ?_, fun E typ dec h => h.induct (keepsOrder_closed E), ?_,
    fun E typ dec h => h.induct (Uniform.uniform_closed E), ?_⟩
  · rw [prim_decoder_window hd hw _ _ _ _ _ hlen,
      prim_decoder_window hd hw _ _ _ _ _ ((reverseWindow_length k bs).trans hlen),
      store_reverse hw bs hlen]
  · intro h1 o1 o2
    subst h1
    rw [prim_decoder_window hd hw _ _ _ _ _ hlen, prim_decoder_window hd hw _ _ _ _ _ hlen]
    cases k <;> simp only [Kind.width, Option.some.injEq] at hw
    case Int8 => rfl
    case Uint8 => rfl
    all_goals cases hw
  · intro re im
    have hcd : Kind.Complex64.decoder = some complex64Decoder := rfl
    have hcw : Kind.Complex64.width = some 8 := rfl
    have e1 := prim_decoder_window hcd hcw .LittleEndian buf [1, 0, 0, 0, 2, 0, 0, 0] []
      (.complex64 re im) rfl
    have e2 := prim_decoder_window hcd hcw .BigEndian buf [0, 0, 0, 1, 0, 0, 0, 2] []
      (.complex64 re im) rfl
    have e3 := prim_decoder_window hcd hcw .BigEndian buf [0, 0, 0, 2, 0, 0, 0, 1] []
      (.complex64 re im) rfl
    exact ⟨e1.trans rfl, e2.trans rfl, e3.trans rfl⟩
  · intro x y
    constructor <;>
      simp [decoded, decodedFields, exampleEnv, exampleTypes, size, Kind.width, skipSize,
        exampleDataSize, Kind.store, Value.SetInt, toInt64, wrapInt, ByteOrder.Uint32,
        ByteOrder.Uint, beUint, leUint]

/-- C7 for complex64 on `01 00 00 00 02 00 00 00`: little-endian gives what big-endian gives
on `00 00 00 01 00 00 00 02`; and for the compiled decoder of
`struct { X int32; _ [4]byte; Y int32 }`, called little-endian on
`01 00 00 00 09 09 09 09 02 00 00 00`: both fields are decoded little-endian. -/
theorem byte_order_reversal_witness :
    ((complex64Decoder ⟨⟨.LittleEndian, [0, 0, 0, 0, 0, 0, 0, 0]⟩,
        [1, 0, 0, 0, 2, 0, 0, 0] ++ []⟩
        (.complex64 (.Float32frombits 0) (.Float32frombits 0))).result =
      (complex64Decoder ⟨⟨.BigEndian, [0, 0, 0, 0, 0, 0, 0, 0]⟩,
        Kind.Complex64.reverseWindow [1, 0, 0, 0, 2, 0, 0, 0] ++ []⟩
        (.complex64 (.Float32frombits 0) (.Float32frombits 0))).result ∧
    Kind.Complex64.reverseWindow [1, 0, 0, 0, 2, 0, 0, 0] = [0, 0, 0, 1, 0, 0, 0, 2]) ∧
    ∃ scratch',
      structDecoder.closure [int32Decoder, skipDecoder.closure 4, int32Decoder]
          [[0], [1], [2]]
          ⟨⟨.LittleEndian, [0, 0, 0, 0, 0, 0, 0, 0]⟩,
            [1, 0, 0, 0, 9, 9, 9, 9, 2, 0, 0, 0] ++ [0xff]⟩
          (.struct [.int32 7, .seq [.uint8 0, .uint8 0, .uint8 0, .uint8 0], .int32 7]) =
        .ret ⟨⟨.LittleEndian, scratch'⟩, [0xff]⟩
          (.struct [.int32 1, .seq [.uint8 0, .uint8 0, .uint8 0, .uint8 0], .int32 2]) none :=
  ⟨⟨(byte_order_reversal .Complex64 complex64Decoder 8 rfl rfl [1, 0, 0, 0, 2, 0, 0, 0] []
    [0, 0, 0, 0, 0, 0, 0, 0] (.complex64 (.Float32frombits 0) (.Float32frombits 0)) rfl).1,
    rfl⟩,
   (byte_order_reversal .Complex64 complex64Decoder 8 rfl rfl [1, 0, 0, 0, 2, 0, 0, 0] []
    [0, 0, 0, 0, 0, 0, 0, 0] (.complex64 (.Float32frombits 0) (.Float32frombits 0)) rfl).2.2.2.2.1
    exampleEnv 7 _ exampleEnv_compiles_skip_struct .LittleEndian
    (.struct [.int32 7, .seq [.uint8 0, .uint8 0, .uint8 0, .uint8 0], .int32 7]) rfl
    [1, 0, 0, 0, 9, 9, 9, 9, 2, 0, 0, 0] rfl [0, 0, 0, 0, 0, 0, 0, 0] [0xff]⟩

/-! ## C8: the widths of the primitive decoders -/

theorem prim_consumes {k : Kind} {d : typeDecoder} {w : Nat} (hd : k.decoder = some d)
    (hw : k.width = some w) : ConsumesExactly d w := by
  intro dec v dec' v' h
  by_cases hlen : w ≤ dec.reader.length
  · obtain ⟨buf, hrun⟩ := prim_decoder_ok hd hw dec v hlen
    rw [h] at hrun
    cases hst : k.store dec.order (dec.reader.take w) v with
    | none => rw [hst] at hrun; cases hrun
    | some v1 =>
      rw [hst] at hrun
      injection hrun with hdec
      rw [hdec]
      exact ⟨hlen, rfl⟩
  · obtain ⟨dec1, err, hrun⟩ := prim_decoder_short hd hw dec v (by omega)
    rw [h] at hrun
    cases hrun

theorem prim_chosen {k : Kind} {d : typeDecoder} (hd : k.decoder = some d) : Chooses k d := by
  intro E mk c typ hk
  exact newDecoder_prim (by rw [hk]; exact hd) mk c

theorem prim_succeeds {k : Kind} {d : typeDecoder} {w : Nat} (hd : k.decoder = some d)
    (hw : k.width = some w) (v : Value)
    (hv : ∀ order bs, (k.store order bs v).isSome = true) : SucceedsOn d w v := by
  intro dec hlen
  obtain ⟨buf, hrun⟩ := prim_decoder_ok hd hw dec v hlen
  have hs := hv dec.order (dec.reader.take w)
  cases hst : k.store dec.order (dec.reader.take w) v with
  | none => rw [hst] at hs; cases hs
  | some v1 =>
    rw [hst] at hrun
    exact ⟨_, _, hrun⟩

/-- C8. Each primitive decoder, when it returns no error, has consumed exactly the on-wire
width of its kind: 1 byte for int8 and uint8, 2 for int16 and uint16, 4 for int32, uint32 and
float32, 8 for int64, uint64, float64 and complex64, 16 for complex128; it does return no
error on a stream of that many bytes and a destination of its kind; and `newDecoder` maps
each of these twelve kinds to that decoder. -/
theorem primitive_widths :
    (ConsumesExactly int8Decoder 1 ∧ SucceedsOn int8Decoder 1 (.int8 0) ∧
      Chooses .Int8 int8Decoder) ∧
    (ConsumesExactly uint8Decoder 1 ∧ SucceedsOn uint8Decoder 1 (.uint8 0) ∧
      Chooses .Uint8 uint8Decoder) ∧
    (ConsumesExactly int16Decoder 2 ∧ SucceedsOn int16Decoder 2 (.int16 0) ∧
      Chooses .Int16 int16Decoder) ∧
    (ConsumesExactly uint16Decoder 2 ∧ SucceedsOn uint16Decoder 2 (.uint16 0) ∧
      Chooses .Uint16 uint16Decoder) ∧
    (ConsumesExactly int32Decoder 4 ∧ SucceedsOn int32Decoder 4 (.int32 0) ∧
      Chooses .Int32 int32Decoder) ∧
    (ConsumesExactly uint32Decoder 4 ∧ SucceedsOn uint32Decoder 4 (.uint32 0) ∧
      Chooses .Uint32 uint32Decoder) ∧
    (ConsumesExactly float32Decoder 4 ∧
      SucceedsOn float32Decoder 4 (.float32 (.Float32frombits 0)) ∧
      Chooses .Float32 float32Decoder) ∧
    (ConsumesExactly int64Decoder 8 ∧ SucceedsOn int64Decoder 8 (.int64 0) ∧
      Chooses .Int64 int64Decoder) ∧
    (ConsumesExactly uint64Decoder 8 ∧ SucceedsOn uint64Decoder 8 (.uint64 0) ∧
      Chooses .Uint64 uint64Decoder) ∧
    (ConsumesExactly float64Decoder 8 ∧
      SucceedsOn float64Decoder 8 (.float64 (.Float64frombits 0)) ∧
      Chooses .Float64 float64Decoder) ∧
    (ConsumesExactly complex64Decoder 8 ∧
      SucceedsOn complex64Decoder 8 (.complex64 (.Float32frombits 0) (.Float32frombits 0)) ∧
      Chooses .Complex64 complex64Decoder) ∧
    (ConsumesExactly complex128Decoder 16 ∧
      SucceedsOn complex128Decoder 16
        (.complex128 (.Float64frombits 0) (.Float64frombits 0)) ∧
      Chooses .Complex128 complex128Decoder) :=
  have all : ∀ (k : Kind) (d : typeDecoder) (w : Nat) (v : Value), k.decoder = some d →
      k.width = some w → (∀ order bs, (k.store order bs v).isSome = true) →
      ConsumesExactly d w ∧ SucceedsOn d w v ∧ Chooses k d :=
    fun _ _ _ v hd hw hv => ⟨prim_consumes hd hw, prim_succeeds hd hw v hv, prim_chosen hd⟩
  ⟨all .Int8 _ _ _ rfl rfl (fun _ _ => rfl), all .Uint8 _ _ _ rfl rfl (fun _ _ => rfl),
    all .Int16 _ _ _ rfl rfl (fun _ _ => rfl), all .Uint16 _ _ _ rfl rfl (fun _ _ => rfl),
    all .Int32 _ _ _ rfl rfl (fun _ _ => rfl), all .Uint32 _ _ _ rfl rfl (fun _ _ => rfl),
    all .Float32 _ _ _ rfl rfl (fun _ _ => rfl), all .Int64 _ _ _ rfl rfl (fun _ _ => rfl),
    all .Uint64 _ _ _ rfl rfl (fun _ _ => rfl), all .Float64 _ _ _ rfl rfl (fun _ _ => rfl),
    all .Complex64 _ _ _ rfl rfl (fun _ _ => rfl),
    all .Complex128 _ _ _ rfl rfl (fun _ _ => rfl)⟩

/-! ## C9: the complex decoders -/

/-- C9. For every input and byte order, `complex64Decoder` on 8 bytes stores the real part
with the float32 bit pattern of bytes 0-3 and the imaginary part with that of bytes 4-7, and
`complex128Decoder` on 16 bytes stores the real part with the float64 bit pattern of bytes
0-7 and the imaginary part with that of bytes 8-15; both return no error and consume the
input. -/
theorem complex_decoders_value (order : ByteOrder) (buf rest : List Byte)
    (b0 b1 b2 b3 b4 b5 b6 b7 b8 b9 b10 b11 b12 b13 b14 b15 : Byte) (re im : GoFloat) :
    (complex64Decoder ⟨⟨order, buf⟩, [b0, b1, b2, b3, b4, b5, b6, b7] ++ rest⟩
        (.complex64 re im)).result =
      some (rest, .complex64 (.Float32frombits (order.Uint [b0, b1, b2, b3]))
        (.Float32frombits (order.Uint [b4, b5, b6, b7])), none) ∧
    (complex128Decoder
        ⟨⟨order, buf⟩,
          [b0, b1, b2, b3, b4, b5, b6, b7, b8, b9, b10, b11, b12, b13, b14, b15] ++ rest⟩
        (.complex128 re im)).result =
      some (rest, .complex128 (.Float64frombits (order.Uint [b0, b1, b2, b3, b4, b5, b6, b7]))
        (.Float64frombits (order.Uint [b8, b9, b10, b11, b12, b13, b14, b15])), none) := by
  have h64 := prim_decoder_window (k := .Complex64) rfl rfl order buf
    [b0, b1, b2, b3, b4, b5, b6, b7] rest (.complex64 re im) rfl
  have h128 := prim_decoder_window (k := .Complex128) rfl rfl order buf
    [b0, b1, b2, b3, b4, b5, b6, b7, b8, b9, b10, b11, b12, b13, b14, b15] rest
    (.complex128 re im) rfl
  exact ⟨h64.trans rfl, h128.trans rfl⟩

/-! ## C10: the fields of a struct, in declaration order -/

theorem sizeFields_cons_take (E : Env) (f : StructField) (fs : List StructField) (v : Value)
    (vs : List Value) (j : Nat) :
    sizeFields E ((f :: fs).take (j + 1)) ((v :: vs).take (j + 1)) =
      sizeFields E [f] [v] + sizeFields E (fs.take j) (vs.take j) := by
  simp [sizeFields]

/-- The run of the struct loop on a stream that is long enough, field by field: fields that
are skipped or unexported keep their value, and a participating field gets what its decoder
makes of the old value on the window that starts at the total size of the fields before
it. -/
theorem structDecoder.fields_windows {E : Env} {ii : Nat} {fs : List StructField}
    {ds : List typeDecoder} {ixs : List (List Nat)}
    (hplan : FieldPlan E (fun t d => ∃ m, BuiltN E m t d) ii fs ds ixs) :
    ∀ (pre : List (List Nat)) (vpre vs : List Value) (order : ByteOrder)
      (buf s : List Byte), vpre.length = ii → fieldsHaveType E fs vs = true →
      sizeFields E fs vs ≤ s.length →
      ∃ buf' vs',
        structDecoder.loop (pre ++ ixs) pre.length ds ⟨⟨order, buf⟩, s⟩
            (.struct (vpre ++ vs)) =
          .ret ⟨⟨order, buf'⟩, s.drop (sizeFields E fs vs)⟩ (.struct (vpre ++ vs')) none ∧
        vs'.length = vs.length ∧
        ∀ j f v, fs[j]? = some f → vs[j]? = some v →
          ((f.Name = "_" ∨ f.PkgPath ≠ "") → vs'[j]? = some v) ∧
          (f.Name ≠ "_" → f.PkgPath = "" →
            ∃ fdec v', (∃ m, BuiltN E m f.Typ fdec) ∧ vs'[j]? = some v' ∧
              ∀ buf0, ∃ buf1,
                fdec ⟨⟨order, buf0⟩,
                    (s.drop (sizeFields E (fs.take j) (vs.take j))).take (size E f.Typ v)⟩ v =
                  .ret ⟨⟨order, buf1⟩, []⟩ v' none) := by
  induction hplan with
  | nil ii =>
    intro pre vpre vs order buf s _ hty _
    cases vs with
    | cons v0 vs' => simp [fieldsHaveType] at hty
    | nil =>
      refine ⟨buf, [], by simp [structDecoder.loop, sizeFields], rfl, ?_⟩
      intro j f v hf
      simp at hf
  | @skip ii f fs l ds ixs hname hsz _ ih =>
    intro pre vpre vs order buf s hlen hty hs
    obtain ⟨v0, vs', rfl, hty0, htys⟩ := fieldsHaveType_cons hty
    subst hlen
    have hsize : sizeFields E (f :: fs) (v0 :: vs') = l + sizeFields E fs vs' := by
      simp [sizeFields, hname, skipSize, hsz]
    have hone : sizeFields E [f] [v0] = l := by
      simp [sizeFields, hname, skipSize, hsz]
    rw [hsize] at hs ⊢
    obtain ⟨buf', us, hrun, hl, hpt⟩ := ih (pre ++ [[vpre.length]]) (vpre ++ [v0]) vs' order
      buf (s.drop l) (by simp) htys (by simp; omega)
    refine ⟨buf', v0 :: us, ?_, by simp [hl], ?_⟩
    · rw [structDecoder.loop_cons]
      have hskip := skipDecoder.closure_ok l order buf (s.take l) (s.drop l) v0
        (by simp; omega)
      rw [List.take_append_drop] at hskip
      rw [hskip]
      simp only
      rw [hrun, List.drop_drop]
      simp only [List.append_assoc, List.singleton_append]
    · intro j g v hg hv
      cases j with
      | zero =>
        simp only [List.getElem?_cons_zero, Option.some.injEq] at hg hv
        subst hg hv
        exact ⟨fun _ => by simp, fun h => absurd hname h⟩
      | succ j =>
        simp only [List.getElem?_cons_succ] at hg hv
        obtain ⟨hkeep, hdec⟩ := hpt j g v hg hv
        refine ⟨fun h => by simpa using hkeep h, ?_⟩
        intro h1 h2
        obtain ⟨fdec, v', hb, hv', hwin⟩ := hdec h1 h2
        refine ⟨fdec, v', hb, by simpa using hv', ?_⟩
        rw [sizeFields_cons_take, hone, ← List.drop_drop]
        exact hwin
  | @unexported ii f fs ds ixs hname hpkg _ ih =>
    intro pre vpre vs order buf s hlen hty hs
    obtain ⟨v0, vs', rfl, hty0, htys⟩ := fieldsHaveType_cons hty
    subst hlen
    have hsize : sizeFields E (f :: fs) (v0 :: vs') = sizeFields E fs vs' := by
      simp [sizeFields, hname, hpkg]
    have hone : sizeFields E [f] [v0] = 0 := by
      simp [sizeFields, hname, hpkg]
    rw [hsize] at hs ⊢
    obtain ⟨buf', us, hrun, hl, hpt⟩ := ih pre (vpre ++ [v0]) vs' order buf s (by simp) htys hs
    simp only [List.append_assoc, List.singleton_append] at hrun
    refine ⟨buf', v0 :: us, hrun, by simp [hl], ?_⟩
    intro j g v hg hv
    cases j with
    | zero =>
      simp only [List.getElem?_cons_zero, Option.some.injEq] at hg hv
      subst hg hv
      exact ⟨fun _ => by simp, fun _ h => absurd h hpkg⟩
    | succ j =>
      simp only [List.getElem?_cons_succ] at hg hv
      obtain ⟨hkeep, hdec⟩ := hpt j g v hg hv
      refine ⟨fun h => by simpa using hkeep h, ?_⟩
      intro h1 h2
      obtain ⟨fdec, v', hb, hv', hwin⟩ := hdec h1 h2
      refine ⟨fdec, v', hb, by simpa using hv', ?_⟩
      rw [sizeFields_cons_take, hone, Nat.zero_add]
      exact hwin
  | @field ii f fs d ds ixs hname hpkg hd _ ih =>
    intro pre vpre vs order buf s hlen hty hs
    obtain ⟨v0, vs', rfl, hty0, htys⟩ := fieldsHaveType_cons hty
    subst hlen
    have hsize : sizeFields E (f :: fs) (v0 :: vs') =
        size E f.Typ v0 + sizeFields E fs vs' := by
      simp [sizeFields, hname, hpkg]
    have hone : sizeFields E [f] [v0] = size E f.Typ v0 := by
      simp [sizeFields, hname, hpkg]
    rw [hsize] at hs ⊢
    obtain ⟨m, hm⟩ := hd
    have hex : Exact E f.Typ d := BuiltN.property (Exact.closed E) m _ _ hm
    obtain ⟨v0', _, _, hwin0⟩ := (hex v0 hty0).1 order (s.take (size E f.Typ v0))
      (by simp; omega)
    obtain ⟨buf1, h1⟩ := hwin0 buf (s.drop (size E f.Typ v0))
    rw [List.take_append_drop] at h1
    obtain ⟨buf', us, hrun, hl, hpt⟩ := ih (pre ++ [[vpre.length]]) (vpre ++ [v0']) vs' order
      buf1 (s.drop (size E f.Typ v0)) (by simp) htys (by simp; omega)
    refine ⟨buf', v0' :: us, ?_, by simp [hl], ?_⟩
    · rw [structDecoder.loop_cons, h1]
      simp only
      rw [hrun, List.drop_drop]
      simp only [List.append_assoc, List.singleton_append]
    · intro j g v hg hv
      cases j with
      | zero =>
        simp only [List.getElem?_cons_zero, Option.some.injEq] at hg hv
        subst hg hv
        refine ⟨fun h => ?_, fun _ _ => ?_⟩
        · rcases h with h | h
          · exact absurd h hname
          · exact absurd hpkg h
        · refine ⟨d, v0', ⟨m, hm⟩, by simp, ?_⟩
          intro buf0
          obtain ⟨b, hb⟩ := hwin0 buf0 []
          simp only [List.append_nil] at hb
          exact ⟨b, by simpa [sizeFields] using hb⟩
      | succ j =>
        simp only [List.getElem?_cons_succ] at hg hv
        obtain ⟨hkeep, hdec⟩ := hpt j g v hg hv
        refine ⟨fun h => by simpa using hkeep h, ?_⟩
        intro h1 h2
        obtain ⟨fdec, v', hb, hv', hwin⟩ := hdec h1 h2
        refine ⟨fdec, v', hb, by simpa using hv', ?_⟩
        rw [sizeFields_cons_take, hone, ← List.drop_drop]
        exact hwin

/-- C10. For every compiled struct type, a destination of that type and a stream that holds
its `size`: the decoder is the closure of `structDecoder` over the decoders of the skip and
participating fields in declaration order, each with the index of its field; it returns no
error and consumes `size` bytes; a field that is skipped or unexported keeps its value; and
participating field number `j` gets what the decoder of its type (the one every compilation
of that type gives) makes of its old value on the window that starts at the offset
`sizeFields` of the fields declared before it, the total size of the participating and skip
fields among them, with no padding. -/
theorem struct_fields_in_order (E : Env) (typ : TypeId) (dec : typeDecoder)
    (h : CompilesTo E typ dec) (hk : (E.types typ).kind = .Struct)
    (order : ByteOrder) (buf s : List Byte) (vs : List Value)
    (hv : hasType E typ (.struct vs) = true) (hlen : size E typ (.struct vs) ≤ s.length) :
    ∃ ds ixs buf' vs',
      dec = structDecoder.closure ds ixs ∧
      FieldPlan E (fun t d => ∃ m, BuiltN E m t d) 0 (E.types typ).fields ds ixs ∧
      dec ⟨⟨order, buf⟩, s⟩ (.struct vs) =
        .ret ⟨⟨order, buf'⟩, s.drop (size E typ (.struct vs))⟩ (.struct vs') none ∧
      vs'.length = vs.length ∧
      ∀ j f v, (E.types typ).fields[j]? = some f → vs[j]? = some v →
        ((f.Name = "_" ∨ f.PkgPath ≠ "") → vs'[j]? = some v) ∧
        (f.Name ≠ "_" → f.PkgPath = "" →
          ∃ fdec v', (∃ m, BuiltN E m f.Typ fdec) ∧
            (∀ d2, CompilesTo E f.Typ d2 → d2 = fdec) ∧ vs'[j]? = some v' ∧
            ∀ buf0, ∃ buf1,
              fdec ⟨⟨order, buf0⟩,
                  (s.drop (sizeFields E ((E.types typ).fields.take j) (vs.take j))).take
                    (size E f.Typ v)⟩ v =
                .ret ⟨⟨order, buf1⟩, []⟩ v' none) := by
  obtain ⟨n, hn⟩ := h.built
  obtain ⟨m, ds, ixs, hplan, rfl⟩ := hn.eq_struct hk
  have hplan' : FieldPlan E (fun t d => ∃ m, BuiltN E m t d) 0 (E.types typ).fields ds ixs :=
    hplan.mono (fun _ _ hd => ⟨m, hd⟩)
  obtain ⟨vs0, h0, hty⟩ := struct_of_hasType hk hv
  injection h0 with h0
  subst h0
  simp only [size] at hlen ⊢
  obtain ⟨buf', vs', hrun, hl, hpt⟩ :=
    structDecoder.fields_windows hplan' [] [] vs order buf s rfl hty hlen
  simp only [List.nil_append, List.length_nil] at hrun
  refine ⟨ds, ixs, buf', vs', rfl, hplan', hrun, hl, ?_⟩
  intro j f v hf hvj
  obtain ⟨hkeep, hdec⟩ := hpt j f v hf hvj
  refine ⟨hkeep, ?_⟩
  intro h1 h2
  obtain ⟨fdec, v', ⟨k, hb⟩, hv', hwin⟩ := hdec h1 h2
  refine ⟨fdec, v', ⟨k, hb⟩, ?_, hv', hwin⟩
  intro d2 hd2
  obtain ⟨k2, hb2⟩ := hd2.built
  exact BuiltN.same k2 k f.Typ d2 fdec hb2 hb

/-- C10 at type 0 of the example environment, `struct { A int32; _ [4]byte; B float64 }`, on
the 16 bytes of the concrete scenario. -/
theorem struct_fields_in_order_witness :
    ∃ ds ixs buf' vs',
      structDecoder.closure [int32Decoder, skipDecoder.closure 4, float64Decoder]
        [[0], [1], [2]] = structDecoder.closure ds ixs ∧
      FieldPlan exampleEnv (fun t d => ∃ m, BuiltN exampleEnv m t d) 0
        (exampleEnv.types 0).fields ds ixs ∧
      structDecoder.closure [int32Decoder, skipDecoder.closure 4, float64Decoder]
          [[0], [1], [2]]
          ⟨⟨.BigEndian, [0, 0, 0, 0, 0, 0, 0, 0]⟩,
            [0, 0, 0, 1, 0, 0, 0, 0, 0x40, 0x04, 0, 0, 0, 0, 0, 0]⟩
          (.struct [.int32 7, .seq [.uint8 0, .uint8 0, .uint8 0, .uint8 0],
            .float64 (.Float64frombits 0)]) =
        .ret ⟨⟨.BigEndian, buf'⟩,
          List.drop (size exampleEnv 0
            (.struct [.int32 7, .seq [.uint8 0, .uint8 0, .uint8 0, .uint8 0],
              .float64 (.Float64frombits 0)]))
            [0, 0, 0, 1, 0, 0, 0, 0, 0x40, 0x04, 0, 0, 0, 0, 0, 0]⟩ (.struct vs') none ∧
      vs'.length = [Value.int32 7, .seq [.uint8 0, .uint8 0, .uint8 0, .uint8 0],
        .float64 (.Float64frombits 0)].length ∧
      ∀ j f v, (exampleEnv.types 0).fields[j]? = some f →
        [Value.int32 7, .seq [.uint8 0, .uint8 0, .uint8 0, .uint8 0],
          .float64 (.Float64frombits 0)][j]? = some v →
        ((f.Name = "_" ∨ f.PkgPath ≠ "") → vs'[j]? = some v) ∧
        (f.Name ≠ "_" → f.PkgPath = "" →
          ∃ fdec v', (∃ m, BuiltN exampleEnv m f.Typ fdec) ∧
            (∀ d2, CompilesTo exampleEnv f.Typ d2 → d2 = fdec) ∧ vs'[j]? = some v' ∧
            ∀ buf0, ∃ buf1,
              fdec ⟨⟨.BigEndian, buf0⟩,
                  (List.drop (sizeFields exampleEnv ((exampleEnv.types 0).fields.take j)
                    (List.take j [Value.int32 7,
                      .seq [.uint8 0, .uint8 0, .uint8 0, .uint8 0],
                      .float64 (.Float64frombits 0)]))
                    [0, 0, 0, 1, 0, 0, 0, 0, 0x40, 0x04, 0, 0, 0, 0, 0, 0]).take
                    (size exampleEnv f.Typ v)⟩ v =
                .ret ⟨⟨.BigEndian, buf1⟩, []⟩ v' none) :=
  struct_fields_in_order exampleEnv 0 _ exampleEnv_compiles_struct rfl .BigEndian
    [0, 0, 0, 0, 0, 0, 0, 0] [0, 0, 0, 1, 0, 0, 0, 0, 0x40, 0x04, 0, 0, 0, 0, 0, 0]
    [.int32 7, .seq [.uint8 0, .uint8 0, .uint8 0, .uint8 0], .float64 (.Float64frombits 0)]
    (by rfl) (by decide)

/-! ## Unsupported and recursive types -/

theorem FieldPlan.of_mem {E : Env} {P : TypeId → typeDecoder → Prop} {ii : Nat}
    {fs : List StructField} {ds : List typeDecoder} {ixs : List (List Nat)}
    (h : FieldPlan E P ii fs ds ixs) {f : StructField} (hf : f ∈ fs) (hname : f.Name ≠ "_")
    (hpkg : f.PkgPath = "") : ∃ d, P f.Typ d := by
  induction h with
  | nil ii => cases hf
  | skip hname' _ _ ih =>
    rcases List.mem_cons.1 hf with rfl | hf
    · exact absurd hname' hname
    · exact ih hf
  | unexported _ hpkg' _ ih =>
    rcases List.mem_cons.1 hf with rfl | hf
    · exact absurd hpkg hpkg'
    · exact ih hf
  | field _ _ hd _ ih =>
    rcases List.mem_cons.1 hf with rfl | hf
    · exact ⟨_, hd⟩
    · exact ih hf

/-- A decoder for a type holds a decoder for every type one step below. -/
theorem BuiltN.child {E : Env} {n : Nat} {t u : TypeId} {d : typeDecoder}
    (h : BuiltN E (n + 1) t d) (hu : Child E t u) : ∃ d', BuiltN E n u d' := by
  cases hu with
  | elem hk =>
    rcases h with h | ⟨_, edec, he, _⟩ | ⟨hk', _⟩
    · rcases hk with hk | hk <;> rw [hk] at h <;> cases h
    · exact ⟨edec, he⟩
    · rcases hk with hk | hk <;> rw [hk'] at hk <;> cases hk
  | field hk hf hname hpkg =>
    rcases h with h | ⟨hk', _⟩ | ⟨_, ds, ixs, hplan, _⟩
    · rw [hk] at h
      cases h
    · rcases hk' with hk' | hk' <;> rw [hk] at hk' <;> cases hk'
    · exact hplan.of_mem hf hname hpkg

/-- A decoder for a type holds a decoder for every type that the type reaches. -/
theorem BuiltN.reaches {E : Env} {t u : TypeId} (hu : Reaches E t u) :
    ∀ {n : Nat} {d : typeDecoder}, BuiltN E n t d → ∃ d', BuiltN E n u d' := by
  induction hu with
  | refl t => intro n d h; exact ⟨d, h⟩
  | step hc _ ih =>
    intro n d h
    cases n with
    | zero => exact h.elim
    | succ n =>
      obtain ⟨d1, h1⟩ := BuiltN.child h hc
      obtain ⟨d2, h2⟩ := ih h1
      exact ⟨d2, BuiltN.succ _ _ _ h2⟩

/-- No decoder can be put together for a type that contains itself. -/
theorem Recursive.not_built {E : Env} {t : TypeId} (hrec : Recursive E t) :
    ∀ (n : Nat) (d : typeDecoder), ¬ BuiltN E n t d := by
  obtain ⟨u, hc, hr⟩ := hrec
  intro n
  induction n with
  | zero => intro d h; exact h
  | succ n ih =>
    intro d h
    obtain ⟨d1, h1⟩ := BuiltN.child h hc
    obtain ⟨d2, h2⟩ := BuiltN.reaches hr h1
    exact ih d2 h2

/-- No decoder can be put together for a type of an unsupported kind. -/
theorem BuiltN.supported {E : Env} {n : Nat} {t : TypeId} {d : typeDecoder}
    (h : BuiltN E n t d) : ¬ (E.types t).kind.unsupported := by
  intro hu
  cases n with
  | zero => exact h
  | succ n =>
    rcases h with h | ⟨hk, _⟩ | ⟨hk, _⟩
    · rw [hu.1] at h
      cases h
    · rcases hk with hk | hk
      · exact hu.2.1 hk
      · exact hu.2.2.1 hk
    · exact hu.2.2.2 hk

/-- Every decoder stored in a cache that a process can hold is put together as `newDecoder`
does it. -/
theorem Reachable.all_built {E : Env} {c : Cache} (hc : Reachable E c) :
    Cache.All (fun t d => ∃ n, BuiltN E n t d) c :=
  hc.all (BuiltN.all_closed E)

theorem structDecoder.fields_error {E : Env} {Q : TypeId → Error → Prop}
    {mk : Cache → TypeId → Compiled typeDecoder}
    (hmk : ∀ c t c' err, mk c t = some (c', .error err) → Q t err) :
    ∀ (fs : List StructField) (ii : Nat) (c : Cache) (decoders : List typeDecoder)
      (indexes : List (List Nat)) (c' : Cache) (err : Error),
      structDecoder.fields E mk ii fs c decoders indexes = some (c', .error err) →
      ∃ f ∈ fs, (f.Name = "_" ∧ E.dataSize f.Typ = .error err) ∨
        (f.Name ≠ "_" ∧ f.PkgPath = "" ∧ Q f.Typ err) := by
  intro fs
  induction fs with
  | nil =>
    intro ii c decoders indexes c' err h
    simp [structDecoder.fields] at h
  | cons f fs ih =>
    intro ii c decoders indexes c' err h
    rw [structDecoder.fields] at h
    by_cases hname : f.Name = "_"
    · rw [if_pos hname] at h
      cases hsz : E.dataSize f.Typ with
      | error e =>
        simp only [skipDecoder, hsz, Option.some.injEq, Prod.mk.injEq, Except.error.injEq] at h
        obtain ⟨_, rfl⟩ := h
        exact ⟨f, List.mem_cons_self _ _, Or.inl ⟨hname, hsz⟩⟩
      | ok l =>
        simp only [skipDecoder, hsz] at h
        obtain ⟨g, hg, hres⟩ := ih _ _ _ _ _ _ h
        exact ⟨g, List.mem_cons_of_mem _ hg, hres⟩
    · rw [if_neg hname] at h
      by_cases hpkg : f.PkgPath = ""
      · rw [if_neg (by simpa using hpkg)] at h
        cases hm : mk c f.Typ with
        | none => simp [hm] at h
        | some res =>
          obtain ⟨c1, r1⟩ := res
          cases r1 with
          | error e =>
            simp only [hm, Option.some.injEq, Prod.mk.injEq, Except.error.injEq] at h
            obtain ⟨_, rfl⟩ := h
            exact ⟨f, List.mem_cons_self _ _, Or.inr ⟨hname, hpkg, hmk _ _ _ _ hm⟩⟩
          | ok d =>
            simp only [hm] at h
            obtain ⟨g, hg, hres⟩ := ih _ _ _ _ _ _ h
            exact ⟨g, List.mem_cons_of_mem _ hg, hres⟩
      · rw [if_pos (by simpa using hpkg)] at h
        obtain ⟨g, hg, hres⟩ := ih _ _ _ _ _ _ h
        exact ⟨g, List.mem_cons_of_mem _ hg, hres⟩

theorem ErrorFrom.of_child {E : Env} {t u : TypeId} {err : Error} (hc : Child E t u)
    (h : ErrorFrom E u err) : ErrorFrom E t err := by
  obtain ⟨w, hw, hres⟩ := h
  exact ⟨w, Reaches.step hc hw, hres⟩

theorem newDecoder_error {E : Env} {mk : Cache → TypeId → Compiled typeDecoder}
    (hmk : ∀ c t c' err, mk c t = some (c', .error err) → ErrorFrom E t err)
    {c c' : Cache} {t : TypeId} {err : Error}
    (h : newDecoder E mk c t = some (c', .error err)) : ErrorFrom E t err := by
  have bad : (E.types t).kind.unsupported →
      (some (c, Except.error (Error.cantEncode t)) : Compiled typeDecoder) =
        some (c', .error err) → ErrorFrom E t err := by
    intro hu h
    simp only [Option.some.injEq, Prod.mk.injEq, Except.error.injEq] at h
    exact ⟨t, Reaches.refl t, Or.inl ⟨hu, h.2.symm⟩⟩
  have slice : ((E.types t).kind = .Array ∨ (E.types t).kind = .Slice) →
      sliceDecoder E mk c t = some (c', .error err) → ErrorFrom E t err := by
    intro hk h
    unfold sliceDecoder at h
    cases hm : mk c (E.types t).elem with
    | none => simp [hm] at h
    | some res =>
      obtain ⟨c1, r1⟩ := res
      cases r1 with
      | error e =>
        simp only [hm, Option.some.injEq, Prod.mk.injEq, Except.error.injEq] at h
        obtain ⟨_, rfl⟩ := h
        exact (hmk _ _ _ _ hm).of_child (Child.elem hk)
      | ok edec => simp [hm] at h
  unfold newDecoder at h
  cases hk : (E.types t).kind <;> rw [hk] at h <;> simp only at h <;>
    first
    | exact bad (by rw [hk]; exact ⟨rfl, by simp, by simp, by simp⟩) h
    | exact slice (by simp [hk]) h
    | exact absurd h (by simp)
    | skip
  -- the struct case
  unfold structDecoder at h
  cases hf : structDecoder.fields E mk 0 (E.types t).fields c [] [] with
  | none => simp [hf] at h
  | some res =>
    obtain ⟨c1, r1⟩ := res
    cases r1 with
    | error e =>
      simp only [hf, Option.some.injEq, Prod.mk.injEq, Except.error.injEq] at h
      obtain ⟨_, rfl⟩ := h
      obtain ⟨f, hfm, hres⟩ := structDecoder.fields_error hmk _ _ _ _ _ _ _ hf
      rcases hres with ⟨hname, hsz⟩ | ⟨hname, hpkg, hq⟩
      · exact ⟨t, Reaches.refl t, Or.inr ⟨hk, f, hfm, hname, hsz⟩⟩
      · exact hq.of_child (Child.field hk hfm hname hpkg)
    | ok p =>
      obtain ⟨ds, ixs⟩ := p
      simp [hf] at h

/-- Every error that `makeDecoder` returns comes from a type of an unsupported kind or from
a skip field that the compiled type reaches. -/
theorem makeDecoder_error {E : Env} : ∀ (fuel : Nat) (c : Cache) (t : TypeId) (c' : Cache)
    (err : Error), makeDecoder E fuel c t = some (c', .error err) → ErrorFrom E t err := by
  intro fuel
  induction fuel with
  | zero =>
    intro c t c' err h
    simp [makeDecoder] at h
  | succ n ih =>
    intro c t c' err h
    rw [makeDecoder] at h
    cases hct : c t with
    | some d => simp [hct] at h
    | none =>
      simp only [hct] at h
      cases hn : newDecoder E (makeDecoder E n) c t with
      | none => simp [hn] at h
      | some res =>
        obtain ⟨c1, r1⟩ := res
        cases r1 with
        | error e =>
          simp only [hn, Option.some.injEq, Prod.mk.injEq, Except.error.injEq] at h
          obtain ⟨_, rfl⟩ := h
          exact newDecoder_error ih hn
        | ok d => simp [hn] at h
/-! ## More fuel changes nothing, and well-founded types compile -/

theorem structDecoder.fields_mono {E : Env} {mk1 mk2 : Cache → TypeId → Compiled typeDecoder}
    (hmk : ∀ c t r, mk1 c t = some r → mk2 c t = some r) :
    ∀ (fs : List StructField) (ii : Nat) (c : Cache) (decoders : List typeDecoder)
      (indexes : List (List Nat)) (r : Cache × Except Error (List typeDecoder × List (List Nat))),
      structDecoder.fields E mk1 ii fs c decoders indexes = some r →
      structDecoder.fields E mk2 ii fs c decoders indexes = some r := by
  intro fs
  induction fs with
  | nil =>
    intro ii c decoders indexes r h
    simpa [structDecoder.fields] using h
  | cons f fs ih =>
    intro ii c decoders indexes r h
    rw [structDecoder.fields] at h ⊢
    by_cases hname : f.Name = "_"
    · rw [if_pos hname] at h ⊢
      cases hsk : skipDecoder E f.Typ with
      | error e => rw [hsk] at h; exact h
      | ok d =>
        rw [hsk] at h
        exact ih _ _ _ _ _ h
    · rw [if_neg hname] at h ⊢
      by_cases hpkg : f.PkgPath = ""
      · rw [if_neg (by simpa using hpkg)] at h ⊢
        cases hm : mk1 c f.Typ with
        | none => simp [hm] at h
        | some res =>
          rw [hmk _ _ _ hm]
          rw [hm] at h
          obtain ⟨c1, r1⟩ := res
          cases r1 with
          | error e => exact h
          | ok d => exact ih _ _ _ _ _ h
      · rw [if_pos (by simpa using hpkg)] at h ⊢
        exact ih _ _ _ _ _ h

theorem newDecoder_mono {E : Env} {mk1 mk2 : Cache → TypeId → Compiled typeDecoder}
    (hmk : ∀ c t r, mk1 c t = some r → mk2 c t = some r) (c : Cache) (t : TypeId)
    (r : Cache × Except Error typeDecoder) (h : newDecoder E mk1 c t = some r) :
    newDecoder E mk2 c t = some r := by
  have slice : sliceDecoder E mk1 c t = some r → sliceDecoder E mk2 c t = some r := by
    intro h
    unfold sliceDecoder at h ⊢
    cases hm : mk1 c (E.types t).elem with
    | none => simp [hm] at h
    | some res =>
      rw [hmk _ _ _ hm]
      rw [hm] at h
      exact h
  have struct : structDecoder E mk1 c t = some r → structDecoder E mk2 c t = some r := by
    intro h
    unfold structDecoder at h ⊢
    cases hf : structDecoder.fields E mk1 0 (E.types t).fields c [] [] with
    | none => simp [hf] at h
    | some res =>
      rw [structDecoder.fields_mono hmk _ _ _ _ _ _ hf]
      rw [hf] at h
      exact h
  unfold newDecoder at h ⊢
  cases hk : (E.types t).kind <;> rw [hk] at h <;> simp only at h ⊢ <;>
    first
    | exact h
    | exact slice h
    | exact struct h

theorem makeDecoder_succ {E : Env} : ∀ (n : Nat) (c : Cache) (t : TypeId)
    (r : Cache × Except Error typeDecoder),
    makeDecoder E n c t = some r → makeDecoder E (n + 1) c t = some r := by
  intro n
  induction n with
  | zero => intro c t r h; simp [makeDecoder] at h
  | succ n ih =>
    intro c t r h
    rw [makeDecoder] at h ⊢
    cases hct : c t with
    | some d => rw [hct] at h; exact h
    | none =>
      rw [hct] at h
      simp only at h ⊢
      cases hn : newDecoder E (makeDecoder E n) c t with
      | none => simp [hn] at h
      | some res =>
        rw [newDecoder_mono ih _ _ _ hn]
        rw [hn] at h
        exact h

/-- A call that returns on some fuel returns the same on any larger fuel. -/
theorem makeDecoder_le {E : Env} {n m : Nat} (hnm : n ≤ m) {c : Cache} {t : TypeId}
    {r : Cache × Except Error typeDecoder} (h : makeDecoder E n c t = some r) :
    makeDecoder E m c t = some r := by
  induction hnm with
  | refl => exact h
  | step _ ih => exact makeDecoder_succ _ _ _ _ ih

/-- What a call returns does not depend on the fuel. -/
theorem makeDecoder_fuel {E : Env} {n m : Nat} {c : Cache} {t : TypeId}
    {r1 r2 : Cache × Except Error typeDecoder} (h1 : makeDecoder E n c t = some r1)
    (h2 : makeDecoder E m c t = some r2) : r1 = r2 := by
  have e1 := makeDecoder_le (Nat.le_max_left n m) h1
  have e2 := makeDecoder_le (Nat.le_max_right n m) h2
  rw [e1] at e2
  exact Option.some.inj e2

theorem structDecoder.fields_total {E : Env} {mk : Cache → TypeId → Compiled typeDecoder} :
    ∀ (fs : List StructField),
      (∀ f ∈ fs, f.Name ≠ "_" → f.PkgPath = "" → ∀ c, ∃ r, mk c f.Typ = some r) →
      ∀ (ii : Nat) (c : Cache) (decoders : List typeDecoder) (indexes : List (List Nat)),
        ∃ r, structDecoder.fields E mk ii fs c decoders indexes = some r := by
  intro fs
  induction fs with
  | nil =>
    intro _ ii c decoders indexes
    exact ⟨_, rfl⟩
  | cons f fs ih =>
    intro hall ii c decoders indexes
    have hrest := ih (fun g hg => hall g (List.mem_cons_of_mem _ hg))
    rw [structDecoder.fields]
    by_cases hname : f.Name = "_"
    · rw [if_pos hname]
      cases hsk : skipDecoder E f.Typ with
      | error e => exact ⟨_, rfl⟩
      | ok d => exact hrest _ _ _ _
    · rw [if_neg hname]
      by_cases hpkg : f.PkgPath = ""
      · rw [if_neg (by simpa using hpkg)]
        obtain ⟨⟨c1, r1⟩, hm⟩ := hall f (List.mem_cons_self _ _) hname hpkg c
        rw [hm]
        cases r1 with
        | error e => exact ⟨_, rfl⟩
        | ok d => exact hrest _ _ _ _
      · rw [if_pos (by simpa using hpkg)]
        exact hrest _ _ _ _

/-- For a type that nests at most `n` levels deep, `makeDecoder` returns within `n` nested
calls, whatever the cache holds. -/
theorem makeDecoder_total {E : Env} : ∀ (n : Nat) (t : TypeId), Depth E n t →
    ∀ c : Cache, ∃ r, makeDecoder E n c t = some r := by
  intro n
  induction n with
  | zero => intro t h; exact h.elim
  | succ n ih =>
    intro t h c
    rw [makeDecoder]
    cases hct : c t with
    | some d => exact ⟨_, rfl⟩
    | none =>
      simp only
      have hnew : ∃ r, newDecoder E (makeDecoder E n) c t = some r := by
        unfold newDecoder
        cases hk : (E.types t).kind <;> simp only <;>
          first
          | exact ⟨_, rfl⟩
          | skip
        · -- array
          unfold sliceDecoder
          obtain ⟨⟨c1, r1⟩, hm⟩ := ih _ (h _ (Child.elem (Or.inl hk))) c
          rw [hm]
          cases r1 <;> exact ⟨_, rfl⟩
        · -- slice
          unfold sliceDecoder
          obtain ⟨⟨c1, r1⟩, hm⟩ := ih _ (h _ (Child.elem (Or.inr hk))) c
          rw [hm]
          cases r1 <;> exact ⟨_, rfl⟩
        · -- struct
          unfold structDecoder
          obtain ⟨⟨c1, r1⟩, hf⟩ := @structDecoder.fields_total E (makeDecoder E n)
            (E.types t).fields
            (fun f hf hname hpkg c => ih _ (h _ (Child.field hk hf hname hpkg)) c) 0 c [] []
          rw [hf]
          cases r1 with
          | error e => exact ⟨_, rfl⟩
          | ok p => exact ⟨_, rfl⟩
      obtain ⟨⟨c1, r1⟩, hn⟩ := hnew
      rw [hn]
      cases r1 <;> exact ⟨_, rfl⟩

theorem FieldPlan.compiles_fields {E : Env} {n : Nat}
    (ih : ∀ (t : TypeId) (d : typeDecoder) (c : Cache), BuiltN E n t d →
      Cache.All (fun t d => ∃ n, BuiltN E n t d) c →
      ∃ c', makeDecoder E n c t = some (c', .ok d))
    {ii : Nat} {fs : List StructField} {ds : List typeDecoder} {ixs : List (List Nat)}
    (h : FieldPlan E (BuiltN E n) ii fs ds ixs) :
    ∀ (c : Cache) (decoders : List typeDecoder) (indexes : List (List Nat)),
      Cache.All (fun t d => ∃ n, BuiltN E n t d) c →
      ∃ c', structDecoder.fields E (makeDecoder E n) ii fs c decoders indexes =
        some (c', .ok (decoders ++ ds, indexes ++ ixs)) := by
  induction h with
  | nil ii =>
    intro c decoders indexes _
    exact ⟨c, by simp [structDecoder.fields]⟩
  | @skip ii f fs l ds ixs hname hsz _ ih2 =>
    intro c decoders indexes hc
    rw [structDecoder.fields, if_pos hname]
    simp only [skipDecoder, hsz]
    obtain ⟨c', h⟩ := ih2 c (decoders ++ [skipDecoder.closure l]) (indexes ++ [[ii]]) hc
    exact ⟨c', by simpa using h⟩
  | unexported hname hpkg _ ih2 =>
    intro c decoders indexes hc
    rw [structDecoder.fields, if_neg hname, if_pos (by simpa using hpkg)]
    exact ih2 c _ _ hc
  | @field ii f fs d ds ixs hname hpkg hd _ ih2 =>
    intro c decoders indexes hc
    rw [structDecoder.fields, if_neg hname, if_neg (by simpa using hpkg)]
    obtain ⟨c1, h1⟩ := ih _ _ c hd hc
    have hc1 := (makeDecoder_keeps (BuiltN.all_closed E) _ _ _ _ _ hc h1).1
    rw [h1]
    simp only
    obtain ⟨c', h⟩ := ih2 c1 (decoders ++ [d]) (indexes ++ [[ii]]) hc1
    exact ⟨c', by simpa using h⟩

/-- A type for which a decoder can be put together through `n` levels compiles, on `n`
nested calls and from every cache of built decoders, to that decoder. -/
theorem BuiltN.compiles {E : Env} : ∀ (n : Nat) (t : TypeId) (d : typeDecoder) (c : Cache),
    BuiltN E n t d → Cache.All (fun t d => ∃ n, BuiltN E n t d) c →
    ∃ c', makeDecoder E n c t = some (c', .ok d) := by
  intro n
  induction n with
  | zero => intro t d c h; exact h.elim
  | succ n ih =>
    intro t d c h hc
    rw [makeDecoder]
    cases hct : c t with
    | some d0 =>
      obtain ⟨m, hm⟩ := hc t d0 hct
      have e := BuiltN.same _ _ _ _ _ hm h
      subst e
      exact ⟨c, rfl⟩
    | none =>
      simp only
      rcases h with h | ⟨hk, edec, he, rfl⟩ | ⟨hk, ds, ixs, hplan, rfl⟩
      · rw [newDecoder_prim h]
        exact ⟨_, rfl⟩
      · obtain ⟨c1, h1⟩ := ih _ _ c he hc
        have hnew : newDecoder E (makeDecoder E n) c t =
            some (c1, .ok (sliceDecoder.closure edec)) := by
          unfold newDecoder
          rcases hk with hk | hk <;> rw [hk] <;> simp only [sliceDecoder, h1]
        rw [hnew]
        exact ⟨_, rfl⟩
      · obtain ⟨c1, h1⟩ := FieldPlan.compiles_fields ih hplan c [] [] hc
        have hnew : newDecoder E (makeDecoder E n) c t =
            some (c1, .ok (structDecoder.closure ds ixs)) := by
          unfold newDecoder
          rw [hk]
          simp only [structDecoder, h1, List.nil_append]
        rw [hnew]
        exact ⟨_, rfl⟩

/-- For a type for which a decoder can be put together, every call of `makeDecoder` that
returns, returns that decoder. -/
theorem BuiltN.compile_ok {E : Env} {n : Nat} {t : TypeId} {d : typeDecoder}
    (h : BuiltN E n t d) {c : Cache} (hc : Reachable E c) {fuel : Nat} {c' : Cache}
    {r : Except Error typeDecoder} (hrun : makeDecoder E fuel c t = some (c', r)) :
    r = .ok d := by
  obtain ⟨c1, h1⟩ := BuiltN.compiles n t d c h hc.all_built
  have e := makeDecoder_fuel hrun h1
  exact (Prod.mk.inj e).2

/-! ## Errors at decode time -/

theorem decoder.read_error {d d' : decoder} {n : Nat} {e : Error}
    (h : d.read n = (d', some e)) : e = .shortRead := by
  simp only [decoder.read, readAtLeast] at h
  split at h
  · simp at h
  · simp only [Prod.mk.injEq, Option.some.injEq] at h
    exact h.2.symm

theorem prim_stream_errors {k : Kind} {d : typeDecoder} (hd : k.decoder = some d) :
    StreamErrors d := by
  intro dec v dec' v' err h
  cases k <;> simp only [Kind.decoder, Option.some.injEq] at hd <;> try exact absurd hd (by simp)
  all_goals subst hd
  case Complex128 =>
    unfold complex128Decoder at h
    rcases hr : dec.read 8 with ⟨dec1, _ | e⟩ <;> rw [hr] at h <;> simp only at h
    · rcases hr2 : dec1.read 8 with ⟨dec2, _ | e⟩ <;> rw [hr2] at h <;> simp only at h
      · split at h <;> cases h
      · injection h with _ _ he
        injection he with he
        rw [← he]
        exact Or.inr (decoder.read_error hr2)
    · injection h with _ _ he
      injection he with he
      rw [← he]
      exact Or.inr (decoder.read_error hr)
  all_goals
    simp only [int8Decoder, int16Decoder, int32Decoder, int64Decoder, uint8Decoder,
      uint16Decoder, uint32Decoder, uint64Decoder, float32Decoder, float64Decoder,
      complex64Decoder] at h
    split at h
    · injection h with _ _ he
      injection he with he
      rw [← he]
      exact Or.inr (decoder.read_error (by assumption))
    · split at h <;> cases h

theorem skip_stream_errors (l : Nat) : StreamErrors (skipDecoder.closure l) := by
  intro dec v dec' v' err h
  simp only [skipDecoder.closure, CopyNDiscard] at h
  split at h
  · simp at h
  · simp only [Outcome.ret.injEq, Option.some.injEq] at h
    exact Or.inl h.2.2.symm

theorem sliceLoop_stream_errors {edec : typeDecoder} (he : StreamErrors edec) :
    ∀ (elems : List Value) (dec dec' : decoder) (vs' : List Value) (err : Error),
      sliceDecoder.loop edec dec elems = .ret dec' vs' (some err) →
      err = .EOF ∨ err = .shortRead := by
  intro elems
  induction elems with
  | nil =>
    intro dec dec' vs' err h
    simp [sliceDecoder.loop] at h
  | cons e es ih =>
    intro dec dec' vs' err h
    rw [sliceDecoder.loop] at h
    cases h1 : edec dec e with
    | panic => rw [h1] at h; cases h
    | ret d1 e1 err1 =>
      rw [h1] at h
      cases err1 with
      | some er =>
        simp only [Outcome.ret.injEq, Option.some.injEq] at h
        rw [← h.2.2]
        exact he _ _ _ _ _ h1
      | none =>
        simp only at h
        cases h2 : sliceDecoder.loop edec d1 es with
        | panic => rw [h2] at h; cases h
        | ret d2 es2 err2 =>
          rw [h2] at h
          simp only [Outcome.ret.injEq] at h
          rw [h.2.2] at h2
          exact ih _ _ _ _ h2

theorem structLoop_stream_errors (ixs : List (List Nat)) :
    ∀ (ds : List typeDecoder), (∀ d ∈ ds, StreamErrors d) →
      ∀ (ii : Nat) (dec : decoder) (v : Value) (dec' : decoder) (v' : Value) (err : Error),
        structDecoder.loop ixs ii ds dec v = .ret dec' v' (some err) →
        err = .EOF ∨ err = .shortRead := by
  intro ds
  induction ds with
  | nil =>
    intro _ ii dec v dec' v' err h
    simp [structDecoder.loop] at h
  | cons d ds ih =>
    intro hall ii dec v dec' v' err h
    rw [structDecoder.loop] at h
    cases hix : ixs[ii]? with
    | none => rw [hix] at h; cases h
    | some index =>
      rw [hix] at h
      simp only at h
      cases hf : v.FieldByIndex index with
      | none => rw [hf] at h; cases h
      | some f =>
        rw [hf] at h
        simp only at h
        cases h1 : d dec f with
        | panic => rw [h1] at h; cases h
        | ret d1 f1 err1 =>
          rw [h1] at h
          cases err1 with
          | some er =>
            simp only [Outcome.ret.injEq, Option.some.injEq] at h
            rw [← h.2.2]
            exact hall d (List.mem_cons_self d ds) _ _ _ _ _ h1
          | none =>
            simp only at h
            exact ih (fun x hx => hall x (List.mem_cons_of_mem d hx)) _ _ _ _ _ _ h

/-- No decoder that the compiler builds returns an error of its own: every error of a decode
is an error of the stream. -/
theorem streamErrors_closed (E : Env) : Closed E (fun _ d => StreamErrors d) := by
  refine ⟨fun _ _ hd => prim_stream_errors hd, ?_, ?_⟩
  · intro t edec _ he dec v dec' v' err h
    simp only [sliceDecoder.closure] at h
    cases v <;> try cases h
    case seq elems =>
      simp only at h
      cases h1 : sliceDecoder.loop edec dec elems with
      | panic => rw [h1] at h; cases h
      | ret d1 es err1 =>
        rw [h1] at h
        simp only [Outcome.ret.injEq] at h
        rw [h.2.2] at h1
        exact sliceLoop_stream_errors he _ _ _ _ _ h1
  · intro t ds ixs _ hplan dec v dec' v' err h
    exact structLoop_stream_errors ixs ds (hplan.forall_mem skip_stream_errors) _ _ _ _ _ _ h

/-! ## C13: types that contain themselves -/

/-- For a type that contains itself every call of `makeDecoder` that returns, returns an
error that comes from an unsupported kind or a skip field. -/
theorem Recursive.returns_error {E : Env} {t : TypeId} (hrec : Recursive E t) {c : Cache}
    (hc : Reachable E c) {fuel : Nat} {c' : Cache} {r : Except Error typeDecoder}
    (h : makeDecoder E fuel c t = some (c', r)) : ∃ err, r = .error err ∧ ErrorFrom E t err := by
  cases r with
  | error err => exact ⟨err, rfl, makeDecoder_error _ _ _ _ _ h⟩
  | ok d =>
    obtain ⟨n, hn⟩ := CompilesTo.built ⟨c, fuel, c', hc, h⟩
    exact absurd hn (hrec.not_built n d)

theorem exampleEnv_recursive : Recursive exampleEnv 8 :=
  ⟨9, Child.field (t := 8) (f := ⟨"Children", "", 9⟩) rfl (List.mem_singleton.2 rfl)
    (by decide) rfl, Reaches.step (Child.elem (t := 9) (Or.inr rfl)) (Reaches.refl 8)⟩

theorem exampleEnv_recursive_named : Recursive exampleEnv 16 :=
  ⟨17, Child.field (t := 16) (f := ⟨"Children", "", 17⟩) rfl
    (List.mem_cons_of_mem _ (List.mem_singleton.2 rfl)) (by decide) rfl,
    Reaches.step (Child.elem (t := 17) (Or.inr rfl)) (Reaches.refl 16)⟩

theorem newDecoder_slice_none {E : Env} {mk : Cache → TypeId → Compiled typeDecoder}
    {c : Cache} {t : TypeId} (hk : (E.types t).kind = .Array ∨ (E.types t).kind = .Slice)
    (h : mk c (E.types t).elem = none) : newDecoder E mk c t = none := by
  unfold newDecoder
  rcases hk with hk | hk <;> rw [hk] <;> simp only [sliceDecoder, h]

theorem newDecoder_struct_none {E : Env} {mk : Cache → TypeId → Compiled typeDecoder}
    {c : Cache} {t : TypeId} {f : StructField} {l : List StructField}
    (hk : (E.types t).kind = .Struct) (hfs : (E.types t).fields = f :: l)
    (hname : f.Name ≠ "_") (hpkg : f.PkgPath = "") (h : mk c f.Typ = none) :
    newDecoder E mk c t = none := by
  unfold newDecoder
  rw [hk]
  simp only [structDecoder, hfs, structDecoder.fields, if_neg hname, hpkg, ne_eq,
    not_true_eq_false, if_false, h]

/-- The compiler runs out of every fuel on `struct { Children []T }`. -/
theorem exampleEnv_recursive_diverges : ∀ (fuel : Nat) (c : Cache),
    c 8 = none → c 9 = none →
    makeDecoder exampleEnv fuel c 8 = none ∧ makeDecoder exampleEnv fuel c 9 = none := by
  intro fuel
  induction fuel with
  | zero => intro c _ _; exact ⟨rfl, rfl⟩
  | succ n ih =>
    intro c ha hb
    obtain ⟨ia, ib⟩ := ih c ha hb
    refine ⟨?_, ?_⟩
    · rw [makeDecoder, ha]
      simp only
      rw [newDecoder_struct_none (t := 8) (f := ⟨"Children", "", 9⟩) (l := [])
        rfl rfl (by decide) rfl ib]
    · rw [makeDecoder, hb]
      simp only
      rw [newDecoder_slice_none (t := 9) (Or.inr rfl) ia]

/-- C13 as stated fails. The type `struct { Children []T }` contains itself, and compiling
its decoder with `makeDecoder` from the empty cache does not return, whatever the number of
nested calls allowed: no "unsupported recursive type" error is returned. -/
theorem recursive_type_never_returns :
    Recursive exampleEnv 8 ∧ ∀ fuel : Nat, makeDecoder exampleEnv fuel Cache.empty 8 = none :=
  ⟨exampleEnv_recursive, fun fuel => (exampleEnv_recursive_diverges fuel Cache.empty rfl rfl).1⟩

/-- C13, amended. For every type that contains itself directly or transitively, `makeDecoder`
never returns a decoder and has no error of its own for the recursion: a call that returns,
returns the error of an unsupported kind or of a skip field that the type reaches, and where
the type reaches no such error the call does not return on any number of nested calls. -/
theorem recursive_type_compile (E : Env) (t : TypeId) (hrec : Recursive E t) (c : Cache)
    (hc : Reachable E c) (fuel : Nat) :
    (∀ c' r, makeDecoder E fuel c t = some (c', r) →
      ∃ err, r = .error err ∧ ErrorFrom E t err) ∧
    ((∀ err, ¬ ErrorFrom E t err) → makeDecoder E fuel c t = none) := by
  refine ⟨fun c' r h => hrec.returns_error hc h, ?_⟩
  intro hno
  cases h : makeDecoder E fuel c t with
  | none => rfl
  | some res =>
    obtain ⟨c', r⟩ := res
    obtain ⟨err, _, herr⟩ := hrec.returns_error hc h
    exact absurd herr (hno err)

/-- C13, amended, on `struct { Name string; Children []T }`, which contains itself: the call
returns the error of the string field. -/
theorem recursive_type_compile_witness :
    Recursive exampleEnv 16 ∧ Reachable exampleEnv Cache.empty ∧
    makeDecoder exampleEnv 2 Cache.empty 16 = some (Cache.empty, .error (.cantEncode 13)) ∧
    ((∀ c' r, makeDecoder exampleEnv 2 Cache.empty 16 = some (c', r) →
      ∃ err, r = .error err ∧ ErrorFrom exampleEnv 16 err) ∧
    ((∀ err, ¬ ErrorFrom exampleEnv 16 err) →
      makeDecoder exampleEnv 2 Cache.empty 16 = none)) :=
  ⟨exampleEnv_recursive_named, Reachable.empty, rfl,
    recursive_type_compile exampleEnv 16 exampleEnv_recursive_named Cache.empty
      Reachable.empty 2⟩

/-! ## C12: unsupported kinds -/

/-- The compiler runs out of every fuel on `struct { Children []T; Name string }`. -/
theorem exampleEnv_recursive_string_diverges : ∀ (fuel : Nat) (c : Cache),
    c 11 = none → c 12 = none →
    makeDecoder exampleEnv fuel c 11 = none ∧ makeDecoder exampleEnv fuel c 12 = none := by
  intro fuel
  induction fuel with
  | zero => intro c _ _; exact ⟨rfl, rfl⟩
  | succ n ih =>
    intro c ha hb
    obtain ⟨ia, ib⟩ := ih c ha hb
    refine ⟨?_, ?_⟩
    · rw [makeDecoder, ha]
      simp only
      rw [newDecoder_struct_none (t := 11) (f := ⟨"Children", "", 12⟩) (l := [⟨"Name", "", 13⟩])
        rfl rfl (by decide) rfl ib]
    · rw [makeDecoder, hb]
      simp only
      rw [newDecoder_slice_none (t := 12) (Or.inr rfl) ia]

theorem exampleEnv_string_unsupported : (exampleEnv.types 13).kind.unsupported :=
  ⟨rfl, by decide, by decide, by decide⟩

/-- C12 as stated fails. The type `struct { Children []T; Name string }` reaches the kind
string through its participating field `Name`, and `makeDecoder` returns no error for it: the
call does not return, whatever the number of nested calls allowed, because the compiler
follows the recursive field first. -/
theorem unsupported_kind_no_error :
    Reaches exampleEnv 11 13 ∧ (exampleEnv.types 13).kind.unsupported ∧
    ∀ fuel : Nat, makeDecoder exampleEnv fuel Cache.empty 11 = none :=
  ⟨Reaches.step (Child.field (t := 11) (f := ⟨"Name", "", 13⟩) rfl
      (List.mem_cons_of_mem _ (List.mem_singleton.2 rfl)) (by decide) rfl) (Reaches.refl 13),
    exampleEnv_string_unsupported,
    fun fuel => (exampleEnv_recursive_string_diverges fuel Cache.empty rfl rfl).1⟩

/-- C12, amended. For every type that reaches, through participating struct fields or
array/slice elements, a kind other than the twelve fixed-width numeric kinds, array, slice
and struct: no call of `makeDecoder` returns a decoder; a call that returns, returns an error
that names a type of such a kind that the type reaches, or the `dataSize` error of a skip
field that it reaches; for a type nested at most `n` levels deep the call returns within `n`
nested calls; and the failure belongs to compiling (`makeDecoder` takes no stream): a decoder
that was compiled only ever returns errors of the stream. -/
theorem unsupported_kind_fails (E : Env) (t u : TypeId) (hr : Reaches E t u)
    (hu : (E.types u).kind.unsupported) :
    (∀ c fuel c' r, Reachable E c → makeDecoder E fuel c t = some (c', r) →
      ∃ err, r = .error err ∧ ErrorFrom E t err) ∧
    (∀ n, Depth E n t → ∀ c, Reachable E c →
      ∃ c' err, makeDecoder E n c t = some (c', .error err) ∧ ErrorFrom E t err) ∧
    (∀ typ dec, CompilesTo E typ dec → StreamErrors dec) := by
  have hret : ∀ c fuel c' r, Reachable E c → makeDecoder E fuel c t = some (c', r) →
      ∃ err, r = .error err ∧ ErrorFrom E t err := by
    intro c fuel c' r hc h
    cases r with
    | error err => exact ⟨err, rfl, makeDecoder_error _ _ _ _ _ h⟩
    | ok d =>
      obtain ⟨n, hn⟩ := CompilesTo.built ⟨c, fuel, c', hc, h⟩
      obtain ⟨d', hd'⟩ := BuiltN.reaches hr hn
      exact absurd hu hd'.supported
  refine ⟨hret, ?_, fun typ dec h => h.induct (streamErrors_closed E)⟩
  intro n hn c hc
  obtain ⟨⟨c', r⟩, h⟩ := makeDecoder_total n t hn c
  obtain ⟨err, rfl, herr⟩ := hret c n c' r hc h
  exact ⟨c', err, h, herr⟩

theorem exampleEnv_flat_depth : Depth exampleEnv 2 15 := by
  intro u hu
  have hu' : u = 1 ∨ u = 13 := by
    cases hu with
    | elem hk => rcases hk with hk | hk <;> exact absurd hk (by decide)
    | field _ hf _ _ =>
      have hf' := hf
      change _ ∈ [(⟨"A", "", 1⟩ : StructField), ⟨"S", "", 13⟩] at hf'
      simp only [List.mem_cons, List.mem_singleton, List.not_mem_nil, or_false] at hf'
      rcases hf' with rfl | rfl
      · exact Or.inl rfl
      · exact Or.inr rfl
  intro w hw
  rcases hu' with rfl | rfl
  · cases hw with
    | elem hk => rcases hk with hk | hk <;> exact absurd hk (by decide)
    | field hk _ _ _ => exact absurd hk (by decide)
  · cases hw with
    | elem hk => rcases hk with hk | hk <;> exact absurd hk (by decide)
    | field hk _ _ _ => exact absurd hk (by decide)

/-- C12, amended, on `struct { A int32; S string }`: the call returns an error that names the
type string. -/
theorem unsupported_kind_fails_witness :
    Reaches exampleEnv 15 13 ∧ (exampleEnv.types 13).kind.unsupported ∧
    makeDecoder exampleEnv 2 Cache.empty 15 =
      some (Cache.empty.insert 1 int32Decoder, .error (.cantEncode 13)) ∧
    ((∀ c fuel c' r, Reachable exampleEnv c → makeDecoder exampleEnv fuel c 15 = some (c', r) →
      ∃ err, r = .error err ∧ ErrorFrom exampleEnv 15 err) ∧
    (∀ n, Depth exampleEnv n 15 → ∀ c, Reachable exampleEnv c →
      ∃ c' err, makeDecoder exampleEnv n c 15 = some (c', .error err) ∧
        ErrorFrom exampleEnv 15 err) ∧
    (∀ typ dec, CompilesTo exampleEnv typ dec → StreamErrors dec)) :=
  ⟨Reaches.step (Child.field (t := 15) (f := ⟨"S", "", 13⟩) rfl
      (List.mem_cons_of_mem _ (List.mem_singleton.2 rfl)) (by decide) rfl) (Reaches.refl 13),
    exampleEnv_string_unsupported, rfl,
    unsupported_kind_fails exampleEnv 15 13
      (Reaches.step (Child.field (t := 15) (f := ⟨"S", "", 13⟩) rfl
        (List.mem_cons_of_mem _ (List.mem_singleton.2 rfl)) (by decide) rfl) (Reaches.refl 13))
      exampleEnv_string_unsupported⟩

/-! ## C16: the same plan from the cache and from a fresh compilation -/

/-- Every decoder that `newDecoder` returns over `makeDecoder`, from a cache that a process
can hold, is put together as the definition of `Built` says. -/
theorem newDecoder_built {E : Env} {c : Cache} (hc : Reachable E c) {fuel : Nat} {t : TypeId}
    {c' : Cache} {d : typeDecoder}
    (h : newDecoder E (makeDecoder E fuel) c t = some (c', .ok d)) : ∃ n, BuiltN E n t d :=
  (newDecoder_keeps (BuiltN.all_closed E) (makeDecoder_keeps (BuiltN.all_closed E) fuel)
    c t c' _ hc.all_built h).2 d rfl

/-- C16. For every type `T`: a decoder that `makeDecoder(T)` returns (from the cache, when it
holds one) and a decoder that `newDecoder(T)` freshly builds, in whatever states of the cache
the two calls are made, return the same for every decoder state (byte order, stream) and
destination: the same error, the same destination and the same stream left. -/
theorem same_plan_twice (E : Env) (T : TypeId) (c1 c2 : Cache) (h1 : Reachable E c1)
    (h2 : Reachable E c2) (fuel1 fuel2 : Nat) (c1' c2' : Cache) (d1 d2 : typeDecoder)
    (hmk : makeDecoder E fuel1 c1 T = some (c1', .ok d1))
    (hnew : newDecoder E (makeDecoder E fuel2) c2 T = some (c2', .ok d2)) :
    ∀ (dec : decoder) (v : Value), d1 dec v = d2 dec v := by
  obtain ⟨n, hn⟩ := CompilesTo.built ⟨c1, fuel1, c1', h1, hmk⟩
  obtain ⟨m, hm⟩ := newDecoder_built h2 hnew
  intro dec v
  rw [BuiltN.same n m T d1 d2 hn hm]

theorem exampleCache_reachable : Reachable exampleEnv exampleCache :=
  @Reachable.step exampleEnv Cache.empty exampleCache 2 0
    (.ok (structDecoder.closure [int32Decoder, skipDecoder.closure 4, float64Decoder]
      [[0], [1], [2]])) Reachable.empty rfl

/-- C16 on type 0 of the example environment: the decoder that `makeDecoder` returns from the
cache that holds one, and the decoder that `newDecoder` builds from the empty cache. -/
theorem same_plan_twice_witness :
    makeDecoder exampleEnv 1 exampleCache 0 =
      some (exampleCache, .ok (structDecoder.closure
        [int32Decoder, skipDecoder.closure 4, float64Decoder] [[0], [1], [2]])) ∧
    newDecoder exampleEnv (makeDecoder exampleEnv 1) Cache.empty 0 =
      some ((Cache.empty.insert 1 int32Decoder).insert 3 float64Decoder,
        .ok (structDecoder.closure
          [int32Decoder, skipDecoder.closure 4, float64Decoder] [[0], [1], [2]])) ∧
    ∀ (dec : decoder) (v : Value),
      structDecoder.closure [int32Decoder, skipDecoder.closure 4, float64Decoder]
          [[0], [1], [2]] dec v =
        structDecoder.closure [int32Decoder, skipDecoder.closure 4, float64Decoder]
          [[0], [1], [2]] dec v :=
  ⟨rfl, rfl, same_plan_twice exampleEnv 0 exampleCache Cache.empty exampleCache_reachable
    Reachable.empty 1 1 exampleCache
    ((Cache.empty.insert 1 int32Decoder).insert 3 float64Decoder) _ _ rfl rfl⟩

/-! ## C17, C18: what the cache keeps -/

theorem structDecoder.fields_grows {E : Env} {mk : Cache → TypeId → Compiled typeDecoder}
    {T : TypeId} {d : typeDecoder}
    (hmk : ∀ c t c' r, mk c t = some (c', r) → c T = some d → c' T = some d) :
    ∀ (fs : List StructField) (ii : Nat) (c : Cache) (decoders : List typeDecoder)
      (indexes : List (List Nat)) (c' : Cache)
      (r : Except Error (List typeDecoder × List (List Nat))),
      structDecoder.fields E mk ii fs c decoders indexes = some (c', r) →
      c T = some d → c' T = some d := by
  intro fs
  induction fs with
  | nil =>
    intro ii c decoders indexes c' r h hT
    simp only [structDecoder.fields, Option.some.injEq, Prod.mk.injEq] at h
    rw [← h.1]
    exact hT
  | cons f fs ih =>
    intro ii c decoders indexes c' r h hT
    rw [structDecoder.fields] at h
    by_cases hname : f.Name = "_"
    · rw [if_pos hname] at h
      cases hsk : skipDecoder E f.Typ with
      | error e =>
        simp only [hsk, Option.some.injEq, Prod.mk.injEq] at h
        rw [← h.1]
        exact hT
      | ok l =>
        simp only [hsk] at h
        exact ih _ _ _ _ _ _ h hT
    · rw [if_neg hname] at h
      by_cases hpkg : f.PkgPath = ""
      · rw [if_neg (by simpa using hpkg)] at h
        cases hm : mk c f.Typ with
        | none => simp [hm] at h
        | some res =>
          obtain ⟨c1, r1⟩ := res
          have hT1 := hmk _ _ _ _ hm hT
          cases r1 with
          | error e =>
            simp only [hm, Option.some.injEq, Prod.mk.injEq] at h
            rw [← h.1]
            exact hT1
          | ok d0 =>
            simp only [hm] at h
            exact ih _ _ _ _ _ _ h hT1
      · rw [if_pos (by simpa using hpkg)] at h
        exact ih _ _ _ _ _ _ h hT

theorem newDecoder_grows {E : Env} {mk : Cache → TypeId → Compiled typeDecoder}
    {T : TypeId} {d : typeDecoder}
    (hmk : ∀ c t c' r, mk c t = some (c', r) → c T = some d → c' T = some d)
    {c : Cache} {t : TypeId} {c' : Cache} {r : Except Error typeDecoder}
    (h : newDecoder E mk c t = some (c', r)) (hT : c T = some d) : c' T = some d := by
  have same : ∀ r0 : Except Error typeDecoder,
      (some (c, r0) : Compiled typeDecoder) = some (c', r) → c' T = some d := by
    intro r0 h
    simp only [Option.some.injEq, Prod.mk.injEq] at h
    rw [← h.1]
    exact hT
  have slice : sliceDecoder E mk c t = some (c', r) → c' T = some d := by
    intro h
    unfold sliceDecoder at h
    cases hm : mk c (E.types t).elem with
    | none => simp [hm] at h
    | some res =>
      obtain ⟨c1, r1⟩ := res
      have hT1 := hmk _ _ _ _ hm hT
      cases r1 <;> simp only [hm, Option.some.injEq, Prod.mk.injEq] at h <;>
        (rw [← h.1]; exact hT1)
  have struct : structDecoder E mk c t = some (c', r) → c' T = some d := by
    intro h
    unfold structDecoder at h
    cases hf : structDecoder.fields E mk 0 (E.types t).fields c [] [] with
    | none => simp [hf] at h
    | some res =>
      obtain ⟨c1, r1⟩ := res
      have hT1 := structDecoder.fields_grows hmk _ _ _ _ _ _ _ hf hT
      cases r1 <;> simp only [hf, Option.some.injEq, Prod.mk.injEq] at h <;>
        (rw [← h.1]; exact hT1)
  unfold newDecoder at h
  cases hk : (E.types t).kind <;> rw [hk] at h <;> simp only at h <;>
    first
    | exact same _ h
    | exact slice h
    | exact struct h

/-- A call of `makeDecoder` leaves every entry that the cache held. -/
theorem makeDecoder_grows {E : Env} {T : TypeId} {d : typeDecoder} :
    ∀ (fuel : Nat) (c : Cache) (t : TypeId) (c' : Cache) (r : Except Error typeDecoder),
      makeDecoder E fuel c t = some (c', r) → c T = some d → c' T = some d := by
  intro fuel
  induction fuel with
  | zero => intro c t c' r h; simp [makeDecoder] at h
  | succ n ih =>
    intro c t c' r h hT
    rw [makeDecoder] at h
    cases hct : c t with
    | some d0 =>
      simp only [hct, Option.some.injEq, Prod.mk.injEq] at h
      rw [← h.1]
      exact hT
    | none =>
      simp only [hct] at h
      cases hn : newDecoder E (makeDecoder E n) c t with
      | none => simp [hn] at h
      | some res =>
        obtain ⟨c1, r1⟩ := res
        have hT1 := newDecoder_grows ih hn hT
        cases r1 with
        | error e =>
          simp only [hn, Option.some.injEq, Prod.mk.injEq] at h
          rw [← h.1]
          exact hT1
        | ok d0 =>
          simp only [hn, Option.some.injEq, Prod.mk.injEq] at h
          rw [← h.1]
          have hne : T ≠ t := by
            intro e
            rw [e, hct] at hT
            cases hT
          simp only [Cache.insert, if_neg hne]
          exact hT1

theorem Later.reachable {E : Env} {c c2 : Cache} (hl : Later E c c2) (hc : Reachable E c) :
    Reachable E c2 := by
  induction hl with
  | refl => exact hc
  | step _ hstep ih => exact Reachable.step ih hstep

theorem Later.keeps {E : Env} {c c2 : Cache} (hl : Later E c c2) {T : TypeId}
    {d : typeDecoder} (hT : c T = some d) : c2 T = some d := by
  induction hl with
  | refl => exact hT
  | step _ hstep ih => exact makeDecoder_grows _ _ _ _ _ hstep ih

/-- A type for which some call of `makeDecoder` returns an error has no decoder. -/
theorem not_built_of_error {E : Env} {c : Cache} (hc : Reachable E c) {fuel : Nat}
    {T : TypeId} {c' : Cache} {err : Error}
    (h : makeDecoder E fuel c T = some (c', .error err)) (n : Nat) (d : typeDecoder) :
    ¬ BuiltN E n T d := by
  intro hb
  have e := hb.compile_ok hc h
  cases e

/-- C17. Whenever `makeDecoder(T)` returns an error, the cache holds no entry for `T`
afterwards, nor after any later calls; and a later call `makeDecoder(T)` that returns, returns
what a fresh run of `newDecoder(T)` returns in the cache of that moment, which is again an
error: no failure is stored. -/
theorem failed_compile_not_cached (E : Env) (T : TypeId) (c : Cache) (hc : Reachable E c)
    (fuel : Nat) (c' : Cache) (err : Error)
    (h : makeDecoder E fuel c T = some (c', .error err)) :
    c' T = none ∧
    ∀ c2, Later E c' c2 → c2 T = none ∧
      ∀ (fuel2 : Nat) (c3 : Cache) (r : Except Error typeDecoder),
        makeDecoder E (fuel2 + 1) c2 T = some (c3, r) →
        newDecoder E (makeDecoder E fuel2) c2 T = some (c3, r) ∧ ∃ err2, r = .error err2 := by
  have hnone : ∀ c2, Reachable E c2 → c2 T = none := by
    intro c2 hc2
    cases hT : c2 T with
    | none => rfl
    | some d =>
      obtain ⟨n, hn⟩ := hc2.all_built T d hT
      exact absurd hn (not_built_of_error hc h n d)
  have hc' : Reachable E c' := Reachable.step hc h
  refine ⟨hnone c' hc', ?_⟩
  intro c2 hl
  have hc2 := hl.reachable hc'
  refine ⟨hnone c2 hc2, ?_⟩
  intro fuel2 c3 r hrun
  have hrun' := hrun
  rw [makeDecoder, hnone c2 hc2] at hrun'
  simp only at hrun'
  cases hn : newDecoder E (makeDecoder E fuel2) c2 T with
  | none => simp [hn] at hrun'
  | some res =>
    obtain ⟨c4, r4⟩ := res
    cases r4 with
    | error e =>
      simp only [hn, Option.some.injEq, Prod.mk.injEq] at hrun'
      obtain ⟨rfl, rfl⟩ := hrun'
      exact ⟨rfl, e, rfl⟩
    | ok d =>
      obtain ⟨n, hb⟩ := newDecoder_built hc2 hn
      exact absurd hb (not_built_of_error hc h n d)

/-- C17 on `struct { A int32; S string }`: the failed call leaves the decoder of the `int32`
field in the cache and no entry for the struct. -/
theorem failed_compile_not_cached_witness :
    makeDecoder exampleEnv 2 Cache.empty 15 =
      some (Cache.empty.insert 1 int32Decoder, .error (.cantEncode 13)) ∧
    (Cache.empty.insert 1 int32Decoder 15 = none ∧
    ∀ c2, Later exampleEnv (Cache.empty.insert 1 int32Decoder) c2 → c2 15 = none ∧
      ∀ (fuel2 : Nat) (c3 : Cache) (r : Except Error typeDecoder),
        makeDecoder exampleEnv (fuel2 + 1) c2 15 = some (c3, r) →
        newDecoder exampleEnv (makeDecoder exampleEnv fuel2) c2 15 = some (c3, r) ∧
          ∃ err2, r = .error err2) :=
  ⟨rfl, failed_compile_not_cached exampleEnv 15 Cache.empty Reachable.empty 2
    (Cache.empty.insert 1 int32Decoder) (.cantEncode 13) rfl⟩

/-- C18. Once the cache holds an entry for a type `T`, then after any sequence of later calls
of `makeDecoder`, for any types and whether they return a decoder or an error, the cache holds
the same entry for `T`; `makeDecoder(T)` returns that entry and leaves the cache as it is,
whatever the description of the type says (nothing is compiled); and every entry of the cache
is a decoder put together by `newDecoder` for its type. -/
theorem cache_entries_persist (E : Env) (c : Cache) (hc : Reachable E c) (T : TypeId)
    (d : typeDecoder) (hT : c T = some d) (c2 : Cache) (hl : Later E c c2) :
    c2 T = some d ∧
    (∀ (E' : Env) (fuel : Nat), makeDecoder E' (fuel + 1) c2 T = some (c2, .ok d)) ∧
    (∀ t' d', c2 t' = some d' → ∃ n, BuiltN E n t' d') := by
  have h2 := hl.keeps hT
  refine ⟨h2, ?_, (hl.reachable hc).all_built⟩
  intro E' fuel
  rw [makeDecoder, h2]

theorem exampleCache_later :
    Later exampleEnv exampleCache ((exampleCache.insert 5 int16Decoder).insert 6
      (sliceDecoder.closure int16Decoder)) :=
  @Later.step exampleEnv exampleCache exampleCache _ 2 6
    (.ok (sliceDecoder.closure int16Decoder))
    (@Later.step exampleEnv exampleCache exampleCache exampleCache 2 15
      (.error (.cantEncode 13)) (Later.refl exampleCache) rfl) rfl

/-- C18 on the cache that holds the decoders of type 0 of the example environment, after a
failing call for `struct { A int32; S string }` and a succeeding call for `[]int16`. -/
theorem cache_entries_persist_witness :
    exampleCache 1 = some int32Decoder ∧
    (((exampleCache.insert 5 int16Decoder).insert 6 (sliceDecoder.closure int16Decoder)) 1 =
      some int32Decoder ∧
    (∀ (E' : Env) (fuel : Nat),
      makeDecoder E' (fuel + 1)
        ((exampleCache.insert 5 int16Decoder).insert 6 (sliceDecoder.closure int16Decoder)) 1 =
      some ((exampleCache.insert 5 int16Decoder).insert 6 (sliceDecoder.closure int16Decoder),
        .ok int32Decoder)) ∧
    (∀ t' d',
      ((exampleCache.insert 5 int16Decoder).insert 6 (sliceDecoder.closure int16Decoder)) t' =
        some d' → ∃ n, BuiltN exampleEnv n t' d')) :=
  ⟨rfl, cache_entries_persist exampleEnv exampleCache exampleCache_reachable 1 int32Decoder rfl
    _ exampleCache_later⟩

/-! ## C14: the first failure stops the loop -/

/-- A loop of `sliceDecoder` whose first elements decode and whose next element fails returns
the error of that element, with the decoded elements in front and the rest untouched. -/
theorem sliceDecoder.loop_first_failure (edec : typeDecoder) :
    ∀ (es1 : List Value) (dec dec1 dec2 : decoder) (es1' es2 : List Value) (e e' : Value)
      (err : Error),
      sliceDecoder.loop edec dec es1 = .ret dec1 es1' none →
      edec dec1 e = .ret dec2 e' (some err) →
      sliceDecoder.loop edec dec (es1 ++ e :: es2) = .ret dec2 (es1' ++ e' :: es2) (some err) := by
  intro es1
  induction es1 with
  | nil =>
    intro dec dec1 dec2 es1' es2 e e' err h1 h2
    simp only [sliceDecoder.loop, Outcome.ret.injEq] at h1
    obtain ⟨rfl, rfl, _⟩ := h1
    simp only [List.nil_append, sliceDecoder.loop, h2]
  | cons a as ih =>
    intro dec dec1 dec2 es1' es2 e e' err h1 h2
    rw [sliceDecoder.loop] at h1
    rw [List.cons_append, sliceDecoder.loop]
    cases ha : edec dec a with
    | panic => rw [ha] at h1; cases h1
    | ret d a' erra =>
      rw [ha] at h1
      cases erra with
      | some er => simp at h1
      | none =>
        simp only at h1 ⊢
        cases hl : sliceDecoder.loop edec d as with
        | panic => rw [hl] at h1; cases h1
        | ret d1 as' err1 =>
          rw [hl] at h1
          simp only [Outcome.ret.injEq] at h1
          obtain ⟨rfl, rfl, rfl⟩ := h1
          rw [ih d d1 dec2 as' es2 e e' err hl h2]
          simp

/-- A loop of `structDecoder` whose first decoders return no error and whose next decoder
fails returns the error of that decoder and the destination that the first decoders left,
with the field of the failing decoder as that decoder left it. -/
theorem structDecoder.loop_fails_at (ixs : List (List Nat)) :
    ∀ (ds1 : List typeDecoder) (ii : Nat) (dec dec1 dec2 : decoder) (v v1 f f' : Value)
      (fd : typeDecoder) (ds2 : List typeDecoder) (index : List Nat) (err : Error),
      structDecoder.loop ixs ii ds1 dec v = .ret dec1 v1 none →
      ixs[ii + ds1.length]? = some index → v1.FieldByIndex index = some f →
      fd dec1 f = .ret dec2 f' (some err) →
      structDecoder.loop ixs ii (ds1 ++ fd :: ds2) dec v =
        .ret dec2 (v1.setFieldByIndex index f') (some err) := by
  intro ds1
  induction ds1 with
  | nil =>
    intro ii dec dec1 dec2 v v1 f f' fd ds2 index err h1 hix hf hfd
    simp only [structDecoder.loop, Outcome.ret.injEq] at h1
    obtain ⟨rfl, rfl, _⟩ := h1
    simp only [List.length_nil, Nat.add_zero] at hix
    simp only [List.nil_append, structDecoder.loop, hix, hf, hfd]
  | cons d ds ih =>
    intro ii dec dec1 dec2 v v1 f f' fd ds2 index err h1 hix hf hfd
    rw [structDecoder.loop] at h1
    rw [List.cons_append, structDecoder.loop]
    cases hi : ixs[ii]? with
    | none => rw [hi] at h1; cases h1
    | some index0 =>
      rw [hi] at h1
      simp only at h1 ⊢
      cases hf0 : v.FieldByIndex index0 with
      | none => rw [hf0] at h1; cases h1
      | some f0 =>
        rw [hf0] at h1
        simp only at h1 ⊢
        cases hd : d dec f0 with
        | panic => rw [hd] at h1; cases h1
        | ret d1 f1 err1 =>
          rw [hd] at h1
          cases err1 with
          | some er => simp at h1
          | none =>
            simp only at h1 ⊢
            have hix' : ixs[ii + 1 + ds.length]? = some index := by
              rw [← hix]
              congr 1
              simp only [List.length_cons]
              omega
            exact ih (ii + 1) d1 dec1 dec2 _ v1 f f' fd ds2 index err h1 hix' hf hfd

/-- The numbers of the fields that a plan of `structDecoder` visits: every index of the plan
is the number of one field, and the numbers go up. -/
theorem FieldPlan.numbers {E : Env} {P : TypeId → typeDecoder → Prop} {ii : Nat}
    {fs : List StructField} {ds : List typeDecoder} {ixs : List (List Nat)}
    (h : FieldPlan E P ii fs ds ixs) :
    ∃ js : List Nat, ixs = js.map (fun j => [j]) ∧ js.length = ds.length ∧
      js.Pairwise (· < ·) ∧ ∀ j ∈ js, ii ≤ j ∧ j < ii + fs.length := by
  induction h with
  | nil ii => exact ⟨[], rfl, rfl, List.Pairwise.nil, by simp⟩
  | @skip ii f fs l ds ixs _ _ _ ih =>
    obtain ⟨js, rfl, hlen, hp, hb⟩ := ih
    refine ⟨ii :: js, rfl, by simp [hlen], List.Pairwise.cons ?_ hp, ?_⟩
    · intro j hj
      have := (hb j hj).1
      omega
    · intro j hj
      rcases List.mem_cons.1 hj with rfl | hj
      · simp
      · have := hb j hj
        simp only [List.length_cons]
        omega
  | @unexported ii f fs ds ixs _ _ _ ih =>
    obtain ⟨js, rfl, hlen, hp, hb⟩ := ih
    refine ⟨js, rfl, hlen, hp, ?_⟩
    intro j hj
    have := hb j hj
    simp only [List.length_cons]
    omega
  | @field ii f fs d ds ixs _ _ _ _ ih =>
    obtain ⟨js, rfl, hlen, hp, hb⟩ := ih
    refine ⟨ii :: js, rfl, by simp [hlen], List.Pairwise.cons ?_ hp, ?_⟩
    · intro j hj
      have := (hb j hj).1
      omega
    · intro j hj
      rcases List.mem_cons.1 hj with rfl | hj
      · simp
      · have := hb j hj
        simp only [List.length_cons]
        omega

/-- A loop of `structDecoder` over a struct leaves a struct, and in it every field whose
number the loop does not visit is as it was. -/
theorem structDecoder.loop_frame (js : List Nat) :
    ∀ (ds : List typeDecoder) (ii : Nat) (dec : decoder) (vs : List Value) (dec' : decoder)
      (v' : Value) (err : Option Error),
      structDecoder.loop (js.map (fun j => [j])) ii ds dec (.struct vs) = .ret dec' v' err →
      ∃ vs', v' = .struct vs' ∧
        ∀ i, i ∉ (js.drop ii).take ds.length → vs'[i]? = vs[i]? := by
  intro ds
  induction ds with
  | nil =>
    intro ii dec vs dec' v' err h
    simp only [structDecoder.loop, Outcome.ret.injEq] at h
    exact ⟨vs, h.2.1.symm, fun _ _ => rfl⟩
  | cons d ds ih =>
    intro ii dec vs dec' v' err h
    rw [structDecoder.loop] at h
    rw [List.getElem?_map] at h
    cases hj : js[ii]? with
    | none => rw [hj] at h; cases h
    | some j =>
      rw [hj] at h
      simp only [Option.map_some', Value.FieldByIndex] at h
      have hdrop : (js.drop ii).take (d :: ds).length = j :: (js.drop (ii + 1)).take ds.length := by
        obtain ⟨hlt, hget⟩ := List.getElem?_eq_some_iff.1 hj
        rw [List.drop_eq_getElem_cons hlt, hget]
        simp
      cases hf : vs[j]? with
      | none => rw [hf] at h; cases h
      | some f =>
        rw [hf] at h
        simp only [Value.FieldByIndex] at h
        cases hd : d dec f with
        | panic => rw [hd] at h; cases h
        | ret d1 f1 err1 =>
          rw [hd] at h
          have hset : (Value.struct vs).setFieldByIndex [j] f1 = .struct (vs.set j f1) := by
            simp only [Value.setFieldByIndex, hf]
          cases err1 with
          | some er =>
            simp only at h
            rw [hset] at h
            simp only [Outcome.ret.injEq] at h
            refine ⟨vs.set j f1, h.2.1.symm, ?_⟩
            intro i hi
            rw [hdrop] at hi
            have hne : j ≠ i := fun e => hi (e ▸ List.mem_cons_self _ _)
            rw [List.getElem?_set_ne hne]
          | none =>
            simp only at h
            rw [hset] at h
            obtain ⟨vs', hv', hfr⟩ := ih (ii + 1) d1 (vs.set j f1) dec' v' err h
            refine ⟨vs', hv', ?_⟩
            intro i hi
            rw [hdrop] at hi
            have hne : j ≠ i := fun e => hi (e ▸ List.mem_cons_self _ _)
            rw [hfr i (fun hm => hi (List.mem_cons_of_mem _ hm)), List.getElem?_set_ne hne]

/-- C14. For every sequence decode in which the elements before the `k`-th decode and the
`k`-th fails, and for every struct decode, with a plan compiled for the fields of the struct,
in which the planned fields before the `k`-th decode and the `k`-th fails: the decoder
returns that error with the decoder state that the failing element or field decoder left (no
byte is read after it); the elements or fields before it hold what was decoded, those after
it are as they were before the call. -/
theorem first_failure_stops (E : Env) (P : TypeId → typeDecoder → Prop) :
    (∀ (edec : typeDecoder) (dec dec1 dec2 : decoder) (es1 es1' es2 : List Value)
        (e e' : Value) (err : Error),
      sliceDecoder.loop edec dec es1 = .ret dec1 es1' none →
      edec dec1 e = .ret dec2 e' (some err) →
      sliceDecoder.closure edec dec (.seq (es1 ++ e :: es2)) =
        .ret dec2 (.seq (es1' ++ e' :: es2)) (some err)) ∧
    (∀ (fs : List StructField) (ds1 : List typeDecoder) (fd : typeDecoder)
        (ds2 : List typeDecoder) (ixs : List (List Nat)),
      FieldPlan E P 0 fs (ds1 ++ fd :: ds2) ixs →
      ∀ (dec dec1 dec2 : decoder) (vs vs1 : List Value) (j : Nat) (f f' : Value) (err : Error),
        structDecoder.loop ixs 0 ds1 dec (.struct vs) = .ret dec1 (.struct vs1) none →
        ixs[ds1.length]? = some [j] → vs1[j]? = some f →
        fd dec1 f = .ret dec2 f' (some err) →
        structDecoder.closure (ds1 ++ fd :: ds2) ixs dec (.struct vs) =
          .ret dec2 (.struct (vs1.set j f')) (some err) ∧
        vs[j]? = some f ∧ ∀ i, j < i → (vs1.set j f')[i]? = vs[i]?) := by
  refine ⟨?_, ?_⟩
  · intro edec dec dec1 dec2 es1 es1' es2 e e' err h1 h2
    simp only [sliceDecoder.closure, sliceDecoder.loop_first_failure edec es1 dec dec1 dec2 es1' es2 e e'
      err h1 h2]
  · intro fs ds1 fd ds2 ixs hplan dec dec1 dec2 vs vs1 j f f' err h1 hix hf hfd
    obtain ⟨js, rfl, hlen, hp, _⟩ := hplan.numbers
    have hrun := structDecoder.loop_fails_at _ ds1 0 dec dec1 dec2 (.struct vs) (.struct vs1) f f'
      fd ds2 [j] err h1 (by simpa using hix) (by simp [Value.FieldByIndex, hf]) hfd
    have hset : (Value.struct vs1).setFieldByIndex [j] f' = .struct (vs1.set j f') := by
      simp only [Value.setFieldByIndex, hf]
    rw [hset] at hrun
    obtain ⟨vs', hv', hfr⟩ := structDecoder.loop_frame js ds1 0 dec vs dec1 _ none h1
    injection hv' with hv'
    subst hv'
    -- the numbers of the fields before the failing one are below `j`
    have hjs : js[ds1.length]? = some j := by
      rw [List.getElem?_map] at hix
      cases hq : js[ds1.length]? with
      | none => rw [hq] at hix; cases hix
      | some q =>
        rw [hq] at hix
        simp only [Option.map_some', Option.some.injEq, List.cons.injEq, and_true] at hix
        rw [hix]
    have hbelow : ∀ i, j ≤ i → i ∉ (js.drop 0).take ds1.length := by
      intro i hji hmem
      simp only [List.drop_zero] at hmem
      obtain ⟨k, hk, hki⟩ := List.getElem_of_mem hmem
      simp only [List.length_take] at hk
      rw [List.getElem_take] at hki
      obtain ⟨hlt, hget⟩ := List.getElem?_eq_some_iff.1 hjs
      have := List.pairwise_iff_getElem.1 hp k ds1.length (by omega) hlt (by omega)
      rw [hki, hget] at this
      omega
    refine ⟨hrun, ?_, ?_⟩
    · rw [← hfr j (hbelow j (Nat.le_refl j))]
      exact hf
    · intro i hji
      rw [List.getElem?_set_ne (by omega), hfr i (hbelow i (by omega))]

/-- C14 on the example environment: `[]int16` with three elements on a stream of three
bytes, and `struct { X int32; _ [4]byte; Y int32 }` on a stream of six bytes. -/
theorem first_failure_stops_witness :
    sliceDecoder.closure int16Decoder ⟨⟨.BigEndian, [0, 0, 0, 0, 0, 0, 0, 0]⟩, [0, 1, 2]⟩
        (.seq [.int16 7, .int16 8, .int16 9]) =
      .ret ⟨⟨.BigEndian, [2, 1, 0, 0, 0, 0, 0, 0]⟩, []⟩ (.seq [.int16 1, .int16 8, .int16 9])
        (some .shortRead) ∧
    (structDecoder.closure [int32Decoder, skipDecoder.closure 4, int32Decoder] [[0], [1], [2]]
        ⟨⟨.BigEndian, [0, 0, 0, 0, 0, 0, 0, 0]⟩, [0, 0, 0, 1, 5, 6]⟩
        (.struct [.int32 7, .seq [.uint8 0, .uint8 0, .uint8 0, .uint8 0], .int32 9]) =
      .ret ⟨⟨.BigEndian, [0, 0, 0, 1, 0, 0, 0, 0]⟩, []⟩
        (.struct ([.int32 1, .seq [.uint8 0, .uint8 0, .uint8 0, .uint8 0], .int32 9].set 1
          (.seq [.uint8 0, .uint8 0, .uint8 0, .uint8 0]))) (some .EOF) ∧
    [Value.int32 7, .seq [.uint8 0, .uint8 0, .uint8 0, .uint8 0], .int32 9][1]? =
      some (.seq [.uint8 0, .uint8 0, .uint8 0, .uint8 0]) ∧
    ∀ i, 1 < i →
      ([Value.int32 1, .seq [.uint8 0, .uint8 0, .uint8 0, .uint8 0], .int32 9].set 1
        (.seq [.uint8 0, .uint8 0, .uint8 0, .uint8 0]))[i]? =
      [Value.int32 7, .seq [.uint8 0, .uint8 0, .uint8 0, .uint8 0], .int32 9][i]?) :=
  ⟨(first_failure_stops exampleEnv (CompilesTo exampleEnv)).1 int16Decoder
      ⟨⟨.BigEndian, [0, 0, 0, 0, 0, 0, 0, 0]⟩, [0, 1, 2]⟩
      ⟨⟨.BigEndian, [0, 1, 0, 0, 0, 0, 0, 0]⟩, [2]⟩
      ⟨⟨.BigEndian, [2, 1, 0, 0, 0, 0, 0, 0]⟩, []⟩
      [.int16 7] [.int16 1] [.int16 9] (.int16 8) (.int16 8) .shortRead rfl rfl,
    (first_failure_stops exampleEnv (CompilesTo exampleEnv)).2
      (exampleEnv.types 7).fields [int32Decoder] (skipDecoder.closure 4) [int32Decoder]
      [[0], [1], [2]]
      (FieldPlan.field (by decide) rfl ⟨Cache.empty, 1, _, Reachable.empty, rfl⟩
        (FieldPlan.skip rfl rfl
          (FieldPlan.field (by decide) rfl ⟨Cache.empty, 1, _, Reachable.empty, rfl⟩
            (FieldPlan.nil 3))))
      ⟨⟨.BigEndian, [0, 0, 0, 0, 0, 0, 0, 0]⟩, [0, 0, 0, 1, 5, 6]⟩
      ⟨⟨.BigEndian, [0, 0, 0, 1, 0, 0, 0, 0]⟩, [5, 6]⟩
      ⟨⟨.BigEndian, [0, 0, 0, 1, 0, 0, 0, 0]⟩, []⟩
      [.int32 7, .seq [.uint8 0, .uint8 0, .uint8 0, .uint8 0], .int32 9]
      [.int32 1, .seq [.uint8 0, .uint8 0, .uint8 0, .uint8 0], .int32 9]
      1 (.seq [.uint8 0, .uint8 0, .uint8 0, .uint8 0])
      (.seq [.uint8 0, .uint8 0, .uint8 0, .uint8 0]) .EOF rfl rfl rfl rfl⟩

/-! ## C11: unexported fields -/

theorem FieldPlan.shift_up {E : Env} {P : TypeId → typeDecoder → Prop} {ii : Nat}
    {fs : List StructField} {ds : List typeDecoder} {ixs : List (List Nat)}
    (h : FieldPlan E P ii fs ds ixs) :
    ∀ k, k ≤ ii → FieldPlan E P (ii + 1) fs ds (ixs.map (List.map (shiftField k))) := by
  induction h with
  | nil ii => intro k _; exact FieldPlan.nil _
  | @skip ii f fs l ds ixs hname hsz _ ih =>
    intro k hk
    have e : shiftField k ii = ii + 1 := by simp [shiftField]; omega
    simp only [List.map_cons, List.map_nil, e]
    exact FieldPlan.skip hname hsz (ih k (by omega))
  | unexported hname hpkg _ ih =>
    intro k hk
    exact FieldPlan.unexported hname hpkg (ih k (by omega))
  | @field ii f fs d ds ixs hname hpkg hd _ ih =>
    intro k hk
    have e : shiftField k ii = ii + 1 := by simp [shiftField]; omega
    simp only [List.map_cons, List.map_nil, e]
    exact FieldPlan.field hname hpkg hd (ih k (by omega))

/-- The plan of a struct with one more unexported field is the plan without that field, with
the numbers of the later fields moved up by one. -/
theorem FieldPlan.insert_unexported {E : Env} {P : TypeId → typeDecoder → Prop}
    {f : StructField} (hname : f.Name ≠ "_") (hpkg : f.PkgPath ≠ "") (post : List StructField) :
    ∀ (pre : List StructField) (ii : Nat) (ds : List typeDecoder) (ixs : List (List Nat)),
      FieldPlan E P ii (pre ++ post) ds ixs →
      FieldPlan E P ii (pre ++ f :: post) ds
        (ixs.map (List.map (shiftField (ii + pre.length)))) := by
  intro pre
  induction pre with
  | nil =>
    intro ii ds ixs h
    exact FieldPlan.unexported hname hpkg (h.shift_up _ (Nat.le_refl _))
  | cons g pre ih =>
    intro ii ds ixs h
    have e : shiftField (ii + (g :: pre).length) ii = ii := by
      simp [shiftField]
    have e2 : ii + (g :: pre).length = ii + 1 + pre.length := by
      simp only [List.length_cons]; omega
    cases h with
    | skip hn hsz hrest =>
      simp only [List.map_cons, List.map_nil, e]
      rw [e2]
      exact FieldPlan.skip hn hsz (ih _ _ _ hrest)
    | unexported hn hp hrest =>
      rw [e2]
      exact FieldPlan.unexported hn hp (ih _ _ _ hrest)
    | field hn hp hd hrest =>
      simp only [List.map_cons, List.map_nil, e]
      rw [e2]
      exact FieldPlan.field hn hp hd (ih _ _ _ hrest)

theorem FieldPlan.renumber {E : Env} {P : TypeId → typeDecoder → Prop} {ii : Nat}
    {fs : List StructField} {ds : List typeDecoder} {ixs : List (List Nat)}
    (h : FieldPlan E P ii fs ds ixs) : ∀ ii', ∃ ixs', FieldPlan E P ii' fs ds ixs' := by
  induction h with
  | nil ii => intro ii'; exact ⟨[], FieldPlan.nil _⟩
  | skip hname hsz _ ih =>
    intro ii'
    obtain ⟨ixs', h'⟩ := ih (ii' + 1)
    exact ⟨_, FieldPlan.skip hname hsz h'⟩
  | unexported hname hpkg _ ih =>
    intro ii'
    obtain ⟨ixs', h'⟩ := ih (ii' + 1)
    exact ⟨_, FieldPlan.unexported hname hpkg h'⟩
  | field hname hpkg hd _ ih =>
    intro ii'
    obtain ⟨ixs', h'⟩ := ih (ii' + 1)
    exact ⟨_, FieldPlan.field hname hpkg hd h'⟩

theorem FieldPlan.remove_unexported {E : Env} {P : TypeId → typeDecoder → Prop}
    {f : StructField} (hname : f.Name ≠ "_") (hpkg : f.PkgPath ≠ "") (post : List StructField) :
    ∀ (pre : List StructField) (ii : Nat) (ds : List typeDecoder) (ixs : List (List Nat)),
      FieldPlan E P ii (pre ++ f :: post) ds ixs →
      ∃ ixs', FieldPlan E P ii (pre ++ post) ds ixs' := by
  intro pre
  induction pre with
  | nil =>
    intro ii ds ixs h
    cases h with
    | skip hn _ _ => exact absurd hn hname
    | unexported _ _ hrest => exact hrest.renumber ii
    | field _ hp _ _ => exact absurd hp hpkg
  | cons g pre ih =>
    intro ii ds ixs h
    cases h with
    | skip hn hsz hrest =>
      obtain ⟨ixs', h'⟩ := ih _ _ _ hrest
      exact ⟨_, FieldPlan.skip hn hsz h'⟩
    | unexported hn hp hrest =>
      obtain ⟨ixs', h'⟩ := ih _ _ _ hrest
      exact ⟨_, FieldPlan.unexported hn hp h'⟩
    | field hn hp hd hrest =>
      obtain ⟨ixs', h'⟩ := ih _ _ _ hrest
      exact ⟨_, FieldPlan.field hn hp hd h'⟩

theorem getElem?_shiftField (a b : List Value) (vf : Value) (j : Nat) :
    (a ++ vf :: b)[shiftField a.length j]? = (a ++ b)[j]? := by
  unfold shiftField
  by_cases h : j < a.length
  · rw [if_pos h, List.getElem?_append_left h, List.getElem?_append_left h]
  · rw [if_neg h, List.getElem?_append_right (by omega), List.getElem?_append_right (by omega)]
    have e : j + 1 - a.length = (j - a.length) + 1 := by omega
    rw [e, List.getElem?_cons_succ]

theorem set_shiftField (a b : List Value) (vf x : Value) (j : Nat) :
    ∃ a1 b1, a1.length = a.length ∧ (a ++ b).set j x = a1 ++ b1 ∧
      (a ++ vf :: b).set (shiftField a.length j) x = a1 ++ vf :: b1 := by
  unfold shiftField
  by_cases h : j < a.length
  · refine ⟨a.set j x, b, by simp, ?_, ?_⟩
    · rw [List.set_append_left _ _ h]
    · rw [if_pos h, List.set_append_left _ _ h]
  · refine ⟨a, b.set (j - a.length) x, rfl, ?_, ?_⟩
    · rw [List.set_append_right _ _ (by omega)]
    · rw [if_neg h, List.set_append_right _ _ (by omega)]
      have e : j + 1 - a.length = (j - a.length) + 1 := by omega
      rw [e, List.set_cons_succ]

/-- The loop of `structDecoder` over a struct with one more field that no index of the plan
names does what the loop over the struct without that field does, and leaves that field as
it was. -/
theorem structDecoder.loop_insert (vf : Value) (js : List Nat) :
    ∀ (ds : List typeDecoder) (ii : Nat) (dec : decoder) (a b : List Value),
      structDecoder.loop (js.map (fun j => [shiftField a.length j])) ii ds dec
          (.struct (a ++ vf :: b)) =
        (structDecoder.loop (js.map (fun j => [j])) ii ds dec (.struct (a ++ b))).insertField
          a.length vf := by
  intro ds
  induction ds with
  | nil =>
    intro ii dec a b
    simp [structDecoder.loop, Outcome.insertField]
  | cons d ds ih =>
    intro ii dec a b
    rw [structDecoder.loop, structDecoder.loop, List.getElem?_map, List.getElem?_map]
    cases hj : js[ii]? with
    | none => rfl
    | some j =>
      simp only [Option.map_some', Value.FieldByIndex, getElem?_shiftField]
      cases hf : (a ++ b)[j]? with
      | none => rfl
      | some f =>
        simp only [Value.FieldByIndex]
        cases hd : d dec f with
        | panic => rfl
        | ret d1 f1 err1 =>
          obtain ⟨a1, b1, hlen, h1, h2⟩ := set_shiftField a b vf f1 j
          have hset1 : (Value.struct (a ++ vf :: b)).setFieldByIndex [shiftField a.length j] f1 =
              .struct (a1 ++ vf :: b1) := by
            simp only [Value.setFieldByIndex, getElem?_shiftField, hf, h2]
          have hset2 : (Value.struct (a ++ b)).setFieldByIndex [j] f1 = .struct (a1 ++ b1) := by
            simp only [Value.setFieldByIndex, hf, h1]
          cases err1 with
          | some er =>
            simp only [hset1, hset2, Outcome.insertField, List.take_left' hlen,
              List.drop_left' hlen]
          | none =>
            simp only [hset1, hset2]
            have h3 := ih (ii + 1) d1 a1 b1
            rw [hlen] at h3
            exact h3

/-- A decoder that can be put together for a type is what `makeDecoder` returns for it. -/
theorem BuiltN.compilesTo {E : Env} {n : Nat} {t : TypeId} {d : typeDecoder}
    (h : BuiltN E n t d) : CompilesTo E t d := by
  obtain ⟨c', hc'⟩ := BuiltN.compiles n t d Cache.empty h Reachable.empty.all_built
  exact ⟨Cache.empty, n, c', Reachable.empty, hc'⟩

/-- C11. For every struct type with a field that is unexported and not named `_`, and the
struct type with that field removed: the one compiles exactly when the other does, whatever
the type of the field is; and on every decoder state and destination the decoder of the
struct does what the decoder of the struct without the field does (the same error, the same
stream left, the same values in the other fields) and leaves the field as it was. -/
theorem unexported_field_ignored (E : Env) (typ typ' : TypeId) (pre post : List StructField)
    (f : StructField) (hk : (E.types typ).kind = .Struct) (hk' : (E.types typ').kind = .Struct)
    (hfs : (E.types typ).fields = pre ++ f :: post)
    (hfs' : (E.types typ').fields = pre ++ post)
    (hname : f.Name ≠ "_") (hpkg : f.PkgPath ≠ "") :
    ((∃ dec, CompilesTo E typ dec) ↔ (∃ dec', CompilesTo E typ' dec')) ∧
    ∀ dec dec', CompilesTo E typ dec → CompilesTo E typ' dec' →
      ∀ (d : decoder) (vpre vpost : List Value) (vf : Value), vpre.length = pre.length →
        dec d (.struct (vpre ++ vf :: vpost)) =
          (dec' d (.struct (vpre ++ vpost))).insertField pre.length vf := by
  have plan_of : ∀ t dec, CompilesTo E t dec → (E.types t).kind = .Struct →
      ∃ m ds ixs, FieldPlan E (BuiltN E m) 0 (E.types t).fields ds ixs ∧
        dec = structDecoder.closure ds ixs := by
    intro t dec h hkt
    obtain ⟨n, hn⟩ := h.built
    exact hn.eq_struct hkt
  have compile_of : ∀ t m ds ixs, (E.types t).kind = .Struct →
      FieldPlan E (BuiltN E m) 0 (E.types t).fields ds ixs →
      CompilesTo E t (structDecoder.closure ds ixs) := by
    intro t m ds ixs hkt hp
    have hb : BuiltN E (m + 1) t (structDecoder.closure ds ixs) :=
      Or.inr (Or.inr ⟨hkt, ds, ixs, hp, rfl⟩)
    exact hb.compilesTo
  refine ⟨⟨?_, ?_⟩, ?_⟩
  · rintro ⟨dec, h⟩
    obtain ⟨m, ds, ixs, hp, _⟩ := plan_of typ dec h hk
    rw [hfs] at hp
    obtain ⟨ixs', hp'⟩ := FieldPlan.remove_unexported hname hpkg post pre 0 ds ixs hp
    rw [← hfs'] at hp'
    exact ⟨_, compile_of typ' m ds ixs' hk' hp'⟩
  · rintro ⟨dec', h⟩
    obtain ⟨m, ds, ixs, hp, _⟩ := plan_of typ' dec' h hk'
    rw [hfs'] at hp
    have hp' := FieldPlan.insert_unexported hname hpkg post pre 0 ds ixs hp
    rw [← hfs] at hp'
    exact ⟨_, compile_of typ m ds _ hk hp'⟩
  · intro dec dec' h h' d vpre vpost vf hlen
    obtain ⟨m, ds, ixs, hp, rfl⟩ := plan_of typ dec h hk
    obtain ⟨m2, ds2, ixs2, hp2, rfl⟩ := plan_of typ' dec' h' hk'
    rw [hfs] at hp
    rw [hfs'] at hp2
    have hp2' := FieldPlan.insert_unexported hname hpkg post pre 0 ds2 ixs2 hp2
    obtain ⟨e1, e2⟩ := hp.deterministic (fun t a b ha hb => BuiltN.same m m2 t a b ha hb) hp2'
    subst e1 e2
    obtain ⟨js, rfl, _, _, _⟩ := hp2.numbers
    have hix : (js.map (fun j => [j])).map (List.map (shiftField (0 + pre.length))) =
        js.map (fun j => [shiftField vpre.length j]) := by
      simp [List.map_map, hlen, Function.comp_def]
    simp only [structDecoder.closure, hix]
    rw [← hlen]
    exact structDecoder.loop_insert vf js ds 0 d vpre vpost

/-- C11 on `struct { X int32; hidden string; _ [4]byte; Y int32 }` and
`struct { X int32; _ [4]byte; Y int32 }` of the example environment: the struct with the
unexported string field compiles, and a decode of twelve bytes leaves that field alone. -/
theorem unexported_field_ignored_witness :
    makeDecoder exampleEnv 2 Cache.empty 14 =
      some ((Cache.empty.insert 1 int32Decoder).insert 14
          (structDecoder.closure [int32Decoder, skipDecoder.closure 4, int32Decoder]
            [[0], [2], [3]]),
        .ok (structDecoder.closure [int32Decoder, skipDecoder.closure 4, int32Decoder]
          [[0], [2], [3]])) ∧
    structDecoder.closure [int32Decoder, skipDecoder.closure 4, int32Decoder] [[0], [2], [3]]
        ⟨⟨.BigEndian, [0, 0, 0, 0, 0, 0, 0, 0]⟩, [0, 0, 0, 1, 9, 9, 9, 9, 0, 0, 0, 2]⟩
        (.struct ([.int32 7] ++ .other ::
          [.seq [.uint8 0, .uint8 0, .uint8 0, .uint8 0], .int32 8])) =
      (structDecoder.closure [int32Decoder, skipDecoder.closure 4, int32Decoder]
        [[0], [1], [2]]
        ⟨⟨.BigEndian, [0, 0, 0, 0, 0, 0, 0, 0]⟩, [0, 0, 0, 1, 9, 9, 9, 9, 0, 0, 0, 2]⟩
        (.struct ([.int32 7] ++
          [.seq [.uint8 0, .uint8 0, .uint8 0, .uint8 0], .int32 8]))).insertField 1 .other ∧
    structDecoder.closure [int32Decoder, skipDecoder.closure 4, int32Decoder] [[0], [2], [3]]
        ⟨⟨.BigEndian, [0, 0, 0, 0, 0, 0, 0, 0]⟩, [0, 0, 0, 1, 9, 9, 9, 9, 0, 0, 0, 2]⟩
        (.struct [.int32 7, .other, .seq [.uint8 0, .uint8 0, .uint8 0, .uint8 0], .int32 8]) =
      .ret ⟨⟨.BigEndian, [0, 0, 0, 2, 0, 0, 0, 0]⟩, []⟩
        (.struct [.int32 1, .other, .seq [.uint8 0, .uint8 0, .uint8 0, .uint8 0], .int32 2])
        none :=
  ⟨rfl,
    (unexported_field_ignored exampleEnv 14 7 [⟨"X", "", 1⟩] [⟨"_", "main", 2⟩, ⟨"Y", "", 1⟩]
      ⟨"hidden", "main", 13⟩ rfl rfl rfl rfl (by decide) (by decide)).2 _ _
      ⟨Cache.empty, 2, _, Reachable.empty, rfl⟩ ⟨Cache.empty, 2, _, Reachable.empty, rfl⟩
      ⟨⟨.BigEndian, [0, 0, 0, 0, 0, 0, 0, 0]⟩, [0, 0, 0, 1, 9, 9, 9, 9, 0, 0, 0, 2]⟩
      [.int32 7] [.seq [.uint8 0, .uint8 0, .uint8 0, .uint8 0], .int32 8] .other rfl,
    rfl⟩

/-! ## C15: decoding what the encoder wrote -/

theorem leBytes_length : ∀ (n x : Nat), (leBytes n x).length = n := by
  intro n
  induction n with
  | zero => intro x; rfl
  | succ n ih => intro x; simp [leBytes, ih]

theorem leUint_leBytes : ∀ (n x : Nat), leUint (leBytes n x) = x % 256 ^ n := by
  intro n
  induction n with
  | zero => intro x; simp [leBytes, leUint, Nat.mod_one]
  | succ n ih =>
    intro x
    have h := ih (x / 256)
    unfold leUint at h ⊢
    simp only [leBytes, List.foldr_cons, h]
    rw [pow_succ, Nat.mul_comm (256 ^ n) 256, Nat.mod_mul]

theorem ByteOrder.PutUint_length (order : ByteOrder) (n x : Nat) :
    (order.PutUint n x).length = n := by
  cases order <;> simp [ByteOrder.PutUint, leBytes_length]

/-- Reading back what `PutUint` wrote gives the `n` low bytes of the number. -/
theorem ByteOrder.Uint_PutUint (order : ByteOrder) (n x : Nat) :
    order.Uint (order.PutUint n x) = x % 256 ^ n := by
  cases order
  · simp only [ByteOrder.Uint, ByteOrder.PutUint]
    rw [← leUint_leBytes n x, leUint_eq_beUint_reverse]
  · simp only [ByteOrder.Uint, ByteOrder.PutUint, leUint_leBytes]

theorem ByteOrder.Uint_take_PutUint (order : ByteOrder) (n x : Nat) (tail : List Byte) :
    order.Uint ((order.PutUint n x ++ tail).take n) = x % 256 ^ n := by
  rw [List.take_left' (order.PutUint_length n x), order.Uint_PutUint]

theorem wrapInt_round (x : Int) :
    (-2 ^ 7 ≤ x → x < 2 ^ 7 → wrapInt 8 ((((x % 2 ^ 8).toNat % 256 ^ 1 : Nat) : Int)) = x) ∧
    (-2 ^ 15 ≤ x → x < 2 ^ 15 → wrapInt 16 (toInt64 ((x % 2 ^ 16).toNat % 256 ^ 2)) = x) ∧
    (-2 ^ 31 ≤ x → x < 2 ^ 31 → wrapInt 32 (toInt64 ((x % 2 ^ 32).toNat % 256 ^ 4)) = x) ∧
    (-2 ^ 63 ≤ x → x < 2 ^ 63 → wrapInt 64 (toInt64 ((x % 2 ^ 64).toNat % 256 ^ 8)) = x) := by
  refine ⟨?_, ?_, ?_, ?_⟩
  · intro hlo hhi
    have h0 : (0 : Int) ≤ x % 2 ^ 8 := Int.emod_nonneg x (by norm_num)
    have h1 := Int.toNat_of_nonneg h0
    generalize (x % 2 ^ 8).toNat = y at h1
    simp only [wrapInt]
    norm_num at *
    split_ifs <;> omega
  · intro hlo hhi
    have h0 : (0 : Int) ≤ x % 2 ^ 16 := Int.emod_nonneg x (by norm_num)
    have h1 := Int.toNat_of_nonneg h0
    generalize (x % 2 ^ 16).toNat = y at h1
    simp only [toInt64, wrapInt]
    norm_num at *
    split_ifs <;> omega
  · intro hlo hhi
    have h0 : (0 : Int) ≤ x % 2 ^ 32 := Int.emod_nonneg x (by norm_num)
    have h1 := Int.toNat_of_nonneg h0
    generalize (x % 2 ^ 32).toNat = y at h1
    simp only [toInt64, wrapInt]
    norm_num at *
    split_ifs <;> omega
  · intro hlo hhi
    have h0 : (0 : Int) ≤ x % 2 ^ 64 := Int.emod_nonneg x (by norm_num)
    have h1 := Int.toNat_of_nonneg h0
    generalize (x % 2 ^ 64).toNat = y at h1
    simp only [toInt64, wrapInt]
    norm_num at *
    split_ifs <;> omega

theorem ByteOrder.PutUint_one (order : ByteOrder) (x : Nat) :
    order.PutUint 1 x = [⟨x % 256, Nat.mod_lt _ (by decide)⟩] := by
  cases order <;> simp [ByteOrder.PutUint, leBytes]

theorem ByteOrder.Uint_take_self (order : ByteOrder) (n x : Nat) :
    order.Uint ((order.PutUint n x).take n) = x % 256 ^ n := by
  rw [List.take_of_length_le (by rw [order.PutUint_length]), order.Uint_PutUint]

theorem ByteOrder.Uint_take_drop (order : ByteOrder) (n x y : Nat) :
    order.Uint (((order.PutUint n x ++ order.PutUint n y).drop n).take n) = y % 256 ^ n := by
  rw [List.drop_left' (order.PutUint_length n x), order.Uint_take_self]

/-- The value that a primitive decoder stores from the bytes that the encoder wrote for a
value is that value. -/
theorem store_encode {E : Env} {t : TypeId} {v v0 : Value} {n : Nat}
    (hw : (E.types t).kind.width = some n) (hv : hasType E t v = true)
    (hv0 : hasType E t v0 = true) (hr : representable v = true) (order : ByteOrder) :
    (encode E order t v).length = n ∧
      (E.types t).kind.store order (encode E order t v) v0 = some v := by
  cases v <;> simp only [hasType, decide_eq_true_eq, Bool.and_eq_true, Bool.or_eq_true] at hv
  case seq elems =>
    rcases hv with ⟨hk | ⟨hk, _⟩, _⟩ <;> rw [hk] at hw <;> simp [Kind.width] at hw
  case struct fields =>
    rw [hv.1] at hw
    simp [Kind.width] at hw
  case other =>
    rw [hv.1.1.1] at hw
    simp at hw
  case int8 x =>
    rw [hv] at hw
    simp only [Kind.width, Option.some.injEq] at hw
    subst hw
    cases v0 <;> simp [hasType, hv, Kind.width] at hv0
    simp only [representable, decide_eq_true_eq] at hr
    refine ⟨by simp [encode, ByteOrder.PutUint_length], ?_⟩
    simp only [hv, encode, Kind.store, Value.SetInt, ByteOrder.PutUint_one, List.getD_cons_zero,
      Option.some.injEq, Value.int8.injEq]
    have := (wrapInt_round x).1 hr.1 hr.2
    simpa using this
  case int16 x =>
    rw [hv] at hw
    simp only [Kind.width, Option.some.injEq] at hw
    subst hw
    cases v0 <;> simp [hasType, hv, Kind.width] at hv0
    simp only [representable, decide_eq_true_eq] at hr
    refine ⟨by simp [encode, ByteOrder.PutUint_length], ?_⟩
    simp only [hv, encode, Kind.store, Value.SetInt, ByteOrder.Uint16, ByteOrder.Uint_take_self,
      Option.some.injEq, Value.int16.injEq]
    exact (wrapInt_round x).2.1 hr.1 hr.2
  case int32 x =>
    rw [hv] at hw
    simp only [Kind.width, Option.some.injEq] at hw
    subst hw
    cases v0 <;> simp [hasType, hv, Kind.width] at hv0
    simp only [representable, decide_eq_true_eq] at hr
    refine ⟨by simp [encode, ByteOrder.PutUint_length], ?_⟩
    simp only [hv, encode, Kind.store, Value.SetInt, ByteOrder.Uint32, ByteOrder.Uint_take_self,
      Option.some.injEq, Value.int32.injEq]
    exact (wrapInt_round x).2.2.1 hr.1 hr.2
  case int64 x =>
    rw [hv] at hw
    simp only [Kind.width, Option.some.injEq] at hw
    subst hw
    cases v0 <;> simp [hasType, hv, Kind.width] at hv0
    simp only [representable, decide_eq_true_eq] at hr
    refine ⟨by simp [encode, ByteOrder.PutUint_length], ?_⟩
    simp only [hv, encode, Kind.store, Value.SetInt, ByteOrder.Uint64, ByteOrder.Uint_take_self,
      Option.some.injEq, Value.int64.injEq]
    exact (wrapInt_round x).2.2.2 hr.1 hr.2
  case uint8 x =>
    rw [hv] at hw
    simp only [Kind.width, Option.some.injEq] at hw
    subst hw
    cases v0 <;> simp [hasType, hv, Kind.width] at hv0
    simp only [representable, decide_eq_true_eq] at hr
    refine ⟨by simp [encode, ByteOrder.PutUint_length], ?_⟩
    simp only [hv, encode, Kind.store, Value.SetUint, ByteOrder.PutUint_one, List.getD_cons_zero,
      Option.some.injEq, Value.uint8.injEq, toUint64]
    norm_num at hr ⊢
    omega
  case uint16 x =>
    rw [hv] at hw
    simp only [Kind.width, Option.some.injEq] at hw
    subst hw
    cases v0 <;> simp [hasType, hv, Kind.width] at hv0
    simp only [representable, decide_eq_true_eq] at hr
    refine ⟨by simp [encode, ByteOrder.PutUint_length], ?_⟩
    simp only [hv, encode, Kind.store, Value.SetUint, ByteOrder.Uint16, ByteOrder.Uint_take_self,
      Option.some.injEq, Value.uint16.injEq, toUint64]
    norm_num at hr ⊢
    omega
  case uint32 x =>
    rw [hv] at hw
    simp only [Kind.width, Option.some.injEq] at hw
    subst hw
    cases v0 <;> simp [hasType, hv, Kind.width] at hv0
    simp only [representable, decide_eq_true_eq] at hr
    refine ⟨by simp [encode, ByteOrder.PutUint_length], ?_⟩
    simp only [hv, encode, Kind.store, Value.SetUint, ByteOrder.Uint32, ByteOrder.Uint_take_self,
      Option.some.injEq, Value.uint32.injEq, toUint64]
    norm_num at hr ⊢
    omega
  case uint64 x =>
    rw [hv] at hw
    simp only [Kind.width, Option.some.injEq] at hw
    subst hw
    cases v0 <;> simp [hasType, hv, Kind.width] at hv0
    simp only [representable, decide_eq_true_eq] at hr
    refine ⟨by simp [encode, ByteOrder.PutUint_length], ?_⟩
    simp only [hv, encode, Kind.store, Value.SetUint, ByteOrder.Uint64, ByteOrder.Uint_take_self,
      Option.some.injEq, Value.uint64.injEq, toUint64]
    norm_num at hr ⊢
    omega
  case float32 x =>
    rw [hv] at hw
    simp only [Kind.width, Option.some.injEq] at hw
    subst hw
    cases v0 <;> simp [hasType, hv, Kind.width] at hv0
    cases x <;>
      simp only [representable, Bool.and_eq_true, decide_eq_true_eq, Bool.false_eq_true,
        Bool.not_eq_true'] at hr
    refine ⟨by simp [encode, ByteOrder.PutUint_length], ?_⟩
    simp only [hv, encode, Kind.store, Value.SetFloat, ByteOrder.Uint32, GoFloat.bits, hr.2,
      Bool.false_eq_true, if_false, ByteOrder.Uint_take_self, Option.some.injEq,
      Value.float32.injEq, GoFloat.Float32frombits.injEq]
    have hlt := hr.1
    norm_num at hlt ⊢
    omega
  case float64 x =>
    rw [hv] at hw
    simp only [Kind.width, Option.some.injEq] at hw
    subst hw
    cases v0 <;> simp [hasType, hv, Kind.width] at hv0
    cases x <;>
      simp only [representable, Bool.and_eq_true, decide_eq_true_eq, Bool.false_eq_true] at hr
    refine ⟨by simp [encode, ByteOrder.PutUint_length], ?_⟩
    simp only [hv, encode, Kind.store, Value.SetFloat, ByteOrder.Uint64, GoFloat.bits,
      ByteOrder.Uint_take_self, Option.some.injEq, Value.float64.injEq,
      GoFloat.Float64frombits.injEq]
    norm_num at hr ⊢
    omega
  case complex64 re im =>
    rw [hv] at hw
    simp only [Kind.width, Option.some.injEq] at hw
    subst hw
    cases v0 <;> simp [hasType, hv, Kind.width] at hv0
    cases re <;> cases im <;>
      simp only [representable, Bool.and_eq_true, decide_eq_true_eq, Bool.false_eq_true,
        Bool.not_eq_true'] at hr
    refine ⟨by simp [encode, ByteOrder.PutUint_length], ?_⟩
    simp only [hv, encode, Kind.store, Value.SetComplex, ByteOrder.Uint32, GoFloat.bits,
      hr.1.2, hr.2.2, Bool.false_eq_true, if_false, ByteOrder.Uint_take_PutUint,
      ByteOrder.Uint_take_drop, Option.some.injEq, Value.complex64.injEq,
      GoFloat.Float32frombits.injEq]
    have hlt1 := hr.1.1
    have hlt2 := hr.2.1
    norm_num at hlt1 hlt2 ⊢
    omega
  case complex128 re im =>
    rw [hv] at hw
    simp only [Kind.width, Option.some.injEq] at hw
    subst hw
    cases v0 <;> simp [hasType, hv, Kind.width] at hv0
    cases re <;> cases im <;>
      simp only [representable, Bool.and_eq_true, decide_eq_true_eq, Bool.false_eq_true] at hr
    refine ⟨by simp [encode, ByteOrder.PutUint_length], ?_⟩
    simp only [hv, encode, Kind.store, Value.SetComplex, ByteOrder.Uint64, GoFloat.bits,
      ByteOrder.Uint_take_PutUint, ByteOrder.Uint_take_drop, Option.some.injEq,
      Value.complex128.injEq, GoFloat.Float64frombits.injEq]
    norm_num at hr ⊢
    omega

theorem RoundTrip.of_prim {E : Env} {t : TypeId} {d : typeDecoder}
    (hd : (E.types t).kind.decoder = some d) : RoundTrip E t d := by
  obtain ⟨n, hw⟩ := width_of_decoder hd
  intro order v v0 hv hv0 hr _ buf rest
  obtain ⟨hlen, hst⟩ := store_encode hw hv hv0 hr order
  have hlen' : n ≤ (⟨⟨order, buf⟩, encode E order t v ++ rest⟩ : decoder).reader.length := by
    simp only [List.length_append]; omega
  obtain ⟨buf', hrun⟩ := prim_decoder_ok hd hw ⟨⟨order, buf⟩, encode E order t v ++ rest⟩ v0 hlen'
  simp only [List.take_left' hlen, List.drop_left' hlen, hst] at hrun
  exact ⟨buf', hrun⟩

theorem sliceDecoder.loop_round {E : Env} {et : TypeId} {edec : typeDecoder}
    (he : RoundTrip E et edec) (order : ByteOrder) :
    ∀ (es es0 : List Value), elemsHaveType E et es = true → elemsHaveType E et es0 = true →
      representableAll es = true → presizedElems E et es0 es →
      ∀ buf rest, ∃ buf',
        sliceDecoder.loop edec ⟨⟨order, buf⟩, encodeElems E order et es ++ rest⟩ es0 =
          .ret ⟨⟨order, buf'⟩, rest⟩ es none := by
  intro es
  induction es with
  | nil =>
    intro es0 _ _ _ hp buf rest
    cases es0 with
    | nil => exact ⟨buf, by simp [sliceDecoder.loop, encodeElems]⟩
    | cons e0 es0 => simp [presizedElems] at hp
  | cons e es ih =>
    intro es0 hty hty0 hr hp buf rest
    cases es0 with
    | nil => simp [presizedElems] at hp
    | cons e0 es0 =>
      simp only [elemsHaveType, Bool.and_eq_true] at hty hty0
      simp only [representableAll, Bool.and_eq_true] at hr
      simp only [presizedElems] at hp
      obtain ⟨buf1, h1⟩ := he order e e0 hty.1 hty0.1 hr.1 hp.1 buf
        (encodeElems E order et es ++ rest)
      obtain ⟨buf2, h2⟩ := ih es0 hty.2 hty0.2 hr.2 hp.2 buf1 rest
      refine ⟨buf2, ?_⟩
      rw [sliceDecoder.loop]
      simp only [encodeElems, List.append_assoc, h1, h2]

theorem RoundTrip.of_slice {E : Env} {t : TypeId} {edec : typeDecoder}
    (hk : (E.types t).kind = .Array ∨ (E.types t).kind = .Slice)
    (he : RoundTrip E (E.types t).elem edec) : RoundTrip E t (sliceDecoder.closure edec) := by
  intro order v v0 hv hv0 hr hp buf rest
  obtain ⟨es, rfl, hty, _⟩ := seq_of_hasType hk hv
  obtain ⟨es0, rfl, hty0, _⟩ := seq_of_hasType hk hv0
  simp only [representable] at hr
  simp only [presized] at hp
  obtain ⟨buf', h⟩ := sliceDecoder.loop_round he order es es0 hty hty0 hr hp buf rest
  exact ⟨buf', by simp only [sliceDecoder.closure, encode, h]⟩

theorem structDecoder.fields_round {E : Env} {ii : Nat} {fs : List StructField}
    {ds : List typeDecoder} {ixs : List (List Nat)}
    (hplan : FieldPlan E (RoundTrip E) ii fs ds ixs) (order : ByteOrder) :
    ∀ (pre : List (List Nat)) (vpre vs vs0 : List Value), vpre.length = ii →
      fieldsHaveType E fs vs = true → fieldsHaveType E fs vs0 = true →
      representableAll vs = true → presizedFields E fs vs0 vs →
      ∀ buf rest, ∃ buf',
        structDecoder.loop (pre ++ ixs) pre.length ds
            ⟨⟨order, buf⟩, encodeFields E order fs vs ++ rest⟩ (.struct (vpre ++ vs0)) =
          .ret ⟨⟨order, buf'⟩, rest⟩ (.struct (vpre ++ vs)) none := by
  induction hplan with
  | nil ii =>
    intro pre vpre vs vs0 _ hty hty0 _ _ buf rest
    cases vs with
    | cons v vs' => simp [fieldsHaveType] at hty
    | nil =>
      cases vs0 with
      | cons v vs' => simp [fieldsHaveType] at hty0
      | nil => exact ⟨buf, by simp [structDecoder.loop, encodeFields]⟩
  | @skip ii f fs l ds ixs hname hsz _ ih =>
    intro pre vpre vs vs0 hlen hty hty0 hr hp buf rest
    obtain ⟨v, vs', rfl, _, htys⟩ := fieldsHaveType_cons hty
    obtain ⟨v0, vs0', rfl, _, htys0⟩ := fieldsHaveType_cons hty0
    subst hlen
    simp only [representableAll, Bool.and_eq_true] at hr
    simp only [presizedFields, hname, true_or, if_true] at hp
    obtain ⟨rfl, hps⟩ := hp
    obtain ⟨buf2, h2⟩ := ih (pre ++ [[vpre.length]]) (vpre ++ [v0]) vs' vs0' (by simp) htys htys0
      hr.2 hps buf rest
    refine ⟨buf2, ?_⟩
    have henc : encodeFields E order (f :: fs) (v0 :: vs') ++ rest =
        List.replicate l 0 ++ (encodeFields E order fs vs' ++ rest) := by
      simp [encodeFields, hname, skipSize, hsz]
    rw [henc, structDecoder.loop_cons,
      skipDecoder.closure_ok l order buf _ _ v0 (List.length_replicate _ _)]
    simp only
    rw [h2]
    simp
  | @unexported ii f fs ds ixs hname hpkg _ ih =>
    intro pre vpre vs vs0 hlen hty hty0 hr hp buf rest
    obtain ⟨v, vs', rfl, _, htys⟩ := fieldsHaveType_cons hty
    obtain ⟨v0, vs0', rfl, _, htys0⟩ := fieldsHaveType_cons hty0
    subst hlen
    simp only [representableAll, Bool.and_eq_true] at hr
    simp only [presizedFields, hpkg, ne_eq, not_false_eq_true, or_true, if_true] at hp
    obtain ⟨rfl, hps⟩ := hp
    obtain ⟨buf2, h2⟩ := ih pre (vpre ++ [v0]) vs' vs0' (by simp) htys htys0 hr.2 hps buf rest
    refine ⟨buf2, ?_⟩
    have henc : encodeFields E order (f :: fs) (v0 :: vs') ++ rest =
        encodeFields E order fs vs' ++ rest := by
      simp [encodeFields, hname, hpkg]
    rw [henc]
    simpa using h2
  | @field ii f fs d ds ixs hname hpkg hd _ ih =>
    intro pre vpre vs vs0 hlen hty hty0 hr hp buf rest
    obtain ⟨v, vs', rfl, hty1, htys⟩ := fieldsHaveType_cons hty
    obtain ⟨v0, vs0', rfl, hty01, htys0⟩ := fieldsHaveType_cons hty0
    subst hlen
    simp only [representableAll, Bool.and_eq_true] at hr
    simp only [presizedFields, hname, hpkg, ne_eq, not_true_eq_false, or_self, if_false] at hp
    obtain ⟨buf1, h1⟩ := hd order v v0 hty1 hty01 hr.1 hp.1 buf
      (encodeFields E order fs vs' ++ rest)
    obtain ⟨buf2, h2⟩ := ih (pre ++ [[vpre.length]]) (vpre ++ [v]) vs' vs0' (by simp) htys htys0
      hr.2 hp.2 buf1 rest
    refine ⟨buf2, ?_⟩
    have henc : encodeFields E order (f :: fs) (v :: vs') ++ rest =
        encode E order f.Typ v ++ (encodeFields E order fs vs' ++ rest) := by
      simp [encodeFields, hname, hpkg]
    rw [henc, structDecoder.loop_cons, h1]
    simp only
    rw [h2]
    simp

theorem RoundTrip.of_struct {E : Env} {t : TypeId} {ds : List typeDecoder}
    {ixs : List (List Nat)} (hk : (E.types t).kind = .Struct)
    (hplan : FieldPlan E (RoundTrip E) 0 (E.types t).fields ds ixs) :
    RoundTrip E t (structDecoder.closure ds ixs) := by
  intro order v v0 hv hv0 hr hp buf rest
  obtain ⟨vs, rfl, hty⟩ := struct_of_hasType hk hv
  obtain ⟨vs0, rfl, hty0⟩ := struct_of_hasType hk hv0
  simp only [representable] at hr
  simp only [presized] at hp
  obtain ⟨buf', h⟩ := structDecoder.fields_round hplan order [] [] vs vs0 rfl hty hty0 hr hp
    buf rest
  simp only [List.nil_append, List.length_nil] at h
  exact ⟨buf', by simp only [structDecoder.closure, encode, h]⟩

/-- Every decoder that the compiler builds undoes the encoder. -/
theorem RoundTrip.round_closed (E : Env) : Closed E (RoundTrip E) :=
  ⟨fun _ _ hd => RoundTrip.of_prim hd, fun _ _ hk he => RoundTrip.of_slice hk he,
    fun _ _ _ hk hplan => RoundTrip.of_struct hk hplan⟩

/-! ## C28: a primitive decoder that fails leaves the destination alone -/

/-- Whenever a primitive decoder returns an error, the destination is as it was. -/
theorem prim_error_keeps {k : Kind} {d : typeDecoder} (hd : k.decoder = some d)
    {dec dec' : decoder} {v v' : Value} {err : Error}
    (h : d dec v = .ret dec' v' (some err)) : v' = v := by
  cases k <;> simp only [Kind.decoder, Option.some.injEq] at hd <;> try exact absurd hd (by simp)
  all_goals subst hd
  case Complex128 =>
    unfold complex128Decoder at h
    rcases hr : dec.read 8 with ⟨dec1, _ | e⟩ <;> rw [hr] at h <;> simp only at h
    · rcases hr2 : dec1.read 8 with ⟨dec2, _ | e⟩ <;> rw [hr2] at h <;> simp only at h
      · split at h <;> cases h
      · injection h with _ hv _
        exact hv.symm
    · injection h with _ hv _
      exact hv.symm
  all_goals
    simp only [int8Decoder, int16Decoder, int32Decoder, int64Decoder, uint8Decoder,
      uint16Decoder, uint32Decoder, uint64Decoder, float32Decoder, float64Decoder,
      complex64Decoder] at h
    split at h
    · injection h with _ hv _
      exact hv.symm
    · split at h <;> cases h

/-- A read from a stream that is too short returns the short-read error and leaves nothing
of the stream. -/
theorem decoder.read_short_state (d : decoder) (n : Nat) (h : d.reader.length < n) :
    ∃ buf, d.read n = (⟨⟨d.order, buf⟩, []⟩, some Error.shortRead) := by
  have h' : ¬ n ≤ d.reader.length := by omega
  simp only [decoder.read, readAtLeast, h', if_false]
  exact ⟨_, rfl⟩

/-- C28. For every primitive kind: whenever the decoder of the kind returns an error, the
destination holds the value it held before the call. For `complex128` on a stream that holds
the first eight bytes but not the second eight, the decoder returns the short-read error, has
consumed the whole stream and leaves the destination, its real part included, as it was. -/
theorem failed_primitive_keeps_destination (k : Kind) (d : typeDecoder)
    (hd : k.decoder = some d) :
    (∀ (dec dec' : decoder) (v v' : Value) (err : Error),
      d dec v = .ret dec' v' (some err) → v' = v) ∧
    (∀ (dec : decoder) (v : Value), 8 ≤ dec.reader.length → dec.reader.length < 16 →
      ∃ buf, complex128Decoder dec v = .ret ⟨⟨dec.order, buf⟩, []⟩ v (some .shortRead)) := by
  refine ⟨fun dec dec' v v' err h => prim_error_keeps hd h, ?_⟩
  intro dec v h8 h16
  obtain ⟨buf, h2⟩ := decoder.read_short_state
    ⟨⟨dec.order, dec.reader.take 8 ++ dec.buf.drop 8⟩, dec.reader.drop 8⟩ 8
    (by simp only [List.length_drop]; omega)
  refine ⟨buf, ?_⟩
  unfold complex128Decoder
  rw [decoder.read_ok dec 8 h8]
  simp only
  rw [h2]

/-- C28 for `complex128` on a stream of twelve bytes, big-endian: the first read takes eight
bytes, the second fails on the four that are left, and the destination keeps `1 + 2i`. -/
theorem failed_primitive_keeps_destination_witness :
    complex128Decoder ⟨⟨.BigEndian, [0, 0, 0, 0, 0, 0, 0, 0]⟩,
        [0x40, 0x04, 0, 0, 0, 0, 0, 0, 0x40, 0x04, 0, 0]⟩
        (.complex128 (.Float64frombits 0x3ff0000000000000)
          (.Float64frombits 0x4000000000000000)) =
      .ret ⟨⟨.BigEndian, [0x40, 0x04, 0, 0, 0, 0, 0, 0]⟩, []⟩
        (.complex128 (.Float64frombits 0x3ff0000000000000)
          (.Float64frombits 0x4000000000000000)) (some .shortRead) ∧
    ((.complex128 (.Float64frombits 0x3ff0000000000000)
        (.Float64frombits 0x4000000000000000) : Value) =
      .complex128 (.Float64frombits 0x3ff0000000000000)
        (.Float64frombits 0x4000000000000000)) :=
  ⟨rfl, (failed_primitive_keeps_destination .Complex128 complex128Decoder rfl).1
    ⟨⟨.BigEndian, [0, 0, 0, 0, 0, 0, 0, 0]⟩,
      [0x40, 0x04, 0, 0, 0, 0, 0, 0, 0x40, 0x04, 0, 0]⟩
    ⟨⟨.BigEndian, [0x40, 0x04, 0, 0, 0, 0, 0, 0]⟩, []⟩
    (.complex128 (.Float64frombits 0x3ff0000000000000) (.Float64frombits 0x4000000000000000))
    (.complex128 (.Float64frombits 0x3ff0000000000000) (.Float64frombits 0x4000000000000000))
    .shortRead rfl⟩

/-! ## C27: the integer decoders are bijections -/

theorem leBytes_leUint : ∀ w : List Byte, leBytes w.length (leUint w) = w := by
  intro w
  induction w with
  | nil => rfl
  | cons b bs ih =>
    have hstep : leUint (b :: bs) = b.val + 256 * leUint bs := rfl
    have hb := b.isLt
    have h1 : (b.val + 256 * leUint bs) % 256 = b.val := by omega
    have h2 : (b.val + 256 * leUint bs) / 256 = leUint bs := by omega
    simp only [List.length_cons, leBytes, hstep, h2, ih, List.cons.injEq, and_true]
    exact Fin.ext h1

/-- Writing the number that `n` bytes hold gives those bytes again. -/
theorem ByteOrder.PutUint_Uint (order : ByteOrder) (w : List Byte) :
    order.PutUint w.length (order.Uint w) = w := by
  cases order
  · have h := leBytes_leUint w.reverse
    rw [leUint_eq_beUint_reverse, List.reverse_reverse, List.length_reverse] at h
    simp only [ByteOrder.PutUint, ByteOrder.Uint, h, List.reverse_reverse]
  · simp only [ByteOrder.PutUint, ByteOrder.Uint, leBytes_leUint]

theorem ByteOrder.Uint_lt (order : ByteOrder) (w : List Byte) :
    order.Uint w < 256 ^ w.length := by
  have h := order.Uint_PutUint w.length (order.Uint w)
  rw [order.PutUint_Uint] at h
  rw [h]
  exact Nat.mod_lt _ (by positivity)

/-- What an integer decoder stores from a window of its width is a value of the kind, and the
encoder writes that window for it. -/
theorem store_integer {E : Env} {t : TypeId} {v0 : Value} {n : Nat}
    (hk : isIntegerKind (E.types t).kind = true) (hw : (E.types t).kind.width = some n)
    (hv0 : hasType E t v0 = true) (order : ByteOrder) (w : List Byte) (hlen : w.length = n) :
    ∃ v, (E.types t).kind.store order w v0 = some v ∧ hasType E t v = true ∧
      representable v = true ∧ encode E order t v = w := by
  have hlt := order.Uint_lt w
  have hput := order.PutUint_Uint w
  cases v0 <;> simp only [hasType, decide_eq_true_eq, Bool.and_eq_true, Bool.or_eq_true] at hv0
  case seq elems =>
    rcases hv0 with ⟨hk' | ⟨hk', _⟩, _⟩ <;> rw [hk'] at hk <;> cases hk
  case struct fields =>
    rw [hv0.1] at hk
    cases hk
  case other =>
    rw [hv0.1.1.1] at hw
    cases hw
  case float32 => rw [hv0] at hk; cases hk
  case float64 => rw [hv0] at hk; cases hk
  case complex64 => rw [hv0] at hk; cases hk
  case complex128 => rw [hv0] at hk; cases hk
  all_goals
    rw [hv0] at hw
    simp only [Kind.width, Option.some.injEq] at hw
    subst hw
    rw [hlen] at hlt hput
  case int8 x0 =>
    match w, hlen with
    | [b], _ =>
      have hs := wrapInt8_spec b.val b.isLt
      refine ⟨.int8 (wrapInt 8 (b.val : ℤ)), by simp [hv0, Kind.store, Value.SetInt],
        by simp [hasType, hv0], by simp only [representable, decide_eq_true_eq]; exact ⟨hs.1, hs.2.1⟩,
        ?_⟩
      simp only [encode, hs.2.2, Int.toNat_ofNat, ByteOrder.PutUint_one, List.cons.injEq, and_true]
      exact Fin.ext (Nat.mod_eq_of_lt b.isLt)
  case int16 x0 =>
    have hs := wrapInt16_spec (order.Uint w) hlt
    refine ⟨.int16 (wrapInt 16 (toInt64 (order.Uint w))),
      by simp [hv0, Kind.store, Value.SetInt, ByteOrder.Uint16, List.take_of_length_le, hlen],
      by simp [hasType, hv0], by simp only [representable, decide_eq_true_eq]; exact ⟨hs.1, hs.2.1⟩,
      ?_⟩
    simp only [encode, hs.2.2, Int.toNat_ofNat, hput]
  case int32 x0 =>
    have hs := wrapInt32_spec (order.Uint w) hlt
    refine ⟨.int32 (wrapInt 32 (toInt64 (order.Uint w))),
      by simp [hv0, Kind.store, Value.SetInt, ByteOrder.Uint32, List.take_of_length_le, hlen],
      by simp [hasType, hv0], by simp only [representable, decide_eq_true_eq]; exact ⟨hs.1, hs.2.1⟩,
      ?_⟩
    simp only [encode, hs.2.2, Int.toNat_ofNat, hput]
  case int64 x0 =>
    have hs := wrapInt64_spec (order.Uint w) hlt
    refine ⟨.int64 (wrapInt 64 (toInt64 (order.Uint w))),
      by simp [hv0, Kind.store, Value.SetInt, ByteOrder.Uint64, List.take_of_length_le, hlen],
      by simp [hasType, hv0], by simp only [representable, decide_eq_true_eq]; exact ⟨hs.1, hs.2.1⟩,
      ?_⟩
    simp only [encode, hs.2.2, Int.toNat_ofNat, hput]
  case uint8 x0 =>
    match w, hlen with
    | [b], _ =>
      have hb := b.isLt
      have e : toUint64 b.val % 256 = b.val := by
        simp only [toUint64]; omega
      refine ⟨.uint8 b.val, by simp [hv0, Kind.store, Value.SetUint, e],
        by simp [hasType, hv0], by simp only [representable, decide_eq_true_eq]; omega, ?_⟩
      simp only [encode, ByteOrder.PutUint_one, List.cons.injEq, and_true]
      exact Fin.ext (Nat.mod_eq_of_lt b.isLt)
  case uint16 x0 =>
    have e : toUint64 (order.Uint w) % 65536 = order.Uint w := by
      simp only [toUint64]; omega
    refine ⟨.uint16 (order.Uint w),
      by simp [hv0, Kind.store, Value.SetUint, ByteOrder.Uint16, List.take_of_length_le, hlen, e],
      by simp [hasType, hv0], by simp only [representable, decide_eq_true_eq]; omega, ?_⟩
    simp only [encode, hput]
  case uint32 x0 =>
    have e : toUint64 (order.Uint w) % 4294967296 = order.Uint w := by
      simp only [toUint64]; omega
    refine ⟨.uint32 (order.Uint w),
      by simp [hv0, Kind.store, Value.SetUint, ByteOrder.Uint32, List.take_of_length_le, hlen, e],
      by simp [hasType, hv0], by simp only [representable, decide_eq_true_eq]; omega, ?_⟩
    simp only [encode, hput]
  case uint64 x0 =>
    have e : toUint64 (order.Uint w) % 18446744073709551616 = order.Uint w := by
      simp only [toUint64]; omega
    refine ⟨.uint64 (order.Uint w),
      by simp [hv0, Kind.store, Value.SetUint, ByteOrder.Uint64, List.take_of_length_le, hlen, e],
      by simp [hasType, hv0], by simp only [representable, decide_eq_true_eq]; omega, ?_⟩
    simp only [encode, hput]

/-- C27. For every integer kind of width `n` and every byte order, the decoder of the kind is
a bijection between the windows of `n` bytes and the values of the kind: every window decodes,
with no error, to a value of the kind in its range; two windows that decode to the same value
are the same window; and every value of the kind in its range is what some window decodes
to. -/
theorem integer_decoder_bijection (E : Env) (t : TypeId) (d : typeDecoder) (n : Nat)
    (hk : isIntegerKind (E.types t).kind = true) (hd : (E.types t).kind.decoder = some d)
    (hw : (E.types t).kind.width = some n) (order : ByteOrder) (v0 : Value)
    (h0 : hasType E t v0 = true) :
    (∀ (w buf rest : List Byte), w.length = n →
      ∃ v, (d ⟨⟨order, buf⟩, w ++ rest⟩ v0).result = some (rest, v, none) ∧
        hasType E t v = true ∧ representable v = true) ∧
    (∀ (w1 w2 buf1 buf2 rest1 rest2 : List Byte) (v : Value), w1.length = n → w2.length = n →
      (d ⟨⟨order, buf1⟩, w1 ++ rest1⟩ v0).result = some (rest1, v, none) →
      (d ⟨⟨order, buf2⟩, w2 ++ rest2⟩ v0).result = some (rest2, v, none) → w1 = w2) ∧
    (∀ v, hasType E t v = true → representable v = true →
      ∃ w : List Byte, w.length = n ∧
        ∀ buf rest, (d ⟨⟨order, buf⟩, w ++ rest⟩ v0).result = some (rest, v, none)) := by
  have key : ∀ (w buf rest : List Byte) (v : Value), w.length = n →
      (d ⟨⟨order, buf⟩, w ++ rest⟩ v0).result = some (rest, v, none) →
      encode E order t v = w := by
    intro w buf rest v hlen hres
    obtain ⟨v1, hst, _, _, henc⟩ := store_integer hk hw h0 order w hlen
    rw [prim_decoder_window hd hw order buf w rest v0 hlen, hst] at hres
    simp only [Option.map_some', Option.some.injEq, Prod.mk.injEq, true_and, and_true] at hres
    rw [← hres]
    exact henc
  refine ⟨?_, ?_, ?_⟩
  · intro w buf rest hlen
    obtain ⟨v, hst, hty, hr, _⟩ := store_integer hk hw h0 order w hlen
    refine ⟨v, ?_, hty, hr⟩
    rw [prim_decoder_window hd hw order buf w rest v0 hlen, hst]
    rfl
  · intro w1 w2 buf1 buf2 rest1 rest2 v h1 h2 r1 r2
    rw [← key w1 buf1 rest1 v h1 r1, ← key w2 buf2 rest2 v h2 r2]
  · intro v hv hr
    obtain ⟨hlen, hst⟩ := store_encode hw hv h0 hr order
    refine ⟨encode E order t v, hlen, ?_⟩
    intro buf rest
    rw [prim_decoder_window hd hw order buf _ rest v0 hlen, hst]
    rfl

/-- C27 for `int16`, type 5 of the example environment, in big-endian order: the window
`FF FE` decodes to `-2`. -/
theorem integer_decoder_bijection_witness :
    (int16Decoder ⟨⟨.BigEndian, [0, 0, 0, 0, 0, 0, 0, 0]⟩, [0xFF, 0xFE]⟩ (.int16 0)).result =
      some ([], .int16 (-2), none) ∧
    ((∀ (w buf rest : List Byte), w.length = 2 →
      ∃ v, (int16Decoder ⟨⟨.BigEndian, buf⟩, w ++ rest⟩ (.int16 0)).result =
          some (rest, v, none) ∧
        hasType exampleEnv 5 v = true ∧ representable v = true) ∧
    (∀ (w1 w2 buf1 buf2 rest1 rest2 : List Byte) (v : Value), w1.length = 2 → w2.length = 2 →
      (int16Decoder ⟨⟨.BigEndian, buf1⟩, w1 ++ rest1⟩ (.int16 0)).result =
        some (rest1, v, none) →
      (int16Decoder ⟨⟨.BigEndian, buf2⟩, w2 ++ rest2⟩ (.int16 0)).result =
        some (rest2, v, none) → w1 = w2) ∧
    (∀ v, hasType exampleEnv 5 v = true → representable v = true →
      ∃ w : List Byte, w.length = 2 ∧
        ∀ buf rest, (int16Decoder ⟨⟨.BigEndian, buf⟩, w ++ rest⟩ (.int16 0)).result =
          some (rest, v, none))) :=
  ⟨rfl, integer_decoder_bijection exampleEnv 5 int16Decoder 2 rfl rfl rfl .BigEndian (.int16 0)
    rfl⟩

/-! ## C29: a stream that is long enough decodes -/

/-- What a primitive decoder stores does not depend on what the destination held. -/
theorem store_overwrites {E : Env} {t : TypeId} {v0 v1 : Value} {n : Nat}
    (hw : (E.types t).kind.width = some n) (hv0 : hasType E t v0 = true)
    (hv1 : hasType E t v1 = true) (order : ByteOrder) (w : List Byte) :
    (E.types t).kind.store order w v0 = (E.types t).kind.store order w v1 := by
  cases v0 <;> simp only [hasType, decide_eq_true_eq, Bool.and_eq_true, Bool.or_eq_true] at hv0
  case seq elems =>
    rcases hv0 with ⟨hk | ⟨hk, _⟩, _⟩ <;> rw [hk] at hw <;> simp [Kind.width] at hw
  case struct fields =>
    rw [hv0.1] at hw
    simp [Kind.width] at hw
  case other =>
    rw [hv0.1.1.1] at hw
    simp at hw
  all_goals
    cases v1 <;> simp [hasType, hv0, Kind.width] at hv1
    simp only [hv0, Kind.store, Value.SetInt, Value.SetUint, Value.SetFloat, Value.SetComplex]

theorem Assigns.at_prim {E : Env} {t : TypeId} {d : typeDecoder}
    (hd : (E.types t).kind.decoder = some d) : Assigns E t d := by
  obtain ⟨n, hw⟩ := width_of_decoder hd
  intro order v0 v1 hv0 hv1 _ w hlen
  obtain ⟨v', hst, _, _, hsz⟩ := store_of_hasType hw hv0 order w
  have hst1 : (E.types t).kind.store order w v1 = some v' := by
    rw [← store_overwrites hw hv0 hv1 order w, hst]
  have hn : w.length = n := by omega
  refine ⟨v', ?_⟩
  intro buf0 buf1 rest
  have hlen' : ∀ buf, n ≤ (⟨⟨order, buf⟩, w ++ rest⟩ : decoder).reader.length := by
    intro buf
    simp only [List.length_append]; omega
  obtain ⟨b0, h0⟩ := prim_decoder_ok hd hw ⟨⟨order, buf0⟩, w ++ rest⟩ v0 (hlen' buf0)
  obtain ⟨b1, h1⟩ := prim_decoder_ok hd hw ⟨⟨order, buf1⟩, w ++ rest⟩ v1 (hlen' buf1)
  simp only [List.take_left' hn, List.drop_left' hn, hst] at h0
  simp only [List.take_left' hn, List.drop_left' hn, hst1] at h1
  exact ⟨b0, b1, h0, h1⟩

theorem sliceDecoder.loop_assigns {E : Env} {et : TypeId} {edec : typeDecoder}
    (he : Assigns E et edec) (order : ByteOrder) :
    ∀ (es0 es1 : List Value), elemsHaveType E et es0 = true → elemsHaveType E et es1 = true →
      presizedElems E et es0 es1 →
      ∀ w : List Byte, w.length = sizeElems E et es0 →
        ∃ es', ∀ buf0 buf1 rest, ∃ buf0' buf1',
          sliceDecoder.loop edec ⟨⟨order, buf0⟩, w ++ rest⟩ es0 =
            .ret ⟨⟨order, buf0'⟩, rest⟩ es' none ∧
          sliceDecoder.loop edec ⟨⟨order, buf1⟩, w ++ rest⟩ es1 =
            .ret ⟨⟨order, buf1'⟩, rest⟩ es' none := by
  intro es0
  induction es0 with
  | nil =>
    intro es1 _ _ hp w hlen
    cases es1 with
    | cons e1 es1 => simp [presizedElems] at hp
    | nil =>
      simp only [sizeElems, List.length_eq_zero] at hlen
      subst hlen
      exact ⟨[], fun buf0 buf1 rest => ⟨buf0, buf1, rfl, rfl⟩⟩
  | cons e0 es0 ih =>
    intro es1 hty0 hty1 hp w hlen
    cases es1 with
    | nil => simp [presizedElems] at hp
    | cons e1 es1 =>
      simp only [elemsHaveType, Bool.and_eq_true] at hty0 hty1
      simp only [presizedElems] at hp
      simp only [sizeElems] at hlen
      obtain ⟨e', hrun⟩ := he order e0 e1 hty0.1 hty1.1 hp.1 (w.take (size E et e0))
        (by simp only [List.length_take]; omega)
      obtain ⟨es', hruns⟩ := ih es1 hty0.2 hty1.2 hp.2 (w.drop (size E et e0))
        (by simp only [List.length_drop]; omega)
      refine ⟨e' :: es', ?_⟩
      intro buf0 buf1 rest
      obtain ⟨a0, a1, ha0, ha1⟩ := hrun buf0 buf1 (w.drop (size E et e0) ++ rest)
      obtain ⟨b0, b1, hb0, hb1⟩ := hruns a0 a1 rest
      rw [← List.append_assoc, List.take_append_drop] at ha0 ha1
      refine ⟨b0, b1, ?_, ?_⟩
      · rw [sliceDecoder.loop, ha0]
        simp only [hb0]
      · rw [sliceDecoder.loop, ha1]
        simp only [hb1]

theorem Assigns.at_slice {E : Env} {t : TypeId} {edec : typeDecoder}
    (hk : (E.types t).kind = .Array ∨ (E.types t).kind = .Slice)
    (he : Assigns E (E.types t).elem edec) : Assigns E t (sliceDecoder.closure edec) := by
  intro order v0 v1 hv0 hv1 hp w hlen
  obtain ⟨es0, rfl, hty0, _⟩ := seq_of_hasType hk hv0
  obtain ⟨es1, rfl, hty1, _⟩ := seq_of_hasType hk hv1
  simp only [presized] at hp
  simp only [size] at hlen
  obtain ⟨es', h⟩ := sliceDecoder.loop_assigns he order es0 es1 hty0 hty1 hp w hlen
  refine ⟨.seq es', ?_⟩
  intro buf0 buf1 rest
  obtain ⟨b0, b1, h0, h1⟩ := h buf0 buf1 rest
  exact ⟨b0, b1, by simp only [sliceDecoder.closure, h0], by simp only [sliceDecoder.closure, h1]⟩

theorem structDecoder.fields_assign {E : Env} {ii : Nat} {fs : List StructField}
    {ds : List typeDecoder} {ixs : List (List Nat)}
    (hplan : FieldPlan E (Assigns E) ii fs ds ixs) (order : ByteOrder) :
    ∀ (pre : List (List Nat)) (vpre vs0 vs1 : List Value), vpre.length = ii →
      fieldsHaveType E fs vs0 = true → fieldsHaveType E fs vs1 = true →
      presizedFields E fs vs0 vs1 →
      ∀ w : List Byte, w.length = sizeFields E fs vs0 →
        ∃ vs', ∀ buf0 buf1 rest, ∃ buf0' buf1',
          structDecoder.loop (pre ++ ixs) pre.length ds ⟨⟨order, buf0⟩, w ++ rest⟩
              (.struct (vpre ++ vs0)) =
            .ret ⟨⟨order, buf0'⟩, rest⟩ (.struct (vpre ++ vs')) none ∧
          structDecoder.loop (pre ++ ixs) pre.length ds ⟨⟨order, buf1⟩, w ++ rest⟩
              (.struct (vpre ++ vs1)) =
            .ret ⟨⟨order, buf1'⟩, rest⟩ (.struct (vpre ++ vs')) none := by
  induction hplan with
  | nil ii =>
    intro pre vpre vs0 vs1 _ hty0 hty1 _ w hlen
    cases vs0 with
    | cons v vs' => simp [fieldsHaveType] at hty0
    | nil =>
      cases vs1 with
      | cons v vs' => simp [fieldsHaveType] at hty1
      | nil =>
        simp only [sizeFields, List.length_eq_zero] at hlen
        subst hlen
        exact ⟨[], fun buf0 buf1 rest => ⟨buf0, buf1, rfl, rfl⟩⟩
  | @skip ii f fs l ds ixs hname hsz _ ih =>
    intro pre vpre vs0 vs1 hlen0 hty0 hty1 hp w hlen
    obtain ⟨a0, vs0', rfl, _, htys0⟩ := fieldsHaveType_cons hty0
    obtain ⟨a1, vs1', rfl, _, htys1⟩ := fieldsHaveType_cons hty1
    subst hlen0
    simp only [presizedFields, hname, true_or, if_true] at hp
    obtain ⟨rfl, hps⟩ := hp
    have hsize : sizeFields E (f :: fs) (a0 :: vs0') = l + sizeFields E fs vs0' := by
      simp [sizeFields, hname, skipSize, hsz]
    rw [hsize] at hlen
    obtain ⟨vs', hruns⟩ := ih (pre ++ [[vpre.length]]) (vpre ++ [a0]) vs0' vs1' (by simp)
      htys0 htys1 hps (w.drop l) (by simp only [List.length_drop]; omega)
    refine ⟨a0 :: vs', ?_⟩
    intro buf0 buf1 rest
    obtain ⟨b0, b1, hb0, hb1⟩ := hruns buf0 buf1 rest
    have hw : w ++ rest = w.take l ++ (w.drop l ++ rest) := by
      rw [← List.append_assoc, List.take_append_drop]
    have hl : (w.take l).length = l := by simp only [List.length_take]; omega
    refine ⟨b0, b1, ?_, ?_⟩
    · rw [hw, structDecoder.loop_cons, skipDecoder.closure_ok l order buf0 _ _ a0 hl]
      simp only
      rw [hb0]
      simp
    · rw [hw, structDecoder.loop_cons, skipDecoder.closure_ok l order buf1 _ _ a0 hl]
      simp only
      rw [hb1]
      simp
  | @unexported ii f fs ds ixs hname hpkg _ ih =>
    intro pre vpre vs0 vs1 hlen0 hty0 hty1 hp w hlen
    obtain ⟨a0, vs0', rfl, _, htys0⟩ := fieldsHaveType_cons hty0
    obtain ⟨a1, vs1', rfl, _, htys1⟩ := fieldsHaveType_cons hty1
    subst hlen0
    simp only [presizedFields, hpkg, ne_eq, not_false_eq_true, or_true, if_true] at hp
    obtain ⟨rfl, hps⟩ := hp
    have hsize : sizeFields E (f :: fs) (a0 :: vs0') = sizeFields E fs vs0' := by
      simp [sizeFields, hname, hpkg]
    rw [hsize] at hlen
    obtain ⟨vs', hruns⟩ := ih pre (vpre ++ [a0]) vs0' vs1' (by simp) htys0 htys1 hps w hlen
    refine ⟨a0 :: vs', ?_⟩
    intro buf0 buf1 rest
    obtain ⟨b0, b1, hb0, hb1⟩ := hruns buf0 buf1 rest
    exact ⟨b0, b1, by simpa using hb0, by simpa using hb1⟩
  | @field ii f fs d ds ixs hname hpkg hd _ ih =>
    intro pre vpre vs0 vs1 hlen0 hty0 hty1 hp w hlen
    obtain ⟨a0, vs0', rfl, hta0, htys0⟩ := fieldsHaveType_cons hty0
    obtain ⟨a1, vs1', rfl, hta1, htys1⟩ := fieldsHaveType_cons hty1
    subst hlen0
    simp only [presizedFields, hname, hpkg, ne_eq, not_true_eq_false, or_self, if_false] at hp
    have hsize : sizeFields E (f :: fs) (a0 :: vs0') =
        size E f.Typ a0 + sizeFields E fs vs0' := by
      simp [sizeFields, hname, hpkg]
    rw [hsize] at hlen
    obtain ⟨a', hrun⟩ := hd order a0 a1 hta0 hta1 hp.1 (w.take (size E f.Typ a0))
      (by simp only [List.length_take]; omega)
    obtain ⟨vs', hruns⟩ := ih (pre ++ [[vpre.length]]) (vpre ++ [a']) vs0' vs1' (by simp)
      htys0 htys1 hp.2 (w.drop (size E f.Typ a0)) (by simp only [List.length_drop]; omega)
    refine ⟨a' :: vs', ?_⟩
    intro buf0 buf1 rest
    obtain ⟨c0, c1, hc0, hc1⟩ := hrun buf0 buf1 (w.drop (size E f.Typ a0) ++ rest)
    obtain ⟨b0, b1, hb0, hb1⟩ := hruns c0 c1 rest
    rw [← List.append_assoc, List.take_append_drop] at hc0 hc1
    refine ⟨b0, b1, ?_, ?_⟩
    · rw [structDecoder.loop_cons, hc0]
      simp only
      rw [hb0]
      simp
    · rw [structDecoder.loop_cons, hc1]
      simp only
      rw [hb1]
      simp

theorem Assigns.at_struct {E : Env} {t : TypeId} {ds : List typeDecoder}
    {ixs : List (List Nat)} (hk : (E.types t).kind = .Struct)
    (hplan : FieldPlan E (Assigns E) 0 (E.types t).fields ds ixs) :
    Assigns E t (structDecoder.closure ds ixs) := by
  intro order v0 v1 hv0 hv1 hp w hlen
  obtain ⟨vs0, rfl, hty0⟩ := struct_of_hasType hk hv0
  obtain ⟨vs1, rfl, hty1⟩ := struct_of_hasType hk hv1
  simp only [presized] at hp
  simp only [size] at hlen
  obtain ⟨vs', h⟩ := structDecoder.fields_assign hplan order [] [] vs0 vs1 rfl hty0 hty1 hp w
    hlen
  simp only [List.nil_append, List.length_nil] at h
  refine ⟨.struct vs', ?_⟩
  intro buf0 buf1 rest
  obtain ⟨b0, b1, h0, h1⟩ := h buf0 buf1 rest
  exact ⟨b0, b1, by simp only [structDecoder.closure, h0],
    by simp only [structDecoder.closure, h1]⟩

/-- Every decoder that the compiler builds assigns every participating primitive. -/
theorem Assigns.assigns_closed (E : Env) : Closed E (Assigns E) :=
  ⟨fun _ _ hd => Assigns.at_prim hd, fun _ _ hk he => Assigns.at_slice hk he,
    fun _ _ _ hk hplan => Assigns.at_struct hk hplan⟩

/-- C29. For every compiled type, skip fields or not, and every destination of the type: on a
stream that holds at least the `size` bytes that the plan takes for the destination, the
decoder returns no error, has consumed exactly those bytes, and has assigned every
participating primitive: a destination that differs only in what its participating primitives
held ends up the same. On the destination the decoder returns no error exactly when the
stream holds at least `size` bytes. -/
theorem long_enough_stream_decodes (E : Env) (typ : TypeId) (dec : typeDecoder)
    (h : CompilesTo E typ dec) (d : decoder) (v : Value) (hv : hasType E typ v = true)
    (hlen : size E typ v ≤ d.reader.length) :
    (∃ d' v', dec d v = .ret d' v' none ∧ d'.order = d.order ∧
      d'.reader = d.reader.drop (size E typ v) ∧ hasType E typ v' = true ∧
      ∀ (d1 : decoder) (v1 : Value), d1.order = d.order → d1.reader = d.reader →
        hasType E typ v1 = true → presized E typ v v1 →
        ∃ d1', dec d1 v1 = .ret d1' v' none) ∧
    (∀ d2 : decoder,
      (∃ d' v', dec d2 v = .ret d' v' none) ↔ size E typ v ≤ d2.reader.length) := by
  obtain ⟨hok, hshort⟩ := h.exact v hv
  have hassign : Assigns E typ dec := h.induct (Assigns.assigns_closed E)
  have run : ∀ d2 : decoder, size E typ v ≤ d2.reader.length →
      ∃ buf' v', dec d2 v =
          .ret ⟨⟨d2.order, buf'⟩, d2.reader.drop (size E typ v)⟩ v' none ∧
        hasType E typ v' = true := by
    intro d2 h2
    obtain ⟨v', hty, _, hrun⟩ := hok d2.order (d2.reader.take (size E typ v))
      (by simp only [List.length_take]; omega)
    obtain ⟨buf', hr⟩ := hrun d2.buf (d2.reader.drop (size E typ v))
    rw [← decoder.split] at hr
    exact ⟨buf', v', hr, hty⟩
  refine ⟨?_, ?_⟩
  · obtain ⟨buf', v', hr, hty⟩ := run d hlen
    refine ⟨_, v', hr, rfl, rfl, hty, ?_⟩
    intro d1 v1 ho hrd hv1 hp
    obtain ⟨v'', hboth⟩ := hassign d.order v v1 hv hv1 hp (d.reader.take (size E typ v))
      (by simp only [List.length_take]; omega)
    obtain ⟨b0, b1, h0, h1⟩ := hboth d.buf d1.buf (d.reader.drop (size E typ v))
    rw [← decoder.split] at h0
    rw [hr] at h0
    injection h0 with _ hv' _
    subst hv'
    have hd1 : d1 = ⟨⟨d.order, d1.buf⟩,
        d.reader.take (size E typ v) ++ d.reader.drop (size E typ v)⟩ := by
      rw [List.take_append_drop, ← ho, ← hrd]
    rw [hd1]
    exact ⟨_, h1⟩
  · intro d2
    constructor
    · rintro ⟨d', v', hr⟩
      by_contra hlt
      obtain ⟨d3, v3, err, he⟩ := hshort d2 (by omega)
      rw [hr] at he
      injection he with _ _ he
      cases he
    · intro h2
      obtain ⟨buf', v', hr, _⟩ := run d2 h2
      exact ⟨_, v', hr⟩

/-- C29 on `struct { A int32; _ [4]byte; B float64 }`, type 0 of the example environment, on
a stream of seventeen bytes: sixteen are consumed and both numbers are assigned. -/
theorem long_enough_stream_decodes_witness :
    structDecoder.closure [int32Decoder, skipDecoder.closure 4, float64Decoder]
        [[0], [1], [2]]
        ⟨⟨.BigEndian, [0, 0, 0, 0, 0, 0, 0, 0]⟩,
          [0, 0, 0, 1, 0, 0, 0, 0, 0x40, 0x04, 0, 0, 0, 0, 0, 0, 0xff]⟩
        (.struct [.int32 7, .seq [.uint8 0, .uint8 0, .uint8 0, .uint8 0],
          .float64 (.Float64frombits 0)]) =
      .ret ⟨⟨.BigEndian, [0x40, 0x04, 0, 0, 0, 0, 0, 0]⟩, [0xff]⟩
        (.struct [.int32 1, .seq [.uint8 0, .uint8 0, .uint8 0, .uint8 0],
          .float64 (.Float64frombits 0x4004000000000000)]) none ∧
    ((∃ d' v',
      structDecoder.closure [int32Decoder, skipDecoder.closure 4, float64Decoder]
          [[0], [1], [2]]
          ⟨⟨.BigEndian, [0, 0, 0, 0, 0, 0, 0, 0]⟩,
            [0, 0, 0, 1, 0, 0, 0, 0, 0x40, 0x04, 0, 0, 0, 0, 0, 0, 0xff]⟩
          (.struct [.int32 7, .seq [.uint8 0, .uint8 0, .uint8 0, .uint8 0],
            .float64 (.Float64frombits 0)]) = .ret d' v' none ∧
      d'.order = .BigEndian ∧
      d'.reader =
        ([0, 0, 0, 1, 0, 0, 0, 0, 0x40, 0x04, 0, 0, 0, 0, 0, 0, 0xff] : List Byte).drop
          (size exampleEnv 0
            (.struct [.int32 7, .seq [.uint8 0, .uint8 0, .uint8 0, .uint8 0],
              .float64 (.Float64frombits 0)])) ∧
      hasType exampleEnv 0 v' = true ∧
      ∀ (d1 : decoder) (v1 : Value), d1.order = .BigEndian →
        d1.reader = [0, 0, 0, 1, 0, 0, 0, 0, 0x40, 0x04, 0, 0, 0, 0, 0, 0, 0xff] →
        hasType exampleEnv 0 v1 = true →
        presized exampleEnv 0
          (.struct [.int32 7, .seq [.uint8 0, .uint8 0, .uint8 0, .uint8 0],
            .float64 (.Float64frombits 0)]) v1 →
        ∃ d1',
          structDecoder.closure [int32Decoder, skipDecoder.closure 4, float64Decoder]
            [[0], [1], [2]] d1 v1 = .ret d1' v' none) ∧
    (∀ d2 : decoder,
      (∃ d' v',
        structDecoder.closure [int32Decoder, skipDecoder.closure 4, float64Decoder]
          [[0], [1], [2]] d2
          (.struct [.int32 7, .seq [.uint8 0, .uint8 0, .uint8 0, .uint8 0],
            .float64 (.Float64frombits 0)]) = .ret d' v' none) ↔
      size exampleEnv 0
        (.struct [.int32 7, .seq [.uint8 0, .uint8 0, .uint8 0, .uint8 0],
          .float64 (.Float64frombits 0)]) ≤ d2.reader.length)) :=
  ⟨rfl,
    long_enough_stream_decodes exampleEnv 0 _ exampleEnv_compiles_struct
      ⟨⟨.BigEndian, [0, 0, 0, 0, 0, 0, 0, 0]⟩,
        [0, 0, 0, 1, 0, 0, 0, 0, 0x40, 0x04, 0, 0, 0, 0, 0, 0, 0xff]⟩
      (.struct [.int32 7, .seq [.uint8 0, .uint8 0, .uint8 0, .uint8 0],
        .float64 (.Float64frombits 0)]) rfl (by decide)⟩

/-! ## C15: what the encoder writes is the only window that decodes to a value -/

/-- What a primitive decoder stores from a window of its width is encoded as that window,
if it is a value that Go can hold as it is given. -/
theorem encode_store {E : Env} {t : TypeId} {v0 : Value} {n : Nat}
    (hw : (E.types t).kind.width = some n) (hv0 : hasType E t v0 = true)
    (order : ByteOrder) (w : List Byte) (hlen : w.length = n) :
    ∃ v, (E.types t).kind.store order w v0 = some v ∧
      (representable v = true → encode E order t v = w) := by
  have hint : isIntegerKind (E.types t).kind = true →
      ∃ v, (E.types t).kind.store order w v0 = some v ∧
        (representable v = true → encode E order t v = w) := by
    intro hk
    obtain ⟨v, hst, _, _, henc⟩ := store_integer hk hw hv0 order w hlen
    exact ⟨v, hst, fun _ => henc⟩
  have hput := order.PutUint_Uint w
  cases v0 <;> simp only [hasType, decide_eq_true_eq, Bool.and_eq_true, Bool.or_eq_true] at hv0
  case seq elems =>
    rcases hv0 with ⟨hk' | ⟨hk', _⟩, _⟩ <;> rw [hk'] at hw <;> simp [Kind.width] at hw
  case struct fields =>
    rw [hv0.1] at hw
    simp [Kind.width] at hw
  case other =>
    rw [hv0.1.1.1] at hw
    simp at hw
  case float32 x =>
    rw [hv0] at hw
    simp only [Kind.width, Option.some.injEq] at hw
    subst hw
    refine ⟨_, by rw [hv0]; rfl, ?_⟩
    intro hr
    simp only [representable, Bool.and_eq_true, decide_eq_true_eq, Bool.not_eq_true',
      ByteOrder.Uint32, List.take_of_length_le (Nat.le_of_eq hlen)] at hr
    rw [hlen] at hput
    simp only [encode, GoFloat.bits, hr.2, Bool.false_eq_true, if_false, ByteOrder.Uint32,
      List.take_of_length_le (Nat.le_of_eq hlen), hput]
  case float64 x =>
    rw [hv0] at hw
    simp only [Kind.width, Option.some.injEq] at hw
    subst hw
    refine ⟨_, by rw [hv0]; rfl, ?_⟩
    intro _
    rw [hlen] at hput
    simp only [encode, GoFloat.bits, ByteOrder.Uint64,
      List.take_of_length_le (Nat.le_of_eq hlen), hput]
  case complex64 re im =>
    rw [hv0] at hw
    simp only [Kind.width, Option.some.injEq] at hw
    subst hw
    refine ⟨_, by rw [hv0]; rfl, ?_⟩
    intro hr
    have l1 : (w.take 4).length = 4 := by simp only [List.length_take]; omega
    have l2 : (w.drop 4).length = 4 := by simp only [List.length_drop]; omega
    simp only [representable, Bool.and_eq_true, decide_eq_true_eq, Bool.not_eq_true',
      ByteOrder.Uint32, List.take_of_length_le (Nat.le_of_eq l2)] at hr
    have h1 := order.PutUint_Uint (w.take 4)
    have h2 := order.PutUint_Uint (w.drop 4)
    rw [l1] at h1
    rw [l2] at h2
    simp only [encode, GoFloat.bits, hr.1.2, hr.2.2, Bool.false_eq_true, if_false,
      ByteOrder.Uint32, List.take_of_length_le (Nat.le_of_eq l2), h1, h2,
      List.take_append_drop]
  case complex128 re im =>
    rw [hv0] at hw
    simp only [Kind.width, Option.some.injEq] at hw
    subst hw
    refine ⟨_, by rw [hv0]; rfl, ?_⟩
    intro _
    have h1 := order.PutUint_Uint (w.take 8)
    have h2 := order.PutUint_Uint (w.drop 8)
    have l1 : (w.take 8).length = 8 := by simp only [List.length_take]; omega
    have l2 : (w.drop 8).length = 8 := by simp only [List.length_drop]; omega
    rw [l1] at h1
    rw [l2] at h2
    simp only [encode, GoFloat.bits, ByteOrder.Uint64,
      List.take_of_length_le (Nat.le_of_eq l2), h1, h2, List.take_append_drop]
  all_goals (apply hint; rw [hv0]; rfl)

theorem canonical_prim {E : Env} {t : TypeId} {d : typeDecoder}
    (hd : (E.types t).kind.decoder = some d) : Canonical E t := by
  obtain ⟨n, hw⟩ := width_of_decoder hd
  intro order v0 hv0 w hlen hr
  obtain ⟨_, _, _, _, hsz⟩ := store_of_hasType hw hv0 order w
  obtain ⟨v, hst, henc⟩ := encode_store hw hv0 order w (by omega)
  have hdec : decoded E order t v0 w = v ∧ zeroSkips E t v0 w = w := by
    cases v0 <;> simp only [hasType, decide_eq_true_eq, Bool.and_eq_true, Bool.or_eq_true] at hv0
    case seq elems =>
      rcases hv0 with ⟨hk | ⟨hk, _⟩, _⟩ <;> rw [hk] at hw <;> simp [Kind.width] at hw
    case struct fields =>
      rw [hv0.1] at hw
      simp [Kind.width] at hw
    all_goals simp only [decoded, zeroSkips, hst, Option.getD_some, and_self]
  rw [hdec.1] at hr ⊢
  rw [hdec.2]
  exact henc hr

theorem canonical_elems {E : Env} {et : TypeId} (he : Canonical E et) (order : ByteOrder) :
    ∀ (es : List Value), elemsHaveType E et es = true →
      ∀ w : List Byte, w.length = sizeElems E et es →
        representableAll (decodedElems E order et es w) = true →
        encodeElems E order et (decodedElems E order et es w) = zeroSkipsElems E et es w := by
  intro es
  induction es with
  | nil =>
    intro _ w _ _
    simp only [decodedElems, encodeElems, zeroSkipsElems]
  | cons e es ih =>
    intro hty w hlen hr
    simp only [elemsHaveType, Bool.and_eq_true] at hty
    simp only [sizeElems] at hlen
    simp only [decodedElems, representableAll, Bool.and_eq_true] at hr
    have h1 := he order e hty.1 (w.take (size E et e))
      (by simp only [List.length_take]; omega) hr.1
    have h2 := ih hty.2 (w.drop (size E et e)) (by simp only [List.length_drop]; omega) hr.2
    simp only [decodedElems, encodeElems, zeroSkipsElems, h1, h2]

theorem canonical_slice {E : Env} {t : TypeId}
    (hk : (E.types t).kind = .Array ∨ (E.types t).kind = .Slice)
    (he : Canonical E (E.types t).elem) : Canonical E t := by
  intro order v0 hv0 w hlen hr
  obtain ⟨es, rfl, hty, _⟩ := seq_of_hasType hk hv0
  simp only [size] at hlen
  simp only [decoded, representable] at hr
  simp only [decoded, encode, zeroSkips]
  exact canonical_elems he order es hty w hlen hr

theorem canonical_fields {E : Env} {ii : Nat} {fs : List StructField}
    {ds : List typeDecoder} {ixs : List (List Nat)}
    (hplan : FieldPlan E (fun t _ => Canonical E t) ii fs ds ixs) (order : ByteOrder) :
    ∀ (vs : List Value), fieldsHaveType E fs vs = true →
      ∀ w : List Byte, w.length = sizeFields E fs vs →
        representableAll (decodedFields E order fs vs w) = true →
        encodeFields E order fs (decodedFields E order fs vs w) = zeroSkipsFields E fs vs w := by
  induction hplan with
  | nil ii =>
    intro vs hty w _ _
    cases vs with
    | cons v vs' => simp [fieldsHaveType] at hty
    | nil => simp only [decodedFields, encodeFields, zeroSkipsFields]
  | @skip ii f fs l ds ixs hname hsz _ ih =>
    intro vs hty w hlen hr
    obtain ⟨a, vs', rfl, _, htys⟩ := fieldsHaveType_cons hty
    have hsk : skipSize E f.Typ = l := by simp [skipSize, hsz]
    have hsize : sizeFields E (f :: fs) (a :: vs') = l + sizeFields E fs vs' := by
      simp [sizeFields, hname, hsk]
    rw [hsize] at hlen
    simp only [decodedFields, hname, if_true, representableAll, Bool.and_eq_true, hsk] at hr
    have h2 := ih vs' htys (w.drop l) (by simp only [List.length_drop]; omega) hr.2
    simp only [decodedFields, encodeFields, zeroSkipsFields, hname, if_true, hsk, h2]
  | @unexported ii f fs ds ixs hname hpkg _ ih =>
    intro vs hty w hlen hr
    obtain ⟨a, vs', rfl, _, htys⟩ := fieldsHaveType_cons hty
    have hsize : sizeFields E (f :: fs) (a :: vs') = sizeFields E fs vs' := by
      simp [sizeFields, hname, hpkg]
    rw [hsize] at hlen
    simp only [decodedFields, hname, hpkg, if_false, ne_eq, not_false_eq_true, if_true,
      representableAll, Bool.and_eq_true] at hr
    have h2 := ih vs' htys w hlen hr.2
    simp only [decodedFields, encodeFields, zeroSkipsFields, hname, hpkg, if_false, ne_eq,
      not_false_eq_true, if_true, List.nil_append, h2]
  | @field ii f fs d ds ixs hname hpkg hd _ ih =>
    intro vs hty w hlen hr
    obtain ⟨a, vs', rfl, hta, htys⟩ := fieldsHaveType_cons hty
    have hsize : sizeFields E (f :: fs) (a :: vs') = size E f.Typ a + sizeFields E fs vs' := by
      simp [sizeFields, hname, hpkg]
    rw [hsize] at hlen
    simp only [decodedFields, hname, hpkg, if_false, ne_eq, not_true_eq_false,
      representableAll, Bool.and_eq_true] at hr
    have h1 := hd order a hta (w.take (size E f.Typ a))
      (by simp only [List.length_take]; omega) hr.1
    have h2 := ih vs' htys (w.drop (size E f.Typ a))
      (by simp only [List.length_drop]; omega) hr.2
    simp only [decodedFields, encodeFields, zeroSkipsFields, hname, hpkg, if_false, ne_eq,
      not_true_eq_false, h1, h2]

theorem canonical_struct {E : Env} {t : TypeId} {ds : List typeDecoder}
    {ixs : List (List Nat)} (hk : (E.types t).kind = .Struct)
    (hplan : FieldPlan E (fun t _ => Canonical E t) 0 (E.types t).fields ds ixs) :
    Canonical E t := by
  intro order v0 hv0 w hlen hr
  obtain ⟨vs, rfl, hty⟩ := struct_of_hasType hk hv0
  simp only [size] at hlen
  simp only [decoded, representable] at hr
  simp only [decoded, encode, zeroSkips]
  exact canonical_fields hplan order vs hty w hlen hr

/-- On every type that compiles, a window is given back by the encoder, but for the bytes of
its skip fields. -/
theorem canonical_closed (E : Env) : Closed E (fun t _ => Canonical E t) :=
  ⟨fun _ _ hd => canonical_prim hd, fun _ _ hk he => canonical_slice hk he,
    fun _ _ _ hk hplan => canonical_struct hk hplan⟩

theorem skipFree_elems {E : Env} {et : TypeId} (he : SkipFree E et) :
    ∀ (es : List Value), elemsHaveType E et es = true → noSkipsElems E et es = true →
      ∀ w : List Byte, w.length = sizeElems E et es → zeroSkipsElems E et es w = w := by
  intro es
  induction es with
  | nil =>
    intro _ _ w hlen
    simp only [sizeElems, List.length_eq_zero] at hlen
    subst hlen
    rfl
  | cons e es ih =>
    intro hty hno w hlen
    simp only [elemsHaveType, Bool.and_eq_true] at hty
    simp only [noSkipsElems, Bool.and_eq_true] at hno
    simp only [sizeElems] at hlen
    have h1 := he e hty.1 hno.1 (w.take (size E et e)) (by simp only [List.length_take]; omega)
    have h2 := ih hty.2 hno.2 (w.drop (size E et e)) (by simp only [List.length_drop]; omega)
    simp only [zeroSkipsElems, h1, h2, List.take_append_drop]

theorem skipFree_fields {E : Env} {ii : Nat} {fs : List StructField}
    {ds : List typeDecoder} {ixs : List (List Nat)}
    (hplan : FieldPlan E (fun t _ => SkipFree E t) ii fs ds ixs) :
    ∀ (vs : List Value), fieldsHaveType E fs vs = true → noSkipsFields E fs vs = true →
      ∀ w : List Byte, w.length = sizeFields E fs vs → zeroSkipsFields E fs vs w = w := by
  induction hplan with
  | nil ii =>
    intro vs hty _ w hlen
    cases vs with
    | cons v vs' => simp [fieldsHaveType] at hty
    | nil =>
      simp only [sizeFields, List.length_eq_zero] at hlen
      subst hlen
      rfl
  | @skip ii f fs l ds ixs hname hsz _ ih =>
    intro vs hty hno w hlen
    obtain ⟨a, vs', rfl, _, htys⟩ := fieldsHaveType_cons hty
    simp [noSkipsFields, hname] at hno
  | @unexported ii f fs ds ixs hname hpkg _ ih =>
    intro vs hty hno w hlen
    obtain ⟨a, vs', rfl, _, htys⟩ := fieldsHaveType_cons hty
    have hsize : sizeFields E (f :: fs) (a :: vs') = sizeFields E fs vs' := by
      simp [sizeFields, hname, hpkg]
    rw [hsize] at hlen
    simp only [noSkipsFields, Bool.and_eq_true] at hno
    have h2 := ih vs' htys hno.2 w hlen
    simp only [zeroSkipsFields, hname, hpkg, if_false, ne_eq, not_false_eq_true, if_true, h2]
  | @field ii f fs d ds ixs hname hpkg hd _ ih =>
    intro vs hty hno w hlen
    obtain ⟨a, vs', rfl, hta, htys⟩ := fieldsHaveType_cons hty
    have hsize : sizeFields E (f :: fs) (a :: vs') = size E f.Typ a + sizeFields E fs vs' := by
      simp [sizeFields, hname, hpkg]
    rw [hsize] at hlen
    simp only [noSkipsFields, hpkg, ne_eq, not_true_eq_false, decide_False, Bool.false_or,
      Bool.and_eq_true] at hno
    have h1 := hd a hta hno.1.2 (w.take (size E f.Typ a))
      (by simp only [List.length_take]; omega)
    have h2 := ih vs' htys hno.2 (w.drop (size E f.Typ a))
      (by simp only [List.length_drop]; omega)
    simp only [zeroSkipsFields, hname, hpkg, if_false, ne_eq, not_true_eq_false, h1, h2,
      List.take_append_drop]

/-- On every type that compiles, a window without skip fields has no byte to set to zero. -/
theorem skipFree_closed (E : Env) : Closed E (fun t _ => SkipFree E t) := by
  refine ⟨?_, ?_, ?_⟩
  · intro t d hd v0 hv0 _ w _
    obtain ⟨n, hw⟩ := width_of_decoder hd
    cases v0 <;> simp only [hasType, decide_eq_true_eq, Bool.and_eq_true, Bool.or_eq_true] at hv0
    case seq elems =>
      rcases hv0 with ⟨hk | ⟨hk, _⟩, _⟩ <;> rw [hk] at hw <;> simp [Kind.width] at hw
    case struct fields =>
      rw [hv0.1] at hw
      simp [Kind.width] at hw
    all_goals rfl
  · intro t edec hk he v0 hv0 hno w hlen
    obtain ⟨es, rfl, hty, _⟩ := seq_of_hasType hk hv0
    simp only [size] at hlen
    simp only [noSkips] at hno
    simp only [zeroSkips]
    exact skipFree_elems he es hty hno w hlen
  · intro t ds ixs hk hplan v0 hv0 hno w hlen
    obtain ⟨vs, rfl, hty⟩ := struct_of_hasType hk hv0
    simp only [size] at hlen
    simp only [noSkips] at hno
    simp only [zeroSkips]
    exact skipFree_fields hplan vs hty hno w hlen

/-- C15 as stated fails, in two ways. Two different sequences of twelve bytes, the size of
the plan of `struct { X int32; _ [4]byte; Y int32 }`, decode to the same value: the bytes of
the skip window are ignored, so a value of a supported shape is not the decode result of
exactly one byte sequence. And a `float32` signalling NaN does not come back by its bit
pattern: the bytes `7f a0 00 01`, which hold the bit pattern `7fa00001` in big-endian order,
decode to a `float32` that holds `7fe00001`, for which the encoder writes `7f e0 00 01`, the
same bytes as for the `float32` that `7f e0 00 01` decodes to. -/
theorem decode_not_injective :
    (CompilesTo exampleEnv 7
      (structDecoder.closure [int32Decoder, skipDecoder.closure 4, int32Decoder]
        [[0], [1], [2]]) ∧
    ([0, 0, 0, 1, 0, 0, 0, 0, 0, 0, 0, 2] : List Byte) ≠ [0, 0, 0, 1, 9, 9, 9, 9, 0, 0, 0, 2] ∧
    structDecoder.closure [int32Decoder, skipDecoder.closure 4, int32Decoder] [[0], [1], [2]]
        ⟨⟨.BigEndian, [0, 0, 0, 0, 0, 0, 0, 0]⟩, [0, 0, 0, 1, 0, 0, 0, 0, 0, 0, 0, 2]⟩
        (.struct [.int32 0, .seq [.uint8 0, .uint8 0, .uint8 0, .uint8 0], .int32 0]) =
      .ret ⟨⟨.BigEndian, [0, 0, 0, 2, 0, 0, 0, 0]⟩, []⟩
        (.struct [.int32 1, .seq [.uint8 0, .uint8 0, .uint8 0, .uint8 0], .int32 2]) none ∧
    structDecoder.closure [int32Decoder, skipDecoder.closure 4, int32Decoder] [[0], [1], [2]]
        ⟨⟨.BigEndian, [0, 0, 0, 0, 0, 0, 0, 0]⟩, [0, 0, 0, 1, 9, 9, 9, 9, 0, 0, 0, 2]⟩
        (.struct [.int32 0, .seq [.uint8 0, .uint8 0, .uint8 0, .uint8 0], .int32 0]) =
      .ret ⟨⟨.BigEndian, [0, 0, 0, 2, 0, 0, 0, 0]⟩, []⟩
        (.struct [.int32 1, .seq [.uint8 0, .uint8 0, .uint8 0, .uint8 0], .int32 2]) none) ∧
    (CompilesTo float32Env 0 float32Decoder ∧
    ByteOrder.BigEndian.PutUint 4 0x7fa00001 = [0x7f, 0xa0, 0, 1] ∧
    float32Decoder ⟨⟨.BigEndian, [0, 0, 0, 0, 0, 0, 0, 0]⟩, [0x7f, 0xa0, 0, 1]⟩
        (.float32 (.Float32frombits 0)) =
      .ret ⟨⟨.BigEndian, [0x7f, 0xa0, 0, 1, 0, 0, 0, 0]⟩, []⟩
        (.float32 (.Float32frombits 0x7fa00001)) none ∧
    (GoFloat.Float32frombits 0x7fa00001).bits = 0x7fe00001 ∧
    encode float32Env .BigEndian 0 (.float32 (.Float32frombits 0x7fa00001)) =
      [0x7f, 0xe0, 0, 1] ∧
    float32Decoder ⟨⟨.BigEndian, [0, 0, 0, 0, 0, 0, 0, 0]⟩, [0x7f, 0xe0, 0, 1]⟩
        (.float32 (.Float32frombits 0)) =
      .ret ⟨⟨.BigEndian, [0x7f, 0xe0, 0, 1, 0, 0, 0, 0]⟩, []⟩
        (.float32 (.Float32frombits 0x7fe00001)) none ∧
    encode float32Env .BigEndian 0 (.float32 (.Float32frombits 0x7fe00001)) =
      [0x7f, 0xe0, 0, 1]) :=
  ⟨⟨⟨Cache.empty, 2, _, Reachable.empty, rfl⟩, by decide, rfl, rfl⟩,
    ⟨Cache.empty, 1, _, Reachable.empty, rfl⟩, by decide, rfl, by decide, by decide, rfl,
    by decide⟩

/-- C15, amended. For every compiled type, every byte order and every value `v` of the type
that Go can hold (a `float32` signalling NaN apart, which the decoder never leaves): the
encoder writes `size` bytes for `v`, and decoding those bytes with the same order, into a
destination of the type that has the sequence lengths of `v` and the skip and unexported
fields of `v`, returns no error, consumes exactly those bytes and leaves the destination equal
to `v`, floats by their bit patterns. And a byte sequence of the size of the plan decodes to
`v` only if it is what the encoder writes for `v`, up to the bytes of its skip fields; for a
destination without skip fields, only if it is what the encoder writes for `v`, so that `v` is
the decode result of exactly one byte sequence. -/
theorem decode_encode_round_trip (E : Env) (typ : TypeId) (dec : typeDecoder)
    (h : CompilesTo E typ dec) (order : ByteOrder) (v v0 : Value)
    (hv : hasType E typ v = true) (hv0 : hasType E typ v0 = true)
    (hr : representable v = true) (h0 : presized E typ v0 v) (buf rest : List Byte) :
    (encode E order typ v).length = size E typ v ∧
    (∃ buf', dec ⟨⟨order, buf⟩, encode E order typ v ++ rest⟩ v0 =
      .ret ⟨⟨order, buf'⟩, rest⟩ v none) ∧
    (∀ (w : List Byte) (d' : decoder), w.length = size E typ v0 →
      dec ⟨⟨order, buf⟩, w ++ rest⟩ v0 = .ret d' v none →
      zeroSkips E typ v0 w = encode E order typ v ∧
      (noSkips E typ v0 = true → w = encode E order typ v)) := by
  have hround : RoundTrip E typ dec := h.induct (RoundTrip.round_closed E)
  have huni : Uniform E typ dec := h.induct (Uniform.uniform_closed E)
  have hcan : Canonical E typ := CompilesTo.induct (canonical_closed E) h
  have hfree : SkipFree E typ := CompilesTo.induct (skipFree_closed E) h
  refine ⟨?_, hround order v v0 hv hv0 hr h0 buf rest, ?_⟩
  · obtain ⟨buf1, h1⟩ := hround order v v0 hv hv0 hr h0 buf []
    obtain ⟨hle, _, hrd, _, hsz⟩ := h.exact.consumed hv0 h1
    simp only [List.append_nil] at hle hrd
    have hdrop := congrArg List.length hrd
    simp only [List.length_nil, List.length_drop] at hdrop
    omega
  · intro w d' hlen hrun
    obtain ⟨b, hb⟩ := huni order v0 hv0 w hlen buf rest
    rw [hb] at hrun
    injection hrun with _ hval _
    have hz : zeroSkips E typ v0 w = encode E order typ v := by
      rw [← hval]
      exact (hcan order v0 hv0 w hlen (by rw [hval]; exact hr)).symm
    refine ⟨hz, fun hno => ?_⟩
    rw [← hz]
    exact (hfree v0 hv0 hno w hlen).symm

/-- C15, amended, on `struct { A int32; _ [4]byte; B float64 }` with `A = 1` and `B = 2.5`,
in big-endian order: the sixteen bytes that the encoder writes decode to the value again; and
on `[]int16` with two elements: `00 01 ff fe` is the only sequence of four bytes that decodes
to 1 and -2. -/
theorem decode_encode_round_trip_witness :
    encode exampleEnv .BigEndian 0
        (.struct [.int32 1, .seq [.uint8 0, .uint8 0, .uint8 0, .uint8 0],
          .float64 (.Float64frombits 0x4004000000000000)]) =
      [0, 0, 0, 1, 0, 0, 0, 0, 0x40, 0x04, 0, 0, 0, 0, 0, 0] ∧
    ((encode exampleEnv .BigEndian 0
        (.struct [.int32 1, .seq [.uint8 0, .uint8 0, .uint8 0, .uint8 0],
          .float64 (.Float64frombits 0x4004000000000000)])).length =
      size exampleEnv 0
        (.struct [.int32 1, .seq [.uint8 0, .uint8 0, .uint8 0, .uint8 0],
          .float64 (.Float64frombits 0x4004000000000000)]) ∧
    ∃ buf',
      structDecoder.closure [int32Decoder, skipDecoder.closure 4, float64Decoder]
          [[0], [1], [2]]
          ⟨⟨.BigEndian, [0, 0, 0, 0, 0, 0, 0, 0]⟩,
            encode exampleEnv .BigEndian 0
              (.struct [.int32 1, .seq [.uint8 0, .uint8 0, .uint8 0, .uint8 0],
                .float64 (.Float64frombits 0x4004000000000000)]) ++ [0xff]⟩
          (.struct [.int32 7, .seq [.uint8 0, .uint8 0, .uint8 0, .uint8 0],
            .float64 (.Float64frombits 0)]) =
        .ret ⟨⟨.BigEndian, buf'⟩, [0xff]⟩
          (.struct [.int32 1, .seq [.uint8 0, .uint8 0, .uint8 0, .uint8 0],
            .float64 (.Float64frombits 0x4004000000000000)]) none) ∧
    (encode exampleEnv .BigEndian 6 (.seq [.int16 1, .int16 (-2)]) = [0, 1, 0xff, 0xfe] ∧
    ∀ (w : List Byte) (d' : decoder),
      w.length = size exampleEnv 6 (.seq [.int16 0, .int16 0]) →
      sliceDecoder.closure int16Decoder ⟨⟨.BigEndian, []⟩, w ++ []⟩
          (.seq [.int16 0, .int16 0]) =
        .ret d' (.seq [.int16 1, .int16 (-2)]) none →
      w = encode exampleEnv .BigEndian 6 (.seq [.int16 1, .int16 (-2)])) :=
  ⟨by decide,
    ⟨(decode_encode_round_trip exampleEnv 0 _ exampleEnv_compiles_struct .BigEndian
      (.struct [.int32 1, .seq [.uint8 0, .uint8 0, .uint8 0, .uint8 0],
        .float64 (.Float64frombits 0x4004000000000000)])
      (.struct [.int32 7, .seq [.uint8 0, .uint8 0, .uint8 0, .uint8 0],
        .float64 (.Float64frombits 0)])
      rfl rfl rfl
      (by simp [presized, presizedFields, exampleEnv, exampleTypes])
      [0, 0, 0, 0, 0, 0, 0, 0] [0xff]).1,
    (decode_encode_round_trip exampleEnv 0 _ exampleEnv_compiles_struct .BigEndian
      (.struct [.int32 1, .seq [.uint8 0, .uint8 0, .uint8 0, .uint8 0],
        .float64 (.Float64frombits 0x4004000000000000)])
      (.struct [.int32 7, .seq [.uint8 0, .uint8 0, .uint8 0, .uint8 0],
        .float64 (.Float64frombits 0)])
      rfl rfl rfl
      (by simp [presized, presizedFields, exampleEnv, exampleTypes])
      [0, 0, 0, 0, 0, 0, 0, 0] [0xff]).2.1⟩,
    by decide,
    fun w d' hlen hrun =>
      ((decode_encode_round_trip exampleEnv 6 _ exampleEnv_compiles_slice .BigEndian
        (.seq [.int16 1, .int16 (-2)]) (.seq [.int16 0, .int16 0]) rfl rfl (by decide)
        (by simp [presized, presizedElems, exampleEnv, exampleTypes])
        [] []).2.2 w d' hlen hrun).2 rfl⟩

end binary

namespace template

/-! ## C20: `eq` -/

/-- Where `==` does not panic on two interface values, it returns what `reflect.DeepEqual`
returns. -/
theorem interfaceEq_eq_deepEqual (x y : GoValue) :
    interfaceEq x y = none ∨ interfaceEq x y = some (DeepEqual x y) := by
  cases x <;> cases y <;>
    first
    | exact Or.inr rfl
    | exact Or.inl rfl

theorem deepEqual_of_interfaceEq (x y : GoValue) (b : Bool) (h : interfaceEq x y = some b) :
    DeepEqual x y = b := by
  rcases interfaceEq_eq_deepEqual x y with h' | h'
  · rw [h'] at h
    cases h
  · rw [h'] at h
    exact Option.some.inj h

/-- The first loop of `eq` does not panic for a first argument of one of the six types of the
type switch, and returns what `reflect.DeepEqual` finds. -/
theorem eq.loop_spec (x : GoValue)
    (hx : x.Type = some .string ∨ x.Type = some .int ∨ x.Type = some .int64 ∨
      x.Type = some .uint8 ∨ x.Type = some .float32 ∨ x.Type = some .float64) :
    ∀ rest : List GoValue, ∃ b, eq.loop x rest = some b ∧
      (b = true ↔ ∃ y ∈ rest, DeepEqual x y = true) := by
  intro rest
  induction rest with
  | nil => exact ⟨false, rfl, by simp⟩
  | cons y rest ih =>
    have hdef : ∃ b, interfaceEq x y = some b := by
      rcases interfaceEq_eq_deepEqual x y with h' | h'
      · exfalso
        cases x <;> simp only [GoValue.Type, Option.some.injEq, reduceCtorEq, or_self] at hx <;>
          cases y <;> cases h'
      · exact ⟨_, h'⟩
    obtain ⟨b0, hb0⟩ := hdef
    have hde := deepEqual_of_interfaceEq x y b0 hb0
    obtain ⟨b, hb, hiff⟩ := ih
    have hstep : eq.loop x (y :: rest) =
        match interfaceEq x y with
        | none => none
        | some true => some true
        | some false => eq.loop x rest := rfl
    cases b0 with
    | true =>
      refine ⟨true, by rw [hstep, hb0], ?_⟩
      simp only [true_iff]
      exact ⟨y, List.mem_cons_self _ _, hde⟩
    | false =>
      refine ⟨b, by rw [hstep, hb0]; exact hb, ?_⟩
      rw [hiff]
      simp [hde]

theorem eq.deepLoop_spec (x : GoValue) :
    ∀ rest : List GoValue, eq.deepLoop x rest = true ↔ ∃ y ∈ rest, DeepEqual x y = true := by
  intro rest
  induction rest with
  | nil => simp [eq.deepLoop]
  | cons y rest ih =>
    have hstep : eq.deepLoop x (y :: rest) =
        if DeepEqual x y then true else eq.deepLoop x rest := rfl
    rw [hstep]
    by_cases h : DeepEqual x y = true
    · simp [h]
    · simp [h, ih]

/-- C20. For every argument list, `eq` returns (it does not panic), and it returns `true` if
and only if there is a first argument and one of the arguments after it is equal to it, equal
as `reflect.DeepEqual` has it, which is Go's `==` wherever `==` is defined; with no argument
or a single argument it returns `false`. -/
theorem eq_returns_true_iff (args : List GoValue) :
    (∃ b, eq args = some b ∧
      (b = true ↔ ∃ x rest, args = x :: rest ∧ ∃ y ∈ rest, DeepEqual x y = true)) ∧
    eq [] = some false ∧ (∀ x, eq [x] = some false) ∧
    (∀ x y b, interfaceEq x y = some b → DeepEqual x y = b) := by
  refine ⟨?_, rfl, ?_, deepEqual_of_interfaceEq⟩
  · cases args with
    | nil => exact ⟨false, rfl, by simp⟩
    | cons x rest =>
      have fast : (x.Type = some .string ∨ x.Type = some .int ∨ x.Type = some .int64 ∨
          x.Type = some .uint8 ∨ x.Type = some .float32 ∨ x.Type = some .float64) →
          eq (x :: rest) = eq.loop x rest →
          ∃ b, eq (x :: rest) = some b ∧
            (b = true ↔ ∃ x' rest', x :: rest = x' :: rest' ∧
              ∃ y ∈ rest', DeepEqual x' y = true) := by
        intro hx he
        obtain ⟨b, hb, hiff⟩ := eq.loop_spec x hx rest
        refine ⟨b, by rw [he, hb], ?_⟩
        rw [hiff]
        constructor
        · rintro ⟨y, hy, h⟩
          exact ⟨x, rest, rfl, y, hy, h⟩
        · rintro ⟨x', rest', he', y, hy, h⟩
          injection he' with h1 h2
          subst h1 h2
          exact ⟨y, hy, h⟩
      have deep : eq (x :: rest) = some (eq.deepLoop x rest) →
          ∃ b, eq (x :: rest) = some b ∧
            (b = true ↔ ∃ x' rest', x :: rest = x' :: rest' ∧
              ∃ y ∈ rest', DeepEqual x' y = true) := by
        intro he
        refine ⟨eq.deepLoop x rest, he, ?_⟩
        rw [eq.deepLoop_spec]
        constructor
        · rintro ⟨y, hy, h⟩
          exact ⟨x, rest, rfl, y, hy, h⟩
        · rintro ⟨x', rest', he', y, hy, h⟩
          injection he' with h1 h2
          subst h1 h2
          exact ⟨y, hy, h⟩
      cases x <;>
        first
        | exact deep rfl
        | exact fast (by simp [GoValue.Type]) rfl
  · intro x
    cases x <;> rfl

/-- C20 on four argument lists: an `int` equals the `int` two places on but not the `int64`
of the same number; a NaN equals no NaN; two slices with different backing arrays and the
same elements are equal. -/
theorem eq_returns_true_iff_witness :
    eq [.int 1, .int64 1, .int 1] = some true ∧ eq [.int 1, .int64 1] = some false ∧
    eq [.float64 0x7ff8000000000000, .float64 0x7ff8000000000000] = some false ∧
    eq [.slice (some 0) [.int 1], .slice (some 1) [.int 1]] = some true ∧
    ((∃ b, eq [.int 1, .int64 1, .int 1] = some b ∧
      (b = true ↔ ∃ x rest, [GoValue.int 1, .int64 1, .int 1] = x :: rest ∧
        ∃ y ∈ rest, DeepEqual x y = true)) ∧
    eq [] = some false ∧ (∀ x, eq [x] = some false) ∧
    (∀ x y b, interfaceEq x y = some b → DeepEqual x y = b)) :=
  ⟨rfl, rfl, rfl, rfl, eq_returns_true_iff [.int 1, .int64 1, .int 1]⟩

/-! ## `lt` and `lte` -/

/-- C21: `lt` does not produce an error for two arguments of different types of one class:
for an `int8` 1 and an `int64` 2, and for a `float32` 1.0 and a `float64` 2.0, it returns
`true` and a nil error, where its documentation announces an error. -/
theorem lt_accepts_different_types :
    lt types (.int8 1) (.int64 2) = some (true, none) ∧
    lt types (.float32 0x3f800000) (.float64 0x4000000000000000) = some (true, none) :=
  ⟨rfl, rfl⟩

/-- C22: `lte` returns `false` and a nil error for an `int8` 1 and an `int64` 1, which are
numerically equal: `lt` takes the two as integers and answers `false`, and `eq` then finds
them of different types. -/
theorem lte_false_on_equal_numbers :
    lt types (.int8 1) (.int64 1) = some (false, none) ∧
    eq [.int8 1, .int64 1] = some false ∧
    lte types (.int8 1) (.int64 1) = some (false, none) :=
  ⟨rfl, rfl, rfl⟩

/-! ## `and` and `or` -/

theorem and.loop_all_true (T : Types) (args : List GoValue)
    (h : ∀ v ∈ args, (T.IsTrue v).1 = true) : and.loop T args = none := by
  induction args with
  | nil => rfl
  | cons a rest ih =>
    have ha := h a (List.mem_cons_self _ _)
    simp only [and.loop, ha, Bool.not_true, Bool.false_eq_true, if_false]
    exact ih (fun v hv => h v (List.mem_cons_of_mem _ hv))

theorem and.loop_first (T : Types) (pre : List GoValue) (v : GoValue) (post : List GoValue)
    (hpre : ∀ u ∈ pre, (T.IsTrue u).1 = true) (hv : (T.IsTrue v).1 = false) :
    and.loop T (pre ++ v :: post) = some v := by
  induction pre with
  | nil => simp [and.loop, hv]
  | cons a rest ih =>
    have ha := hpre a (List.mem_cons_self _ _)
    simp only [List.cons_append, and.loop, ha, Bool.not_true, Bool.false_eq_true, if_false]
    exact ih (fun u hu => hpre u (List.mem_cons_of_mem _ hu))

/-- C23: when none of its arguments is true, `or` returns the last of them and not `false`:
for an `int` 0 and an empty string it returns the empty string, and for an `int` 0 alone
that 0. Whatever `types.IsTrue` answers for the two, the result is one of them. -/
theorem or_returns_last_for_none_true :
    or types [.int 0, .string ""] = some (.string "") ∧
    or types [.int 0] = some (.int 0) ∧
    ∀ T : Types, or T [.int 0, .string ""] = some (.int 0) ∨
      or T [.int 0, .string ""] = some (.string "") := by
  refine ⟨rfl, rfl, fun T => ?_⟩
  by_cases h0 : (T.IsTrue (.int 0)).1 = true
  · exact Or.inl (by simp [or, or.loop, h0])
  · by_cases h1 : (T.IsTrue (.string "")).1 = true
    · exact Or.inr (by simp [or, or.loop, h0, h1])
    · exact Or.inr (by simp [or, or.loop, h0, h1])

/-- C24: for a non-empty argument list, `and` returns the last argument if every argument is
true, and the first argument that is not true otherwise; truth is what `types.IsTrue`
answers. -/
theorem and_returns_last_or_first_not_true (T : Types) (args : List GoValue) (h : args ≠ []) :
    ((∀ v ∈ args, (T.IsTrue v).1 = true) → and T args = some (args.getLast h)) ∧
    (∀ pre v post, args = pre ++ v :: post → (∀ u ∈ pre, (T.IsTrue u).1 = true) →
      (T.IsTrue v).1 = false → and T args = some v) := by
  constructor
  · intro hall
    unfold and
    rw [and.loop_all_true T args hall]
    exact List.getLast?_eq_getLast _ h
  · intro pre v post hargs hpre hv
    unfold and
    rw [hargs, and.loop_first T pre v post hpre hv]

theorem and_returns_last_or_first_not_true_witness :
    ([GoValue.int 1, .int 0, .string ""] ≠ [] ∧
      and types [.int 1, .int 0, .string ""] = some (.int 0)) ∧
    ([GoValue.int 1, .string "a"] ≠ [] ∧
      and types [.int 1, .string "a"] = some (.string "a")) :=
  ⟨⟨by simp,
    (and_returns_last_or_first_not_true types [.int 1, .int 0, .string ""] (by simp)).2
      [.int 1] (.int 0) [.string ""] rfl (by simp [types]) rfl⟩,
   ⟨by simp,
    (and_returns_last_or_first_not_true types [.int 1, .string "a"] (by simp)).1
      (by simp [types])⟩⟩

/-! ## `divisible`, `even` and `odd` -/

/-- C25: for two arguments that `types.ToInt` converts to the integers `ni` and `di`, with
`di` not zero, `divisible` returns no error and returns `true` exactly if `di` divides `ni`,
whatever their signs; `even` is then `true` exactly for an even `ni`, and `odd` returns the
negation of what `even` returns. -/
theorem divisible_iff_divides (T : Types) (n d : GoValue) (ni di : Int)
    (hn : T.ToInt n = .ok ni) (hd : T.ToInt d = .ok di) (h0 : di ≠ 0) :
    divisible T n d = some (decide (di ∣ ni), none) ∧
    (T.ToInt (.int 2) = .ok 2 →
      even T n = some (decide (Even ni), none) ∧
      odd T n = some (!decide (Even ni), none)) := by
  have key : ∀ (a b : Int), decide (Int.tmod a b = 0) = decide (b ∣ a) := by
    intro a b
    rw [decide_eq_decide]
    exact Int.dvd_iff_tmod_eq_zero.symm
  constructor
  · simp only [divisible, hn, hd, if_neg h0, key]
  · intro h2
    have he : divisible T n (.int 2) = some (decide (Even ni), none) := by
      simp only [divisible, hn, h2, key]
      simp [even_iff_two_dvd]
    exact ⟨he, by simp [odd, he]⟩

theorem divisible_iff_divides_witness :
    (types.ToInt (.int (-6)) = .ok (-6) ∧ types.ToInt (.int64 (-3)) = .ok (-3) ∧
      (-3 : Int) ≠ 0) ∧
    divisible types (.int (-6)) (.int64 (-3)) = some (true, none) ∧
    even types (.int (-6)) = some (true, none) ∧
    odd types (.int (-6)) = some (false, none) :=
  ⟨⟨rfl, rfl, by decide⟩,
    (divisible_iff_divides types (.int (-6)) (.int64 (-3)) (-6) (-3) rfl rfl (by decide)).1,
    (divisible_iff_divides types (.int (-6)) (.int64 (-3)) (-6) (-3) rfl rfl (by decide)).2 rfl⟩

end template

namespace dev

/-! ## The handler of the development server -/

/-- C26: while the project is building (no build errors, no run error, no proxy), `Handler`
answers every request with `building.html`, a `POST` and a `PUT` included, whatever becomes
of the proxy later: the condition `Method != "POST" || Method != "PUT"` holds for every
method, so the wait for the proxy is never reached. -/
theorem building_page_for_post_and_put (later : Nat → Option Nat) (fuel : Nat) :
    Handler ⟨[], none, none⟩ "POST" later fuel = some .building ∧
    Handler ⟨[], none, none⟩ "PUT" later fuel = some .building ∧
    Handler ⟨[], none, none⟩ "GET" later fuel = some .building ∧
    ∀ method : String, Handler ⟨[], none, none⟩ method later fuel = some .building := by
  have h : ∀ method : String, Handler ⟨[], none, none⟩ method later fuel = some .building := by
    intro method
    have hc : (method != "POST" || method != "PUT") = true := by
      by_cases hm : method = "POST"
      · subst hm; decide
      · simp [hm]
    simp only [Handler, hc]
    rfl
  exact ⟨h _, h _, h _, h⟩

end dev
